import Mathlib

/-!
# Scrabble move validation: a shallow embedding of the C++ sources

The definitions below follow `Tile.cpp`, `LinkedList.cpp`, `PlayerState.cpp`,
`BoardState.cpp`, `Dictionary.cpp`, `State.cpp` and `Action.cpp`.

Conventions of the embedding:

* C++ `int` values are `Int`; every index that occurs is bounded by the board
  size or by a parsed number, so no arithmetic wraps around.
* Objects are modelled by value.  A method that updates `this` returns the new
  object next to its result.
* A `throw` is `Except.error`, a failed `assert` and an out-of-range vector
  access are the `Abort` outcomes of the function they occur in.
* Text written to `std::cout` by the validator is recorded as the error kind
  carried by the result.
* A `while` loop without a syntactic bound runs on fuel computed from its
  variant; running out of fuel is the outcome `Abort.fuel`, and the theorems
  show it does not occur.
-/

namespace Scrabble

/-! ## Tile.h / Tile.cpp -/

/-- Type `Letter` of `Tile.h` (a C++ `char`). -/
abbrev Letter := Char

/-- Type `Value` of `Tile.h` (a C++ `int`). -/
abbrev Value := Int

/-- Class `Tile`: a letter and its score value. -/
structure Tile where
  letter : Letter
  value : Value
deriving DecidableEq, Repr

/-- C++ exceptions thrown by the sources. -/
inductive Exn where
  | invalidArgument
  | outOfRange
deriving DecidableEq, Repr

/-! ## LinkedList.cpp -/

/-- Class `LinkedList`: the chain of nodes from `head`, as the sequence of
their tiles; `length` is the length of that sequence. -/
structure LinkedList where
  nodes : List Tile
deriving DecidableEq, Repr

namespace LinkedList

/-- The constructor `LinkedList::LinkedList()`. -/
def empty : LinkedList := ⟨[]⟩

/-- The method `LinkedList::getLength`. -/
def getLength (l : LinkedList) : Int := l.nodes.length

/-- The method `LinkedList::get` (through `getNode`): throws
`std::out_of_range` when `index < 0 || index >= length`. -/
def get (l : LinkedList) (index : Int) : Except Exn Tile :=
  if index < 0 ∨ index ≥ l.getLength then .error .outOfRange
  else match l.nodes[index.toNat]? with
    | some t => .ok t
    | none => .error .outOfRange

/-- The method `LinkedList::addBack`. -/
def addBack (l : LinkedList) (tile : Tile) : LinkedList := ⟨l.nodes ++ [tile]⟩

/-- The method `LinkedList::remove`: unlinks the node at `index` and returns a
copy of its tile together with the shortened list. -/
def remove (l : LinkedList) (index : Int) : Except Exn (Tile × LinkedList) :=
  match l.get index with
  | .error e => .error e
  | .ok removed => .ok (removed, ⟨l.nodes.eraseIdx index.toNat⟩)

/-- Loop of the copy constructor: `for (i = 0; i < other.getLength(); i++)
this->addBack(other.get(i))`, with `n` iterations left. -/
def copyLoop (other : LinkedList) : Nat → Nat → LinkedList → Except Exn LinkedList
  | 0, _, this => .ok this
  | n + 1, i, this =>
    match other.get (i : Int) with
    | .error e => .error e
    | .ok t => copyLoop other n (i + 1) (this.addBack t)

/-- The copy constructor `LinkedList::LinkedList(LinkedList&)`. -/
def copy (other : LinkedList) : Except Exn LinkedList :=
  copyLoop other other.nodes.length 0 empty

end LinkedList

/-! ## PlayerState.cpp -/

/-- Class `PlayerState`. -/
structure PlayerState where
  name : String
  score : Int
  hand : LinkedList
  lastAction : String
deriving DecidableEq, Repr

namespace PlayerState

/-- The static method `PlayerState::isValidPlayerName`: non-empty and letters
only. -/
def isValidPlayerName (name : String) : Bool :=
  decide (name.data.length > 0) &&
    name.data.all (fun ch => (decide ('a' ≤ ch) && decide (ch ≤ 'z')) ||
      (decide ('A' ≤ ch) && decide (ch ≤ 'Z')))

/-- The constructor `PlayerState::PlayerState(name, score, hand)`. -/
def new (name : String) (score : Int) (hand : LinkedList) : Except Exn PlayerState :=
  if !isValidPlayerName name then .error .invalidArgument
  else if score < 0 then .error .invalidArgument
  else .ok { name := name, score := score, hand := hand, lastAction := "" }

/-- The copy constructor `PlayerState::PlayerState(PlayerState&)`. -/
def copy (state : PlayerState) : Except Exn PlayerState :=
  match LinkedList.copy state.hand with
  | .error e => .error e
  | .ok hand => PlayerState.new state.name state.score hand

/-- Loop of `removeTile`: `for (i = 0; i < hand->getLength() && result ==
nullptr; i++)`, with `n` iterations left; it stops at the first match. -/
def removeTileLoop (hand : LinkedList) (letter : Letter) :
    Nat → Nat → Except Exn (Option Tile × LinkedList)
  | 0, _ => .ok (none, hand)
  | n + 1, i =>
    match hand.get (i : Int) with
    | .error e => .error e
    | .ok t =>
      if t.letter = letter then
        match hand.remove (i : Int) with
        | .error e => .error e
        | .ok (result, hand') => .ok (some result, hand')
      else removeTileLoop hand letter n (i + 1)

/-- The method `PlayerState::removeTile`: removes the first tile with the given
letter; `none` stands for `nullptr`. -/
def removeTile (p : PlayerState) (letter : Letter) :
    Except Exn (Option Tile × PlayerState) :=
  match removeTileLoop p.hand letter p.hand.nodes.length 0 with
  | .error e => .error e
  | .ok (result, hand') => .ok (result, { p with hand := hand' })

end PlayerState

/-! ## BoardState.cpp -/

/-- Class `BoardState`: `tiles[row][col]` is `none` for `nullptr`. -/
structure BoardState where
  rows : Int
  cols : Int
  tiles : List (List (Option Tile))
deriving DecidableEq, Repr

namespace BoardState

/-- The vector access `this->tiles[rowIdx][colIdx]`. -/
def cell (b : BoardState) (rowIdx colIdx : Int) : Option Tile :=
  (b.tiles.getD rowIdx.toNat []).getD colIdx.toNat none

/-- The method `BoardState::isValidPosition`. -/
def isValidPosition (b : BoardState) (rowIdx colIdx : Int) : Bool :=
  decide (rowIdx ≥ 0) && decide (rowIdx < b.rows) && decide (colIdx ≥ 0) &&
    decide (colIdx < b.cols)

/-- The method `BoardState::tileExists`. -/
def tileExists (b : BoardState) (rowIdx colIdx : Int) : Bool :=
  b.isValidPosition rowIdx colIdx && (b.cell rowIdx colIdx).isSome

/-- The method `BoardState::tileIsAdjacentTo`. -/
def tileIsAdjacentTo (b : BoardState) (rowIdx colIdx : Int) : Bool :=
  b.isValidPosition rowIdx colIdx &&
    (b.tileExists rowIdx (colIdx - 1) || b.tileExists rowIdx (colIdx + 1) ||
      b.tileExists (rowIdx - 1) colIdx || b.tileExists (rowIdx + 1) colIdx)

/-- The method `BoardState::isEmpty`: the two nested scans stop at the first
tile found. -/
def isEmpty (b : BoardState) : Bool :=
  (List.range b.rows.toNat).all fun row =>
    (List.range b.cols.toNat).all fun col => (b.cell row col).isNone

/-- The method `BoardState::getNumRows`. -/
def getNumRows (b : BoardState) : Int := b.rows

/-- The method `BoardState::getNumCols`. -/
def getNumCols (b : BoardState) : Int := b.cols

/-- The method `BoardState::getTileAt`: throws on an invalid position,
otherwise the cell content (possibly `nullptr`). -/
def getTileAt (b : BoardState) (rowIdx colIdx : Int) : Except Exn (Option Tile) :=
  if !b.isValidPosition rowIdx colIdx then .error .invalidArgument
  else .ok (b.cell rowIdx colIdx)

end BoardState

/-! ## Dictionary.cpp -/

/-- Class `Dictionary`: the keys of the `unordered_map`. -/
structure Dictionary where
  dict : List String
deriving DecidableEq, Repr

namespace Dictionary

/-- The method `Dictionary::toUpper`. -/
def toUpper (word : String) : String := String.mk (word.data.map Char.toUpper)

/-- The method `Dictionary::contains`. -/
def contains (d : Dictionary) (word : String) : Bool :=
  d.dict.contains (toUpper word)

end Dictionary

/-! ## State.h / State.cpp -/

/-- Struct `TilePlacement`. -/
structure TilePlacement where
  letter : Letter
  rowIdx : Int
  colIdx : Int
deriving DecidableEq, Repr

/-- Class `State`; `players` is the two-element array. -/
structure State where
  board : BoardState
  tileBag : LinkedList
  players : PlayerState × PlayerState
  playerTurnIdx : Int
  didQuit : Bool
deriving DecidableEq, Repr

/-- Ways a call can end without returning. -/
inductive Abort where
  | assertion
  | exception (e : Exn)
  | outOfBounds
  | fuel
deriving DecidableEq, Repr

namespace State

/-- The method `State::getCurrentPlayer`, with its assertion. -/
def getCurrentPlayer (s : State) : Except Abort PlayerState :=
  if s.playerTurnIdx = 0 then .ok s.players.1
  else if s.playerTurnIdx = 1 then .ok s.players.2
  else .error .assertion

/-- The method `State::getBoard`. -/
def getBoard (s : State) : BoardState := s.board

end State

/-! ## Action.cpp: `PlaceAction` -/

/-- The message printed by `isValidMove` before it returns `false`. -/
inductive MoveError where
  /-- Message "Invalid Input: Missing tile L". -/
  | missingTile (letter : Letter)
  /-- Message "Invalid Input: Tile already exists at a specified position". -/
  | tileAlreadyExists
  /-- Message "Invalid Input: A specified position does not exist on the board". -/
  | positionDoesNotExist
  /-- Message "Invalid Input: Board not empty and no adjacent tiles". -/
  | noAdjacentTiles
  /-- Message "Invalid Input: Placements not on same row or column". -/
  | notSameRowOrColumn
  /-- Message "Invalid Input: A blank space exists on the board between tiles." -/
  | blankSpace
  /-- Message "Invalid Input: W is not in the scrabble dictionary." -/
  | notInDictionary (word : String)
deriving DecidableEq, Repr

/-- Outcome of `isValidMove`: `accepted w` is `return true` with `word = w`,
`rejected e` is `return false` after printing `e`. -/
inductive MoveResult where
  | accepted (word : String)
  | rejected (error : MoveError)
  | aborted (why : Abort)
deriving DecidableEq, Repr

/-- Why the word-building loop of `isValidMove` stops early. -/
inductive WordStop where
  | blank
  | abort (why : Abort)
deriving DecidableEq, Repr

namespace PlaceAction

/-- First loop of `isValidMove`: remove each placed letter from the scratch
copy of the player; the result is the letter of the first placement whose
`removeTile` returns `nullptr`. -/
def handLoop : PlayerState → List TilePlacement → Except Exn (Option Letter)
  | _, [] => .ok none
  | playerCopy, p :: rest =>
    match playerCopy.removeTile p.letter with
    | .error e => .error e
    | .ok (none, _) => .ok (some p.letter)
    | .ok (some _, playerCopy') => handLoop playerCopy' rest

/-- Second loop of `isValidMove`: occupied or off-board target cells. -/
def positionLoop (board : BoardState) : List TilePlacement → Option MoveError
  | [] => none
  | p :: rest =>
    if board.tileExists p.rowIdx p.colIdx then some .tileAlreadyExists
    else if !board.isValidPosition p.rowIdx p.colIdx then some .positionDoesNotExist
    else positionLoop board rest

/-- Third loop of `isValidMove`: `for (i = 0; i < size && !oneAdjacent; i++)
oneAdjacent = tileIsAdjacentTo(...)`. -/
def adjacentLoop (board : BoardState) : List TilePlacement → Bool → Bool
  | [], oneAdjacent => oneAdjacent
  | p :: rest, oneAdjacent =>
    if !oneAdjacent then adjacentLoop board rest (board.tileIsAdjacentTo p.rowIdx p.colIdx)
    else oneAdjacent

/-- Fourth loop of `isValidMove`: `for (i = 1; i < size && (sameRow ||
sameCol); i++)`, each iteration assigning both flags from `placements[i]`. -/
def sameLineLoop (firstPlacement : TilePlacement) :
    List TilePlacement → Bool × Bool → Bool × Bool
  | [], flags => flags
  | p :: rest, (sameRow, sameCol) =>
    if sameRow || sameCol then
      sameLineLoop firstPlacement rest
        (decide (p.rowIdx = firstPlacement.rowIdx), decide (p.colIdx = firstPlacement.colIdx))
    else (sameRow, sameCol)

/-- The method `PlaceAction::getPlacementIfExists`: the flag and the value of
`out` on return. -/
def getPlacementIfExists : List TilePlacement → Int → Int → TilePlacement →
    Bool × TilePlacement
  | [], _, _, out => (false, out)
  | p :: rest, rowIdx, colIdx, out =>
    if p.rowIdx = rowIdx ∧ p.colIdx = colIdx then (true, p)
    else getPlacementIfExists rest rowIdx colIdx out

/-- The four local variables `minRowIdx, minColIdx, maxRowIdx, maxColIdx` of
`getIncludedPositions`. -/
structure Box where
  minRowIdx : Int
  minColIdx : Int
  maxRowIdx : Int
  maxColIdx : Int
deriving DecidableEq, Repr

/-- First loop of `getIncludedPositions`: min/max indices of the placements. -/
def boxLoop : List TilePlacement → Box → Box
  | [], box => box
  | p :: rest, box =>
    boxLoop rest
      { minRowIdx := if p.rowIdx < box.minRowIdx then p.rowIdx else box.minRowIdx
        minColIdx := if p.colIdx < box.minColIdx then p.colIdx else box.minColIdx
        maxRowIdx := if p.rowIdx > box.maxRowIdx then p.rowIdx else box.maxRowIdx
        maxColIdx := if p.colIdx > box.maxColIdx then p.colIdx else box.maxColIdx }

/-- The bounding box computed by `getIncludedPositions`, starting from
`(numRows, numCols, -1, -1)`. -/
def boundingBox (board : BoardState) (placements : List TilePlacement) : Box :=
  boxLoop placements
    { minRowIdx := board.getNumRows, minColIdx := board.getNumCols
      maxRowIdx := -1, maxColIdx := -1 }

/-- The pair `(rowOff, colOff)` of `getIncludedPositions` after the
single-letter special case.  The special case calls
`tileExists(minColIdx, minRowIdx - 1)` and `tileExists(minColIdx,
minRowIdx + 1)`, as written in the source. -/
def offsets (board : BoardState) (box : Box) : Int × Int :=
  let colOff : Int := if box.minColIdx = box.maxColIdx then 0 else 1
  let rowOff : Int := if box.minRowIdx = box.maxRowIdx then 0 else 1
  if rowOff = 0 ∧ colOff = 0 then
    if board.tileExists box.minColIdx (box.minRowIdx - 1) ||
        board.tileExists box.minColIdx (box.minRowIdx + 1) then (1, colOff)
    else (rowOff, 1)
  else (rowOff, colOff)

/-- Loop `while (tileExists(minRowIdx - rowOff, minColIdx - colOff))` of
`getIncludedPositions`; `none` when the fuel is used up. -/
def extendMin (board : BoardState) (rowOff colOff : Int) : Nat → Int → Int → Option (Int × Int)
  | 0, minRowIdx, minColIdx =>
    if board.tileExists (minRowIdx - rowOff) (minColIdx - colOff) then none
    else some (minRowIdx, minColIdx)
  | n + 1, minRowIdx, minColIdx =>
    if board.tileExists (minRowIdx - rowOff) (minColIdx - colOff) then
      extendMin board rowOff colOff n (minRowIdx - rowOff) (minColIdx - colOff)
    else some (minRowIdx, minColIdx)

/-- Loop `while (tileExists(maxRowIdx + rowOff, maxColIdx + colOff))` of
`getIncludedPositions`; `none` when the fuel is used up. -/
def extendMax (board : BoardState) (rowOff colOff : Int) : Nat → Int → Int → Option (Int × Int)
  | 0, maxRowIdx, maxColIdx =>
    if board.tileExists (maxRowIdx + rowOff) (maxColIdx + colOff) then none
    else some (maxRowIdx, maxColIdx)
  | n + 1, maxRowIdx, maxColIdx =>
    if board.tileExists (maxRowIdx + rowOff) (maxColIdx + colOff) then
      extendMax board rowOff colOff n (maxRowIdx + rowOff) (maxColIdx + colOff)
    else some (maxRowIdx, maxColIdx)

/-- Last loop of `getIncludedPositions`: `while (minRowIdx != maxRowIdx ||
minColIdx != maxColIdx)` pushing one position per step; `none` when the fuel
is used up. -/
def walkLoop (rowOff colOff maxRowIdx maxColIdx : Int) :
    Nat → Int → Int → List TilePlacement → Option (List TilePlacement)
  | 0, minRowIdx, minColIdx, result =>
    if minRowIdx ≠ maxRowIdx ∨ minColIdx ≠ maxColIdx then none else some result
  | n + 1, minRowIdx, minColIdx, result =>
    if minRowIdx ≠ maxRowIdx ∨ minColIdx ≠ maxColIdx then
      walkLoop rowOff colOff maxRowIdx maxColIdx n (minRowIdx + rowOff) (minColIdx + colOff)
        (result ++ [⟨'_', minRowIdx + rowOff, minColIdx + colOff⟩])
    else some result

/-- The method `PlaceAction::getIncludedPositions`, with its two assertions.
The fuel of each loop is its variant: the distance of the minimum from the
origin, of the maximum from the far corner, and of the minimum from the
maximum. -/
def getIncludedPositions (state : State) (placements : List TilePlacement) :
    Except Abort (List TilePlacement) :=
  let board := state.getBoard
  let box := boundingBox board placements
  if ¬(box.minRowIdx = box.maxRowIdx ∨ box.minColIdx = box.maxColIdx) then
    .error .assertion
  else
    let (rowOff, colOff) := offsets board box
    if rowOff + colOff ≠ 1 then .error .assertion
    else
      match extendMin board rowOff colOff (box.minRowIdx + box.minColIdx).toNat
          box.minRowIdx box.minColIdx with
      | none => .error .fuel
      | some (minRowIdx, minColIdx) =>
        match extendMax board rowOff colOff
            ((board.rows - box.maxRowIdx) + (board.cols - box.maxColIdx)).toNat
            box.maxRowIdx box.maxColIdx with
        | none => .error .fuel
        | some (maxRowIdx, maxColIdx) =>
          match walkLoop rowOff colOff maxRowIdx maxColIdx
              ((maxRowIdx - minRowIdx) + (maxColIdx - minColIdx)).toNat
              minRowIdx minColIdx [⟨'_', minRowIdx, minColIdx⟩] with
          | none => .error .fuel
          | some result => .ok result

/-- Word-building loop of `isValidMove` over `placeRect`: a board letter, else
the letter of a placement at that position (asserted to be `A..Z`), else a
blank space. -/
def wordLoop (board : BoardState) (placements : List TilePlacement) :
    List TilePlacement → String → Except WordStop String
  | [], placeWord => .ok placeWord
  | p :: rest, placeWord =>
    if board.tileExists p.rowIdx p.colIdx then
      match board.getTileAt p.rowIdx p.colIdx with
      | .error e => .error (.abort (.exception e))
      | .ok none => .error (.abort .outOfBounds)
      | .ok (some tile) => wordLoop board placements rest (placeWord.push tile.letter)
    else
      match getPlacementIfExists placements p.rowIdx p.colIdx p with
      | (true, toPlace) =>
        if 'A' ≤ toPlace.letter ∧ toPlace.letter ≤ 'Z' then
          wordLoop board placements rest (placeWord.push toPlace.letter)
        else .error (.abort .assertion)
      | (false, _) => .error .blank

/-- The method `PlaceAction::isValidMove` with the dictionary member as an
argument.  The second component is the game state when the call ends: the
function works on `playerCopy` and only reads `*state`. -/
def isValidMove (dictionary : Dictionary) (placements : List TilePlacement)
    (state : State) : MoveResult × State :=
  match state.getCurrentPlayer with
  | .error a => (.aborted a, state)
  | .ok player =>
    match PlayerState.copy player with
    | .error e => (.aborted (.exception e), state)
    | .ok playerCopy =>
      match handLoop playerCopy placements with
      | .error e => (.aborted (.exception e), state)
      | .ok (some letter) => (.rejected (.missingTile letter), state)
      | .ok none =>
        match positionLoop state.getBoard placements with
        | some e => (.rejected e, state)
        | none =>
          if !state.getBoard.isEmpty && !adjacentLoop state.getBoard placements false then
            (.rejected .noAdjacentTiles, state)
          else
            match placements with
            | [] => (.aborted .outOfBounds, state)
            | firstPlacement :: rest =>
              let flags := sameLineLoop firstPlacement rest (true, true)
              if !flags.1 && !flags.2 then (.rejected .notSameRowOrColumn, state)
              else
                match getIncludedPositions state placements with
                | .error a => (.aborted a, state)
                | .ok placeRect =>
                  match wordLoop state.getBoard placements placeRect "" with
                  | .error .blank => (.rejected .blankSpace, state)
                  | .error (.abort a) => (.aborted a, state)
                  | .ok placeWord =>
                    if !dictionary.contains placeWord then
                      (.rejected (.notInDictionary placeWord), state)
                    else (.accepted placeWord, state)

end PlaceAction

end Scrabble

namespace Scrabble

/-! ## Specification predicates

The states and candidates the claims speak about, and the six checks of the
validator as the specification words them. -/

/-- The current player of `s` is `player`, an object its constructor accepts
(valid name, non-negative score). -/
def State.currentPlayerIs (s : State) (player : PlayerState) : Prop :=
  s.getCurrentPlayer = .ok player ∧
    PlayerState.isValidPlayerName player.name = true ∧ 0 ≤ player.score

/-- Every placed letter is an upper-case letter, as the pattern of the place
command guarantees. -/
def upperCase (placements : List TilePlacement) : Prop :=
  ∀ p ∈ placements, 'A' ≤ p.letter ∧ p.letter ≤ 'Z'

namespace Checks

/-- Hand containment fails: some letter is placed more often than the hand
holds it. -/
def handFails (hand : LinkedList) (placements : List TilePlacement) : Prop :=
  ∃ c : Letter, (hand.nodes.map Tile.letter).count c <
    (placements.map TilePlacement.letter).count c

/-- Bounds/occupancy fails: some placement is off the board or on a tile. -/
def positionFails (board : BoardState) (placements : List TilePlacement) : Prop :=
  ∃ p ∈ placements, board.isValidPosition p.rowIdx p.colIdx = false ∨
    board.tileExists p.rowIdx p.colIdx = true

/-- The cell `(r, c)` has an occupied orthogonal neighbour. -/
def hasNeighbour (board : BoardState) (r c : Int) : Prop :=
  board.tileExists r (c - 1) = true ∨ board.tileExists r (c + 1) = true ∨
    board.tileExists (r - 1) c = true ∨ board.tileExists (r + 1) c = true

/-- Adjacency fails: the board holds a tile and no placement has an occupied
orthogonal neighbour. -/
def adjacencyFails (board : BoardState) (placements : List TilePlacement) : Prop :=
  (∃ r c, board.tileExists r c = true) ∧
    ∀ p ∈ placements, ¬ hasNeighbour board p.rowIdx p.colIdx

/-- All placements share one row, or all share one column. -/
def collinear (placements : List TilePlacement) : Prop :=
  (∀ p ∈ placements, ∀ q ∈ placements, p.rowIdx = q.rowIdx) ∨
    (∀ p ∈ placements, ∀ q ∈ placements, p.colIdx = q.colIdx)

/-- The cell `(r, c)` holds neither a board tile nor a placement. -/
def unfilled (board : BoardState) (placements : List TilePlacement) (r c : Int) : Prop :=
  board.tileExists r c = false ∧ ∀ p ∈ placements, ¬(p.rowIdx = r ∧ p.colIdx = c)

/-- A hole: an unfilled cell strictly between two placements of one row or of
one column. -/
def hole (board : BoardState) (placements : List TilePlacement) : Prop :=
  ∃ p ∈ placements, ∃ q ∈ placements, ∃ r c, unfilled board placements r c ∧
    ((p.rowIdx = r ∧ q.rowIdx = r ∧ p.colIdx < c ∧ c < q.colIdx) ∨
      (p.colIdx = c ∧ q.colIdx = c ∧ p.rowIdx < r ∧ r < q.rowIdx))

end Checks

end Scrabble

namespace Scrabble

/-- The cells of a run of `n + 1` positions from `(r, c)` in steps of
`(rowOff, colOff)`, each carrying the filler letter `'_'` that
`getIncludedPositions` gives them. -/
def run (rowOff colOff : Int) : Nat → Int → Int → List TilePlacement
  | 0, r, c => [⟨'_', r, c⟩]
  | n + 1, r, c => ⟨'_', r, c⟩ :: run rowOff colOff n (r + rowOff) (c + colOff)

end Scrabble


namespace Scrabble

/-! ## Worked examples

Concrete boards, hands and candidates on which the theorems are evaluated.
Row letters `A, B, C` are the row indices `0, 1, 2`; column numbers start at
1, so `B2` is the cell `(1, 1)`. -/

namespace Examples

/-- The player to move, holding `hand`. -/
def ann (hand : List Tile) : PlayerState :=
  { name := "Ann", score := 0, hand := ⟨hand⟩, lastAction := "" }

/-- The other player. -/
def bob : PlayerState :=
  { name := "Bob", score := 0, hand := ⟨[]⟩, lastAction := "" }

/-- A game with the given board, Ann to move with the given hand, and an empty
tile bag. -/
def game (board : BoardState) (hand : List Tile) : State :=
  { board := board, tileBag := ⟨[]⟩, players := (ann hand, bob)
    playerTurnIdx := 0, didQuit := false }

/-- An empty board of 3 rows and 5 columns. -/
def emptyBoard : BoardState :=
  { rows := 3, cols := 5
    tiles := [[none, none, none, none, none],
              [none, none, none, none, none],
              [none, none, none, none, none]] }

/-- The board `3, 5, C@B1, R@B3, S@B4`. -/
def carsBoard : BoardState :=
  { rows := 3, cols := 5
    tiles := [[none, none, none, none, none],
              [some ⟨'C', 0⟩, none, some ⟨'R', 0⟩, some ⟨'S', 0⟩, none],
              [none, none, none, none, none]] }

/-- The board `3, 5, A@B2`. -/
def aBoard : BoardState :=
  { rows := 3, cols := 5
    tiles := [[none, none, none, none, none],
              [none, some ⟨'A', 0⟩, none, none, none],
              [none, none, none, none, none]] }

/-- The board `3, 5, A@A3`. -/
def topBoard : BoardState :=
  { rows := 3, cols := 5
    tiles := [[none, none, some ⟨'A', 0⟩, none, none],
              [none, none, none, none, none],
              [none, none, none, none, none]] }

/-- A small dictionary. -/
def words : Dictionary := { dict := ["A", "AT", "CARS"] }

/-- Candidate `A` at `A1`, `B` at `A2`, `C` at `B1`: an L-shape. -/
def corner : List TilePlacement := [⟨'A', 0, 0⟩, ⟨'B', 0, 1⟩, ⟨'C', 1, 0⟩]

/-- Candidate `A` at `B1`, `B` at `B3`, leaving `B2` out. -/
def gap : List TilePlacement := [⟨'A', 1, 0⟩, ⟨'B', 1, 2⟩]

/-- Candidate `A` at `B1`, `A` at `B2`. -/
def twoAs : List TilePlacement := [⟨'A', 1, 0⟩, ⟨'A', 1, 1⟩]

/-- Candidate `A` at `B2`. -/
def aAtB2 : List TilePlacement := [⟨'A', 1, 1⟩]

/-- Candidate `A` at `B1`. -/
def aAtB1 : List TilePlacement := [⟨'A', 1, 0⟩]

/-- Candidate `Z` at `B1`. -/
def zAtB1 : List TilePlacement := [⟨'Z', 1, 0⟩]

/-- Candidate `T` at `A5`. -/
def tAtA5 : List TilePlacement := [⟨'T', 0, 4⟩]

/-- Candidate `T` at `B3`. -/
def tAtB3 : List TilePlacement := [⟨'T', 1, 2⟩]

/-- The hand `A-1, B-3, C-3`. -/
def abc : List Tile := [⟨'A', 1⟩, ⟨'B', 3⟩, ⟨'C', 3⟩]

/-- The hand `A-1, B-3`. -/
def ab : List Tile := [⟨'A', 1⟩, ⟨'B', 3⟩]

/-- The hand `A-1`. -/
def a : List Tile := [⟨'A', 1⟩]

/-- The hand `T-1`. -/
def t : List Tile := [⟨'T', 1⟩]

end Examples

end Scrabble
namespace Scrabble

/-! ## BoardState.cpp: construction and placement -/

namespace BoardState

/-- The constructor `BoardState::BoardState(rows, cols)`: the size check that
throws, the assertion, the second size check that throws, then a grid of
`rows` vectors of `cols` null pointers. -/
def new (rows cols : Int) : Except Abort BoardState :=
  if rows ≤ 0 ∨ cols ≤ 0 then .error (.exception .invalidArgument)
  else if ¬(rows ≤ 26 ∧ cols < 99) then .error .assertion
  else if rows ≥ 26 ∨ cols > 99 then .error (.exception .invalidArgument)
  else .ok { rows := rows, cols := cols
             tiles := List.replicate rows.toNat (List.replicate cols.toNat none) }

/-- The grid has `rows` vectors of `cols` entries each, as the constructor
builds it. -/
def wellFormed (b : BoardState) : Prop :=
  b.tiles.length = b.rows.toNat ∧ ∀ row ∈ b.tiles, row.length = b.cols.toNat

/-- The method `BoardState::isFull`: the two nested scans stop at the first
empty cell found. -/
def isFull (b : BoardState) : Bool :=
  (List.range b.rows.toNat).all fun row =>
    (List.range b.cols.toNat).all fun col => (b.cell row col).isSome

/-- The method `BoardState::placeTile` with its two assertions; `tile` is the
pointer passed, `none` for `nullptr`.  The assignment
`tiles[rowIdx][colIdx] = tile` is the update of one entry of the grid. -/
def placeTile (b : BoardState) (tile : Option Tile) (rowIdx colIdx : Int) :
    Except Abort BoardState :=
  if b.tileExists rowIdx colIdx then .error .assertion
  else if !b.isValidPosition rowIdx colIdx then .error .assertion
  else
    let row := (b.tiles.getD rowIdx.toNat []).set colIdx.toNat tile
    .ok { b with tiles := b.tiles.set rowIdx.toNat row }

end BoardState

/-! ## PlayerState.cpp: score and drawing -/

namespace PlayerState

/-- The method `PlayerState::getScore`. -/
def getScore (p : PlayerState) : Int := p.score

/-- The method `PlayerState::raiseScore`. -/
def raiseScore (p : PlayerState) (by_ : Int) : PlayerState := { p with score := p.score + by_ }

/-- Loop of `drawTiles`: `for (drawCount = 0; hand->getLength() < 7 &&
tileBag->getLength() > 0; drawCount++) hand->addBack(tileBag->remove(0))`,
on fuel; the result is the count, the hand and the bag. -/
def drawTilesLoop : Nat → LinkedList → LinkedList → Int →
    Except Abort (Int × LinkedList × LinkedList)
  | 0, hand, tileBag, drawCount =>
    if hand.getLength < 7 ∧ tileBag.getLength > 0 then .error .fuel
    else .ok (drawCount, hand, tileBag)
  | n + 1, hand, tileBag, drawCount =>
    if hand.getLength < 7 ∧ tileBag.getLength > 0 then
      match tileBag.remove 0 with
      | .error e => .error (.exception e)
      | .ok (tile, tileBag') => drawTilesLoop n (hand.addBack tile) tileBag' (drawCount + 1)
    else .ok (drawCount, hand, tileBag)

/-- The method `PlayerState::drawTiles` with its assertion: the number of
tiles drawn, the player and the tile bag afterwards.  The fuel of the loop is
the length of the bag, which each iteration shortens by one. -/
def drawTiles (p : PlayerState) (tileBag : LinkedList) :
    Except Abort (Int × PlayerState × LinkedList) :=
  match drawTilesLoop tileBag.nodes.length p.hand tileBag 0 with
  | .error a => .error a
  | .ok (drawCount, hand, tileBag') =>
    if ¬(hand.getLength ≤ 7) then .error .assertion
    else .ok (drawCount, { p with hand := hand }, tileBag')

end PlayerState

/-! ## Action.cpp: `PlaceAction::performMove` -/

namespace State

/-- The method `State::getTileBag`. -/
def getTileBag (s : State) : LinkedList := s.tileBag

/-- The state after the object `players[playerTurnIdx]` has become `player`. -/
def setCurrentPlayer (s : State) (player : PlayerState) : State :=
  if s.playerTurnIdx = 0 then { s with players := (player, s.players.2) }
  else { s with players := (s.players.1, player) }

end State

namespace PlaceAction

/-- Loop of `performMove`: for each placement, remove the tile from the hand,
place it on the board, add its value to `incPoints`.  A `nullptr` from
`removeTile` is passed to `placeTile` and then dereferenced. -/
def placeLoop : PlayerState → BoardState → Int → List TilePlacement →
    Except Abort (PlayerState × BoardState × Int)
  | player, board, incPoints, [] => .ok (player, board, incPoints)
  | player, board, incPoints, placement :: rest =>
    match player.removeTile placement.letter with
    | .error e => .error (.exception e)
    | .ok (tile, player') =>
      match board.placeTile tile placement.rowIdx placement.colIdx with
      | .error a => .error a
      | .ok board' =>
        match tile with
        | none => .error .outOfBounds
        | some t => placeLoop player' board' (incPoints + t.value) rest

/-- The method `PlaceAction::performMove`: the game state afterwards.  The
text it prints is left out. -/
def performMove (placements : List TilePlacement) (state : State) (word : String) :
    Except Abort State :=
  match state.getCurrentPlayer with
  | .error a => .error a
  | .ok player =>
    if ¬(word.length > 0) then .error .assertion
    else
      match placeLoop player state.getBoard 0 placements with
      | .error a => .error a
      | .ok (player, board, incPoints) =>
        let player := player.raiseScore incPoints
        let player := if placements.length = 7 then player.raiseScore 50 else player
        match player.drawTiles state.getTileBag with
        | .error a => .error a
        | .ok (_, player, tileBag) =>
          let state' : State := { state with board := board, tileBag := tileBag }
          .ok (state'.setCurrentPlayer player)

end PlaceAction

namespace Examples

/-- Candidate `A` at `B2` and `B` at `B2`: two placements on one cell. -/
def sameCell : List TilePlacement := [⟨'A', 1, 1⟩, ⟨'B', 1, 1⟩]

/-- The board `2, 2, A@A1, B@B2` of the unit tests. -/
def testBoard : BoardState :=
  { rows := 2, cols := 2
    tiles := [[some ⟨'A', 0⟩, none], [none, some ⟨'B', 0⟩]] }

/-- A game like `game`, with the tile bag `bag`. -/
def gameWithBag (board : BoardState) (hand bag : List Tile) : State :=
  { board := board, tileBag := ⟨bag⟩, players := (ann hand, bob)
    playerTurnIdx := 0, didQuit := false }

end Examples

end Scrabble
namespace Scrabble

/-- The cell `(r, c)` is inside the grid and holds a tile. -/
def BoardState.occupied (b : BoardState) (r c : Int) : Prop :=
  0 ≤ r ∧ r < b.rows ∧ 0 ≤ c ∧ c < b.cols ∧ ∃ t, b.cell r c = some t

end Scrabble
namespace Scrabble

namespace Examples

/-- Candidate `A` at `B2`, `E` at `B5`, around the tiles `R@B3, S@B4`. -/
def aeOnCars : List TilePlacement := [⟨'A', 1, 1⟩, ⟨'E', 1, 4⟩]

end Examples

/-- How the letter `ch` of the word resolves the position `q`: it is the letter
of the board tile at `q` if that cell is occupied, and otherwise the letter of
a placement at exactly that position. -/
def resolves (board : BoardState) (placements : List TilePlacement)
    (q : TilePlacement) (ch : Char) : Prop :=
  (board.tileExists q.rowIdx q.colIdx = true →
    ∃ t, board.cell q.rowIdx q.colIdx = some t ∧ ch = t.letter) ∧
  (board.tileExists q.rowIdx q.colIdx = false →
    ∃ p ∈ placements, p.rowIdx = q.rowIdx ∧ p.colIdx = q.colIdx ∧ ch = p.letter)

end Scrabble
namespace Scrabble

namespace Examples

/-- Candidate `A` at `B1`, `T` at `B2`. -/
def atRow : List TilePlacement := [⟨'A', 1, 0⟩, ⟨'T', 1, 1⟩]

/-- The hand `A-1, T-1`. -/
def handAT : List Tile := [⟨'A', 1⟩, ⟨'T', 1⟩]

end Examples

end Scrabble
namespace Scrabble

namespace Examples

/-- The bag `D-2, E-1, F-4, G-2, H-4, I-1, J-8`. -/
def bagDJ : List Tile := [⟨'D', 2⟩, ⟨'E', 1⟩, ⟨'F', 4⟩, ⟨'G', 2⟩, ⟨'H', 4⟩, ⟨'I', 1⟩, ⟨'J', 8⟩]

/-- The hand `A-1, B-3, A-1`. -/
def aba : List Tile := [⟨'A', 1⟩, ⟨'B', 3⟩, ⟨'A', 1⟩]

end Examples

end Scrabble
namespace Scrabble

/-! ## Tile.cpp: construction -/

/-- The constructor `Tile::Tile(letter, value)` with its two assertions. -/
def Tile.new (letter : Letter) (value : Value) : Except Abort Tile :=
  if ¬('A' ≤ letter ∧ letter ≤ 'Z') then .error .assertion
  else if ¬(value ≥ 0) then .error .assertion
  else .ok ⟨letter, value⟩

/-- The copy constructor `Tile::Tile(Tile&)`, which delegates to the
constructor above. -/
def Tile.copy (toCopy : Tile) : Except Abort Tile := Tile.new toCopy.letter toCopy.value

/-- A tile that the constructor accepts: an upper-case letter and a value that
is not negative. -/
def Tile.valid (t : Tile) : Prop := 'A' ≤ t.letter ∧ t.letter ≤ 'Z' ∧ t.value ≥ 0

instance (t : Tile) : Decidable t.valid := by
  unfold Tile.valid
  infer_instance

/-! ## Node.cpp and LinkedList.cpp, node by node

The methods of `LinkedList` once more, this time on the nodes themselves: a
node pointer is the address of a node, `none` is `nullptr`, and the nodes
live in a store indexed by address.  `Node.h` is not among the sources; the
two fields are those the constructor in `Node.cpp` assigns, and `delete` of a
node releases that node alone. -/

namespace Heap

/-- Class `Node`: `tile` and `next`. -/
structure Node where
  tile : Tile
  next : Option Nat
deriving DecidableEq, Repr

/-- A `LinkedList` object (`head`, `length`) with the store of nodes it points
into: `heap[a]` is the node at address `a`, `none` once it is deleted. -/
structure LinkedList where
  heap : List (Option Node)
  head : Option Nat
  length : Int
deriving DecidableEq, Repr

namespace LinkedList

/-- The constructor `LinkedList::LinkedList()`. -/
def empty : LinkedList := { heap := [], head := none, length := 0 }

/-- The method `LinkedList::getLength`. -/
def getLength (l : LinkedList) : Int := l.length

/-- Reading through a node pointer; a null or dangling pointer has no node
behind it. -/
def deref (l : LinkedList) (ptr : Option Nat) : Except Abort Node :=
  match ptr with
  | none => .error .outOfBounds
  | some a =>
    match l.heap.getD a none with
    | none => .error .outOfBounds
    | some node => .ok node

/-- Loop of `getNode`: `for (i = 0; i != index; i++) cur = cur->next`, with
`n` iterations left. -/
def getNodeLoop (l : LinkedList) : Nat → Option Nat → Except Abort (Option Nat)
  | 0, cur => .ok cur
  | n + 1, cur =>
    match l.deref cur with
    | .error a => .error a
    | .ok node => getNodeLoop l n node.next

/-- The method `LinkedList::getNode`: throws `std::out_of_range` when
`index < 0 || index >= length`, otherwise walks `index` links from `head`. -/
def getNode (l : LinkedList) (index : Int) : Except Abort (Option Nat) :=
  if index < 0 ∨ index ≥ l.length then .error (.exception .outOfRange)
  else getNodeLoop l index.toNat l.head

/-- The method `LinkedList::get`: `getNode(index)->tile`. -/
def get (l : LinkedList) (index : Int) : Except Abort Tile :=
  match l.getNode index with
  | .error a => .error a
  | .ok ptr =>
    match l.deref ptr with
    | .error a => .error a
    | .ok node => .ok node.tile

/-- The assignment `ptr->next = next`. -/
def setNext (l : LinkedList) (ptr next : Option Nat) : Except Abort LinkedList :=
  match ptr with
  | none => .error .outOfBounds
  | some a =>
    match l.heap.getD a none with
    | none => .error .outOfBounds
    | some node => .ok { l with heap := l.heap.set a (some { node with next := next }) }

/-- The method `LinkedList::addBack`: the new node is allocated at the first
unused address. -/
def addBack (l : LinkedList) (tile : Tile) : Except Abort LinkedList :=
  let newNode := l.heap.length
  let l1 : LinkedList := { l with heap := l.heap ++ [some { tile := tile, next := none }] }
  if l1.head = none then
    if ¬(l1.length = 0) then .error .assertion
    else .ok { l1 with head := some newNode, length := l1.length + 1 }
  else
    match l1.getNode (l1.length - 1) with
    | .error a => .error a
    | .ok oldTail =>
      match l1.deref oldTail with
      | .error a => .error a
      | .ok node =>
        if ¬(node.next = none) then .error .assertion
        else
          match l1.setNext oldTail (some newNode) with
          | .error a => .error a
          | .ok l2 => .ok { l2 with length := l2.length + 1 }

/-- The relinking step of `remove`: the list after the node `removed` at
`index` has been unlinked. -/
def unlink (l : LinkedList) (index : Int) (removed : Option Nat) : Except Abort LinkedList :=
  if index = 0 then
    if l.length > 1 then
      match l.getNode 1 with
      | .error a => .error a
      | .ok second => .ok { l with head := second }
    else .ok { l with head := none }
  else if index > 0 ∧ index < l.getLength then
    match l.getNode (index - 1) with
    | .error a => .error a
    | .ok prev =>
      match l.deref removed with
      | .error a => .error a
      | .ok node => l.setNext prev node.next
  else .ok l

/-- The method `LinkedList::remove`: the copy of the removed tile and the list
afterwards. -/
def remove (l : LinkedList) (index : Int) : Except Abort (Tile × LinkedList) :=
  match l.getNode index with
  | .error a => .error a
  | .ok removed =>
    match l.unlink index removed with
    | .error a => .error a
    | .ok l1 =>
      let l2 : LinkedList := { l1 with length := l1.length - 1 }
      if ¬(l2.length ≥ 0) then .error .assertion
      else
        match l2.deref removed with
        | .error a => .error a
        | .ok node =>
          match Tile.copy node.tile with
          | .error a => .error a
          | .ok result =>
            match removed with
            | none => .error .outOfBounds
            | some a => .ok (result, { l2 with heap := l2.heap.set a none })

/-- Loop of `clear`: `while (getLength() > 0) delete remove(0)`, on fuel. -/
def clearLoop : Nat → LinkedList → Except Abort LinkedList
  | 0, l => if l.getLength > 0 then .error .fuel else .ok l
  | n + 1, l =>
    if l.getLength > 0 then
      match l.remove 0 with
      | .error a => .error a
      | .ok (_, l') => clearLoop n l'
    else .ok l

/-- The method `LinkedList::clear`; the fuel is the length, which every
iteration lowers by one. -/
def clear (l : LinkedList) : Except Abort LinkedList := clearLoop l.length.toNat l

end LinkedList

/-- The nodes at the addresses `as` hold the tiles `xs`, each linked to the
next and the last one to `nullptr`. -/
def linked (heap : List (Option Node)) : List Nat → List Tile → Prop
  | [], [] => True
  | a :: as, t :: ts => heap.getD a none = some { tile := t, next := as.head? } ∧ linked heap as ts
  | _, _ => False

/-- The list object `l` holds the sequence `xs` of constructed tiles: `length`
is its length and `head` starts a chain of distinct nodes that spells it. -/
def LinkedList.represents (l : LinkedList) (xs : List Tile) : Prop :=
  l.length = xs.length ∧ (∀ t ∈ xs, t.valid) ∧
    ∃ as : List Nat, as.Nodup ∧ l.head = as.head? ∧ linked l.heap as xs

end Heap

namespace Examples

/-- The list `A-1, B-3, C-3` as three nodes at the addresses 0, 1 and 2. -/
def nodesABC : Heap.LinkedList :=
  { heap := [some { tile := ⟨'A', 1⟩, next := some 1 }, some { tile := ⟨'B', 3⟩, next := some 2 },
      some { tile := ⟨'C', 3⟩, next := none }]
    head := some 0
    length := 3 }

end Examples

end Scrabble
namespace Scrabble

/-! ## The standard library, as far as the sources use it

Text is a list of characters.  The functions below follow the documented
behaviour of `std::istream::getline`, `std::getline`, `std::stoi`,
`operator<<` for `int`, and `sscanf` with the directives the sources pass. -/

/-- An input stream while it is read: the characters not yet extracted, and
the state bits `eofbit` and `failbit`. -/
structure IStream where
  rest : List Char
  eofbit : Bool
  failbit : Bool
deriving DecidableEq, Repr

namespace IStream

/-- A stream over the given characters, such as `std::stringstream(text)`. -/
def ofText (text : List Char) : IStream := { rest := text, eofbit := false, failbit := false }

/-- A stream over the given text. -/
def ofString (text : String) : IStream := ofText text.data

/-- The method `good()`: no state bit is set. -/
def good (s : IStream) : Bool := !s.eofbit && !s.failbit

/-- Extraction of `getline`, the tests in the order of the standard: end of
input sets `eofbit`; the delimiter is taken from the input and not stored;
when `room` characters are stored already, `failbit` is set. -/
def extract (delim : Char) : List Char → Option Nat → List Char × IStream
  | [], _ => ([], { rest := [], eofbit := true, failbit := false })
  | c :: cs, room =>
    if c = delim then ([], { rest := cs, eofbit := false, failbit := false })
    else
      match room with
      | some 0 => ([], { rest := c :: cs, eofbit := false, failbit := true })
      | some (k + 1) => ((c :: (extract delim cs (some k)).1), (extract delim cs (some k)).2)
      | none => ((c :: (extract delim cs none).1), (extract delim cs none).2)

/-- Both `stream.getline(buf, count, delim)`, where `room = count - 1`
characters fit into `buf`, and `std::getline(stream, line)`, where
`room = none`: the text read and the stream afterwards.  On a stream that is
not good nothing is read and `failbit` is set; `failbit` is also set when no
character at all was taken from the input. -/
def getline (s : IStream) (room : Option Nat) (delim : Char) : List Char × IStream :=
  if !s.good then ([], { s with failbit := true })
  else
    let r := extract delim s.rest room
    (r.1, if r.2.eofbit && r.1.isEmpty then { r.2 with failbit := true } else r.2)

end IStream

/-- The C function `isspace` in the "C" locale. -/
def isSpace (c : Char) : Bool :=
  c = ' ' || c = '\t' || c = '\n' || c = '\x0b' || c = '\x0c' || c = '\r'

/-- The value of a digit in the bases up to 16, if the character is one. -/
def digitValue (c : Char) : Option Nat :=
  if 48 ≤ c.toNat ∧ c.toNat ≤ 57 then some (c.toNat - 48)
  else if 97 ≤ c.toNat ∧ c.toNat ≤ 102 then some (c.toNat - 87)
  else if 65 ≤ c.toNat ∧ c.toNat ≤ 70 then some (c.toNat - 55)
  else none

/-- The number spelled by the longest prefix of digits of the given base,
continuing from `acc`, as `strtol` reads it. -/
def readNumber (base : Nat) : List Char → Nat → Nat
  | [], acc => acc
  | c :: cs, acc =>
    match digitValue c with
    | some d => if d < base then readNumber base cs (acc * base + d) else acc
    | none => acc

/-- Whether the text starts with a digit of the given base. -/
def startsWithDigit (base : Nat) : List Char → Bool
  | [] => false
  | c :: _ =>
    match digitValue c with
    | some d => decide (d < base)
    | none => false

/-- The sign in front of a number: whether it is negative, and the text after
the sign. -/
def readSign : List Char → Bool × List Char
  | '-' :: cs => (true, cs)
  | '+' :: cs => (false, cs)
  | cs => (false, cs)

/-- The function `std::stoi(str)`: white space, an optional sign, decimal
digits; `std::invalid_argument` without a digit, `std::out_of_range` outside
the range of `int`.  Text after the number is ignored. -/
def stoi (str : List Char) : Except Exn Int :=
  let s := readSign (str.dropWhile isSpace)
  if !startsWithDigit 10 s.2 then .error .invalidArgument
  else
    let n : Int := readNumber 10 s.2 0
    let v : Int := if s.1 then -n else n
    if v < -2147483648 ∨ v > 2147483647 then .error .outOfRange else .ok v

/-- The character of a decimal digit. -/
def digitChar (d : Nat) : Char := Char.ofNat (48 + d)

/-- Decimal digits of `n` in front of `acc`, most significant first. -/
def decimalLoop : Nat → Nat → List Char → List Char
  | 0, _, acc => acc
  | fuel + 1, n, acc =>
    if n < 10 then digitChar n :: acc
    else decimalLoop fuel (n / 10) (digitChar (n % 10) :: acc)

/-- The decimal numeral of a natural number. -/
def decimal (n : Nat) : List Char := decimalLoop (n + 1) n []

/-- The text `stream << v` writes for an `int`. -/
def showInt (v : Int) : List Char :=
  if v < 0 then '-' :: decimal (-v).toNat else decimal v.toNat

/-! ## BoardState.cpp: text form -/

namespace BoardState

/-- The match of `std::regex_match` against `([A-Z])([0-9]+)`: the two
groups, if the whole text matches. -/
def matchPosition (data : List Char) : Option (List Char × List Char) :=
  match data with
  | [] => none
  | r :: ds =>
    if 'A' ≤ r ∧ r ≤ 'Z' ∧ ds ≠ [] ∧ ds.all Char.isDigit then some ([r], ds) else none

/-- The static method `BoardState::parseTilePosition`: the result and the
values left in `rowIdx` and `colIdx`; `std::stoi` may throw. -/
def parseTilePosition (data : List Char) : Except Exn (Bool × Int × Int) :=
  match matchPosition data with
  | none => .ok (false, -1, -1)
  | some (rowLetterStr, colNumStr) =>
    match stoi colNumStr with
    | .error e => .error e
    | .ok n =>
      let colIdx : Int := n - 1
      let rowIdx : Int :=
        match rowLetterStr with
        | [ch] => if 'A' ≤ ch ∧ ch ≤ 'Z' then (ch.toNat : Int) - ('A'.toNat : Int) else -1
        | _ => -1
      .ok (decide (rowIdx ≥ 0 ∧ colIdx ≥ 0), rowIdx, colIdx)

/-- The match of `std::regex_match` against `[ ]*([A-Z])@([A-Z][0-9]+)`. -/
def matchTileData (data : List Char) : Option (List Char × List Char) :=
  match data.dropWhile (fun c => c = ' ') with
  | l :: '@' :: r :: ds =>
    if 'A' ≤ l ∧ l ≤ 'Z' ∧ 'A' ≤ r ∧ r ≤ 'Z' ∧ ds ≠ [] ∧ ds.all Char.isDigit
    then some ([l], r :: ds) else none
  | _ => none

/-- The static method `BoardState::parseTileData`: the tile and the two
indices. -/
def parseTileData (data : List Char) : Except Abort (Tile × Int × Int) :=
  match matchTileData data with
  | none => .error (.exception .invalidArgument)
  | some (tileLetterStr, tilePosStr) =>
    match parseTilePosition tilePosStr with
    | .error e => .error (.exception e)
    | .ok (parsed, rowIdx, colIdx) =>
      match tileLetterStr with
      | [letter] =>
        if !parsed then .error (.exception .invalidArgument)
        else
          match Tile.new letter 0 with
          | .error a => .error a
          | .ok tile => .ok (tile, rowIdx, colIdx)
      | _ => .error (.exception .invalidArgument)

/-- The assignment `tiles[rowIdx][colIdx] = tile`, an access without a bounds
check: outside the vectors it has no defined result. -/
def store (b : BoardState) (rowIdx colIdx : Int) (tile : Tile) : Except Abort BoardState :=
  if rowIdx < 0 ∨ colIdx < 0 then .error .outOfBounds
  else
    match b.tiles[rowIdx.toNat]? with
    | none => .error .outOfBounds
    | some row =>
      if colIdx.toNat < row.length then
        .ok { b with tiles := b.tiles.set rowIdx.toNat (row.set colIdx.toNat (some tile)) }
      else .error .outOfBounds

/-- Loop of `fromStream`: `while (lineStream.good())`, one tile record per
iteration, on fuel. -/
def fromStreamLoop : Nat → IStream → BoardState → Except Abort BoardState
  | 0, lineStream, board => if lineStream.good then .error .fuel else .ok board
  | n + 1, lineStream, board =>
    if lineStream.good then
      let r := lineStream.getline (some 1022) ','
      match parseTileData r.1 with
      | .error a => .error a
      | .ok (tile, rowIdx, colIdx) =>
        if rowIdx ≥ board.rows ∨ colIdx > board.cols then .error (.exception .invalidArgument)
        else
          match board.store rowIdx colIdx tile with
          | .error a => .error a
          | .ok board' => fromStreamLoop n r.2 board'
    else .ok board

/-- The static method `BoardState::fromStream`: the board read from the next
line of the stream, and the stream afterwards.  A good iteration of the loop
takes at least one character, so the length of the line bounds the number of
iterations. -/
def fromStream (stream : IStream) : Except Abort (BoardState × IStream) :=
  if !stream.good then .error .assertion
  else
    let l := stream.getline none '\n'
    let lineStream := IStream.ofText l.1
    let r1 := lineStream.getline (some 8190) ','
    match stoi r1.1 with
    | .error e => .error (.exception e)
    | .ok rows =>
      let r2 := r1.2.getline (some 8190) ','
      match stoi r2.1 with
      | .error e => .error (.exception e)
      | .ok cols =>
        match BoardState.new rows cols with
        | .error a => .error a
        | .ok board =>
          match fromStreamLoop (r2.2.rest.length + 1) r2.2 board with
          | .error a => .error a
          | .ok board' => .ok (board', l.2)

/-- What `toStream` writes for one cell: nothing for `nullptr`, otherwise
`, {letter}@{row letter}{column number}`. -/
def cellText (b : BoardState) (row col : Nat) : List Char :=
  match b.cell row col with
  | none => []
  | some tile => [',', ' ', tile.letter, '@', Char.ofNat ('A'.toNat + row)] ++ showInt (col + 1)

/-- The method `BoardState::toStream`: the text written. -/
def toStream (b : BoardState) : List Char :=
  showInt b.rows ++ [',', ' '] ++ showInt b.cols ++
    (List.range b.rows.toNat).flatMap fun row =>
      (List.range b.cols.toNat).flatMap fun col => b.cellText row col

end BoardState

end Scrabble
namespace Scrabble

/-- The number that a text of decimal digits denotes. -/
def numeral (ds : List Char) : Nat := ds.foldl (fun a c => a * 10 + (c.toNat - 48)) 0

end Scrabble
namespace Scrabble

/-- The texts `parseTilePosition` is written for: one upper-case letter
followed by one or more decimal digits. -/
def BoardState.positionForm (data : List Char) : Prop :=
  ∃ (L : Char) (ds : List Char), data = L :: ds ∧ 'A' ≤ L ∧ L ≤ 'Z' ∧ ds ≠ [] ∧
    ∀ c ∈ ds, c.isDigit = true

end Scrabble
namespace Scrabble

/-- The stream after `getline` has read a token that stood in front of
`text`: at the end of input if `text` is empty, otherwise past the delimiter
that starts `text`. -/
def IStream.resume (text : List Char) : IStream :=
  match text with
  | [] => { rest := [], eofbit := true, failbit := false }
  | _ :: rest => { rest := rest, eofbit := false, failbit := false }

/-- The positions of the grid in the order in which `toStream` visits them. -/
def BoardState.positions (b : BoardState) : List (Nat × Nat) :=
  (List.range b.rows.toNat).flatMap fun row => (List.range b.cols.toNat).map fun col => (row, col)

/-- A board as the constructor and `placeTile` can build it: the size is one
the constructor accepts, the grid has that size, and every tile on it is a
constructed tile. -/
def BoardState.constructed (b : BoardState) : Prop :=
  b.wellFormed ∧ (∃ b0, BoardState.new b.rows b.cols = .ok b0) ∧
    ∀ row ∈ b.tiles, ∀ o ∈ row, ∀ t ∈ o, Tile.valid t

end Scrabble
namespace Scrabble

/-! ## Tile.cpp and LinkedList.cpp: text form -/

/-- The number that the directive `%i` reads from text that starts at the
digits: `0x` or `0X` before a hexadecimal digit starts a hexadecimal number,
any other leading `0` an octal one, any other digit a decimal one; without a
digit the directive fails. -/
def scanNumber (digits : List Char) : Option Nat :=
  match digits with
  | [] => none
  | c :: cs =>
    if c = '0' then
      match cs with
      | x :: h :: rest =>
        if (x = 'x' ∨ x = 'X') ∧ startsWithDigit 16 (h :: rest) = true
        then some (readNumber 16 (h :: rest) 0)
        else some (readNumber 8 cs 0)
      | _ => some (readNumber 8 cs 0)
    else if startsWithDigit 10 (c :: cs) = true then some (readNumber 10 (c :: cs) 0)
    else none

/-- The directive `%i` of `sscanf`: white space, an optional sign, a number. -/
def scanInt (s : List Char) : Option Int :=
  let r := readSign (s.dropWhile isSpace)
  match scanNumber r.2 with
  | none => none
  | some n => some (if r.1 then -(n : Int) else (n : Int))

namespace Tile

/-- The call `sscanf(cStr, "%c%*[ -]%i", &letter, &value)`: the two values
stored when the result is 2, `none` for every other result.  `%c` takes one
character, `%*[ -]` one or more blanks and dashes, `%i` an integer. -/
def sscanf (cStr : List Char) : Option (Char × Int) :=
  match cStr with
  | [] => none
  | letter :: rest =>
    if rest.takeWhile (fun c => c = ' ' || c = '-') = [] then none
    else
      match scanInt (rest.dropWhile (fun c => c = ' ' || c = '-')) with
      | none => none
      | some value => some (letter, value)

/-- The static method `Tile::fromString`.  A number that is no `int` has no
defined result in `sscanf`. -/
def fromString (str : List Char) : Except Abort Tile :=
  match sscanf (str.dropWhile (fun c => c = ' ')) with
  | none => .error (.exception .invalidArgument)
  | some (letter, value) =>
    if value < -2147483648 ∨ value > 2147483647 then .error .outOfBounds
    else Tile.new letter value

end Tile

namespace LinkedList

/-- Loop of `fromString`: `while (stream.good())`, one tile per iteration, on
fuel. -/
def fromStringLoop : Nat → IStream → LinkedList → Except Abort LinkedList
  | 0, stream, result => if stream.good then .error .fuel else .ok result
  | n + 1, stream, result =>
    if stream.good then
      let r := stream.getline (some 1022) ','
      match Tile.fromString r.1 with
      | .error a => .error a
      | .ok tile => fromStringLoop n r.2 (result.addBack tile)
    else .ok result

/-- The static method `LinkedList::fromString`.  A good iteration of the loop
takes at least one character, so the length of the text bounds the number of
iterations. -/
def fromString (str : List Char) : Except Abort LinkedList :=
  if str ≠ [] then fromStringLoop (str.length + 1) (IStream.ofText str) empty
  else .ok empty

/-- The text `stream << tile->letter << '-' << tile->value`. -/
def tileText (t : Tile) : List Char := t.letter :: '-' :: showInt t.value

/-- Second loop of `toString`: `", "` and the tile, for every node after the
first. -/
def toStringLoop : List Tile → List Char
  | [] => []
  | t :: ts => ',' :: ' ' :: (tileText t ++ toStringLoop ts)

/-- The method `LinkedList::toString`. -/
def toString (l : LinkedList) : List Char :=
  match l.nodes with
  | [] => []
  | t :: ts => tileText t ++ toStringLoop ts

end LinkedList

end Scrabble
namespace Scrabble

namespace Examples

/-- The tiles `A-1, B-2, C-3` of the unit tests. -/
def tiles123 : List Tile := [⟨'A', 1⟩, ⟨'B', 2⟩, ⟨'C', 3⟩]

end Examples

end Scrabble
namespace Scrabble

/-! ## PlayerState.cpp and State.cpp: text form and construction -/

namespace PlayerState

/-- The static method `PlayerState::fromStream`: name, score and hand from
the next three lines; the player and the stream afterwards. -/
def fromStream (stream : IStream) : Except Abort (PlayerState × IStream) :=
  if !stream.good then .error .assertion
  else
    let r1 := stream.getline none '\n'
    let r2 := r1.2.getline none '\n'
    match stoi r2.1 with
    | .error e => .error (.exception e)
    | .ok score =>
      let r3 := r2.2.getline none '\n'
      match LinkedList.fromString r3.1 with
      | .error a => .error a
      | .ok hand =>
        match PlayerState.new (String.mk r1.1) score hand with
        | .error e => .error (.exception e)
        | .ok player => .ok (player, r3.2)

/-- The method `PlayerState::toStream`: the text written. -/
def toStream (p : PlayerState) : List Char :=
  p.name.data ++ '\n' :: (showInt p.score ++ '\n' :: p.hand.toString)

/-- The method `PlayerState::getNumTilesHeld`. -/
def getNumTilesHeld (p : PlayerState) : Int := p.hand.getLength

/-- The method `PlayerState::getLastAction`. -/
def getLastAction (p : PlayerState) : String := p.lastAction

/-- The method `PlayerState::setLastAction`. -/
def setLastAction (p : PlayerState) (action : String) : PlayerState :=
  { p with lastAction := action }

end PlayerState

namespace State

/-- The constructor `State::State(player1, player2, board, tileBag,
playerTurnIdx)`. -/
def new (player1 player2 : PlayerState) (board : BoardState) (tileBag : LinkedList)
    (playerTurnIdx : Int) : Except Abort State :=
  if player1.name = player2.name then .error (.exception .invalidArgument)
  else if playerTurnIdx ≠ 0 ∧ playerTurnIdx ≠ 1 then .error (.exception .invalidArgument)
  else .ok { board := board, tileBag := tileBag, players := (player1, player2)
             playerTurnIdx := playerTurnIdx, didQuit := false }

/-- The static method `State::fromStream`. -/
def fromStream (stream : IStream) : Except Abort State :=
  if !stream.good then .error .assertion
  else
    match PlayerState.fromStream stream with
    | .error a => .error a
    | .ok (player1, s1) =>
      match PlayerState.fromStream s1 with
      | .error a => .error a
      | .ok (player2, s2) =>
        match BoardState.fromStream s2 with
        | .error a => .error a
        | .ok (board, s3) =>
          let r4 := s3.getline none '\n'
          match LinkedList.fromString r4.1 with
          | .error a => .error a
          | .ok tileBag =>
            let r5 := r4.2.getline none '\n'
            let playerTurnIdx : Int :=
              if player1.name = String.mk r5.1 then 0
              else if player2.name = String.mk r5.1 then 1
              else -1
            State.new player1 player2 board tileBag playerTurnIdx

/-- The array access `players[playerTurnIdx]`, without a check. -/
def playerAt (s : State) (idx : Int) : Except Abort PlayerState :=
  if idx = 0 then .ok s.players.1
  else if idx = 1 then .ok s.players.2
  else .error .outOfBounds

/-- The method `State::toStream`: the text written; `std::endl` is a line
feed. -/
def toStream (s : State) : Except Abort (List Char) :=
  match s.playerAt s.playerTurnIdx with
  | .error a => .error a
  | .ok current =>
    .ok (s.players.1.toStream ++ '\n' :: (s.players.2.toStream ++ '\n' ::
      (s.board.toStream ++ '\n' :: (s.tileBag.toString ++ '\n' :: current.name.data))))

/-- The method `State::endCurrentTurn`; `%` of C++ truncates. -/
def endCurrentTurn (s : State) : State :=
  { s with playerTurnIdx := Int.tmod (s.playerTurnIdx + 1) 2 }

/-- The method `State::quit`. -/
def quit (s : State) : State := { s with didQuit := true }

/-- The method `State::getDidQuit`. -/
def getDidQuit (s : State) : Bool := s.didQuit

/-- The method `State::getPlayer`, with its assertion. -/
def getPlayer (s : State) (idx : Int) : Except Abort PlayerState :=
  if ¬(idx = 0 ∨ idx = 1) then .error .assertion
  else s.playerAt idx

end State

namespace Examples

/-- A saved player whose hand line holds eight tiles. -/
def eightTiles : String := "ABC\n14\nA-1, B-3, C-3, D-2, E-1, F-4, G-2, H-4"

/-- The hand of `eightTiles`. -/
def handAH : List Tile :=
  [⟨'A', 1⟩, ⟨'B', 3⟩, ⟨'C', 3⟩, ⟨'D', 2⟩, ⟨'E', 1⟩, ⟨'F', 4⟩, ⟨'G', 2⟩, ⟨'H', 4⟩]

/-- The saved game of the unit test `testState`. -/
def savedGame : String :=
  "PlayerA\n0\nE-1, A-1\nPlayerB\n5\nC-1, D-2\n2, 3, C@B2, D@B3\nC-1, A-1, D-2, F-3\nPlayerB"

end Examples

end Scrabble
namespace Scrabble

/-- A list of constructed tiles whose values are `int`s. -/
def LinkedList.constructed (l : LinkedList) : Prop :=
  ∀ t ∈ l.nodes, t.valid ∧ t.value ≤ 2147483647

/-- A player as the constructor accepts it, with a score that is an `int` and
a hand of constructed tiles. -/
def PlayerState.constructed (p : PlayerState) : Prop :=
  PlayerState.isValidPlayerName p.name = true ∧ 0 ≤ p.score ∧ p.score ≤ 2147483647 ∧
    p.hand.constructed

/-- A state as the constructor accepts it: two constructed players with
different names, a constructed board, a bag of constructed tiles, and the
turn index 0 or 1. -/
def State.constructed (st : State) : Prop :=
  st.players.1.constructed ∧ st.players.2.constructed ∧
    st.players.1.name ≠ st.players.2.name ∧ st.board.constructed ∧ st.tileBag.constructed ∧
    (st.playerTurnIdx = 0 ∨ st.playerTurnIdx = 1)

namespace Examples

/-- The state of the unit test `testState`, with the tile values of the board
as they were placed. -/
def testState : State :=
  { board := { rows := 2, cols := 3
               tiles := [[none, none, none], [none, some ⟨'C', 3⟩, some ⟨'D', 2⟩]] }
    tileBag := ⟨[⟨'C', 1⟩, ⟨'A', 1⟩, ⟨'D', 2⟩, ⟨'F', 3⟩]⟩
    players := ({ name := "PlayerA", score := 0, hand := ⟨[⟨'E', 1⟩, ⟨'A', 1⟩]⟩,
                  lastAction := "pass" },
                { name := "PlayerB", score := 5, hand := ⟨[⟨'C', 1⟩, ⟨'D', 2⟩]⟩,
                  lastAction := "" })
    playerTurnIdx := 1
    didQuit := false }

end Examples

end Scrabble
namespace Scrabble

/-! ## Dictionary.cpp: loading -/

namespace Dictionary

/-- The method `Dictionary::size`. -/
def size (d : Dictionary) : Int := d.dict.length

/-- The assignment `dict[key] = true` of an `unordered_map`: the key is added
unless it is there already. -/
def insert (d : Dictionary) (key : String) : Dictionary :=
  if key ∈ d.dict then d else { dict := d.dict ++ [key] }

/-- Loop of `load`: `while (stream.good())`, with the word read last in
`curWord`, on fuel. -/
def loadLoop : Nat → IStream → List Char → Dictionary → Except Abort Dictionary
  | 0, stream, _, d => if stream.good then .error .fuel else .ok d
  | n + 1, stream, curWord, d =>
    if stream.good then
      if ¬(curWord.length > 0) then .error .assertion
      else
        let upperWord := toUpper (String.mk curWord)
        let d' := if !d.contains upperWord then d.insert upperWord else d
        let r := stream.getline none '\n'
        loadLoop n r.2 r.1 d'
    else .ok d

/-- The method `Dictionary::load`.  Every iteration reads a line, which takes
at least one character from a good stream or ends it, so the length of the
text bounds the number of iterations. -/
def load (d : Dictionary) (stream : IStream) : Except Abort Dictionary :=
  if ¬(d.size = 0) then .error .assertion
  else
    let r := stream.getline none '\n'
    loadLoop (stream.rest.length + 1) r.2 r.1 d

/-- A word list as a text file: every word on a line of its own, ended by a
line feed. -/
def fileText (words : List String) : List Char :=
  words.flatMap fun w => w.data ++ ['\n']

/-- Two characters that are equal, or of which one is a lower-case letter
`a..z` and the other the upper-case letter to it. -/
def caseVariant (a b : Char) : Prop :=
  a = b ∨ (97 ≤ a.toNat ∧ a.toNat ≤ 122 ∧ b.toNat + 32 = a.toNat) ∨
    (97 ≤ b.toNat ∧ b.toNat ≤ 122 ∧ a.toNat + 32 = b.toNat)

/-- Two words that are equal up to letter case. -/
def sameUpToCase (v w : String) : Prop := List.Forall₂ caseVariant v.data w.data

end Dictionary

namespace Examples

/-- A word list with one word in two casings. -/
def wordList : List String := ["cat", "Cat", "dog"]

end Examples

end Scrabble
namespace Scrabble

/-! ## Action.cpp: the replace command -/

/-- The text left after a word of a pattern that is matched without regard to
letter case (`[Rr][Ee]...`, or a pattern compiled with `icase`); `word` is
given in lower case. -/
def matchWord : List Char → List Char → Option (List Char)
  | [], line => some line
  | _ :: _, [] => none
  | p :: ps, c :: cs => if c.toLower = p then matchWord ps cs else none

namespace ReplaceAction

/-- The match of `std::regex_match` against the pattern of `ReplaceAction`,
`[Rr][Ee][Pp][Ll][Aa][Cc][Ee]\s+([A-Z])\s*$`: the letter of group 1 if the
whole line matches. -/
def matchLine (line : List Char) : Option Char :=
  match matchWord "replace".data line with
  | some (s :: rest) =>
    if isSpace s then
      match rest.dropWhile isSpace with
      | c :: tail => if 'A' ≤ c ∧ c ≤ 'Z' ∧ tail.all isSpace then some c else none
      | [] => none
    else none
  | _ => none

/-- The method `Action::isValid` for the replace command. -/
def isValid (line : List Char) : Bool := (matchLine line).isSome

/-- The method `ReplaceAction::getName`. -/
def getName : String := "replace"

/-- The method `ReplaceAction::perform`: whether the turn ends, and the game
state afterwards.  The text it prints is left out. -/
def perform (line : List Char) (state : State) : Except Abort (Bool × State) :=
  match matchLine line with
  | none => .error .assertion
  | some letter =>
    match state.getCurrentPlayer with
    | .error a => .error a
    | .ok player =>
      match player.removeTile letter with
      | .error e => .error (.exception e)
      | .ok (tile, player) =>
        match tile with
        | some tile =>
          let tileBag := state.getTileBag.addBack tile
          match player.drawTiles tileBag with
          | .error a => .error a
          | .ok (tilesDrawn, player, tileBag) =>
            if ¬(tilesDrawn = 0 ∨ tilesDrawn = 1) then .error .assertion
            else
              let state' : State := { state with tileBag := tileBag }
              .ok (true, state'.setCurrentPlayer player)
        | none => .ok (false, state.setCurrentPlayer player)

end ReplaceAction

namespace Examples

/-- A game in which Ann holds the seven tiles `D` to `J` and the bag holds
`A-1, B-3, C-3`. -/
def fullHand : State := gameWithBag emptyBoard bagDJ abc

end Examples

end Scrabble
namespace Scrabble

/-! ## Action.cpp: the place command -/

/-- The text left after `\s+` of a pattern: at least one white-space
character, and as many as there are. -/
def skipSpaces : List Char → Option (List Char)
  | [] => none
  | s :: rest => if isSpace s then some (rest.dropWhile isSpace) else none

namespace PlaceAction

/-- The match of `std::regex_match` against the pattern of `PlaceAction`,
`[Pp][Ll][Aa][Cc][Ee]\s+([A-Z])\s+[Aa][Tt]\s+([A-Z][0-9]+)\s*$`: group 1
(the letter) and group 2 (the position) if the whole line matches. -/
def matchLine (line : List Char) : Option (Char × List Char) :=
  (matchWord "place".data line).bind fun r1 =>
  (skipSpaces r1).bind fun r2 =>
  match r2 with
  | [] => none
  | c :: r3 =>
    if 'A' ≤ c ∧ c ≤ 'Z' then
      (skipSpaces r3).bind fun r4 =>
      (matchWord "at".data r4).bind fun r5 =>
      (skipSpaces r5).bind fun r6 =>
      match r6 with
      | [] => none
      | rowLetter :: r7 =>
        if 'A' ≤ rowLetter ∧ rowLetter ≤ 'Z' ∧ r7.takeWhile Char.isDigit ≠ [] ∧
            (r7.dropWhile Char.isDigit).all isSpace then
          some (c, rowLetter :: r7.takeWhile Char.isDigit)
        else none
    else none

/-- The method `Action::isValid` for the place command. -/
def isValid (line : List Char) : Bool := (matchLine line).isSome

/-- The method `PlaceAction::getName`. -/
def getName : String := "place"

/-- The method `PlaceAction::handlePlace`, with its assertions: the value
returned and the vector `placements` afterwards. -/
def handlePlace (line : List Char) (placements : List TilePlacement) :
    Except Abort (Bool × List TilePlacement) :=
  if ¬isValid line then .error .assertion
  else
    match matchLine line with
    | none => .error .assertion
    | some (letter, posStr) =>
      match BoardState.parseTilePosition posStr with
      | .error e => .error (.exception e)
      | .ok (parsed, rowIdx, colIdx) =>
        if ¬parsed then .error .assertion
        else .ok (true, placements ++ [⟨letter, rowIdx, colIdx⟩])

end PlaceAction

end Scrabble
namespace Scrabble

/-! ## Action.cpp: the commands without arguments, and `save` -/

/-- The match of `std::regex_match` against a pattern `word\s*$` compiled
with `icase`; `word` is given in lower case. -/
def matchCommand (word : List Char) (line : List Char) : Bool :=
  match matchWord word line with
  | some rest => rest.all isSpace
  | none => false

namespace PassAction

/-- The method `Action::isValid` for the pattern `pass\s*$`. -/
def isValid (line : List Char) : Bool := matchCommand "pass".data line

/-- The method `PassAction::getName`. -/
def getName : String := "pass"

/-- The method `PassAction::perform`: whether the turn ends, and the game
state afterwards.  The right operand of `&&` is evaluated only for an empty
bag. -/
def perform (_line : List Char) (state : State) : Except Abort (Bool × State) :=
  if state.getTileBag.getLength = 0 then
    match state.getCurrentPlayer with
    | .error a => .error a
    | .ok player =>
      if player.getLastAction = getName then .ok (true, state.quit) else .ok (true, state)
  else .ok (true, state)

end PassAction

namespace QuitAction

/-- The method `Action::isValid` for the pattern `quit\s*$`. -/
def isValid (line : List Char) : Bool := matchCommand "quit".data line

/-- The method `QuitAction::getName`. -/
def getName : String := "quit"

/-- The method `QuitAction::perform`. -/
def perform (_line : List Char) (state : State) : Except Abort (Bool × State) :=
  .ok (true, state.quit)

end QuitAction

namespace SaveGameAction

/-- The match of `std::regex_match` against `save\s+([A-Za-z0-9.]+)\s*$`
compiled with `icase`: the file name of group 1 if the whole line matches. -/
def matchLine (line : List Char) : Option (List Char) :=
  (matchWord "save".data line).bind fun r1 =>
  (skipSpaces r1).bind fun r2 =>
  let name := r2.takeWhile fun c => c.isAlphanum || c = '.'
  if name ≠ [] ∧ (r2.dropWhile fun c => c.isAlphanum || c = '.').all isSpace then some name
  else none

/-- The method `Action::isValid` for the save command. -/
def isValid (line : List Char) : Bool := (matchLine line).isSome

/-- The method `SaveGameAction::getName`. -/
def getName : String := "save"

/-- The method `SaveGameAction::perform`.  The call of `saveGame` writes a
file and its result chooses the message printed; the game state is only
read. -/
def perform (line : List Char) (state : State) : Except Abort (Bool × State) :=
  match matchLine line with
  | none => .error .assertion
  | some _ => .ok (false, state)

end SaveGameAction

namespace HelpAction

/-- The method `Action::isValid` for the pattern `help\s*$`. -/
def isValid (line : List Char) : Bool := matchCommand "help".data line

/-- The method `HelpAction::getName`. -/
def getName : String := "help"

/-- The method `HelpAction::perform`: prints the message. -/
def perform (_line : List Char) (state : State) : Except Abort (Bool × State) :=
  .ok (false, state)

end HelpAction

/-! ## Game.cpp -/

/-- Class `Game` with what its turn loop works on: the flag `running`, the
input `std::cin`, and the dictionary held by the `PlaceAction` of
`possibleActions`. -/
structure Game where
  running : Bool
  cin : IStream
  dictionary : Dictionary

namespace Game

/-- The static method `Game::promptInputOnly`: the line read and `std::cin`
afterwards. -/
def promptInputOnly (cin : IStream) : List Char × IStream :=
  if !cin.eofbit then cin.getline none '\n' else ([], cin)

/-- The method `Game::promptInput`: the line read, and the game with
`running = !std::cin.eof()`. -/
def promptInput (g : Game) : List Char × Game :=
  let r := promptInputOnly g.cin
  (r.1, { g with cin := r.2, running := !r.2.eofbit })

end Game

namespace PlaceAction

/-- The pattern `placeDoneExp`, `place\s+done\s*$` compiled with `icase`. -/
def matchPlaceDone (line : List Char) : Bool :=
  match (matchWord "place".data line).bind skipSpaces with
  | some rest => matchCommand "done".data rest
  | none => false

/-- The method `PlaceAction::promptInput`, which sets the flag `running` of
the game through the pointer it holds. -/
def promptInput (g : Game) : List Char × Game :=
  let r := Game.promptInputOnly g.cin
  (r.1, { g with cin := r.2, running := !r.2.eofbit })

/-- The loop of `PlaceAction::perform` that reads further place commands
until `place done` or the end of the input, on fuel. -/
def performLoop : Nat → Game → List Char → List TilePlacement →
    Except Abort (Game × List TilePlacement)
  | 0, g, line, placements =>
    if g.running && !matchPlaceDone line then .error .fuel else .ok (g, placements)
  | n + 1, g, line, placements =>
    if g.running && !matchPlaceDone line then
      if isValid line then
        match handlePlace line placements with
        | .error a => .error a
        | .ok (_, placements) =>
          let r := promptInput g
          performLoop n r.2 r.1 placements
      else
        let r := promptInput g
        performLoop n r.2 r.1 placements
    else .ok (g, placements)

/-- The method `PlaceAction::perform`: whether the turn ends, the game and
the game state afterwards.  The fuel of the loop is the length of the input
left, of which every further round takes a line. -/
def perform (line : List Char) (g : Game) (state : State) :
    Except Abort (Bool × Game × State) :=
  match handlePlace line [] with
  | .error a => .error a
  | .ok (_, placements) =>
    let r := promptInput g
    match performLoop (r.2.cin.rest.length + 1) r.2 r.1 placements with
    | .error a => .error a
    | .ok (g, placements) =>
      match isValidMove g.dictionary placements state with
      | (.aborted a, _) => .error a
      | (.rejected _, state) => .ok (false, g, state)
      | (.accepted playWord, state) =>
        match performMove placements state playWord with
        | .error a => .error a
        | .ok state => .ok (true, g, state)

end PlaceAction

/-- The classes derived from `Action`. -/
inductive Action where
  | pass
  | quit
  | save
  | replace
  | place
  | help
deriving DecidableEq, Repr

namespace Action

/-- The method `Action::isValid` of each class. -/
def isValid : Action → List Char → Bool
  | .pass, line => PassAction.isValid line
  | .quit, line => QuitAction.isValid line
  | .save, line => SaveGameAction.isValid line
  | .replace, line => ReplaceAction.isValid line
  | .place, line => PlaceAction.isValid line
  | .help, line => HelpAction.isValid line

/-- The virtual method `getName`. -/
def getName : Action → String
  | .pass => PassAction.getName
  | .quit => QuitAction.getName
  | .save => SaveGameAction.getName
  | .replace => ReplaceAction.getName
  | .place => PlaceAction.getName
  | .help => HelpAction.getName

/-- The virtual method `perform`: whether the turn ends, the game and the
game state afterwards. -/
def perform (action : Action) (line : List Char) (g : Game) (state : State) :
    Except Abort (Bool × Game × State) :=
  match action with
  | .place => PlaceAction.perform line g state
  | .pass =>
    match PassAction.perform line state with
    | .error a => .error a
    | .ok (didEndTurn, state) => .ok (didEndTurn, g, state)
  | .quit =>
    match QuitAction.perform line state with
    | .error a => .error a
    | .ok (didEndTurn, state) => .ok (didEndTurn, g, state)
  | .save =>
    match SaveGameAction.perform line state with
    | .error a => .error a
    | .ok (didEndTurn, state) => .ok (didEndTurn, g, state)
  | .replace =>
    match ReplaceAction.perform line state with
    | .error a => .error a
    | .ok (didEndTurn, state) => .ok (didEndTurn, g, state)
  | .help =>
    match HelpAction.perform line state with
    | .error a => .error a
    | .ok (didEndTurn, state) => .ok (didEndTurn, g, state)

end Action

namespace Game

/-- The vector `possibleActions` in the order of the constructor. -/
def possibleActions : List Action := [.pass, .quit, .save, .replace, .place, .help]

/-- The method `Game::isGameOver`; `getPlayer(0)` and `getPlayer(1)` pass
their assertion and are the two players. -/
def isGameOver (g : Game) (state : State) : Bool :=
  !g.running || state.getBoard.isFull || state.getDidQuit ||
    (decide (state.getTileBag.getLength = 0) &&
      (decide (state.players.1.getNumTilesHeld = 0) ||
        decide (state.players.2.getNumTilesHeld = 0)))

/-- The loop of `runTurn` over `possibleActions`: the first action whose
pattern matches the line. -/
def findAction (nextCmd : List Char) : List Action → Option Action → Option Action
  | [], action => action
  | a :: rest, action =>
    if action.isNone then
      if a.isValid nextCmd then findAction nextCmd rest (some a)
      else findAction nextCmd rest action
    else action

/-- The loop of `Game::runTurn`, on fuel; `action` is `none` for
`nullptr`. -/
def runTurnLoop : Nat → Game → State → Option Action → Except Abort (Game × State)
  | 0, g, state, action =>
    if !g.isGameOver state && action.isNone then .error .fuel else .ok (g, state)
  | n + 1, g, state, action =>
    if !g.isGameOver state && action.isNone then
      let r := g.promptInput
      let nextCmd := r.1
      let g := r.2
      match findAction nextCmd possibleActions action with
      | none => runTurnLoop n g state none
      | some action =>
        if g.running then
          match action.perform nextCmd g state with
          | .error a => .error a
          | .ok (didEndTurn, g, state) =>
            match state.getCurrentPlayer with
            | .error a => .error a
            | .ok player =>
              let state := state.setCurrentPlayer (player.setLastAction action.getName)
              if !didEndTurn then runTurnLoop n g state none
              else runTurnLoop n g state (some action)
        else runTurnLoop n g state (some action)
    else .ok (g, state)

/-- The method `Game::runTurn`: the game and the game state afterwards.  The
text printed is left out.  The fuel of the loop is the length of the input
left, of which every round takes a line. -/
def runTurn (g : Game) (state : State) : Except Abort (Game × State) :=
  runTurnLoop (g.cin.rest.length + 1) g state none

/-- The loop of `Game::runGame`, on fuel. -/
def runGameLoop : Nat → Game → State → Except Abort (Game × State)
  | 0, g, state => if !g.isGameOver state then .error .fuel else .ok (g, state)
  | n + 1, g, state =>
    if !g.isGameOver state then
      match state.getCurrentPlayer with
      | .error a => .error a
      | .ok _ =>
        match runTurn g state with
        | .error a => .error a
        | .ok (g, state) => runGameLoop n g state.endCurrentTurn
    else .ok (g, state)

/-- The method `Game::runGame` with its assertions: the game and the game
state when the loop is left.  The text printed is left out. -/
def runGame (g : Game) (state : State) : Except Abort (Game × State) :=
  if state.getBoard.isFull then .error .assertion
  else if !g.running then .error .assertion
  else if state.getDidQuit then .error .assertion
  else if g.isGameOver state then .error .assertion
  else runGameLoop (g.cin.rest.length + 1) g state

end Game

namespace Examples

/-- A game with an empty bag in which Ann holds `A-1`, Bob holds `B-3`, and
nobody has acted yet. -/
def lateGame : State :=
  { board := emptyBoard, tileBag := ⟨[]⟩
    players := (ann a, { name := "Bob", score := 0, hand := ⟨[⟨'B', 3⟩]⟩, lastAction := "" })
    playerTurnIdx := 0, didQuit := false }

/-- The game `lateGame` after both players have passed once: Ann is to move
again. -/
def bothPassed : State :=
  { lateGame with
    players := ({ ann a with lastAction := "pass" },
      { name := "Bob", score := 0, hand := ⟨[⟨'B', 3⟩]⟩, lastAction := "pass" }) }

/-- A game at its start with the given input left on `std::cin`. -/
def session (input : String) : Game :=
  { running := true, cin := IStream.ofString input, dictionary := words }

end Examples

end Scrabble
namespace Scrabble

/-! ## The hand check of `isValidMove` on the free store

The copy constructor of `LinkedList` passes the `Tile*` of every node of the
hand to `addBack`, so the scratch copy of the player and the player share
their `Tile` objects.  Here the `Node` and `Tile` objects live in one store,
addressed by number; `new` takes the first unused address and `delete` clears
the cell.  `Node.cpp` defines a constructor and a copy constructor and no
destructor, so `delete` of a node releases that node alone; the unit test of
the copy constructor in `test.cpp` relies on this when it deletes the copy
and then clears the list copied, which reads every tile once more. -/

namespace Mem

/-- Class `Node`: the pointers `tile` (not null, by the assertion of the
constructor) and `next`. -/
structure Node where
  tile : Nat
  next : Option Nat
deriving DecidableEq, Repr

/-- The free store: `tiles[a]` is the `Tile` object at address `a` and
`nodes[a]` the `Node` object at address `a`, `none` once deleted. -/
structure Store where
  tiles : List (Option Tile)
  nodes : List (Option Node)
deriving DecidableEq, Repr

/-- The fields `head` and `length` of a `LinkedList` object. -/
structure LinkedList where
  head : Option Nat
  length : Int
deriving DecidableEq, Repr

namespace Store

/-- Reading through a `Tile*`; a dangling pointer has no tile behind it. -/
def tile (m : Store) (ptr : Nat) : Except Abort Tile :=
  match m.tiles.getD ptr none with
  | none => .error .outOfBounds
  | some t => .ok t

/-- Reading through a `Node*`; a null or dangling pointer has no node behind
it. -/
def node (m : Store) (ptr : Option Nat) : Except Abort Node :=
  match ptr with
  | none => .error .outOfBounds
  | some a =>
    match m.nodes.getD a none with
    | none => .error .outOfBounds
    | some node => .ok node

/-- The assignment `ptr->next = next`. -/
def setNext (m : Store) (ptr next : Option Nat) : Except Abort Store :=
  match ptr with
  | none => .error .outOfBounds
  | some a =>
    match m.nodes.getD a none with
    | none => .error .outOfBounds
    | some node => .ok { m with nodes := m.nodes.set a (some { node with next := next }) }

/-- The statement `delete tile` for a `Tile*` that is not null. -/
def deleteTile (m : Store) (ptr : Nat) : Except Abort Store :=
  match m.tiles.getD ptr none with
  | none => .error .outOfBounds
  | some _ => .ok { m with tiles := m.tiles.set ptr none }

end Store

namespace LinkedList

/-- The constructor `LinkedList::LinkedList()`. -/
def empty : LinkedList := { head := none, length := 0 }

/-- The method `LinkedList::getLength`. -/
def getLength (l : LinkedList) : Int := l.length

/-- Loop of `getNode`: `for (i = 0; i != index; i++) cur = cur->next`, with
`n` iterations left. -/
def getNodeLoop (m : Store) : Nat → Option Nat → Except Abort (Option Nat)
  | 0, cur => .ok cur
  | n + 1, cur =>
    match m.node cur with
    | .error a => .error a
    | .ok node => getNodeLoop m n node.next

/-- The method `LinkedList::getNode`. -/
def getNode (m : Store) (l : LinkedList) (index : Int) : Except Abort (Option Nat) :=
  if index < 0 ∨ index ≥ l.length then .error (.exception .outOfRange)
  else getNodeLoop m index.toNat l.head

/-- The method `LinkedList::get`: the pointer `getNode(index)->tile`. -/
def get (m : Store) (l : LinkedList) (index : Int) : Except Abort Nat :=
  match getNode m l index with
  | .error a => .error a
  | .ok ptr =>
    match m.node ptr with
    | .error a => .error a
    | .ok node => .ok node.tile

/-- The method `LinkedList::addBack` for a `Tile*` that is not null: the list
object and the store afterwards.  The new node points to the tile passed. -/
def addBack (m : Store) (l : LinkedList) (tile : Nat) : Except Abort (LinkedList × Store) :=
  let newNode := m.nodes.length
  let m1 : Store := { m with nodes := m.nodes ++ [some { tile := tile, next := none }] }
  if l.head = none then
    if ¬(l.length = 0) then .error .assertion
    else .ok ({ l with head := some newNode, length := l.length + 1 }, m1)
  else
    match getNode m1 l (l.length - 1) with
    | .error a => .error a
    | .ok oldTail =>
      match m1.node oldTail with
      | .error a => .error a
      | .ok node =>
        if ¬(node.next = none) then .error .assertion
        else
          match m1.setNext oldTail (some newNode) with
          | .error a => .error a
          | .ok m2 => .ok ({ l with length := l.length + 1 }, m2)

/-- The relinking step of `remove`. -/
def unlink (m : Store) (l : LinkedList) (index : Int) (removed : Option Nat) :
    Except Abort (LinkedList × Store) :=
  if index = 0 then
    if l.length > 1 then
      match getNode m l 1 with
      | .error a => .error a
      | .ok second => .ok ({ l with head := second }, m)
    else .ok ({ l with head := none }, m)
  else if index > 0 ∧ index < l.getLength then
    match getNode m l (index - 1) with
    | .error a => .error a
    | .ok prev =>
      match m.node removed with
      | .error a => .error a
      | .ok node =>
        match m.setNext prev node.next with
        | .error a => .error a
        | .ok m1 => .ok (l, m1)
  else .ok (l, m)

/-- The method `LinkedList::remove`: the pointer to the new copy of the tile,
the list object and the store afterwards.  The node is deleted; the tile it
pointed to is not. -/
def remove (m : Store) (l : LinkedList) (index : Int) :
    Except Abort (Nat × LinkedList × Store) :=
  match getNode m l index with
  | .error a => .error a
  | .ok removed =>
    match unlink m l index removed with
    | .error a => .error a
    | .ok (l1, m1) =>
      let l2 : LinkedList := { l1 with length := l1.length - 1 }
      if ¬(l2.length ≥ 0) then .error .assertion
      else
        match m1.node removed with
        | .error a => .error a
        | .ok node =>
          match m1.tile node.tile with
          | .error a => .error a
          | .ok t =>
            match Tile.copy t with
            | .error a => .error a
            | .ok copied =>
              let result := m1.tiles.length
              let m2 : Store := { m1 with tiles := m1.tiles ++ [some copied] }
              match removed with
              | none => .error .outOfBounds
              | some a => .ok (result, l2, { m2 with nodes := m2.nodes.set a none })

/-- Loop of `clear`: `while (getLength() > 0) delete remove(0)`, on fuel. -/
def clearLoop : Nat → Store → LinkedList → Except Abort (LinkedList × Store)
  | 0, m, l => if l.getLength > 0 then .error .fuel else .ok (l, m)
  | n + 1, m, l =>
    if l.getLength > 0 then
      match remove m l 0 with
      | .error a => .error a
      | .ok (tile, l1, m1) =>
        match m1.deleteTile tile with
        | .error a => .error a
        | .ok m2 => clearLoop n m2 l1
    else .ok (l, m)

/-- The method `LinkedList::clear`; the fuel is the length, which every
iteration lowers by one. -/
def clear (m : Store) (l : LinkedList) : Except Abort (LinkedList × Store) :=
  clearLoop l.length.toNat m l

/-- Loop of the copy constructor: `for (i = 0; i < other.getLength(); i++)
this->addBack(other.get(i))`, with `n` iterations left. -/
def copyLoop (other : LinkedList) : Nat → Nat → Store → LinkedList →
    Except Abort (LinkedList × Store)
  | 0, _, m, this => .ok (this, m)
  | n + 1, i, m, this =>
    match get m other (i : Int) with
    | .error a => .error a
    | .ok tile =>
      match addBack m this tile with
      | .error a => .error a
      | .ok (this1, m1) => copyLoop other n (i + 1) m1 this1

/-- The copy constructor `LinkedList::LinkedList(LinkedList&)` with its
assertion: the new list object and the store afterwards. -/
def copy (m : Store) (other : LinkedList) : Except Abort (LinkedList × Store) :=
  match copyLoop other other.getLength.toNat 0 m empty with
  | .error a => .error a
  | .ok (this, m1) =>
    if ¬(this.getLength = other.getLength) then .error .assertion else .ok (this, m1)

/-- The tiles behind `n` nodes from `cur` on. -/
def readLoop (m : Store) : Nat → Option Nat → Except Abort (List Tile)
  | 0, _ => .ok []
  | n + 1, cur =>
    match m.node cur with
    | .error a => .error a
    | .ok node =>
      match m.tile node.tile with
      | .error a => .error a
      | .ok t =>
        match readLoop m n node.next with
        | .error a => .error a
        | .ok ts => .ok (t :: ts)

/-- The sequence of tiles that the list object holds in the store. -/
def read (m : Store) (l : LinkedList) : Except Abort Scrabble.LinkedList :=
  match readLoop m l.length.toNat l.head with
  | .error a => .error a
  | .ok ts => .ok ⟨ts⟩

end LinkedList

/-- The fields of a `PlayerState` object; `hand` is the list object behind
the pointer. -/
structure PlayerState where
  name : String
  score : Int
  hand : LinkedList
  lastAction : String
deriving DecidableEq, Repr

namespace PlayerState

/-- The constructor `PlayerState::PlayerState(name, score, hand)`. -/
def new (name : String) (score : Int) (hand : LinkedList) : Except Abort PlayerState :=
  if !Scrabble.PlayerState.isValidPlayerName name then .error (.exception .invalidArgument)
  else if score < 0 then .error (.exception .invalidArgument)
  else .ok { name := name, score := score, hand := hand, lastAction := "" }

/-- The copy constructor `PlayerState::PlayerState(PlayerState&)`. -/
def copy (m : Store) (state : PlayerState) : Except Abort (PlayerState × Store) :=
  match LinkedList.copy m state.hand with
  | .error a => .error a
  | .ok (hand, m1) =>
    match PlayerState.new state.name state.score hand with
    | .error a => .error a
    | .ok p => .ok (p, m1)

/-- Loop of `removeTile`, with `n` iterations left. -/
def removeTileLoop (m : Store) (hand : LinkedList) (letter : Letter) :
    Nat → Nat → Except Abort (Option Nat × LinkedList × Store)
  | 0, _ => .ok (none, hand, m)
  | n + 1, i =>
    match LinkedList.get m hand (i : Int) with
    | .error a => .error a
    | .ok ptr =>
      match m.tile ptr with
      | .error a => .error a
      | .ok t =>
        if t.letter = letter then
          match LinkedList.remove m hand (i : Int) with
          | .error a => .error a
          | .ok (result, hand1, m1) => .ok (some result, hand1, m1)
        else removeTileLoop m hand letter n (i + 1)

/-- The method `PlayerState::removeTile`: the pointer returned (`none` for
`nullptr`), the player and the store afterwards. -/
def removeTile (m : Store) (p : PlayerState) (letter : Letter) :
    Except Abort (Option Nat × PlayerState × Store) :=
  match removeTileLoop m p.hand letter p.hand.getLength.toNat 0 with
  | .error a => .error a
  | .ok (result, hand1, m1) => .ok (result, { p with hand := hand1 }, m1)

/-- The statement `delete playerCopy`: the destructor of `PlayerState`
deletes the hand, whose destructor calls `clear`. -/
def delete (m : Store) (p : PlayerState) : Except Abort Store :=
  match LinkedList.clear m p.hand with
  | .error a => .error a
  | .ok (_, m1) => .ok m1

/-- The player that the object shows in the store. -/
def read (m : Store) (p : PlayerState) : Except Abort Scrabble.PlayerState :=
  match p.hand.read m with
  | .error a => .error a
  | .ok hand => .ok { name := p.name, score := p.score, hand := hand, lastAction := p.lastAction }

end PlayerState

/-- The fields of a `BoardState` object: the grid holds `Tile*`, `none` for
`nullptr`. -/
structure BoardState where
  rows : Int
  cols : Int
  tiles : List (List (Option Nat))
deriving DecidableEq, Repr

namespace BoardState

/-- The tiles behind the pointers of one row of the grid. -/
def readRow (m : Store) : List (Option Nat) → Except Abort (List (Option Tile))
  | [] => .ok []
  | none :: rest =>
    match readRow m rest with
    | .error a => .error a
    | .ok ts => .ok (none :: ts)
  | some ptr :: rest =>
    match m.tile ptr with
    | .error a => .error a
    | .ok t =>
      match readRow m rest with
      | .error a => .error a
      | .ok ts => .ok (some t :: ts)

/-- The tiles behind the pointers of the grid. -/
def readGrid (m : Store) : List (List (Option Nat)) → Except Abort (List (List (Option Tile)))
  | [] => .ok []
  | row :: rest =>
    match readRow m row with
    | .error a => .error a
    | .ok r =>
      match readGrid m rest with
      | .error a => .error a
      | .ok rs => .ok (r :: rs)

/-- The board that the object shows in the store. -/
def read (m : Store) (b : BoardState) : Except Abort Scrabble.BoardState :=
  match readGrid m b.tiles with
  | .error a => .error a
  | .ok tiles => .ok { rows := b.rows, cols := b.cols, tiles := tiles }

end BoardState

/-- The fields of a `State` object, with the objects behind its pointers. -/
structure State where
  board : BoardState
  tileBag : LinkedList
  players : PlayerState × PlayerState
  playerTurnIdx : Int
  didQuit : Bool
deriving DecidableEq, Repr

namespace State

/-- The method `State::getCurrentPlayer`, with its assertion. -/
def getCurrentPlayer (s : State) : Except Abort PlayerState :=
  if s.playerTurnIdx = 0 then .ok s.players.1
  else if s.playerTurnIdx = 1 then .ok s.players.2
  else .error .assertion

/-- The game state that the object shows in the store. -/
def read (m : Store) (s : State) : Except Abort Scrabble.State :=
  match s.board.read m with
  | .error a => .error a
  | .ok board =>
    match s.tileBag.read m with
    | .error a => .error a
    | .ok tileBag =>
      match s.players.1.read m with
      | .error a => .error a
      | .ok player1 =>
        match s.players.2.read m with
        | .error a => .error a
        | .ok player2 =>
          .ok { board := board, tileBag := tileBag, players := (player1, player2)
                playerTurnIdx := s.playerTurnIdx, didQuit := s.didQuit }

end State

end Mem

namespace PlaceAction

/-- The stages of `isValidMove` after the hand check, which read the board
through `getBoard`: positions, adjacency, one line, the word and the
dictionary. -/
def boardChecks (dictionary : Dictionary) (placements : List TilePlacement)
    (state : State) : MoveResult × State :=
  match positionLoop state.getBoard placements with
  | some e => (.rejected e, state)
  | none =>
    if !state.getBoard.isEmpty && !adjacentLoop state.getBoard placements false then
      (.rejected .noAdjacentTiles, state)
    else
      match placements with
      | [] => (.aborted .outOfBounds, state)
      | firstPlacement :: rest =>
        let flags := sameLineLoop firstPlacement rest (true, true)
        if !flags.1 && !flags.2 then (.rejected .notSameRowOrColumn, state)
        else
          match getIncludedPositions state placements with
          | .error a => (.aborted a, state)
          | .ok placeRect =>
            match wordLoop state.getBoard placements placeRect "" with
            | .error .blank => (.rejected .blankSpace, state)
            | .error (.abort a) => (.aborted a, state)
            | .ok placeWord =>
              if !dictionary.contains placeWord then
                (.rejected (.notInDictionary placeWord), state)
              else (.accepted placeWord, state)

end PlaceAction

namespace Mem

/-- First loop of `isValidMove` on the store: `removeTile` on the scratch copy
for each placement; at the first `nullptr` the copy is deleted and the letter
reported. -/
def handLoop : Store → PlayerState → List TilePlacement →
    Except Abort (Option Letter × Store)
  | m, _, [] => .ok (none, m)
  | m, playerCopy, p :: rest =>
    match playerCopy.removeTile m p.letter with
    | .error a => .error a
    | .ok (none, playerCopy1, m1) =>
      match playerCopy1.delete m1 with
      | .error a => .error a
      | .ok m2 => .ok (some p.letter, m2)
    | .ok (some _, playerCopy1, m1) => handLoop m1 playerCopy1 rest

/-- The method `PlaceAction::isValidMove` on the store: the outcome and the
store when the call ends.  The call assigns to no field of the `State`,
`PlayerState`, `BoardState` and `LinkedList` objects of the game, on which it
calls reading methods only; what it allocates, writes and deletes are the
scratch copy, nodes and tiles.  The stages after the hand check read the game
state that the store shows.  When a step aborts, the store given is the one
before that step. -/
def isValidMove (dictionary : Dictionary) (placements : List TilePlacement)
    (state : State) (m : Store) : MoveResult × Store :=
  match state.getCurrentPlayer with
  | .error a => (.aborted a, m)
  | .ok player =>
    match player.copy m with
    | .error a => (.aborted a, m)
    | .ok (playerCopy, m1) =>
      match handLoop m1 playerCopy placements with
      | .error a => (.aborted a, m1)
      | .ok (some letter, m2) => (.rejected (.missingTile letter), m2)
      | .ok (none, m2) =>
        match state.read m2 with
        | .error a => (.aborted a, m2)
        | .ok shown => ((PlaceAction.boardChecks dictionary placements shown).1, m2)

/-- The nodes at the addresses `as` point to the tiles at `ps`, each linked
to the next and the last one to `nullptr`. -/
def chain (nodes : List (Option Node)) : List Nat → List Nat → Prop
  | [], [] => True
  | a :: as, p :: ps => nodes.getD a none = some { tile := p, next := as.head? } ∧ chain nodes as ps
  | _, _ => False

/-- The list object `l` holds the constructed tiles `xs` in the store `m`,
in the nodes at `as`, which point to the tiles at `ps`. -/
def Store.holdsAt (m : Store) (l : LinkedList) (as ps : List Nat) (xs : List Tile) : Prop :=
  l.length = as.length ∧ as.Nodup ∧ l.head = as.head? ∧ chain m.nodes as ps ∧
    ps.map (fun p => m.tiles.getD p none) = xs.map some ∧ ∀ t ∈ xs, t.valid

/-- The list object `l` holds the constructed tiles `xs` in the store `m`. -/
def Store.holds (m : Store) (l : LinkedList) (xs : List Tile) : Prop :=
  ∃ as ps : List Nat, m.holdsAt l as ps xs

/-- The player object shows the player `v` in the store. -/
def PlayerState.shows (p : PlayerState) (m : Store) (v : Scrabble.PlayerState) : Prop :=
  p.name = v.name ∧ p.score = v.score ∧ p.lastAction = v.lastAction ∧
    m.holds p.hand v.hand.nodes

/-- The state object shows the game state `v` in the store: the board in
every cell, the bag, and name, score and hand of both players. -/
def State.shows (s : State) (m : Store) (v : Scrabble.State) : Prop :=
  s.board.read m = .ok v.board ∧ m.holds s.tileBag v.tileBag.nodes ∧
    s.players.1.shows m v.players.1 ∧ s.players.2.shows m v.players.2 ∧
    s.playerTurnIdx = v.playerTurnIdx ∧ s.didQuit = v.didQuit

end Mem

end Scrabble
namespace Scrabble

namespace Examples

/-- A store with the tiles `A-1` and `T-1` and the two nodes of a hand that
holds them. -/
def storeAT : Mem.Store :=
  { tiles := [some ⟨'A', 1⟩, some ⟨'T', 1⟩]
    nodes := [some { tile := 0, next := some 1 }, some { tile := 1, next := none }] }

/-- The state object of the game `game emptyBoard handAT` in `storeAT`: Ann
to move, her hand in the nodes 0 and 1. -/
def gameAT : Mem.State :=
  { board := { rows := 3, cols := 5, tiles := List.replicate 3 (List.replicate 5 none) }
    tileBag := { head := none, length := 0 }
    players :=
      ({ name := "Ann", score := 0, hand := { head := some 0, length := 2 }, lastAction := "" },
        { name := "Bob", score := 0, hand := { head := none, length := 0 }, lastAction := "" })
    playerTurnIdx := 0
    didQuit := false }

end Examples

end Scrabble
/-! # Theorems -/

namespace Scrabble

theorem LinkedList.get_natCast (xs : List Tile) (i : Nat) :
    LinkedList.get ⟨xs⟩ (i : Int) =
      match xs[i]? with
      | some t => .ok t
      | none => .error .outOfRange := by
  unfold LinkedList.get LinkedList.getLength
  by_cases h : i < xs.length
  · have : ¬((i : Int) < 0 ∨ (i : Int) ≥ ((xs.length : Nat) : Int)) := by omega
    rw [if_neg this]
    simp
  · have h1 : ((i : Int) < 0 ∨ (i : Int) ≥ ((xs.length : Nat) : Int)) := by omega
    have h2 : xs[i]? = none := List.getElem?_eq_none (by omega)
    rw [if_pos h1, h2]

theorem LinkedList.copyLoop_eq (xs : List Tile) :
    ∀ (n i : Nat) (acc : LinkedList), i + n = xs.length → acc.nodes = xs.take i →
      LinkedList.copyLoop ⟨xs⟩ n i acc = .ok ⟨xs⟩ := by
  intro n
  induction n with
  | zero =>
    intro i acc hi hacc
    have : i = xs.length := by omega
    subst this
    simp only [LinkedList.copyLoop]
    rw [List.take_length] at hacc
    cases acc
    simp_all
  | succ n ih =>
    intro i acc hi hacc
    have hlt : i < xs.length := by omega
    simp only [LinkedList.copyLoop, LinkedList.get_natCast, List.getElem?_eq_getElem hlt]
    apply ih (i + 1) _ (by omega)
    show acc.nodes ++ [xs[i]] = List.take (i + 1) xs
    rw [hacc, List.take_succ, List.getElem?_eq_getElem hlt]
    rfl

theorem LinkedList.copy_eq (l : LinkedList) : LinkedList.copy l = .ok l := by
  cases l with
  | mk xs => exact LinkedList.copyLoop_eq xs xs.length 0 LinkedList.empty (by simp) (by simp [LinkedList.empty])

end Scrabble

namespace Scrabble

theorem PlayerState.removeTileLoop_spec (letter : Letter) :
    ∀ (post pre : List Tile), (∀ u ∈ pre, u.letter ≠ letter) →
      (PlayerState.removeTileLoop ⟨pre ++ post⟩ letter post.length pre.length
          = .ok (none, ⟨pre ++ post⟩) ∧ ∀ u ∈ pre ++ post, u.letter ≠ letter) ∨
      (∃ a t b, pre ++ post = a ++ t :: b ∧ t.letter = letter ∧
        (∀ u ∈ a, u.letter ≠ letter) ∧
        PlayerState.removeTileLoop ⟨pre ++ post⟩ letter post.length pre.length
          = .ok (some t, ⟨a ++ b⟩)) := by
  intro post
  induction post with
  | nil =>
    intro pre hpre
    left
    refine ⟨by simp [PlayerState.removeTileLoop], ?_⟩
    simpa using hpre
  | cons t post ih =>
    intro pre hpre
    have hget : (pre ++ t :: post)[pre.length]? = some t := by
      rw [List.getElem?_append_right (Nat.le_refl _)]
      simp
    have herase : (pre ++ t :: post).eraseIdx pre.length = pre ++ post := by
      rw [List.eraseIdx_append_of_length_le (Nat.le_refl _)]
      simp
    by_cases ht : t.letter = letter
    · right
      refine ⟨pre, t, post, rfl, ht, hpre, ?_⟩
      simp only [List.length_cons, PlayerState.removeTileLoop, LinkedList.get_natCast, hget,
        if_pos ht, LinkedList.remove, Int.toNat_ofNat, herase]
    · have hpre' : ∀ u ∈ pre ++ [t], u.letter ≠ letter := by
        intro u hu
        rcases List.mem_append.1 hu with h | h
        · exact hpre u h
        · simp at h; subst h; exact ht
      have hstep : PlayerState.removeTileLoop ⟨pre ++ t :: post⟩ letter (t :: post).length pre.length
          = PlayerState.removeTileLoop ⟨(pre ++ [t]) ++ post⟩ letter post.length (pre ++ [t]).length := by
        simp only [List.length_cons, PlayerState.removeTileLoop, LinkedList.get_natCast, hget,
          if_neg ht]
        simp
      have happ : pre ++ t :: post = (pre ++ [t]) ++ post := by simp
      rw [hstep]
      rw [happ]
      exact ih (pre ++ [t]) hpre'

theorem PlayerState.removeTile_spec (p : PlayerState) (letter : Letter) :
    (p.removeTile letter = .ok (none, p) ∧ ∀ u ∈ p.hand.nodes, u.letter ≠ letter) ∨
    (∃ a t b, p.hand.nodes = a ++ t :: b ∧ t.letter = letter ∧
      (∀ u ∈ a, u.letter ≠ letter) ∧
      p.removeTile letter = .ok (some t, { p with hand := ⟨a ++ b⟩ })) := by
  have h := PlayerState.removeTileLoop_spec letter p.hand.nodes [] (by simp)
  simp only [List.nil_append, List.length_nil] at h
  unfold PlayerState.removeTile
  rcases h with ⟨h1, h2⟩ | ⟨a, t, b, h1, h2, h3, h4⟩
  · left
    refine ⟨?_, h2⟩
    rw [h1]
  · right
    refine ⟨a, t, b, h1, h2, h3, ?_⟩
    rw [h4]

end Scrabble

namespace Scrabble
open PlaceAction

theorem PlaceAction.handLoop_spec :
    ∀ (ps : List TilePlacement) (p : PlayerState),
      ∃ r, handLoop p ps = .ok r ∧
        (r = none ↔ ¬ Checks.handFails p.hand ps) ∧
        (∀ l, r = some l → ∃ pre q post, ps = pre ++ q :: post ∧ q.letter = l ∧
          ¬ Checks.handFails p.hand pre ∧
          (p.hand.nodes.map Tile.letter).count l ≤ (pre.map TilePlacement.letter).count l) := by
  intro ps
  induction ps with
  | nil =>
    intro p
    refine ⟨none, rfl, ?_, ?_⟩
    · simp [Checks.handFails]
    · intro l h; cases h
  | cons q rest ih =>
    intro p
    rcases PlayerState.removeTile_spec p q.letter with ⟨h1, h2⟩ | ⟨a, t, b, h1, h2, h3, h4⟩
    · refine ⟨some q.letter, by simp [handLoop, h1], ?_, ?_⟩
      · have hc : (p.hand.nodes.map Tile.letter).count q.letter = 0 := by
          rw [List.count_eq_zero]
          intro hmem
          rcases List.mem_map.1 hmem with ⟨u, hu, hul⟩
          exact h2 u hu hul
        constructor
        · intro h; cases h
        · intro h
          exfalso
          apply h
          refine ⟨q.letter, ?_⟩
          rw [hc]
          simp
      · intro l hl
        cases hl
        refine ⟨[], q, rest, rfl, rfl, ?_, ?_⟩
        · simp [Checks.handFails]
        · have hc : (p.hand.nodes.map Tile.letter).count q.letter = 0 := by
            rw [List.count_eq_zero]
            intro hmem
            rcases List.mem_map.1 hmem with ⟨u, hu, hul⟩
            exact h2 u hu hul
          rw [hc]
          simp
    · obtain ⟨r, hr, hnone, hsome⟩ := ih { p with hand := ⟨a ++ b⟩ }
      have hcount : ∀ c : Letter, (p.hand.nodes.map Tile.letter).count c =
          ((a ++ b).map Tile.letter).count c + (if q.letter = c then 1 else 0) := by
        intro c
        rw [h1]
        simp only [List.map_append, List.map_cons, List.count_append, List.count_cons, h2]
        simp only [beq_iff_eq]
        omega
      have hfail : ∀ (xs : List TilePlacement),
          Checks.handFails ⟨a ++ b⟩ xs ↔ Checks.handFails p.hand (q :: xs) := by
        intro xs
        unfold Checks.handFails
        constructor
        · rintro ⟨c, hc⟩
          refine ⟨c, ?_⟩
          rw [hcount c]
          simp only [List.map_cons, List.count_cons, beq_iff_eq]
          simp only at hc
          omega
        · rintro ⟨c, hc⟩
          refine ⟨c, ?_⟩
          rw [hcount c] at hc
          simp only [List.map_cons, List.count_cons, beq_iff_eq] at hc
          simp only
          omega
      refine ⟨r, by simp [handLoop, h4, hr], ?_, ?_⟩
      · rw [hnone, hfail]
      · intro l hl
        obtain ⟨pre, q', post, hps, hq', hpre, hcnt⟩ := hsome l hl
        refine ⟨q :: pre, q', post, by simp [hps], hq', ?_, ?_⟩
        · rw [← hfail]; exact hpre
        · rw [hcount l]
          simp only [List.map_cons, List.count_cons, beq_iff_eq]
          simp only at hcnt
          omega

end Scrabble

namespace Scrabble
open PlaceAction

theorem PlaceAction.positionLoop_none (board : BoardState) :
    ∀ ps : List TilePlacement,
      positionLoop board ps = none ↔ ¬ Checks.positionFails board ps := by
  intro ps
  induction ps with
  | nil => simp [positionLoop, Checks.positionFails]
  | cons p rest ih =>
    unfold positionLoop
    by_cases h1 : board.tileExists p.rowIdx p.colIdx = true
    · simp only [h1, if_true]
      constructor
      · intro h; cases h
      · intro h; exact absurd ⟨p, List.mem_cons_self _ _, Or.inr h1⟩ h
    · by_cases h2 : board.isValidPosition p.rowIdx p.colIdx = true
      · simp only [h1, h2, Bool.not_true, if_false, Bool.false_eq_true]
        rw [ih]
        unfold Checks.positionFails
        constructor
        · rintro h ⟨x, hx, hx'⟩
          rcases List.mem_cons.1 hx with rfl | hx
          · rcases hx' with hx' | hx'
            · rw [h2] at hx'; cases hx'
            · exact h1 hx'
          · exact h ⟨x, hx, hx'⟩
        · rintro h ⟨x, hx, hx'⟩
          exact h ⟨x, List.mem_cons_of_mem _ hx, hx'⟩
      · have h2' : board.isValidPosition p.rowIdx p.colIdx = false := by
          simpa using h2
        simp only [h1, h2', Bool.not_false, if_true, if_false, Bool.false_eq_true]
        constructor
        · intro h; cases h
        · intro h; exact absurd ⟨p, List.mem_cons_self _ _, Or.inl h2'⟩ h

theorem PlaceAction.positionLoop_first (board : BoardState) :
    ∀ (pre : List TilePlacement) (p : TilePlacement) (post : List TilePlacement),
      ¬ Checks.positionFails board pre →
      (board.tileExists p.rowIdx p.colIdx = true →
        positionLoop board (pre ++ p :: post) = some .tileAlreadyExists) ∧
      (board.isValidPosition p.rowIdx p.colIdx = false →
        positionLoop board (pre ++ p :: post) = some .positionDoesNotExist) := by
  intro pre
  induction pre with
  | nil =>
    intro p post _
    constructor
    · intro h
      simp [positionLoop, h]
    · intro h
      have h1 : board.tileExists p.rowIdx p.colIdx = false := by
        simp [BoardState.tileExists, h]
      simp [positionLoop, h, h1]
  | cons x pre ih =>
    intro p post hpre
    have hx1 : board.tileExists x.rowIdx x.colIdx = false := by
      by_contra hc
      exact hpre ⟨x, List.mem_cons_self _ _, Or.inr (by simpa using hc)⟩
    have hx2 : board.isValidPosition x.rowIdx x.colIdx = true := by
      by_contra hc
      exact hpre ⟨x, List.mem_cons_self _ _, Or.inl (by simpa using hc)⟩
    have hpre' : ¬ Checks.positionFails board pre := by
      rintro ⟨y, hy, hy'⟩
      exact hpre ⟨y, List.mem_cons_of_mem _ hy, hy'⟩
    have hstep : positionLoop board ((x :: pre) ++ p :: post)
        = positionLoop board (pre ++ p :: post) := by
      simp [positionLoop, hx1, hx2]
    rw [hstep]
    exact ih p post hpre'

theorem PlaceAction.positionLoop_kind (board : BoardState) :
    ∀ (ps : List TilePlacement) (e : MoveError), positionLoop board ps = some e →
      e = .tileAlreadyExists ∨ e = .positionDoesNotExist := by
  intro ps
  induction ps with
  | nil => intro e h; simp [positionLoop] at h
  | cons p rest ih =>
    intro e h
    unfold positionLoop at h
    split at h
    · left; cases h; rfl
    · split at h
      · right; cases h; rfl
      · exact ih e h

theorem BoardState.tileIsAdjacentTo_iff (board : BoardState) (r c : Int) :
    board.tileIsAdjacentTo r c = true ↔
      board.isValidPosition r c = true ∧ Checks.hasNeighbour board r c := by
  simp [BoardState.tileIsAdjacentTo, Checks.hasNeighbour, or_assoc]

theorem PlaceAction.adjacentLoop_true (board : BoardState) :
    ∀ ps : List TilePlacement, adjacentLoop board ps true = true := by
  intro ps
  cases ps <;> simp [adjacentLoop]

theorem PlaceAction.adjacentLoop_iff (board : BoardState) :
    ∀ ps : List TilePlacement,
      adjacentLoop board ps false = true ↔
        ∃ p ∈ ps, board.tileIsAdjacentTo p.rowIdx p.colIdx = true := by
  intro ps
  induction ps with
  | nil => simp [adjacentLoop]
  | cons p rest ih =>
    simp only [adjacentLoop, Bool.not_false, if_true]
    by_cases h : board.tileIsAdjacentTo p.rowIdx p.colIdx = true
    · rw [h, PlaceAction.adjacentLoop_true]
      simp [h]
    · have h' : board.tileIsAdjacentTo p.rowIdx p.colIdx = false := by simpa using h
      rw [h', ih]
      simp [h']

theorem BoardState.isEmpty_iff (board : BoardState) :
    board.isEmpty = true ↔ ∀ r c : Int, board.tileExists r c = false := by
  unfold BoardState.isEmpty
  simp only [List.all_eq_true, List.mem_range]
  constructor
  · intro h r c
    by_cases hv : board.isValidPosition r c = true
    · have hv' := hv
      simp only [BoardState.isValidPosition, Bool.and_eq_true, decide_eq_true_eq] at hv'
      obtain ⟨⟨⟨h1, h2⟩, h3⟩, h4⟩ := hv'
      have := h r.toNat (by omega) c.toNat (by omega)
      rw [Int.toNat_of_nonneg h1, Int.toNat_of_nonneg h3] at this
      simp only [BoardState.tileExists, hv, Bool.true_and]
      cases hcell : board.cell r c with
      | none => rfl
      | some t => rw [hcell] at this; simp at this
    · have hv' : board.isValidPosition r c = false := by simpa using hv
      simp [BoardState.tileExists, hv']
  · intro h row hrow col hcol
    have hv : board.isValidPosition (row : Int) (col : Int) = true := by
      simp only [BoardState.isValidPosition, Bool.and_eq_true, decide_eq_true_eq]
      omega
    have := h (row : Int) (col : Int)
    simp only [BoardState.tileExists, hv, Bool.true_and] at this
    cases hcell : board.cell (row : Int) (col : Int) with
    | none => rfl
    | some t => rw [hcell] at this; simp at this

theorem PlaceAction.sameLineLoop_stuck (first : TilePlacement) :
    ∀ rest : List TilePlacement, sameLineLoop first rest (false, false) = (false, false) := by
  intro rest
  cases rest <;> simp [sameLineLoop]

theorem PlaceAction.sameLineLoop_iff (first : TilePlacement) :
    ∀ (rest : List TilePlacement) (a b : Bool), (a || b) = true →
      (((!(sameLineLoop first rest (a, b)).1 && !(sameLineLoop first rest (a, b)).2) = true) ↔
        ∃ p ∈ rest, p.rowIdx ≠ first.rowIdx ∧ p.colIdx ≠ first.colIdx) := by
  intro rest
  induction rest with
  | nil =>
    intro a b hab
    cases a <;> cases b <;> simp_all [sameLineLoop]
  | cons p rest ih =>
    intro a b hab
    simp only [sameLineLoop, hab, if_true]
    by_cases hr : p.rowIdx = first.rowIdx
    · rw [ih _ _ (by simp [hr])]
      simp [hr]
    · by_cases hc : p.colIdx = first.colIdx
      · rw [ih _ _ (by simp [hc])]
        simp [hc]
      · simp only [hr, hc, decide_False, PlaceAction.sameLineLoop_stuck]
        simp [hr, hc]

end Scrabble

namespace Scrabble
open PlaceAction

theorem run_mem (dr dc : Int) :
    ∀ (n : Nat) (r c : Int) (q : TilePlacement),
      q ∈ run dr dc n r c ↔ ∃ j : Nat, j ≤ n ∧ q = ⟨'_', r + j * dr, c + j * dc⟩ := by
  intro n
  induction n with
  | zero =>
    intro r c q
    simp [run]
  | succ n ih =>
    intro r c q
    simp only [run, List.mem_cons, ih]
    constructor
    · rintro (h | ⟨j, hj, h⟩)
      · exact ⟨0, by omega, by simp [h]⟩
      · refine ⟨j + 1, by omega, ?_⟩
        rw [h]
        congr 1 <;> push_cast <;> ring
    · rintro ⟨j, hj, h⟩
      cases j with
      | zero => left; simp [h]
      | succ j =>
        right
        refine ⟨j, by omega, ?_⟩
        rw [h]
        congr 1 <;> push_cast <;> ring

theorem PlaceAction.walkLoop_run (dr dc : Int) (hd : (dr = 0 ∧ dc = 1) ∨ (dr = 1 ∧ dc = 0)) :
    ∀ (n : Nat) (r c : Int) (acc : List TilePlacement),
      walkLoop dr dc (r + n * dr) (c + n * dc) n r c (acc ++ [⟨'_', r, c⟩])
        = some (acc ++ run dr dc n r c) := by
  intro n
  induction n with
  | zero =>
    intro r c acc
    simp [walkLoop, run]
  | succ n ih =>
    intro r c acc
    have hne : r ≠ r + ((n + 1 : Nat) : Int) * dr ∨ c ≠ c + ((n + 1 : Nat) : Int) * dc := by
      rcases hd with ⟨h1, h2⟩ | ⟨h1, h2⟩
      · right; rw [h2]; push_cast; omega
      · left; rw [h1]; push_cast; omega
    simp only [walkLoop, ne_eq, hne, if_true]
    have e1 : r + ((n + 1 : Nat) : Int) * dr = (r + dr) + (n : Int) * dr := by push_cast; ring
    have e2 : c + ((n + 1 : Nat) : Int) * dc = (c + dc) + (n : Int) * dc := by push_cast; ring
    rw [e1, e2, ih (r + dr) (c + dc) (acc ++ [(⟨'_', r, c⟩ : TilePlacement)])]
    simp [run]

theorem BoardState.tileExists_valid (board : BoardState) (r c : Int)
    (h : board.tileExists r c = true) :
    0 ≤ r ∧ r < board.rows ∧ 0 ≤ c ∧ c < board.cols := by
  simp only [BoardState.tileExists, BoardState.isValidPosition, Bool.and_eq_true,
    decide_eq_true_eq] at h
  omega

theorem PlaceAction.extendMin_spec (board : BoardState) (dr dc : Int)
    (hd : (dr = 0 ∧ dc = 1) ∨ (dr = 1 ∧ dc = 0)) :
    ∀ (fuel : Nat) (r c : Int), (r + c).toNat ≤ fuel →
      ∃ a : Nat, extendMin board dr dc fuel r c = some (r - a * dr, c - a * dc) ∧
        (∀ j : Nat, 1 ≤ j → j ≤ a → board.tileExists (r - j * dr) (c - j * dc) = true) ∧
        board.tileExists (r - (a + 1 : Nat) * dr) (c - (a + 1 : Nat) * dc) = false := by
  intro fuel
  induction fuel with
  | zero =>
    intro r c hf
    have hno : board.tileExists (r - dr) (c - dc) = false := by
      by_contra hc
      have := board.tileExists_valid _ _ (by simpa using hc)
      rcases hd with ⟨h1, h2⟩ | ⟨h1, h2⟩ <;> omega
    refine ⟨0, by simp [extendMin, hno], ?_, by simpa using hno⟩
    intro j h1 h2; omega
  | succ fuel ih =>
    intro r c hf
    by_cases hex : board.tileExists (r - dr) (c - dc) = true
    · have hv := board.tileExists_valid _ _ hex
      obtain ⟨a, ha1, ha2, ha3⟩ := ih (r - dr) (c - dc)
        (by rcases hd with ⟨h1, h2⟩ | ⟨h1, h2⟩ <;> omega)
      refine ⟨a + 1, ?_, ?_, ?_⟩
      · simp only [extendMin, hex, if_true, ha1]
        congr 2 <;> push_cast <;> ring
      · intro j h1 h2
        by_cases hj : j = 1
        · subst hj; simpa using hex
        · have := ha2 (j - 1) (by omega) (by omega)
          have e1 : r - dr - ((j - 1 : Nat) : Int) * dr = r - (j : Int) * dr := by
            have : ((j - 1 : Nat) : Int) = (j : Int) - 1 := by omega
            rw [this]; ring
          have e2 : c - dc - ((j - 1 : Nat) : Int) * dc = c - (j : Int) * dc := by
            have : ((j - 1 : Nat) : Int) = (j : Int) - 1 := by omega
            rw [this]; ring
          rw [e1, e2] at this
          exact this
      · have e1 : r - ((a + 1 + 1 : Nat) : Int) * dr = r - dr - ((a + 1 : Nat) : Int) * dr := by
          push_cast; ring
        have e2 : c - ((a + 1 + 1 : Nat) : Int) * dc = c - dc - ((a + 1 : Nat) : Int) * dc := by
          push_cast; ring
        rw [e1, e2]
        exact ha3
    · have hno : board.tileExists (r - dr) (c - dc) = false := by simpa using hex
      refine ⟨0, by simp [extendMin, hno], ?_, by simpa using hno⟩
      intro j h1 h2; omega

theorem PlaceAction.extendMax_spec (board : BoardState) (dr dc : Int)
    (hd : (dr = 0 ∧ dc = 1) ∨ (dr = 1 ∧ dc = 0)) :
    ∀ (fuel : Nat) (r c : Int), ((board.rows - r) + (board.cols - c)).toNat ≤ fuel →
      ∃ b : Nat, extendMax board dr dc fuel r c = some (r + b * dr, c + b * dc) ∧
        (∀ j : Nat, 1 ≤ j → j ≤ b → board.tileExists (r + j * dr) (c + j * dc) = true) ∧
        board.tileExists (r + (b + 1 : Nat) * dr) (c + (b + 1 : Nat) * dc) = false := by
  intro fuel
  induction fuel with
  | zero =>
    intro r c hf
    have hno : board.tileExists (r + dr) (c + dc) = false := by
      by_contra hc
      have := board.tileExists_valid _ _ (by simpa using hc)
      rcases hd with ⟨h1, h2⟩ | ⟨h1, h2⟩ <;> omega
    refine ⟨0, by simp [extendMax, hno], ?_, by simpa using hno⟩
    intro j h1 h2; omega
  | succ fuel ih =>
    intro r c hf
    by_cases hex : board.tileExists (r + dr) (c + dc) = true
    · have hv := board.tileExists_valid _ _ hex
      obtain ⟨b, hb1, hb2, hb3⟩ := ih (r + dr) (c + dc)
        (by rcases hd with ⟨h1, h2⟩ | ⟨h1, h2⟩ <;> omega)
      refine ⟨b + 1, ?_, ?_, ?_⟩
      · simp only [extendMax, hex, if_true, hb1]
        congr 2 <;> push_cast <;> ring
      · intro j h1 h2
        by_cases hj : j = 1
        · subst hj; simpa using hex
        · have := hb2 (j - 1) (by omega) (by omega)
          have e1 : r + dr + ((j - 1 : Nat) : Int) * dr = r + (j : Int) * dr := by
            have : ((j - 1 : Nat) : Int) = (j : Int) - 1 := by omega
            rw [this]; ring
          have e2 : c + dc + ((j - 1 : Nat) : Int) * dc = c + (j : Int) * dc := by
            have : ((j - 1 : Nat) : Int) = (j : Int) - 1 := by omega
            rw [this]; ring
          rw [e1, e2] at this
          exact this
      · have e1 : r + ((b + 1 + 1 : Nat) : Int) * dr = r + dr + ((b + 1 : Nat) : Int) * dr := by
          push_cast; ring
        have e2 : c + ((b + 1 + 1 : Nat) : Int) * dc = c + dc + ((b + 1 : Nat) : Int) * dc := by
          push_cast; ring
        rw [e1, e2]
        exact hb3
    · have hno : board.tileExists (r + dr) (c + dc) = false := by simpa using hex
      refine ⟨0, by simp [extendMax, hno], ?_, by simpa using hno⟩
      intro j h1 h2; omega

end Scrabble

namespace Scrabble
open PlaceAction

theorem PlaceAction.boxLoop_spec :
    ∀ (ps : List TilePlacement) (b : Box),
      ((boxLoop ps b).minRowIdx ≤ b.minRowIdx ∧ b.maxRowIdx ≤ (boxLoop ps b).maxRowIdx ∧
        (boxLoop ps b).minColIdx ≤ b.minColIdx ∧ b.maxColIdx ≤ (boxLoop ps b).maxColIdx) ∧
      (∀ p ∈ ps, (boxLoop ps b).minRowIdx ≤ p.rowIdx ∧ p.rowIdx ≤ (boxLoop ps b).maxRowIdx ∧
        (boxLoop ps b).minColIdx ≤ p.colIdx ∧ p.colIdx ≤ (boxLoop ps b).maxColIdx) ∧
      ((boxLoop ps b).minRowIdx = b.minRowIdx ∨ ∃ p ∈ ps, p.rowIdx = (boxLoop ps b).minRowIdx) ∧
      ((boxLoop ps b).maxRowIdx = b.maxRowIdx ∨ ∃ p ∈ ps, p.rowIdx = (boxLoop ps b).maxRowIdx) ∧
      ((boxLoop ps b).minColIdx = b.minColIdx ∨ ∃ p ∈ ps, p.colIdx = (boxLoop ps b).minColIdx) ∧
      ((boxLoop ps b).maxColIdx = b.maxColIdx ∨ ∃ p ∈ ps, p.colIdx = (boxLoop ps b).maxColIdx) := by
  intro ps
  induction ps with
  | nil =>
    intro b
    simp [boxLoop]
  | cons x rest ih =>
    intro b
    have key : ∃ b' : Box, boxLoop (x :: rest) b = boxLoop rest b' ∧
        ((b'.minRowIdx = x.rowIdx ∧ x.rowIdx < b.minRowIdx) ∨
          (b'.minRowIdx = b.minRowIdx ∧ b.minRowIdx ≤ x.rowIdx)) ∧
        ((b'.maxRowIdx = x.rowIdx ∧ x.rowIdx > b.maxRowIdx) ∨
          (b'.maxRowIdx = b.maxRowIdx ∧ b.maxRowIdx ≥ x.rowIdx)) ∧
        ((b'.minColIdx = x.colIdx ∧ x.colIdx < b.minColIdx) ∨
          (b'.minColIdx = b.minColIdx ∧ b.minColIdx ≤ x.colIdx)) ∧
        ((b'.maxColIdx = x.colIdx ∧ x.colIdx > b.maxColIdx) ∨
          (b'.maxColIdx = b.maxColIdx ∧ b.maxColIdx ≥ x.colIdx)) := by
      refine ⟨_, rfl, ?_, ?_, ?_, ?_⟩ <;> simp only <;> split_ifs <;> omega
    obtain ⟨b', hb', f1, f2, f3, f4⟩ := key
    rw [hb']
    obtain ⟨⟨h1, h2, h3, h4⟩, hall, a1, a2, a3, a4⟩ := ih b'
    have hbnd : (boxLoop rest b').minRowIdx ≤ b.minRowIdx ∧
        b.maxRowIdx ≤ (boxLoop rest b').maxRowIdx ∧
        (boxLoop rest b').minColIdx ≤ b.minColIdx ∧
        b.maxColIdx ≤ (boxLoop rest b').maxColIdx := by
      clear a1 a2 a3 a4 hall ih
      refine ⟨by omega, by omega, by omega, by omega⟩
    have hx : (boxLoop rest b').minRowIdx ≤ x.rowIdx ∧
        x.rowIdx ≤ (boxLoop rest b').maxRowIdx ∧
        (boxLoop rest b').minColIdx ≤ x.colIdx ∧
        x.colIdx ≤ (boxLoop rest b').maxColIdx := by
      clear a1 a2 a3 a4 hall ih
      refine ⟨by omega, by omega, by omega, by omega⟩
    refine ⟨hbnd, ?_, ?_, ?_, ?_, ?_⟩
    · intro p hp
      rcases List.mem_cons.1 hp with rfl | hp
      · exact hx
      · exact hall p hp
    · rcases a1 with a1 | ⟨p, hp, hp'⟩
      · rcases f1 with ⟨f, _⟩ | ⟨f, _⟩
        · right; exact ⟨x, List.mem_cons_self _ _, by rw [a1, f]⟩
        · left; rw [a1, f]
      · right; exact ⟨p, List.mem_cons_of_mem _ hp, hp'⟩
    · rcases a2 with a2 | ⟨p, hp, hp'⟩
      · rcases f2 with ⟨f, _⟩ | ⟨f, _⟩
        · right; exact ⟨x, List.mem_cons_self _ _, by rw [a2, f]⟩
        · left; rw [a2, f]
      · right; exact ⟨p, List.mem_cons_of_mem _ hp, hp'⟩
    · rcases a3 with a3 | ⟨p, hp, hp'⟩
      · rcases f3 with ⟨f, _⟩ | ⟨f, _⟩
        · right; exact ⟨x, List.mem_cons_self _ _, by rw [a3, f]⟩
        · left; rw [a3, f]
      · right; exact ⟨p, List.mem_cons_of_mem _ hp, hp'⟩
    · rcases a4 with a4 | ⟨p, hp, hp'⟩
      · rcases f4 with ⟨f, _⟩ | ⟨f, _⟩
        · right; exact ⟨x, List.mem_cons_self _ _, by rw [a4, f]⟩
        · left; rw [a4, f]
      · right; exact ⟨p, List.mem_cons_of_mem _ hp, hp'⟩

/-- On a non-empty candidate of valid positions the bounding box is spanned by
placements: its four bounds bound every placement and each is attained. -/
theorem PlaceAction.boundingBox_spec (board : BoardState) (ps : List TilePlacement)
    (hne : ps ≠ [])
    (hvalid : ∀ p ∈ ps, board.isValidPosition p.rowIdx p.colIdx = true) :
    (∀ p ∈ ps, (boundingBox board ps).minRowIdx ≤ p.rowIdx ∧
        p.rowIdx ≤ (boundingBox board ps).maxRowIdx ∧
        (boundingBox board ps).minColIdx ≤ p.colIdx ∧
        p.colIdx ≤ (boundingBox board ps).maxColIdx) ∧
      (∃ p ∈ ps, p.rowIdx = (boundingBox board ps).minRowIdx) ∧
      (∃ p ∈ ps, p.rowIdx = (boundingBox board ps).maxRowIdx) ∧
      (∃ p ∈ ps, p.colIdx = (boundingBox board ps).minColIdx) ∧
      (∃ p ∈ ps, p.colIdx = (boundingBox board ps).maxColIdx) := by
  obtain ⟨b0, hb0, e1, e2, e3, e4⟩ : ∃ b0 : Box, boundingBox board ps = boxLoop ps b0 ∧
      b0.minRowIdx = board.rows ∧ b0.minColIdx = board.cols ∧
      b0.maxRowIdx = -1 ∧ b0.maxColIdx = -1 := ⟨_, rfl, rfl, rfl, rfl, rfl⟩
  rw [hb0]
  obtain ⟨_, hall, a1, a2, a3, a4⟩ := PlaceAction.boxLoop_spec ps b0
  obtain ⟨x, hx⟩ := List.exists_mem_of_ne_nil ps hne
  have hxv := hvalid x hx
  simp only [BoardState.isValidPosition, Bool.and_eq_true, decide_eq_true_eq] at hxv
  have hxb := hall x hx
  refine ⟨hall, ?_, ?_, ?_, ?_⟩
  · rcases a1 with a1 | a1
    · clear a2 a3 a4; omega
    · exact a1
  · rcases a2 with a2 | a2
    · clear a1 a3 a4; omega
    · exact a2
  · rcases a3 with a3 | a3
    · clear a1 a2 a4; omega
    · exact a3
  · rcases a4 with a4 | a4
    · clear a1 a2 a3; omega
    · exact a4

end Scrabble

namespace Scrabble
open PlaceAction

theorem PlaceAction.offsets_spec (board : BoardState) (box : Box)
    (hbox : box.minRowIdx = box.maxRowIdx ∨ box.minColIdx = box.maxColIdx)
    (hr : box.minRowIdx ≤ box.maxRowIdx) (hc : box.minColIdx ≤ box.maxColIdx) :
    ∃ k : Nat,
      (((offsets board box).1 = 0 ∧ (offsets board box).2 = 1) ∨
        ((offsets board box).1 = 1 ∧ (offsets board box).2 = 0)) ∧
      box.maxRowIdx = box.minRowIdx + k * (offsets board box).1 ∧
      box.maxColIdx = box.minColIdx + k * (offsets board box).2 := by
  refine ⟨((box.maxRowIdx - box.minRowIdx) + (box.maxColIdx - box.minColIdx)).toNat, ?_⟩
  have hk : ((((box.maxRowIdx - box.minRowIdx) + (box.maxColIdx - box.minColIdx)).toNat : Nat) : Int)
      = (box.maxRowIdx - box.minRowIdx) + (box.maxColIdx - box.minColIdx) :=
    Int.toNat_of_nonneg (by omega)
  rw [hk]
  unfold offsets
  simp only
  split_ifs <;> simp only [and_true, true_and, and_false, false_and, or_true, or_false,
    true_or, false_or, mul_zero, mul_one, add_zero, one_ne_zero, zero_ne_one] <;> omega

/-- What `getIncludedPositions` returns on a non-empty candidate of valid
positions whose bounding box is a single row or column: the run from the
minimum moved back over `a` board tiles to the maximum moved forward over `b`
board tiles, in steps of `offsets`. -/
theorem PlaceAction.getIncludedPositions_spec (st : State) (ps : List TilePlacement)
    (hne : ps ≠ [])
    (hvalid : ∀ p ∈ ps, st.board.isValidPosition p.rowIdx p.colIdx = true)
    (hbox : (boundingBox st.board ps).minRowIdx = (boundingBox st.board ps).maxRowIdx ∨
      (boundingBox st.board ps).minColIdx = (boundingBox st.board ps).maxColIdx) :
    ∃ (dr dc : Int) (a k b : Nat),
      offsets st.board (boundingBox st.board ps) = (dr, dc) ∧
      ((dr = 0 ∧ dc = 1) ∨ (dr = 1 ∧ dc = 0)) ∧
      (boundingBox st.board ps).maxRowIdx = (boundingBox st.board ps).minRowIdx + k * dr ∧
      (boundingBox st.board ps).maxColIdx = (boundingBox st.board ps).minColIdx + k * dc ∧
      getIncludedPositions st ps = .ok (run dr dc (a + k + b)
        ((boundingBox st.board ps).minRowIdx - a * dr)
        ((boundingBox st.board ps).minColIdx - a * dc)) ∧
      (∀ j : Nat, 1 ≤ j → j ≤ a →
        st.board.tileExists ((boundingBox st.board ps).minRowIdx - j * dr)
          ((boundingBox st.board ps).minColIdx - j * dc) = true) ∧
      st.board.tileExists ((boundingBox st.board ps).minRowIdx - (a + 1 : Nat) * dr)
          ((boundingBox st.board ps).minColIdx - (a + 1 : Nat) * dc) = false ∧
      (∀ j : Nat, 1 ≤ j → j ≤ b →
        st.board.tileExists ((boundingBox st.board ps).maxRowIdx + j * dr)
          ((boundingBox st.board ps).maxColIdx + j * dc) = true) ∧
      st.board.tileExists ((boundingBox st.board ps).maxRowIdx + (b + 1 : Nat) * dr)
          ((boundingBox st.board ps).maxColIdx + (b + 1 : Nat) * dc) = false := by
  obtain ⟨hall, ⟨p1, hp1, e1⟩, ⟨p2, hp2, e2⟩, ⟨p3, hp3, e3⟩, ⟨p4, hp4, e4⟩⟩ :=
    PlaceAction.boundingBox_spec st.board ps hne hvalid
  have hr : (boundingBox st.board ps).minRowIdx ≤ (boundingBox st.board ps).maxRowIdx := by
    have := hall p1 hp1; omega
  have hc : (boundingBox st.board ps).minColIdx ≤ (boundingBox st.board ps).maxColIdx := by
    have := hall p3 hp3; omega
  generalize hB : boundingBox st.board ps = box at *
  obtain ⟨k, hd, hk1, hk2⟩ := PlaceAction.offsets_spec st.board box hbox hr hc
  generalize hO : offsets st.board box = o at *
  obtain ⟨dr, dc⟩ := o
  simp only at hd hk1 hk2
  obtain ⟨a, ha1, ha2, ha3⟩ := PlaceAction.extendMin_spec st.board dr dc hd
    (box.minRowIdx + box.minColIdx).toNat box.minRowIdx box.minColIdx (Nat.le_refl _)
  obtain ⟨b, hb1, hb2, hb3⟩ := PlaceAction.extendMax_spec st.board dr dc hd
    ((st.board.rows - box.maxRowIdx) + (st.board.cols - box.maxColIdx)).toNat
    box.maxRowIdx box.maxColIdx (Nat.le_refl _)
  refine ⟨dr, dc, a, k, b, rfl, hd, hk1, hk2, ?_, ha2, ha3, hb2, hb3⟩
  unfold getIncludedPositions
  simp only [State.getBoard, hB, hbox, not_true_eq_false, if_false, hO]
  have hsum : dr + dc = 1 := by rcases hd with ⟨h1, h2⟩ | ⟨h1, h2⟩ <;> omega
  simp only [hsum, ne_eq, not_true_eq_false, if_false, ha1, hb1]
  have hn : (box.maxRowIdx + (b : Int) * dr - (box.minRowIdx - (a : Int) * dr) +
      (box.maxColIdx + (b : Int) * dc - (box.minColIdx - (a : Int) * dc))).toNat = a + k + b := by
    have : box.maxRowIdx + (b : Int) * dr - (box.minRowIdx - (a : Int) * dr) +
      (box.maxColIdx + (b : Int) * dc - (box.minColIdx - (a : Int) * dc))
        = ((a + k + b : Nat) : Int) := by
      rw [hk1, hk2]
      push_cast
      rcases hd with ⟨h1, h2⟩ | ⟨h1, h2⟩ <;> rw [h1, h2] <;> ring
    rw [this]
    exact Int.toNat_ofNat _
  rw [hn]
  have em1 : box.maxRowIdx + (b : Int) * dr
      = (box.minRowIdx - (a : Int) * dr) + ((a + k + b : Nat) : Int) * dr := by
    rw [hk1]; push_cast; ring
  have em2 : box.maxColIdx + (b : Int) * dc
      = (box.minColIdx - (a : Int) * dc) + ((a + k + b : Nat) : Int) * dc := by
    rw [hk2]; push_cast; ring
  rw [em1, em2]
  have hw := PlaceAction.walkLoop_run dr dc hd (a + k + b)
    (box.minRowIdx - (a : Int) * dr) (box.minColIdx - (a : Int) * dc) []
  simp only [List.nil_append] at hw
  rw [hw]

end Scrabble

namespace Scrabble
open PlaceAction

theorem PlayerState.copy_player_eq (p : PlayerState)
    (hname : PlayerState.isValidPlayerName p.name = true) (hscore : 0 ≤ p.score) :
    p.copy = .ok { p with lastAction := "" } := by
  unfold PlayerState.copy PlayerState.new
  rw [LinkedList.copy_eq]
  have : ¬ p.score < 0 := by omega
  simp [hname, this]

theorem PlaceAction.getPlacementIfExists_spec :
    ∀ (ps : List TilePlacement) (r c : Int) (out : TilePlacement),
      ((getPlacementIfExists ps r c out).1 = true ∧
        (getPlacementIfExists ps r c out).2 ∈ ps ∧
        (getPlacementIfExists ps r c out).2.rowIdx = r ∧
        (getPlacementIfExists ps r c out).2.colIdx = c) ∨
      ((getPlacementIfExists ps r c out).1 = false ∧
        (getPlacementIfExists ps r c out).2 = out ∧
        ∀ p ∈ ps, ¬(p.rowIdx = r ∧ p.colIdx = c)) := by
  intro ps
  induction ps with
  | nil => intro r c out; right; simp [getPlacementIfExists]
  | cons p rest ih =>
    intro r c out
    unfold getPlacementIfExists
    by_cases h : p.rowIdx = r ∧ p.colIdx = c
    · left
      rw [if_pos h]
      exact ⟨rfl, List.mem_cons_self _ _, h.1, h.2⟩
    · rw [if_neg h]
      rcases ih r c out with ⟨h1, h2, h3, h4⟩ | ⟨h1, h2, h3⟩
      · left; exact ⟨h1, List.mem_cons_of_mem _ h2, h3, h4⟩
      · right
        refine ⟨h1, h2, ?_⟩
        intro x hx
        rcases List.mem_cons.1 hx with rfl | hx
        · exact h
        · exact h3 x hx

theorem BoardState.getTileAt_of_tileExists (board : BoardState) (r c : Int)
    (h : board.tileExists r c = true) :
    ∃ t, board.getTileAt r c = .ok (some t) := by
  simp only [BoardState.tileExists, Bool.and_eq_true] at h
  obtain ⟨h1, h2⟩ := h
  cases hcell : board.cell r c with
  | none => rw [hcell] at h2; simp at h2
  | some t => exact ⟨t, by simp [BoardState.getTileAt, h1, hcell]⟩

/-- The word loop stops with a blank exactly at an unfilled cell, succeeds only
if no cell is unfilled, and aborts only on a placed letter outside `A..Z`. -/
theorem PlaceAction.wordLoop_spec (board : BoardState) (ps : List TilePlacement) :
    ∀ (rect : List TilePlacement) (w : String),
      (wordLoop board ps rect w = .error .blank ∧
        ∃ q ∈ rect, Checks.unfilled board ps q.rowIdx q.colIdx) ∨
      (wordLoop board ps rect w = .error (.abort .assertion) ∧ ¬ upperCase ps) ∨
      (∃ w', wordLoop board ps rect w = .ok w' ∧
        ∀ q ∈ rect, ¬ Checks.unfilled board ps q.rowIdx q.colIdx) := by
  intro rect
  induction rect with
  | nil => intro w; right; right; exact ⟨w, rfl, by simp⟩
  | cons q rest ih =>
    intro w
    by_cases hex : board.tileExists q.rowIdx q.colIdx = true
    · obtain ⟨t, ht⟩ := board.getTileAt_of_tileExists _ _ hex
      have hstep : wordLoop board ps (q :: rest) w = wordLoop board ps rest (w.push t.letter) := by
        simp [wordLoop, hex, ht]
      have hq : ¬ Checks.unfilled board ps q.rowIdx q.colIdx := by
        intro hu; rw [hu.1] at hex; cases hex
      rw [hstep]
      rcases ih (w.push t.letter) with ⟨h1, x, hx, hx'⟩ | ⟨h1, h2⟩ | ⟨w', h1, h2⟩
      · left; exact ⟨h1, x, List.mem_cons_of_mem _ hx, hx'⟩
      · right; left; exact ⟨h1, h2⟩
      · right; right
        refine ⟨w', h1, ?_⟩
        intro x hx
        rcases List.mem_cons.1 hx with rfl | hx
        · exact hq
        · exact h2 x hx
    · have hex' : board.tileExists q.rowIdx q.colIdx = false := by simpa using hex
      rcases PlaceAction.getPlacementIfExists_spec ps q.rowIdx q.colIdx q with
        ⟨g1, g2, g3, g4⟩ | ⟨g1, g2, g3⟩
      · generalize hg : getPlacementIfExists ps q.rowIdx q.colIdx q = res at g1 g2 g3 g4
        obtain ⟨flag, toPlace⟩ := res
        simp only at g1 g2 g3 g4
        subst g1
        have hq : ¬ Checks.unfilled board ps q.rowIdx q.colIdx := by
          intro hu; exact hu.2 toPlace g2 ⟨g3, g4⟩
        by_cases hup : 'A' ≤ toPlace.letter ∧ toPlace.letter ≤ 'Z'
        · have hstep : wordLoop board ps (q :: rest) w
              = wordLoop board ps rest (w.push toPlace.letter) := by
            simp [wordLoop, hex', hg, hup]
          rw [hstep]
          rcases ih (w.push toPlace.letter) with ⟨h1, x, hx, hx'⟩ | ⟨h1, h2⟩ | ⟨w', h1, h2⟩
          · left; exact ⟨h1, x, List.mem_cons_of_mem _ hx, hx'⟩
          · right; left; exact ⟨h1, h2⟩
          · right; right
            refine ⟨w', h1, ?_⟩
            intro x hx
            rcases List.mem_cons.1 hx with rfl | hx
            · exact hq
            · exact h2 x hx
        · right; left
          refine ⟨?_, ?_⟩
          · simp only [wordLoop, hex', hg]
            simp [hup]
          · intro hall
            exact hup (hall toPlace g2)
      · generalize hg : getPlacementIfExists ps q.rowIdx q.colIdx q = res at g1 g2
        obtain ⟨flag, toPlace⟩ := res
        simp only at g1 g2
        subst g1
        left
        refine ⟨?_, q, List.mem_cons_self _ _, hex', g3⟩
        simp [wordLoop, hex', hg]

end Scrabble

namespace Scrabble
open PlaceAction

theorem PlaceAction.collinear_iff_box (board : BoardState) (ps : List TilePlacement)
    (hne : ps ≠ [])
    (hvalid : ∀ p ∈ ps, board.isValidPosition p.rowIdx p.colIdx = true) :
    Checks.collinear ps ↔
      ((boundingBox board ps).minRowIdx = (boundingBox board ps).maxRowIdx ∨
        (boundingBox board ps).minColIdx = (boundingBox board ps).maxColIdx) := by
  obtain ⟨hall, ⟨p1, hp1, e1⟩, ⟨p2, hp2, e2⟩, ⟨p3, hp3, e3⟩, ⟨p4, hp4, e4⟩⟩ :=
    PlaceAction.boundingBox_spec board ps hne hvalid
  constructor
  · rintro (h | h)
    · left; rw [← e1, ← e2]; exact h p1 hp1 p2 hp2
    · right; rw [← e3, ← e4]; exact h p3 hp3 p4 hp4
  · rintro (h | h)
    · left
      intro p hp q hq
      have := hall p hp
      have := hall q hq
      omega
    · right
      intro p hp q hq
      have := hall p hp
      have := hall q hq
      omega

theorem Checks.valid_of_not_positionFails (board : BoardState) (ps : List TilePlacement)
    (h : ¬ Checks.positionFails board ps) :
    ∀ p ∈ ps, board.isValidPosition p.rowIdx p.colIdx = true := by
  intro p hp
  by_contra hc
  exact h ⟨p, hp, Or.inl (by simpa using hc)⟩

theorem PlaceAction.adjacency_condition (board : BoardState) (ps : List TilePlacement)
    (hP : ¬ Checks.positionFails board ps) :
    (!board.isEmpty && !adjacentLoop board ps false) = true ↔
      Checks.adjacencyFails board ps := by
  have hvalid := Checks.valid_of_not_positionFails board ps hP
  unfold Checks.adjacencyFails
  rw [Bool.and_eq_true]
  have h1 : (!board.isEmpty) = true ↔ ∃ r c, board.tileExists r c = true := by
    rw [Bool.not_eq_true', ← Bool.not_eq_true, board.isEmpty_iff]
    simp
  have h2 : (!adjacentLoop board ps false) = true ↔
      ∀ p ∈ ps, ¬ Checks.hasNeighbour board p.rowIdx p.colIdx := by
    rw [Bool.not_eq_true', ← Bool.not_eq_true, PlaceAction.adjacentLoop_iff]
    constructor
    · intro h p hp hn
      exact h ⟨p, hp, (board.tileIsAdjacentTo_iff _ _).2 ⟨hvalid p hp, hn⟩⟩
    · rintro h ⟨p, hp, hadj⟩
      exact h p hp ((board.tileIsAdjacentTo_iff _ _).1 hadj).2
  rw [h1, h2]

end Scrabble

namespace Scrabble
open PlaceAction

/-- The seven ways a call of `isValidMove` can go for a constructed current
player, each with the outcome of every check before the one that decides. -/
theorem PlaceAction.isValidMove_trace (d : Dictionary) (ps : List TilePlacement)
    (st : State) (player : PlayerState) (h : st.currentPlayerIs player) :
    (Checks.handFails player.hand ps ∧
      ∃ pre q post, ps = pre ++ q :: post ∧ ¬ Checks.handFails player.hand pre ∧
        (player.hand.nodes.map Tile.letter).count q.letter
          ≤ (pre.map TilePlacement.letter).count q.letter ∧
        (isValidMove d ps st).1 = .rejected (.missingTile q.letter)) ∨
    (¬ Checks.handFails player.hand ps ∧ Checks.positionFails st.board ps ∧
      ∃ e, positionLoop st.board ps = some e ∧ (isValidMove d ps st).1 = .rejected e) ∨
    (¬ Checks.handFails player.hand ps ∧ ¬ Checks.positionFails st.board ps ∧
      Checks.adjacencyFails st.board ps ∧
      (isValidMove d ps st).1 = .rejected .noAdjacentTiles) ∨
    (¬ Checks.handFails player.hand ps ∧ ¬ Checks.positionFails st.board ps ∧
      ¬ Checks.adjacencyFails st.board ps ∧ ps = [] ∧
      (isValidMove d ps st).1 = .aborted .outOfBounds) ∨
    (¬ Checks.handFails player.hand ps ∧ ¬ Checks.positionFails st.board ps ∧
      ¬ Checks.adjacencyFails st.board ps ∧
      (∃ first rest, ps = first :: rest ∧
        ∃ p ∈ rest, p.rowIdx ≠ first.rowIdx ∧ p.colIdx ≠ first.colIdx) ∧
      (isValidMove d ps st).1 = .rejected .notSameRowOrColumn) ∨
    (¬ Checks.handFails player.hand ps ∧ ¬ Checks.positionFails st.board ps ∧
      ¬ Checks.adjacencyFails st.board ps ∧
      (∃ first rest, ps = first :: rest ∧
        ∀ p ∈ rest, p.rowIdx = first.rowIdx ∨ p.colIdx = first.colIdx) ∧
      ¬ Checks.collinear ps ∧
      (isValidMove d ps st).1 = .aborted .assertion) ∨
    (¬ Checks.handFails player.hand ps ∧ ¬ Checks.positionFails st.board ps ∧
      ¬ Checks.adjacencyFails st.board ps ∧ ps ≠ [] ∧ Checks.collinear ps ∧
      ∃ rect, getIncludedPositions st ps = .ok rect ∧
        ((wordLoop st.board ps rect "" = .error .blank ∧
            (isValidMove d ps st).1 = .rejected .blankSpace) ∨
          (∃ a, wordLoop st.board ps rect "" = .error (.abort a) ∧
            (isValidMove d ps st).1 = .aborted a) ∨
          (∃ w, wordLoop st.board ps rect "" = .ok w ∧
            (isValidMove d ps st).1 =
              if d.contains w then .accepted w else .rejected (.notInDictionary w)))) := by
  obtain ⟨hcur, hname, hscore⟩ := h
  unfold isValidMove
  rw [hcur]
  simp only
  rw [PlayerState.copy_player_eq player hname hscore]
  simp only
  obtain ⟨r, hr, hnone, hsome⟩ := PlaceAction.handLoop_spec ps { player with lastAction := "" }
  rw [hr]
  cases r with
  | some l =>
    left
    obtain ⟨pre, q, post, hps, hq, hpre, hcnt⟩ := hsome l rfl
    refine ⟨?_, pre, q, post, hps, hpre, ?_, ?_⟩
    · by_contra hc
      have := hnone.2 hc
      cases this
    · rw [hq]; exact hcnt
    · rw [hq]
  | none =>
    right
    have hF : ¬ Checks.handFails player.hand ps := hnone.1 rfl
    simp only [State.getBoard]
    cases hpos : positionLoop st.board ps with
    | some e =>
      left
      refine ⟨hF, ?_, e, rfl, rfl⟩
      by_contra hc
      rw [(PlaceAction.positionLoop_none st.board ps).2 hc] at hpos
      cases hpos
    | none =>
      right
      have hP : ¬ Checks.positionFails st.board ps :=
        (PlaceAction.positionLoop_none st.board ps).1 hpos
      have hvalid := Checks.valid_of_not_positionFails st.board ps hP
      simp only
      by_cases hadj : (!st.board.isEmpty && !adjacentLoop st.board ps false) = true
      · left
        rw [if_pos hadj]
        exact ⟨hF, hP, (PlaceAction.adjacency_condition st.board ps hP).1 hadj, rfl⟩
      · right
        rw [if_neg hadj]
        have hA : ¬ Checks.adjacencyFails st.board ps := fun hc =>
          hadj ((PlaceAction.adjacency_condition st.board ps hP).2 hc)
        cases ps with
        | nil => left; exact ⟨hF, hP, hA, rfl, rfl⟩
        | cons first rest =>
          right
          simp only
          have hline := PlaceAction.sameLineLoop_iff first rest true true rfl
          by_cases hflags : (!(sameLineLoop first rest (true, true)).1 &&
              !(sameLineLoop first rest (true, true)).2) = true
          · left
            rw [if_pos hflags]
            exact ⟨hF, hP, hA, ⟨first, rest, rfl, hline.1 hflags⟩, rfl⟩
          · right
            rw [if_neg hflags]
            have hshare : ∀ p ∈ rest, p.rowIdx = first.rowIdx ∨ p.colIdx = first.colIdx := by
              intro p hp
              by_contra hc
              apply hflags
              apply hline.2
              exact ⟨p, hp, fun h1 => hc (Or.inl h1), fun h2 => hc (Or.inr h2)⟩
            have hne : first :: rest ≠ [] := List.cons_ne_nil _ _
            have hcol := PlaceAction.collinear_iff_box st.board (first :: rest) hne hvalid
            by_cases hbox : Checks.collinear (first :: rest)
            · right
              obtain ⟨dr, dc, a, k, b, _, _, _, _, hrect, _⟩ :=
                PlaceAction.getIncludedPositions_spec st (first :: rest) hne hvalid (hcol.1 hbox)
              rw [hrect]
              simp only
              refine ⟨hF, hP, hA, hne, hbox, _, rfl, ?_⟩
              generalize run dr dc (a + k + b)
                ((boundingBox st.board (first :: rest)).minRowIdx - a * dr)
                ((boundingBox st.board (first :: rest)).minColIdx - a * dc) = rect
              cases hw : wordLoop st.board (first :: rest) rect "" with
              | error e =>
                cases e with
                | blank => left; exact ⟨rfl, rfl⟩
                | abort a => right; left; exact ⟨a, rfl, rfl⟩
              | ok w =>
                right; right
                refine ⟨w, rfl, ?_⟩
                by_cases hd : d.contains w = true
                · simp [hd]
                · simp [hd]
            · left
              refine ⟨hF, hP, hA, ⟨first, rest, rfl, hshare⟩, hbox, ?_⟩
              have hnb := fun hc => hbox (hcol.2 hc)
              unfold getIncludedPositions
              simp only [State.getBoard]
              rw [if_pos hnb]

end Scrabble

namespace Scrabble
open PlaceAction

theorem PlaceAction.corner_placements (board : BoardState) (ps : List TilePlacement)
    (hne : ps ≠ [])
    (hvalid : ∀ p ∈ ps, board.isValidPosition p.rowIdx p.colIdx = true)
    (hbox : (boundingBox board ps).minRowIdx = (boundingBox board ps).maxRowIdx ∨
      (boundingBox board ps).minColIdx = (boundingBox board ps).maxColIdx) :
    (∃ p ∈ ps, p.rowIdx = (boundingBox board ps).minRowIdx ∧
        p.colIdx = (boundingBox board ps).minColIdx) ∧
      (∃ p ∈ ps, p.rowIdx = (boundingBox board ps).maxRowIdx ∧
        p.colIdx = (boundingBox board ps).maxColIdx) := by
  obtain ⟨hall, ⟨p1, hp1, e1⟩, ⟨p2, hp2, e2⟩, ⟨p3, hp3, e3⟩, ⟨p4, hp4, e4⟩⟩ :=
    PlaceAction.boundingBox_spec board ps hne hvalid
  rcases hbox with hb | hb
  · have h3 := hall p3 hp3
    have h4 := hall p4 hp4
    exact ⟨⟨p3, hp3, by omega, e3⟩, ⟨p4, hp4, by omega, e4⟩⟩
  · have h1 := hall p1 hp1
    have h2 := hall p2 hp2
    exact ⟨⟨p1, hp1, e1, by omega⟩, ⟨p2, hp2, e2, by omega⟩⟩

/-- A hole of a collinear candidate lies on the run that `getIncludedPositions`
returns. -/
theorem PlaceAction.hole_in_rect (st : State) (ps : List TilePlacement)
    (hvalid : ∀ p ∈ ps, st.board.isValidPosition p.rowIdx p.colIdx = true)
    (hcol : Checks.collinear ps) (hhole : Checks.hole st.board ps) :
    ∃ rect, getIncludedPositions st ps = .ok rect ∧
      ∃ q ∈ rect, Checks.unfilled st.board ps q.rowIdx q.colIdx := by
  obtain ⟨p, hp, q, hq, r, c, hun, hbetween⟩ := hhole
  have hne : ps ≠ [] := List.ne_nil_of_mem hp
  have hbox := (PlaceAction.collinear_iff_box st.board ps hne hvalid).1 hcol
  obtain ⟨hall, _⟩ := PlaceAction.boundingBox_spec st.board ps hne hvalid
  obtain ⟨dr, dc, a, k, b, _, hd, hk1, hk2, hrect, _⟩ :=
    PlaceAction.getIncludedPositions_spec st ps hne hvalid hbox
  have hbp := hall p hp
  have hbq := hall q hq
  refine ⟨_, hrect, ?_⟩
  generalize boundingBox st.board ps = box at *
  rcases hbetween with ⟨h1, h2, h3, h4⟩ | ⟨h1, h2, h3, h4⟩
  · -- same row, column strictly between
    have hdc : dr = 0 ∧ dc = 1 := by
      rcases hd with hd | ⟨hd1, hd2⟩
      · exact hd
      · exfalso; rw [hd2] at hk2; simp at hk2; omega
    obtain ⟨hdr, hdc⟩ := hdc
    subst hdr hdc
    simp only [mul_zero, add_zero, mul_one, sub_zero] at hk1 hk2 ⊢
    refine ⟨⟨'_', r, c⟩, ?_, hun⟩
    rw [run_mem]
    refine ⟨a + (c - box.minColIdx).toNat, by omega, ?_⟩
    have e : ((a + (c - box.minColIdx).toNat : Nat) : Int) = a + (c - box.minColIdx) := by
      push_cast
      rw [Int.toNat_of_nonneg (by omega)]
    rw [e]
    simp only [mul_zero, add_zero, mul_one]
    congr 1 <;> omega
  · have hdc : dr = 1 ∧ dc = 0 := by
      rcases hd with ⟨hd1, hd2⟩ | hd
      · exfalso; rw [hd1] at hk1; simp at hk1; omega
      · exact hd
    obtain ⟨hdr, hdc⟩ := hdc
    subst hdr hdc
    simp only [mul_zero, add_zero, mul_one, sub_zero] at hk1 hk2 ⊢
    refine ⟨⟨'_', r, c⟩, ?_, hun⟩
    rw [run_mem]
    refine ⟨a + (r - box.minRowIdx).toNat, by omega, ?_⟩
    have e : ((a + (r - box.minRowIdx).toNat : Nat) : Int) = a + (r - box.minRowIdx) := by
      push_cast
      rw [Int.toNat_of_nonneg (by omega)]
    rw [e]
    simp only [mul_zero, add_zero, mul_one]
    congr 1 <;> omega

/-- An unfilled cell on the run that `getIncludedPositions` returns is a hole:
it lies strictly between two placements of the shared row or column. -/
theorem PlaceAction.unfilled_is_hole (st : State) (ps : List TilePlacement)
    (hne : ps ≠ [])
    (hvalid : ∀ p ∈ ps, st.board.isValidPosition p.rowIdx p.colIdx = true)
    (hcol : Checks.collinear ps) (rect : List TilePlacement)
    (hrect : getIncludedPositions st ps = .ok rect)
    (hq : ∃ q ∈ rect, Checks.unfilled st.board ps q.rowIdx q.colIdx) :
    Checks.hole st.board ps := by
  have hbox := (PlaceAction.collinear_iff_box st.board ps hne hvalid).1 hcol
  obtain ⟨⟨p1, hp1, e1, e1'⟩, ⟨p2, hp2, e2, e2'⟩⟩ :=
    PlaceAction.corner_placements st.board ps hne hvalid hbox
  obtain ⟨dr, dc, a, k, b, _, hd, hk1, hk2, hrect', ha, _, hb, _⟩ :=
    PlaceAction.getIncludedPositions_spec st ps hne hvalid hbox
  rw [hrect] at hrect'
  injection hrect' with hrect'
  obtain ⟨q, hqm, hun⟩ := hq
  rw [hrect', run_mem] at hqm
  obtain ⟨j, hj, hqj⟩ := hqm
  generalize boundingBox st.board ps = box at *
  subst hqj
  simp only at hun
  by_cases hja : j < a
  · exfalso
    have := ha (a - j) (by omega) (by omega)
    have e : ((a - j : Nat) : Int) = (a : Int) - j := by omega
    rw [e] at this
    have er : box.minRowIdx - ((a : Int) - j) * dr = box.minRowIdx - a * dr + j * dr := by ring
    have ec : box.minColIdx - ((a : Int) - j) * dc = box.minColIdx - a * dc + j * dc := by ring
    rw [er, ec] at this
    rw [hun.1] at this
    cases this
  · by_cases hjk : a + k < j
    · exfalso
      have := hb (j - (a + k)) (by omega) (by omega)
      have e : ((j - (a + k) : Nat) : Int) = (j : Int) - a - k := by omega
      rw [e, hk1, hk2] at this
      have er : box.minRowIdx + k * dr + ((j : Int) - a - k) * dr
          = box.minRowIdx - a * dr + j * dr := by ring
      have ec : box.minColIdx + k * dc + ((j : Int) - a - k) * dc
          = box.minColIdx - a * dc + j * dc := by ring
      rw [er, ec] at this
      rw [hun.1] at this
      cases this
    · have hne1 : j ≠ a := by
        intro hja'
        subst hja'
        apply hun.2 p1 hp1
        constructor
        · rw [e1]; ring
        · rw [e1']; ring
      have hne2 : j ≠ a + k := by
        intro hjk'
        subst hjk'
        apply hun.2 p2 hp2
        constructor
        · rw [e2, hk1]; push_cast; ring
        · rw [e2', hk2]; push_cast; ring
      refine ⟨p1, hp1, p2, hp2, _, _, hun, ?_⟩
      rcases hd with ⟨hd1, hd2⟩ | ⟨hd1, hd2⟩
      · left
        subst hd1 hd2
        simp only [mul_zero, add_zero, mul_one, sub_zero] at hk1 hk2 ⊢
        refine ⟨e1, by omega, by omega, by omega⟩
      · right
        subst hd1 hd2
        simp only [mul_zero, add_zero, mul_one, sub_zero] at hk1 hk2 ⊢
        refine ⟨e1', by omega, by omega, by omega⟩

end Scrabble


namespace Scrabble
open PlaceAction

theorem Checks.not_collinear_of_differs (first : TilePlacement) (rest : List TilePlacement)
    (h : ∃ p ∈ rest, p.rowIdx ≠ first.rowIdx ∧ p.colIdx ≠ first.colIdx) :
    ¬ Checks.collinear (first :: rest) := by
  obtain ⟨p, hp, h1, h2⟩ := h
  rintro (hc | hc)
  · exact h1 (hc p (List.mem_cons_of_mem _ hp) first (List.mem_cons_self _ _))
  · exact h2 (hc p (List.mem_cons_of_mem _ hp) first (List.mem_cons_self _ _))

theorem Checks.not_handFails_of_handLoop (p : PlayerState) (ps : List TilePlacement)
    (h : handLoop p ps = .ok none) : ¬ Checks.handFails p.hand ps := by
  obtain ⟨r, hr, hnone, _⟩ := PlaceAction.handLoop_spec ps p
  rw [h] at hr
  injection hr with hr
  exact hnone.1 hr.symm

theorem Checks.not_adjacencyFails_of_isEmpty (board : BoardState) (ps : List TilePlacement)
    (h : board.isEmpty = true) : ¬ Checks.adjacencyFails board ps := by
  rintro ⟨⟨r, c, hrc⟩, _⟩
  rw [(board.isEmpty_iff).1 h r c] at hrc
  cases hrc

theorem Checks.not_adjacencyFails_of_neighbour (board : BoardState) (ps : List TilePlacement)
    (h : ∃ p ∈ ps, Checks.hasNeighbour board p.rowIdx p.colIdx) :
    ¬ Checks.adjacencyFails board ps := by
  obtain ⟨p, hp, hn⟩ := h
  rintro ⟨_, hall⟩
  exact hall p hp hn

end Scrabble

namespace Scrabble
open PlaceAction

/-- Every rejection comes with the outcome of each check up to the one that
reports it. -/
theorem PlaceAction.isValidMove_rejected (d : Dictionary) (ps : List TilePlacement)
    (st : State) (player : PlayerState) (h : st.currentPlayerIs player)
    (e : MoveError) (hr : (isValidMove d ps st).1 = .rejected e) :
    ((∃ l, e = .missingTile l) ∧ Checks.handFails player.hand ps) ∨
    ((e = .tileAlreadyExists ∨ e = .positionDoesNotExist) ∧
      ¬ Checks.handFails player.hand ps ∧ Checks.positionFails st.board ps ∧
      positionLoop st.board ps = some e) ∨
    (e = .noAdjacentTiles ∧ ¬ Checks.handFails player.hand ps ∧
      ¬ Checks.positionFails st.board ps ∧ Checks.adjacencyFails st.board ps) ∨
    (e = .notSameRowOrColumn ∧ ¬ Checks.handFails player.hand ps ∧
      ¬ Checks.positionFails st.board ps ∧ ¬ Checks.adjacencyFails st.board ps ∧
      ¬ Checks.collinear ps) ∨
    (e = .blankSpace ∧ ¬ Checks.handFails player.hand ps ∧
      ¬ Checks.positionFails st.board ps ∧ ¬ Checks.adjacencyFails st.board ps ∧
      Checks.collinear ps ∧ Checks.hole st.board ps) ∨
    (∃ w, e = .notInDictionary w ∧ ¬ Checks.handFails player.hand ps ∧
      ¬ Checks.positionFails st.board ps ∧ ¬ Checks.adjacencyFails st.board ps ∧
      Checks.collinear ps ∧ ¬ Checks.hole st.board ps ∧ d.contains w = false) := by
  rcases PlaceAction.isValidMove_trace d ps st player h with
    ⟨hF, pre, q, post, _, _, _, hr'⟩ | ⟨hF, hP, e', he, hr'⟩ | ⟨hF, hP, hA, hr'⟩ |
    ⟨_, _, _, _, hr'⟩ | ⟨hF, hP, hA, ⟨first, rest, hps, hdiff⟩, hr'⟩ |
    ⟨_, _, _, _, _, hr'⟩ | ⟨hF, hP, hA, hne, hcol, rect, hrect, hw⟩
  · rw [hr'] at hr
    injection hr with hr
    left
    exact ⟨⟨q.letter, hr.symm⟩, hF⟩
  · rw [hr'] at hr
    injection hr with hr
    subst hr
    right; left
    exact ⟨PlaceAction.positionLoop_kind st.board ps e' he, hF, hP, he⟩
  · rw [hr'] at hr
    injection hr with hr
    right; right; left
    exact ⟨hr.symm, hF, hP, hA⟩
  · rw [hr'] at hr; cases hr
  · rw [hr'] at hr
    injection hr with hr
    right; right; right; left
    refine ⟨hr.symm, hF, hP, hA, ?_⟩
    rw [hps]
    exact Checks.not_collinear_of_differs first rest hdiff
  · rw [hr'] at hr; cases hr
  · have hvalid := Checks.valid_of_not_positionFails st.board ps hP
    rcases hw with ⟨hw, hr'⟩ | ⟨a, _, hr'⟩ | ⟨w, hw, hr'⟩
    · rw [hr'] at hr
      injection hr with hr
      right; right; right; right; left
      refine ⟨hr.symm, hF, hP, hA, hcol, ?_⟩
      rcases PlaceAction.wordLoop_spec st.board ps rect "" with
        ⟨_, w2⟩ | ⟨w1, _⟩ | ⟨w', w1, _⟩
      · exact PlaceAction.unfilled_is_hole st ps hne hvalid hcol rect hrect w2
      · rw [hw] at w1; cases w1
      · rw [hw] at w1; cases w1
    · rw [hr'] at hr; cases hr
    · rw [hr'] at hr
      by_cases hd : d.contains w = true
      · rw [if_pos hd] at hr; cases hr
      · rw [if_neg hd] at hr
        injection hr with hr
        right; right; right; right; right
        refine ⟨w, hr.symm, hF, hP, hA, hcol, ?_, by simpa using hd⟩
        intro hhole
        obtain ⟨rect', hrect', hq⟩ := PlaceAction.hole_in_rect st ps hvalid hcol hhole
        rw [hrect] at hrect'
        injection hrect' with hrect'
        subst hrect'
        rcases PlaceAction.wordLoop_spec st.board ps rect "" with
          ⟨w1, _⟩ | ⟨w1, _⟩ | ⟨w', _, w2⟩
        · rw [hw] at w1; cases w1
        · rw [hw] at w1; cases w1
        · obtain ⟨q, hq1, hq2⟩ := hq
          exact w2 q hq1 hq2

/-- The first three checks reject whenever they fail and every earlier check
passes. -/
theorem PlaceAction.isValidMove_early (d : Dictionary) (ps : List TilePlacement)
    (st : State) (player : PlayerState) (h : st.currentPlayerIs player) :
    (Checks.handFails player.hand ps →
      ∃ l, (isValidMove d ps st).1 = .rejected (.missingTile l)) ∧
    (¬ Checks.handFails player.hand ps → Checks.positionFails st.board ps →
      ∃ e, positionLoop st.board ps = some e ∧ (isValidMove d ps st).1 = .rejected e) ∧
    (¬ Checks.handFails player.hand ps → ¬ Checks.positionFails st.board ps →
      Checks.adjacencyFails st.board ps →
      (isValidMove d ps st).1 = .rejected .noAdjacentTiles) := by
  rcases PlaceAction.isValidMove_trace d ps st player h with
    ⟨hF, pre, q, post, _, _, _, hr⟩ | ⟨hF, hP, e, he, hr⟩ | ⟨hF, hP, hA, hr⟩ |
    ⟨hF, hP, hA, _⟩ | ⟨hF, hP, hA, _⟩ | ⟨hF, hP, hA, _⟩ | ⟨hF, hP, hA, _⟩
  · exact ⟨fun _ => ⟨_, hr⟩, fun h1 => absurd hF h1, fun h1 => absurd hF h1⟩
  · exact ⟨fun h1 => absurd h1 hF, fun _ _ => ⟨e, he, hr⟩, fun _ h2 => absurd hP h2⟩
  · exact ⟨fun h1 => absurd h1 hF, fun _ h2 => absurd h2 hP, fun _ _ _ => hr⟩
  · exact ⟨fun h1 => absurd h1 hF, fun _ h2 => absurd h2 hP, fun _ _ h3 => absurd h3 hA⟩
  · exact ⟨fun h1 => absurd h1 hF, fun _ h2 => absurd h2 hP, fun _ _ h3 => absurd h3 hA⟩
  · exact ⟨fun h1 => absurd h1 hF, fun _ h2 => absurd h2 hP, fun _ _ h3 => absurd h3 hA⟩
  · exact ⟨fun h1 => absurd h1 hF, fun _ h2 => absurd h2 hP, fun _ _ h3 => absurd h3 hA⟩

end Scrabble

namespace Scrabble
open PlaceAction

/-! ## The claims -/

/-- In the embedding by state passing, `isValidMove` hands back the state it
was given on every path.  What the call does to the nodes and tiles that the
scratch copy shares with the hand is the subject of `Mem.isValidMove`. -/
theorem PlaceAction.isValidMove_state_unchanged (d : Dictionary)
    (ps : List TilePlacement) (st : State) :
    (isValidMove d ps st).2 = st := by
  unfold isValidMove
  repeat' (first | rfl | split | dsimp only)

/-- C2, evaluated at the failing input: on an empty board, with the letters in
hand, the placements `(0,0), (0,1), (1,0)` share neither one row nor one
column and pass the hand, bounds/occupancy and adjacency checks; the
collinearity loop ends with `sameCol` set, so the call is not rejected as
"not on same row or column" but runs into the bounding-box assertion of
`getIncludedPositions`. -/
theorem PlaceAction.corner_passes_collinearity_loop :
    ¬ Checks.collinear Examples.corner ∧
    ¬ Checks.positionFails Examples.emptyBoard Examples.corner ∧
    Examples.emptyBoard.isEmpty = true ∧
    sameLineLoop ⟨'A', 0, 0⟩ [⟨'B', 0, 1⟩, ⟨'C', 1, 0⟩] (true, true) = (false, true) ∧
    (isValidMove Examples.words Examples.corner
      (Examples.game Examples.emptyBoard Examples.abc)).1 = .aborted .assertion := by
  refine ⟨?_, ?_, by decide, by decide, by decide⟩
  · unfold Checks.collinear
    decide
  · unfold Checks.positionFails
    decide

/-- C3, evaluated at the failing input: on the board with a tile at `(0,2)`,
the cell `(1,2)` is empty and in bounds and has a tile directly above it, yet
for the single placement at `(1,2)` the offsets are `(0, 1)` and
`getIncludedPositions` walks horizontally: the special case looks at the
cells `(2,0)` and `(2,2)`. -/
theorem PlaceAction.single_tile_below_tile_walks_horizontally :
    Examples.topBoard.tileExists 1 2 = false ∧
    Examples.topBoard.isValidPosition 1 2 = true ∧
    Examples.topBoard.tileExists (1 - 1) 2 = true ∧
    offsets Examples.topBoard (boundingBox Examples.topBoard Examples.tAtB3) = (0, 1) ∧
    getIncludedPositions (Examples.game Examples.topBoard Examples.t) Examples.tAtB3
      = .ok [⟨'_', 1, 2⟩] := by
  refine ⟨by decide, by decide, by decide, by decide, ?_⟩
  rfl

/-- C4, evaluated at the failing input, the example of the specification: on
the board `C@B1, R@B3, S@B4`, the cell `B2` has no tile above or below it and
tiles on both sides, yet placing `A` there builds the word "A", not "CARS":
the special case finds the tile `C` at `(1,0)` and walks vertically. -/
theorem PlaceAction.cars_example_builds_single_letter :
    Examples.carsBoard.tileExists 0 1 = false ∧
    Examples.carsBoard.tileExists 2 1 = false ∧
    Examples.carsBoard.tileExists 1 0 = true ∧
    Examples.carsBoard.tileExists 1 2 = true ∧
    Examples.carsBoard.tileExists 1 3 = true ∧
    offsets Examples.carsBoard (boundingBox Examples.carsBoard Examples.aAtB2) = (1, 0) ∧
    (isValidMove Examples.words Examples.aAtB2
      (Examples.game Examples.carsBoard Examples.a)).1 = .accepted "A" := by
  decide

/-- C5: hole detection.  For a constructed current player and a collinear
candidate of upper-case letters that passes the hand, bounds/occupancy and
adjacency checks: if some cell strictly between two placements of the shared
row or column holds neither a board tile nor a placement, `isValidMove`
returns false with the blank-space error, whatever the dictionary. -/
theorem PlaceAction.hole_detection (d : Dictionary) (ps : List TilePlacement)
    (st : State) (player : PlayerState) (h : st.currentPlayerIs player)
    (hup : upperCase ps)
    (hF : ¬ Checks.handFails player.hand ps)
    (hP : ¬ Checks.positionFails st.board ps)
    (hA : ¬ Checks.adjacencyFails st.board ps)
    (hcol : Checks.collinear ps)
    (hhole : Checks.hole st.board ps) :
    (isValidMove d ps st).1 = .rejected .blankSpace := by
  have hvalid := Checks.valid_of_not_positionFails st.board ps hP
  obtain ⟨rect, hrect, hq⟩ := PlaceAction.hole_in_rect st ps hvalid hcol hhole
  rcases PlaceAction.isValidMove_trace d ps st player h with
    ⟨h1, _⟩ | ⟨_, h1, _⟩ | ⟨_, _, h1, _⟩ | ⟨_, _, _, h1, _⟩ | ⟨_, _, _, h1, _⟩ |
    ⟨_, _, _, _, h1, _⟩ | ⟨_, _, _, _, _, rect', hrect', hw⟩
  · exact absurd h1 hF
  · exact absurd h1 hP
  · exact absurd h1 hA
  · obtain ⟨p, hp, _⟩ := hhole
    rw [h1] at hp
    cases hp
  · obtain ⟨first, rest, hps, hdiff⟩ := h1
    rw [hps] at hcol
    exact absurd hcol (Checks.not_collinear_of_differs first rest hdiff)
  · exact absurd hcol h1
  · rw [hrect] at hrect'
    injection hrect' with hrect'
    subst hrect'
    rcases PlaceAction.wordLoop_spec st.board ps rect "" with
      ⟨w1, _⟩ | ⟨_, w2⟩ | ⟨w', _, w2⟩
    · rcases hw with ⟨_, hr⟩ | ⟨a, hwa, _⟩ | ⟨w, hww, _⟩
      · exact hr
      · rw [w1] at hwa; cases hwa
      · rw [w1] at hww; cases hww
    · exact absurd hup w2
    · obtain ⟨q, hq1, hq2⟩ := hq
      exact absurd hq2 (w2 q hq1)

/-- C5 at the example of the specification: on an empty board, `A` at `B1`
and `B` at `B3`, both in hand, are rejected because of `B2`. -/
theorem PlaceAction.hole_detection_witness :
    (Examples.game Examples.emptyBoard Examples.ab).currentPlayerIs (Examples.ann Examples.ab) ∧
    upperCase Examples.gap ∧
    ¬ Checks.handFails (Examples.ann Examples.ab).hand Examples.gap ∧
    ¬ Checks.positionFails Examples.emptyBoard Examples.gap ∧
    ¬ Checks.adjacencyFails Examples.emptyBoard Examples.gap ∧
    Checks.collinear Examples.gap ∧
    Checks.hole Examples.emptyBoard Examples.gap ∧
    (isValidMove Examples.words Examples.gap
      (Examples.game Examples.emptyBoard Examples.ab)).1 = .rejected .blankSpace :=
  have h1 : (Examples.game Examples.emptyBoard Examples.ab).currentPlayerIs
      (Examples.ann Examples.ab) := ⟨rfl, by decide, by decide⟩
  have h2 : upperCase Examples.gap := by unfold upperCase; decide
  have h3 : ¬ Checks.handFails (Examples.ann Examples.ab).hand Examples.gap :=
    Checks.not_handFails_of_handLoop (Examples.ann Examples.ab) Examples.gap rfl
  have h4 : ¬ Checks.positionFails Examples.emptyBoard Examples.gap := by
    unfold Checks.positionFails; decide
  have h5 : ¬ Checks.adjacencyFails Examples.emptyBoard Examples.gap :=
    Checks.not_adjacencyFails_of_isEmpty _ _ (by decide)
  have h6 : Checks.collinear Examples.gap := by unfold Checks.collinear; decide
  have h7 : Checks.hole Examples.emptyBoard Examples.gap :=
    ⟨⟨'A', 1, 0⟩, by simp [Examples.gap], ⟨'B', 1, 2⟩, by simp [Examples.gap], 1, 1,
      ⟨by decide, by decide⟩, Or.inl ⟨rfl, rfl, by decide, by decide⟩⟩
  ⟨h1, h2, h3, h4, h5, h6, h7,
    PlaceAction.hole_detection Examples.words Examples.gap
      (Examples.game Examples.emptyBoard Examples.ab) (Examples.ann Examples.ab)
      h1 h2 h3 h4 h5 h6 h7⟩

/-- C6: hand containment with multiplicity.  For a constructed current player,
`isValidMove` fails with "Missing tile" if and only if some letter occurs more
often among the placements than among the tiles of the hand; and the letter
it reports is that of a placement `q` such that every placement before `q`
is covered by the hand while the placements before `q` already use up every
tile of the hand with the letter of `q`. -/
theorem PlaceAction.missing_tile_iff (d : Dictionary) (ps : List TilePlacement)
    (st : State) (player : PlayerState) (h : st.currentPlayerIs player) :
    ((∃ l, (isValidMove d ps st).1 = .rejected (.missingTile l)) ↔
        ∃ c : Letter, (player.hand.nodes.map Tile.letter).count c <
          (ps.map TilePlacement.letter).count c) ∧
    (∀ l, (isValidMove d ps st).1 = .rejected (.missingTile l) →
      ∃ pre q post, ps = pre ++ q :: post ∧ q.letter = l ∧
        (∀ c : Letter, (pre.map TilePlacement.letter).count c ≤
          (player.hand.nodes.map Tile.letter).count c) ∧
        (player.hand.nodes.map Tile.letter).count l ≤
          (pre.map TilePlacement.letter).count l) := by
  have hkind := PlaceAction.positionLoop_kind st.board ps
  rcases PlaceAction.isValidMove_trace d ps st player h with
    ⟨hF, pre, q, post, hps, hpre, hcnt, hr⟩ | ⟨hF, _, e, he, hr⟩ | ⟨hF, _, _, hr⟩ |
    ⟨hF, _, _, _, hr⟩ | ⟨hF, _, _, _, hr⟩ | ⟨hF, _, _, _, _, hr⟩ |
    ⟨hF, _, _, _, _, rect, _, hw⟩
  · refine ⟨⟨fun _ => hF, fun _ => ⟨_, hr⟩⟩, ?_⟩
    intro l hl
    rw [hr] at hl
    injection hl with hl
    injection hl with hl
    refine ⟨pre, q, post, hps, hl, ?_, by rw [← hl]; exact hcnt⟩
    intro c
    by_contra hc
    exact hpre ⟨c, by omega⟩
  · have := hkind e he
    refine ⟨⟨?_, fun hc => absurd hc hF⟩, ?_⟩
    · rintro ⟨l, hl⟩
      rw [hr] at hl
      rcases this with rfl | rfl <;> cases hl
    · intro l hl
      rw [hr] at hl
      rcases this with rfl | rfl <;> cases hl
  · refine ⟨⟨?_, fun hc => absurd hc hF⟩, ?_⟩
    · rintro ⟨l, hl⟩; rw [hr] at hl; cases hl
    · intro l hl; rw [hr] at hl; cases hl
  · refine ⟨⟨?_, fun hc => absurd hc hF⟩, ?_⟩
    · rintro ⟨l, hl⟩; rw [hr] at hl; cases hl
    · intro l hl; rw [hr] at hl; cases hl
  · refine ⟨⟨?_, fun hc => absurd hc hF⟩, ?_⟩
    · rintro ⟨l, hl⟩; rw [hr] at hl; cases hl
    · intro l hl; rw [hr] at hl; cases hl
  · refine ⟨⟨?_, fun hc => absurd hc hF⟩, ?_⟩
    · rintro ⟨l, hl⟩; rw [hr] at hl; cases hl
    · intro l hl; rw [hr] at hl; cases hl
  · have hno : ∀ l, (isValidMove d ps st).1 ≠ .rejected (.missingTile l) := by
      intro l hl
      rcases hw with ⟨_, hr⟩ | ⟨a, _, hr⟩ | ⟨w, _, hr⟩
      · rw [hr] at hl; cases hl
      · rw [hr] at hl; cases hl
      · rw [hr] at hl
        split at hl <;> cases hl
    refine ⟨⟨fun ⟨l, hl⟩ => absurd hl (hno l), fun hc => absurd hc hF⟩, ?_⟩
    intro l hl
    exact absurd hl (hno l)

/-- C6 at a concrete input: the hand `A, B` does not cover the candidate
`A, A`, and the call fails with a missing tile. -/
theorem PlaceAction.missing_tile_iff_witness :
    (Examples.game Examples.emptyBoard Examples.ab).currentPlayerIs (Examples.ann Examples.ab) ∧
    (∃ c : Letter, ((Examples.ann Examples.ab).hand.nodes.map Tile.letter).count c <
      (Examples.twoAs.map TilePlacement.letter).count c) ∧
    ∃ l, (isValidMove Examples.words Examples.twoAs
      (Examples.game Examples.emptyBoard Examples.ab)).1 = .rejected (.missingTile l) :=
  have h1 : (Examples.game Examples.emptyBoard Examples.ab).currentPlayerIs
      (Examples.ann Examples.ab) := ⟨rfl, by decide, by decide⟩
  have h2 : ∃ c : Letter, ((Examples.ann Examples.ab).hand.nodes.map Tile.letter).count c <
      (Examples.twoAs.map TilePlacement.letter).count c := ⟨'A', by decide⟩
  ⟨h1, h2, (PlaceAction.missing_tile_iff Examples.words Examples.twoAs
    (Examples.game Examples.emptyBoard Examples.ab) (Examples.ann Examples.ab) h1).1.2 h2⟩

/-- C7: bounds/occupancy rejection.  For a constructed current player and a
candidate that passes the hand check: if some placement is off the board or on
a tile, `isValidMove` returns false with one of the two position errors, the
one of the first such placement ("Tile already exists" if its cell is
occupied, "position does not exist" if it is off the board); and if no
placement is off the board or on a tile, neither error is reported. -/
theorem PlaceAction.position_rejection (d : Dictionary) (ps : List TilePlacement)
    (st : State) (player : PlayerState) (h : st.currentPlayerIs player)
    (hF : ¬ Checks.handFails player.hand ps) :
    (Checks.positionFails st.board ps →
      (isValidMove d ps st).1 = .rejected .tileAlreadyExists ∨
      (isValidMove d ps st).1 = .rejected .positionDoesNotExist) ∧
    (∀ pre p post, ps = pre ++ p :: post → ¬ Checks.positionFails st.board pre →
      (st.board.tileExists p.rowIdx p.colIdx = true →
        (isValidMove d ps st).1 = .rejected .tileAlreadyExists) ∧
      (st.board.isValidPosition p.rowIdx p.colIdx = false →
        (isValidMove d ps st).1 = .rejected .positionDoesNotExist)) ∧
    (¬ Checks.positionFails st.board ps →
      (isValidMove d ps st).1 ≠ .rejected .tileAlreadyExists ∧
      (isValidMove d ps st).1 ≠ .rejected .positionDoesNotExist) := by
  have hearly := (PlaceAction.isValidMove_early d ps st player h).2.1 hF
  refine ⟨?_, ?_, ?_⟩
  · intro hP
    obtain ⟨e, he, hr⟩ := hearly hP
    rcases PlaceAction.positionLoop_kind st.board ps e he with rfl | rfl
    · left; exact hr
    · right; exact hr
  · intro pre p post hps hpre
    have hfirst := PlaceAction.positionLoop_first st.board pre p post hpre
    constructor
    · intro hocc
      obtain ⟨e, he, hr⟩ := hearly ⟨p, by rw [hps]; simp, Or.inr hocc⟩
      rw [hps, hfirst.1 hocc] at he
      injection he with he
      rw [hr, ← he]
    · intro hoff
      obtain ⟨e, he, hr⟩ := hearly ⟨p, by rw [hps]; simp, Or.inl hoff⟩
      rw [hps, hfirst.2 hoff] at he
      injection he with he
      rw [hr, ← he]
  · intro hP
    constructor
    · intro hr
      rcases PlaceAction.isValidMove_rejected d ps st player h _ hr with
        ⟨⟨l, hl⟩, _⟩ | ⟨_, _, hpf, _⟩ | ⟨he, _⟩ | ⟨he, _⟩ | ⟨he, _⟩ | ⟨w, he, _⟩
      · cases hl
      · exact hP hpf
      · cases he
      · cases he
      · cases he
      · cases he
    · intro hr
      rcases PlaceAction.isValidMove_rejected d ps st player h _ hr with
        ⟨⟨l, hl⟩, _⟩ | ⟨_, _, hpf, _⟩ | ⟨he, _⟩ | ⟨he, _⟩ | ⟨he, _⟩ | ⟨w, he, _⟩
      · cases hl
      · exact hP hpf
      · cases he
      · cases he
      · cases he
      · cases he

/-- C7 at a concrete input: `A`, held in hand, placed on the occupied cell
`B1` of the board `C@B1, R@B3, S@B4` is rejected with "Tile already exists". -/
theorem PlaceAction.position_rejection_witness :
    (Examples.game Examples.carsBoard Examples.a).currentPlayerIs (Examples.ann Examples.a) ∧
    ¬ Checks.handFails (Examples.ann Examples.a).hand Examples.aAtB1 ∧
    Examples.carsBoard.tileExists 1 0 = true ∧
    (isValidMove Examples.words Examples.aAtB1
      (Examples.game Examples.carsBoard Examples.a)).1 = .rejected .tileAlreadyExists :=
  have h1 : (Examples.game Examples.carsBoard Examples.a).currentPlayerIs
      (Examples.ann Examples.a) := ⟨rfl, by decide, by decide⟩
  have h2 : ¬ Checks.handFails (Examples.ann Examples.a).hand Examples.aAtB1 :=
    Checks.not_handFails_of_handLoop (Examples.ann Examples.a) Examples.aAtB1 rfl
  have h3 : Examples.carsBoard.tileExists 1 0 = true := by decide
  ⟨h1, h2, h3, ((PlaceAction.position_rejection Examples.words Examples.aAtB1
    (Examples.game Examples.carsBoard Examples.a) (Examples.ann Examples.a) h1 h2).2.1
      [] ⟨'A', 1, 0⟩ [] rfl (by unfold Checks.positionFails; decide)).1 h3⟩

/-- C8: adjacency and the first-move exception.  For a constructed current
player: on a candidate that passes the hand and bounds/occupancy checks,
`isValidMove` fails with "Board not empty and no adjacent tiles" if and only
if the board holds a tile and no placement has an occupied orthogonal
neighbour; and on an empty board that error is never reported, whatever the
candidate. -/
theorem PlaceAction.adjacency_rejection_iff (d : Dictionary) (ps : List TilePlacement)
    (st : State) (player : PlayerState) (h : st.currentPlayerIs player) :
    (¬ Checks.handFails player.hand ps → ¬ Checks.positionFails st.board ps →
      ((isValidMove d ps st).1 = .rejected .noAdjacentTiles ↔
        ((∃ r c, st.board.tileExists r c = true) ∧
          ∀ p ∈ ps, st.board.tileExists p.rowIdx (p.colIdx - 1) = false ∧
            st.board.tileExists p.rowIdx (p.colIdx + 1) = false ∧
            st.board.tileExists (p.rowIdx - 1) p.colIdx = false ∧
            st.board.tileExists (p.rowIdx + 1) p.colIdx = false))) ∧
    (st.board.isEmpty = true → (isValidMove d ps st).1 ≠ .rejected .noAdjacentTiles) := by
  have hadj : Checks.adjacencyFails st.board ps ↔
      ((∃ r c, st.board.tileExists r c = true) ∧
        ∀ p ∈ ps, st.board.tileExists p.rowIdx (p.colIdx - 1) = false ∧
          st.board.tileExists p.rowIdx (p.colIdx + 1) = false ∧
          st.board.tileExists (p.rowIdx - 1) p.colIdx = false ∧
          st.board.tileExists (p.rowIdx + 1) p.colIdx = false) := by
    unfold Checks.adjacencyFails Checks.hasNeighbour
    simp only [not_or, Bool.not_eq_true]
  have hback : (isValidMove d ps st).1 = .rejected .noAdjacentTiles →
      Checks.adjacencyFails st.board ps := by
    intro hr
    rcases PlaceAction.isValidMove_rejected d ps st player h _ hr with
      ⟨⟨l, hl⟩, _⟩ | ⟨he | he, _⟩ | ⟨_, _, _, hA⟩ | ⟨he, _⟩ | ⟨he, _⟩ | ⟨w, he, _⟩
    · cases hl
    · cases he
    · cases he
    · exact hA
    · cases he
    · cases he
    · cases he
  constructor
  · intro hF hP
    rw [← hadj]
    exact ⟨hback, (PlaceAction.isValidMove_early d ps st player h).2.2 hF hP⟩
  · intro hempty hr
    exact Checks.not_adjacencyFails_of_isEmpty st.board ps hempty (hback hr)

/-- C8 at a concrete input: `T`, held in hand, at the free cell `A5`, far from
the only tile `A@B2`, is rejected with "no adjacent tiles". -/
theorem PlaceAction.adjacency_rejection_iff_witness :
    (Examples.game Examples.aBoard Examples.t).currentPlayerIs (Examples.ann Examples.t) ∧
    ¬ Checks.handFails (Examples.ann Examples.t).hand Examples.tAtA5 ∧
    ¬ Checks.positionFails Examples.aBoard Examples.tAtA5 ∧
    Examples.aBoard.tileExists 1 1 = true ∧
    (isValidMove Examples.words Examples.tAtA5
      (Examples.game Examples.aBoard Examples.t)).1 = .rejected .noAdjacentTiles :=
  have h1 : (Examples.game Examples.aBoard Examples.t).currentPlayerIs
      (Examples.ann Examples.t) := ⟨rfl, by decide, by decide⟩
  have h2 : ¬ Checks.handFails (Examples.ann Examples.t).hand Examples.tAtA5 :=
    Checks.not_handFails_of_handLoop (Examples.ann Examples.t) Examples.tAtA5 rfl
  have h3 : ¬ Checks.positionFails Examples.aBoard Examples.tAtA5 := by
    unfold Checks.positionFails; decide
  have h4 : Examples.aBoard.tileExists 1 1 = true := by decide
  ⟨h1, h2, h3, h4, ((PlaceAction.adjacency_rejection_iff Examples.words Examples.tAtA5
    (Examples.game Examples.aBoard Examples.t) (Examples.ann Examples.t) h1).1 h2 h3).2
      ⟨⟨1, 1, h4⟩, by decide⟩⟩

/-- C9: dictionary gating.  For a constructed current player and a non-empty
candidate of upper-case letters that passes every structural check (hand,
bounds/occupancy, adjacency, collinearity, no hole), `getIncludedPositions`
and the word loop assemble a word `w`, and `isValidMove` returns true exactly
when the dictionary contains `w`; the word it hands back is `w`, and when the
dictionary does not contain `w` it returns false with the "not in the
scrabble dictionary" error for `w`. -/
theorem PlaceAction.dictionary_gating (d : Dictionary) (ps : List TilePlacement)
    (st : State) (player : PlayerState) (h : st.currentPlayerIs player)
    (hup : upperCase ps) (hne : ps ≠ [])
    (hF : ¬ Checks.handFails player.hand ps)
    (hP : ¬ Checks.positionFails st.board ps)
    (hA : ¬ Checks.adjacencyFails st.board ps)
    (hcol : Checks.collinear ps)
    (hhole : ¬ Checks.hole st.board ps) :
    ∃ rect w, getIncludedPositions st ps = .ok rect ∧
      wordLoop st.board ps rect "" = .ok w ∧
      ((∃ w', (isValidMove d ps st).1 = .accepted w') ↔ d.contains w = true) ∧
      (∀ w', (isValidMove d ps st).1 = .accepted w' → w' = w) ∧
      (d.contains w = false →
        (isValidMove d ps st).1 = .rejected (.notInDictionary w)) := by
  have hvalid := Checks.valid_of_not_positionFails st.board ps hP
  rcases PlaceAction.isValidMove_trace d ps st player h with
    ⟨h1, _⟩ | ⟨_, h1, _⟩ | ⟨_, _, h1, _⟩ | ⟨_, _, _, h1, _⟩ | ⟨_, _, _, h1, _⟩ |
    ⟨_, _, _, _, h1, _⟩ | ⟨_, _, _, _, _, rect, hrect, hw⟩
  · exact absurd h1 hF
  · exact absurd h1 hP
  · exact absurd h1 hA
  · exact absurd h1 hne
  · obtain ⟨first, rest, hps, hdiff⟩ := h1
    rw [hps] at hcol
    exact absurd hcol (Checks.not_collinear_of_differs first rest hdiff)
  · exact absurd hcol h1
  · rcases PlaceAction.wordLoop_spec st.board ps rect "" with
      ⟨_, w2⟩ | ⟨_, w2⟩ | ⟨w, w1, _⟩
    · exact absurd (PlaceAction.unfilled_is_hole st ps hne hvalid hcol rect hrect w2) hhole
    · exact absurd hup w2
    · rcases hw with ⟨hb, _⟩ | ⟨a, ha, _⟩ | ⟨w', hw', hr⟩
      · rw [w1] at hb; cases hb
      · rw [w1] at ha; cases ha
      · rw [w1] at hw'
        injection hw' with hw'
        subst hw'
        refine ⟨rect, w, hrect, w1, ?_, ?_, ?_⟩
        · by_cases hd : d.contains w = true
          · rw [if_pos hd] at hr
            exact ⟨fun _ => hd, fun _ => ⟨w, hr⟩⟩
          · rw [if_neg hd] at hr
            constructor
            · rintro ⟨w', hw'⟩
              rw [hr] at hw'; cases hw'
            · intro hc; exact absurd hc hd
        · intro w' hw'
          by_cases hd : d.contains w = true
          · rw [if_pos hd] at hr
            rw [hr] at hw'
            injection hw' with hw'
            exact hw'.symm
          · rw [if_neg hd] at hr
            rw [hr] at hw'; cases hw'
        · intro hd
          rw [hd] at hr
          simpa using hr

/-- C9 at a concrete input: `T` at `B3` next to `A@B2` assembles "AT". -/
theorem PlaceAction.dictionary_gating_witness :
    (Examples.game Examples.aBoard Examples.t).currentPlayerIs (Examples.ann Examples.t) ∧
    upperCase Examples.tAtB3 ∧ Examples.tAtB3 ≠ [] ∧
    ¬ Checks.handFails (Examples.ann Examples.t).hand Examples.tAtB3 ∧
    ¬ Checks.positionFails Examples.aBoard Examples.tAtB3 ∧
    ¬ Checks.adjacencyFails Examples.aBoard Examples.tAtB3 ∧
    Checks.collinear Examples.tAtB3 ∧
    ¬ Checks.hole Examples.aBoard Examples.tAtB3 ∧
    (∃ rect w, getIncludedPositions (Examples.game Examples.aBoard Examples.t) Examples.tAtB3 = .ok rect ∧
      wordLoop Examples.aBoard Examples.tAtB3 rect "" = .ok w ∧
      ((∃ w', (isValidMove Examples.words Examples.tAtB3
        (Examples.game Examples.aBoard Examples.t)).1 = .accepted w') ↔ Examples.words.contains w = true) ∧
      (∀ w', (isValidMove Examples.words Examples.tAtB3
        (Examples.game Examples.aBoard Examples.t)).1 = .accepted w' → w' = w) ∧
      (Examples.words.contains w = false →
        (isValidMove Examples.words Examples.tAtB3
        (Examples.game Examples.aBoard Examples.t)).1 = .rejected (.notInDictionary w))) :=
  have h1 : (Examples.game Examples.aBoard Examples.t).currentPlayerIs
      (Examples.ann Examples.t) := ⟨rfl, by decide, by decide⟩
  have h2 : upperCase Examples.tAtB3 := by unfold upperCase; decide
  have h3 : Examples.tAtB3 ≠ [] := by decide
  have h4 : ¬ Checks.handFails (Examples.ann Examples.t).hand Examples.tAtB3 :=
    Checks.not_handFails_of_handLoop (Examples.ann Examples.t) Examples.tAtB3 rfl
  have h5 : ¬ Checks.positionFails Examples.aBoard Examples.tAtB3 := by
    unfold Checks.positionFails; decide
  have h6 : ¬ Checks.adjacencyFails Examples.aBoard Examples.tAtB3 :=
    Checks.not_adjacencyFails_of_neighbour _ _
      ⟨⟨'T', 1, 2⟩, by simp [Examples.tAtB3], Or.inl (by decide)⟩
  have h7 : Checks.collinear Examples.tAtB3 := by unfold Checks.collinear; decide
  have h8 : ¬ Checks.hole Examples.aBoard Examples.tAtB3 := by
    rintro ⟨p, hp, q, hq, r, c, _, hb⟩
    simp only [Examples.tAtB3, List.mem_singleton] at hp hq
    subst hp hq
    rcases hb with ⟨_, _, e1, e2⟩ | ⟨_, _, e1, e2⟩ <;> omega
  ⟨h1, h2, h3, h4, h5, h6, h7, h8,
    PlaceAction.dictionary_gating Examples.words Examples.tAtB3
      (Examples.game Examples.aBoard Examples.t) (Examples.ann Examples.t)
      h1 h2 h3 h4 h5 h6 h7 h8⟩

/-- C10: check order.  For a constructed current player, every rejection
reports the earliest failing check in the order hand containment,
bounds/occupancy, adjacency, collinearity, hole, dictionary: each error comes
with the failure of its own check and the success of every check before it.
Moreover a failing hand check is always reported as a missing tile (also when
a cell is occupied or off the board), a failing bounds/occupancy check after a
passing hand check as a position error, and a failing adjacency check after
both as "no adjacent tiles" (also when the candidate is not collinear). -/
theorem PlaceAction.check_order (d : Dictionary) (ps : List TilePlacement)
    (st : State) (player : PlayerState) (h : st.currentPlayerIs player) :
    (∀ l, (isValidMove d ps st).1 = .rejected (.missingTile l) →
      Checks.handFails player.hand ps) ∧
    ((isValidMove d ps st).1 = .rejected .tileAlreadyExists ∨
        (isValidMove d ps st).1 = .rejected .positionDoesNotExist →
      ¬ Checks.handFails player.hand ps ∧ Checks.positionFails st.board ps) ∧
    ((isValidMove d ps st).1 = .rejected .noAdjacentTiles →
      ¬ Checks.handFails player.hand ps ∧ ¬ Checks.positionFails st.board ps ∧
      Checks.adjacencyFails st.board ps) ∧
    ((isValidMove d ps st).1 = .rejected .notSameRowOrColumn →
      ¬ Checks.handFails player.hand ps ∧ ¬ Checks.positionFails st.board ps ∧
      ¬ Checks.adjacencyFails st.board ps ∧ ¬ Checks.collinear ps) ∧
    ((isValidMove d ps st).1 = .rejected .blankSpace →
      ¬ Checks.handFails player.hand ps ∧ ¬ Checks.positionFails st.board ps ∧
      ¬ Checks.adjacencyFails st.board ps ∧ Checks.collinear ps ∧
      Checks.hole st.board ps) ∧
    (∀ w, (isValidMove d ps st).1 = .rejected (.notInDictionary w) →
      ¬ Checks.handFails player.hand ps ∧ ¬ Checks.positionFails st.board ps ∧
      ¬ Checks.adjacencyFails st.board ps ∧ Checks.collinear ps ∧
      ¬ Checks.hole st.board ps ∧ d.contains w = false) ∧
    (Checks.handFails player.hand ps →
      ∃ l, (isValidMove d ps st).1 = .rejected (.missingTile l)) ∧
    (¬ Checks.handFails player.hand ps → Checks.positionFails st.board ps →
      (isValidMove d ps st).1 = .rejected .tileAlreadyExists ∨
      (isValidMove d ps st).1 = .rejected .positionDoesNotExist) ∧
    (¬ Checks.handFails player.hand ps → ¬ Checks.positionFails st.board ps →
      Checks.adjacencyFails st.board ps →
      (isValidMove d ps st).1 = .rejected .noAdjacentTiles) := by
  have hrej := PlaceAction.isValidMove_rejected d ps st player h
  obtain ⟨e1, e2, e3⟩ := PlaceAction.isValidMove_early d ps st player h
  refine ⟨?_, ?_, ?_, ?_, ?_, ?_, e1, ?_, e3⟩
  · intro l hr
    rcases hrej _ hr with
      ⟨_, hF⟩ | ⟨he | he, _⟩ | ⟨he, _⟩ | ⟨he, _⟩ | ⟨he, _⟩ | ⟨w, he, _⟩
    · exact hF
    all_goals cases he
  · intro hr
    rcases hr with hr | hr
    · rcases hrej _ hr with
        ⟨⟨l, he⟩, _⟩ | ⟨_, hF, hP, _⟩ | ⟨he, _⟩ | ⟨he, _⟩ | ⟨he, _⟩ | ⟨w, he, _⟩
      · cases he
      · exact ⟨hF, hP⟩
      all_goals cases he
    · rcases hrej _ hr with
        ⟨⟨l, he⟩, _⟩ | ⟨_, hF, hP, _⟩ | ⟨he, _⟩ | ⟨he, _⟩ | ⟨he, _⟩ | ⟨w, he, _⟩
      · cases he
      · exact ⟨hF, hP⟩
      all_goals cases he
  · intro hr
    rcases hrej _ hr with
      ⟨⟨l, he⟩, _⟩ | ⟨he | he, _⟩ | ⟨_, hrest⟩ | ⟨he, _⟩ | ⟨he, _⟩ | ⟨w, he, _⟩
    · cases he
    · cases he
    · cases he
    · exact hrest
    all_goals cases he
  · intro hr
    rcases hrej _ hr with
      ⟨⟨l, he⟩, _⟩ | ⟨he | he, _⟩ | ⟨he, _⟩ | ⟨_, hrest⟩ | ⟨he, _⟩ | ⟨w, he, _⟩
    · cases he
    · cases he
    · cases he
    · cases he
    · exact hrest
    all_goals cases he
  · intro hr
    rcases hrej _ hr with
      ⟨⟨l, he⟩, _⟩ | ⟨he | he, _⟩ | ⟨he, _⟩ | ⟨he, _⟩ | ⟨_, hrest⟩ | ⟨w, he, _⟩
    · cases he
    · cases he
    · cases he
    · cases he
    · cases he
    · exact hrest
    · cases he
  · intro w hr
    rcases hrej _ hr with
      ⟨⟨l, he⟩, _⟩ | ⟨he | he, _⟩ | ⟨he, _⟩ | ⟨he, _⟩ | ⟨he, _⟩ | ⟨w', he, hrest⟩
    · cases he
    · cases he
    · cases he
    · cases he
    · cases he
    · cases he
    · injection he with he
      subst he
      exact hrest
  · intro hF hP
    obtain ⟨e, he, hr⟩ := e2 hF hP
    rcases PlaceAction.positionLoop_kind st.board ps e he with rfl | rfl
    · left; exact hr
    · right; exact hr

/-- C10 at a concrete input, the first example of the claim: `Z`, which the
hand `A` does not hold, aimed at the occupied cell `B1`, is reported as a
missing tile. -/
theorem PlaceAction.check_order_witness :
    (Examples.game Examples.carsBoard Examples.a).currentPlayerIs (Examples.ann Examples.a) ∧
    Checks.handFails (Examples.ann Examples.a).hand Examples.zAtB1 ∧
    Checks.positionFails Examples.carsBoard Examples.zAtB1 ∧
    ∃ l, (isValidMove Examples.words Examples.zAtB1
      (Examples.game Examples.carsBoard Examples.a)).1 = .rejected (.missingTile l) :=
  have h1 : (Examples.game Examples.carsBoard Examples.a).currentPlayerIs
      (Examples.ann Examples.a) := ⟨rfl, by decide, by decide⟩
  have h2 : Checks.handFails (Examples.ann Examples.a).hand Examples.zAtB1 :=
    ⟨'Z', by decide⟩
  have h3 : Checks.positionFails Examples.carsBoard Examples.zAtB1 := by
    unfold Checks.positionFails; decide
  ⟨h1, h2, h3, (PlaceAction.check_order Examples.words Examples.zAtB1
    (Examples.game Examples.carsBoard Examples.a) (Examples.ann Examples.a) h1).2.2.2.2.2.2.1 h2⟩

end Scrabble

namespace Scrabble
open PlaceAction

theorem BoardState.tileExists_occupied (b : BoardState) (r c : Int) :
    b.tileExists r c = true ↔ b.occupied r c := by
  unfold BoardState.tileExists BoardState.isValidPosition BoardState.occupied
  simp only [Bool.and_eq_true, decide_eq_true_eq, Option.isSome_iff_exists, ge_iff_le]
  constructor
  · rintro ⟨⟨⟨⟨h1, h2⟩, h3⟩, h4⟩, h5⟩
    exact ⟨h1, h2, h3, h4, h5⟩
  · rintro ⟨h1, h2, h3, h4, h5⟩
    exact ⟨⟨⟨⟨h1, h2⟩, h3⟩, h4⟩, h5⟩

theorem BoardState.isValidPosition_bounds (b : BoardState) (r c : Int) :
    b.isValidPosition r c = true ↔ 0 ≤ r ∧ r < b.rows ∧ 0 ≤ c ∧ c < b.cols := by
  unfold BoardState.isValidPosition
  simp only [Bool.and_eq_true, decide_eq_true_eq, ge_iff_le]
  constructor
  · rintro ⟨⟨⟨h1, h2⟩, h3⟩, h4⟩
    exact ⟨h1, h2, h3, h4⟩
  · rintro ⟨h1, h2, h3, h4⟩
    exact ⟨⟨⟨h1, h2⟩, h3⟩, h4⟩

/-- C16, evaluated at the failing input: on an empty board, with the letters
in hand, the placements `(0,0), (0,1), (1,0)` pass the hand,
bounds/occupancy, adjacency and collinearity stages of `isValidMove`, which
therefore calls `getIncludedPositions`; the bounding box there is
`(0,0)..(1,1)`, neither a single row nor a single column, the first assertion
fails, and the validation ends with an assertion failure. -/
theorem PlaceAction.corner_reaches_failing_assertion :
    Examples.corner ≠ [] ∧
    handLoop (Examples.ann Examples.abc) Examples.corner = .ok none ∧
    positionLoop Examples.emptyBoard Examples.corner = none ∧
    Examples.emptyBoard.isEmpty = true ∧
    sameLineLoop ⟨'A', 0, 0⟩ [⟨'B', 0, 1⟩, ⟨'C', 1, 0⟩] (true, true) = (false, true) ∧
    boundingBox Examples.emptyBoard Examples.corner
      = { minRowIdx := 0, minColIdx := 0, maxRowIdx := 1, maxColIdx := 1 } ∧
    getIncludedPositions (Examples.game Examples.emptyBoard Examples.abc) Examples.corner
      = .error .assertion ∧
    (isValidMove Examples.words Examples.corner
      (Examples.game Examples.emptyBoard Examples.abc)).1 = .aborted .assertion := by
  refine ⟨by decide, rfl, by decide, by decide, by decide, by decide, rfl, by decide⟩

/-- C17: `tileExists` and `isValidPosition`.  For every board and all integers
`row`, `col`, `tileExists(row, col)` is true if and only if `0 <= row < rows`,
`0 <= col < cols` and the cell holds a tile; it is false at every position
outside these bounds; and `isValidPosition(row, col)` is exactly the bounds
test. -/
theorem BoardState.tileExists_iff_in_bounds_and_tile (b : BoardState) (row col : Int) :
    (b.tileExists row col = true ↔
      0 ≤ row ∧ row < b.rows ∧ 0 ≤ col ∧ col < b.cols ∧ ∃ t, b.cell row col = some t) ∧
    ((row < 0 ∨ b.rows ≤ row ∨ col < 0 ∨ b.cols ≤ col) → b.tileExists row col = false) ∧
    (b.isValidPosition row col = true ↔
      0 ≤ row ∧ row < b.rows ∧ 0 ≤ col ∧ col < b.cols) := by
  refine ⟨b.tileExists_occupied row col, ?_, b.isValidPosition_bounds row col⟩
  intro hout
  by_contra hc
  have h := (b.tileExists_occupied row col).1 (by simpa using hc)
  obtain ⟨h1, h2, h3, h4, _⟩ := h
  omega

/-- C18: `tileIsAdjacentTo`.  For every board and all integers `row`, `col`,
`tileIsAdjacentTo(row, col)` is true if and only if `(row, col)` is a valid
position and at least one of the four orthogonal neighbours is in bounds and
occupied; it is false at every invalid position.  On the board
`2, 2, A@A1, B@B2` the tile at `(0,0)` itself and the tile at the diagonal
neighbour `(1,1)` do not make `(0,0)` adjacent, while `(0,1)` is adjacent. -/
theorem BoardState.tileIsAdjacentTo_orthogonal (b : BoardState) (row col : Int) :
    (b.tileIsAdjacentTo row col = true ↔
      (0 ≤ row ∧ row < b.rows ∧ 0 ≤ col ∧ col < b.cols) ∧
      (b.occupied row (col - 1) ∨ b.occupied row (col + 1) ∨
        b.occupied (row - 1) col ∨ b.occupied (row + 1) col)) ∧
    ((row < 0 ∨ b.rows ≤ row ∨ col < 0 ∨ b.cols ≤ col) →
      b.tileIsAdjacentTo row col = false) ∧
    (Examples.testBoard.tileExists 0 0 = true ∧ Examples.testBoard.tileExists 1 1 = true ∧
      Examples.testBoard.tileIsAdjacentTo 0 0 = false ∧
      Examples.testBoard.tileIsAdjacentTo 0 1 = true) := by
  have hiff : b.tileIsAdjacentTo row col = true ↔
      (0 ≤ row ∧ row < b.rows ∧ 0 ≤ col ∧ col < b.cols) ∧
      (b.occupied row (col - 1) ∨ b.occupied row (col + 1) ∨
        b.occupied (row - 1) col ∨ b.occupied (row + 1) col) := by
    rw [b.tileIsAdjacentTo_iff, b.isValidPosition_bounds]
    unfold Checks.hasNeighbour
    simp only [BoardState.tileExists_occupied]
  refine ⟨hiff, ?_, by decide⟩
  intro hout
  by_contra hc
  have h := hiff.1 (by simpa using hc)
  obtain ⟨⟨h1, h2, h3, h4⟩, _⟩ := h
  omega

/-- C20, evaluated at the failing inputs: constructing a board of 26 rows
throws `std::invalid_argument`, and constructing one of 99 columns, or of 27
rows, fails the assertion `rows <= 26 && cols < 99` before any exception is
thrown; sizes up to 25 by 98 are constructed. -/
theorem BoardState.new_at_the_size_limits :
    BoardState.new 26 10 = .error (.exception .invalidArgument) ∧
    BoardState.new 10 99 = .error .assertion ∧
    BoardState.new 26 99 = .error .assertion ∧
    BoardState.new 27 10 = .error .assertion ∧
    BoardState.new 10 100 = .error .assertion ∧
    (∃ b, BoardState.new 25 98 = .ok b) ∧
    BoardState.new 0 5 = .error (.exception .invalidArgument) := by
  refine ⟨rfl, rfl, rfl, rfl, rfl, ⟨_, rfl⟩, rfl⟩

end Scrabble

namespace Scrabble
open PlaceAction

theorem BoardState.getD_set_grid (tiles : List (List (Option Tile))) (i j i' j' : Nat)
    (x : Option Tile) (hi : i < tiles.length) (hj : j < (tiles.getD i []).length) :
    ((tiles.set i ((tiles.getD i []).set j x)).getD i' []).getD j' none =
      if i' = i ∧ j' = j then x else (tiles.getD i' []).getD j' none := by
  simp only [List.getD_eq_getElem?_getD, List.getElem?_set]
  by_cases h1 : i = i'
  · subst h1
    simp only [hi, if_true, Option.getD_some, true_and]
    by_cases h2 : j = j'
    · subst h2
      have hj' : j < (tiles[i]?.getD []).length := by
        simpa [List.getD_eq_getElem?_getD] using hj
      simp [hj']
    · have h2' : ¬ j' = j := fun h => h2 h.symm
      simp [h2, h2']
  · have h1' : ¬ i' = i := fun h => h1 h.symm
    simp [h1, h1']

theorem BoardState.wellFormed_row (b : BoardState) (hwf : b.wellFormed) (r c : Int)
    (hv : b.isValidPosition r c = true) :
    r.toNat < b.tiles.length ∧ c.toNat < (b.tiles.getD r.toNat []).length := by
  obtain ⟨h1, h2, h3, h4⟩ := (b.isValidPosition_bounds r c).1 hv
  obtain ⟨w1, w2⟩ := hwf
  have hr : r.toNat < b.tiles.length := by omega
  refine ⟨hr, ?_⟩
  have hmem : b.tiles.getD r.toNat [] ∈ b.tiles := by
    rw [List.getD_eq_getElem?_getD, List.getElem?_eq_getElem hr]
    exact List.getElem_mem _
  rw [w2 _ hmem]
  omega

/-- Placing a tile on a free valid cell of a well-formed board succeeds and
changes that cell only. -/
theorem BoardState.placeTile_spec (b : BoardState) (hwf : b.wellFormed) (tile : Option Tile)
    (r c : Int) (hv : b.isValidPosition r c = true) (hfree : b.tileExists r c = false) :
    ∃ b', b.placeTile tile r c = .ok b' ∧ b'.rows = b.rows ∧ b'.cols = b.cols ∧
      b'.wellFormed ∧
      ∀ r' c' : Int, 0 ≤ r' → 0 ≤ c' →
        b'.cell r' c' = if r' = r ∧ c' = c then tile else b.cell r' c' := by
  obtain ⟨hr, hc⟩ := b.wellFormed_row hwf r c hv
  obtain ⟨h1, h2, h3, h4⟩ := (b.isValidPosition_bounds r c).1 hv
  refine ⟨{ b with tiles := b.tiles.set r.toNat ((b.tiles.getD r.toNat []).set c.toNat tile) },
    by simp [BoardState.placeTile, hv, hfree], rfl, rfl, ?_, ?_⟩
  · obtain ⟨w1, w2⟩ := hwf
    constructor
    · simpa using w1
    · intro row hrow
      rcases List.mem_or_eq_of_mem_set hrow with hm | hm
      · exact w2 row hm
      · rw [hm, List.length_set]
        have hmem : b.tiles.getD r.toNat [] ∈ b.tiles := by
          rw [List.getD_eq_getElem?_getD, List.getElem?_eq_getElem hr]
          exact List.getElem_mem _
        exact w2 _ hmem
  · intro r' c' hr' hc'
    unfold BoardState.cell
    rw [BoardState.getD_set_grid _ _ _ _ _ _ hr hc]
    have e1 : r'.toNat = r.toNat ↔ r' = r := by omega
    have e2 : c'.toNat = c.toNat ↔ c' = c := by omega
    simp only [e1, e2]

theorem BoardState.new_spec (rows cols : Int) (b : BoardState)
    (h : BoardState.new rows cols = .ok b) :
    b.rows = rows ∧ b.cols = cols ∧ b.wellFormed ∧ ∀ r c : Int, b.cell r c = none := by
  unfold BoardState.new at h
  split_ifs at h
  injection h with h
  subst h
  refine ⟨rfl, rfl, ⟨by simp, ?_⟩, ?_⟩
  · intro row hrow
    rw [List.eq_of_mem_replicate hrow]
    simp
  · intro r c
    unfold BoardState.cell
    simp only [List.getD_eq_getElem?_getD, List.getElem?_replicate]
    split_ifs
    · simp only [Option.getD_some, List.getElem?_replicate]
      split_ifs <;> rfl
    · rfl

theorem BoardState.isFull_iff (board : BoardState) :
    board.isFull = true ↔
      ∀ r c : Int, board.isValidPosition r c = true → ∃ t, board.cell r c = some t := by
  unfold BoardState.isFull
  simp only [List.all_eq_true, List.mem_range, Option.isSome_iff_exists]
  constructor
  · intro h r c hv
    obtain ⟨h1, h2, h3, h4⟩ := (board.isValidPosition_bounds r c).1 hv
    have := h r.toNat (by omega) c.toNat (by omega)
    rw [Int.toNat_of_nonneg h1, Int.toNat_of_nonneg h3] at this
    exact this
  · intro h row hrow col hcol
    apply h
    rw [board.isValidPosition_bounds]
    omega

end Scrabble

namespace Scrabble
open PlaceAction

theorem BoardState.isEmpty_iff_cells (b : BoardState) :
    b.isEmpty = true ↔
      ∀ r c : Int, 0 ≤ r → r < b.rows → 0 ≤ c → c < b.cols → b.cell r c = none := by
  rw [b.isEmpty_iff]
  constructor
  · intro h r c h1 h2 h3 h4
    have hv := (b.isValidPosition_bounds r c).2 ⟨h1, h2, h3, h4⟩
    have := h r c
    simp only [BoardState.tileExists, hv, Bool.true_and] at this
    cases hcell : b.cell r c with
    | none => rfl
    | some t => rw [hcell] at this; simp at this
  · intro h r c
    by_cases hv : b.isValidPosition r c = true
    · obtain ⟨h1, h2, h3, h4⟩ := (b.isValidPosition_bounds r c).1 hv
      simp [BoardState.tileExists, hv, h r c h1 h2 h3 h4]
    · have hv' : b.isValidPosition r c = false := by simpa using hv
      simp [BoardState.tileExists, hv']

theorem BoardState.placeTile_not_empty (b : BoardState) (hwf : b.wellFormed) (t : Tile)
    (r c : Int) (hv : b.isValidPosition r c = true) (hfree : b.tileExists r c = false) :
    ∃ b', b.placeTile (some t) r c = .ok b' ∧ b'.isEmpty = false ∧
      b'.cell r c = some t := by
  obtain ⟨b', hb', hrows, hcols, _, hcell⟩ := b.placeTile_spec hwf (some t) r c hv hfree
  obtain ⟨h1, h2, h3, h4⟩ := (b.isValidPosition_bounds r c).1 hv
  have hc := hcell r c h1 h3
  simp only [and_self, if_true] at hc
  refine ⟨b', hb', ?_, hc⟩
  by_contra hne
  have he : b'.isEmpty = true := by simpa using hne
  have := (b'.isEmpty_iff_cells).1 he r c h1 (by omega) h3 (by omega)
  rw [hc] at this
  cases this

/-- C19: `isEmpty` and `isFull`.  For every board, `isEmpty()` is true if and
only if no cell of the grid holds a tile, and `isFull()` is true if and only
if every cell holds a tile.  A freshly constructed board is empty; after
`placeTile` on a valid unoccupied cell of a board whose grid has `rows` by
`cols` entries, the board is not empty; and a freshly constructed 1x1 board is
empty and not full and becomes full by placing a tile at `(0, 0)`. -/
theorem BoardState.isEmpty_isFull_spec (b : BoardState) :
    (b.isEmpty = true ↔
      ∀ r c : Int, 0 ≤ r → r < b.rows → 0 ≤ c → c < b.cols → b.cell r c = none) ∧
    (b.isFull = true ↔
      ∀ r c : Int, 0 ≤ r → r < b.rows → 0 ≤ c → c < b.cols → ∃ t, b.cell r c = some t) ∧
    (∀ (rows cols : Int) (b0 : BoardState),
      BoardState.new rows cols = .ok b0 → b0.isEmpty = true) ∧
    (∀ (t : Tile) (r c : Int), b.wellFormed → b.isValidPosition r c = true →
      b.tileExists r c = false →
      ∃ b', b.placeTile (some t) r c = .ok b' ∧ b'.isEmpty = false) ∧
    (∃ b0, BoardState.new 1 1 = .ok b0 ∧ b0.isEmpty = true ∧ b0.isFull = false ∧
      ∀ t : Tile, ∃ b', b0.placeTile (some t) 0 0 = .ok b' ∧ b'.isFull = true ∧
        b'.isEmpty = false) := by
  refine ⟨b.isEmpty_iff_cells, ?_, ?_, ?_, ?_⟩
  · rw [b.isFull_iff]
    constructor
    · intro h r c h1 h2 h3 h4
      exact h r c ((b.isValidPosition_bounds r c).2 ⟨h1, h2, h3, h4⟩)
    · intro h r c hv
      obtain ⟨h1, h2, h3, h4⟩ := (b.isValidPosition_bounds r c).1 hv
      exact h r c h1 h2 h3 h4
  · intro rows cols b0 h0
    obtain ⟨_, _, _, hnone⟩ := BoardState.new_spec rows cols b0 h0
    rw [b0.isEmpty_iff_cells]
    intro r c _ _ _ _
    exact hnone r c
  · intro t r c hwf hv hfree
    obtain ⟨b', hb', he, _⟩ := b.placeTile_not_empty hwf t r c hv hfree
    exact ⟨b', hb', he⟩
  · obtain ⟨b0, h0⟩ : ∃ b0, BoardState.new 1 1 = .ok b0 := ⟨_, rfl⟩
    obtain ⟨hrows, hcols, hwf, hnone⟩ := BoardState.new_spec 1 1 b0 h0
    have hv : b0.isValidPosition 0 0 = true := by
      rw [b0.isValidPosition_bounds]; omega
    have hfree : b0.tileExists 0 0 = false := by
      simp [BoardState.tileExists, hnone 0 0]
    refine ⟨b0, h0, ?_, ?_, ?_⟩
    · rw [b0.isEmpty_iff_cells]
      intro r c _ _ _ _
      exact hnone r c
    · by_contra hne
      have hf : b0.isFull = true := by simpa using hne
      obtain ⟨t, ht⟩ := (b0.isFull_iff).1 hf 0 0 hv
      rw [hnone 0 0] at ht
      cases ht
    · intro t
      obtain ⟨b', hb', hrows', hcols', _, hcell⟩ :=
        b0.placeTile_spec hwf (some t) 0 0 hv hfree
      obtain ⟨b'', hb'', he, _⟩ := b0.placeTile_not_empty hwf t 0 0 hv hfree
      rw [hb'] at hb''
      injection hb'' with hb''
      subst hb''
      refine ⟨b', hb', ?_, he⟩
      rw [b'.isFull_iff]
      intro r c hvrc
      obtain ⟨h1, h2, h3, h4⟩ := (b'.isValidPosition_bounds r c).1 hvrc
      have hr : r = 0 := by omega
      have hc : c = 0 := by omega
      subst hr hc
      refine ⟨t, ?_⟩
      rw [hcell 0 0 (le_refl _) (le_refl _)]
      simp

end Scrabble

namespace Scrabble
open PlaceAction

theorem run_head (dr dc : Int) (n : Nat) (r c : Int) :
    (run dr dc n r c).head? = some ⟨'_', r, c⟩ := by
  cases n <;> simp [run]

theorem run_getLast (dr dc : Int) :
    ∀ (n : Nat) (r c : Int),
      (run dr dc n r c).getLast? = some ⟨'_', r + n * dr, c + n * dc⟩ := by
  intro n
  induction n with
  | zero => intro r c; simp [run]
  | succ n ih =>
    intro r c
    have hne : run dr dc n (r + dr) (c + dc) ≠ [] := by
      cases n <;> simp [run]
    obtain ⟨x, xs, hx⟩ := List.exists_cons_of_ne_nil hne
    have := ih (r + dr) (c + dc)
    simp only [run, hx, List.getLast?_cons_cons] at this ⊢
    rw [this]
    congr 2 <;> push_cast <;> ring

theorem run_chain (dr dc : Int) :
    ∀ (n : Nat) (r c : Int),
      List.Chain' (fun x y : TilePlacement =>
        y.rowIdx = x.rowIdx + dr ∧ y.colIdx = x.colIdx + dc) (run dr dc n r c) := by
  intro n
  induction n with
  | zero => intro r c; simp [run]
  | succ n ih =>
    intro r c
    simp only [run]
    rw [List.chain'_cons']
    refine ⟨?_, ih (r + dr) (c + dc)⟩
    intro y hy
    rw [run_head] at hy
    simp only [Option.mem_def, Option.some.injEq] at hy
    subst hy
    exact ⟨rfl, rfl⟩

/-- C15: maximal extension.  For every board and every non-empty collinear
candidate of in-bounds positions, with `pmin` and `pmax` the smallest and
largest placement position, `getIncludedPositions` returns the run that starts
at `pmin` moved back over `a` contiguous occupied cells and ends at `pmax`
moved forward over `b` contiguous occupied cells, along the axis `(dr, dc)`;
the cell one step before its first position and the cell one step after its
last position hold no tile on the board (they are empty or off the board). -/
theorem PlaceAction.maximal_extension (st : State) (ps : List TilePlacement)
    (hne : ps ≠ [])
    (hvalid : ∀ p ∈ ps, st.board.isValidPosition p.rowIdx p.colIdx = true)
    (hcol : Checks.collinear ps) :
    ∃ (dr dc : Int) (a k b : Nat) (pmin pmax : TilePlacement) (rect : List TilePlacement),
      pmin ∈ ps ∧ pmax ∈ ps ∧
      (∀ p ∈ ps, pmin.rowIdx ≤ p.rowIdx ∧ pmin.colIdx ≤ p.colIdx ∧
        p.rowIdx ≤ pmax.rowIdx ∧ p.colIdx ≤ pmax.colIdx) ∧
      ((dr = 0 ∧ dc = 1) ∨ (dr = 1 ∧ dc = 0)) ∧
      pmax.rowIdx = pmin.rowIdx + k * dr ∧ pmax.colIdx = pmin.colIdx + k * dc ∧
      getIncludedPositions st ps = .ok rect ∧
      rect = run dr dc (a + k + b) (pmin.rowIdx - a * dr) (pmin.colIdx - a * dc) ∧
      rect.head? = some ⟨'_', pmin.rowIdx - a * dr, pmin.colIdx - a * dc⟩ ∧
      rect.getLast? = some ⟨'_', pmax.rowIdx + b * dr, pmax.colIdx + b * dc⟩ ∧
      (∀ j : Nat, 1 ≤ j → j ≤ a →
        st.board.tileExists (pmin.rowIdx - j * dr) (pmin.colIdx - j * dc) = true) ∧
      st.board.tileExists (pmin.rowIdx - a * dr - dr) (pmin.colIdx - a * dc - dc) = false ∧
      (∀ j : Nat, 1 ≤ j → j ≤ b →
        st.board.tileExists (pmax.rowIdx + j * dr) (pmax.colIdx + j * dc) = true) ∧
      st.board.tileExists (pmax.rowIdx + b * dr + dr) (pmax.colIdx + b * dc + dc) = false := by
  have hbox := (PlaceAction.collinear_iff_box st.board ps hne hvalid).1 hcol
  obtain ⟨hall, _⟩ := PlaceAction.boundingBox_spec st.board ps hne hvalid
  obtain ⟨⟨p1, hp1, e1, e1'⟩, ⟨p2, hp2, e2, e2'⟩⟩ :=
    PlaceAction.corner_placements st.board ps hne hvalid hbox
  obtain ⟨dr, dc, a, k, b, _, hd, hk1, hk2, hrect, ha, ha', hb, hb'⟩ :=
    PlaceAction.getIncludedPositions_spec st ps hne hvalid hbox
  simp only [← e1, ← e1', ← e2, ← e2'] at hrect ha ha' hb hb' hk1 hk2 hall
  refine ⟨dr, dc, a, k, b, p1, p2, _, hp1, hp2, ?_, hd, hk1, hk2, hrect, rfl,
    run_head _ _ _ _ _, ?_, ha, ?_, hb, ?_⟩
  · intro p hp
    have := hall p hp
    omega
  · rw [run_getLast, hk1, hk2]
    congr 2 <;> push_cast <;> ring
  · have er : p1.rowIdx - a * dr - dr = p1.rowIdx - ((a + 1 : Nat) : Int) * dr := by
      push_cast; ring
    have ec : p1.colIdx - a * dc - dc = p1.colIdx - ((a + 1 : Nat) : Int) * dc := by
      push_cast; ring
    rw [er, ec]
    exact ha'
  · have er : p2.rowIdx + b * dr + dr = p2.rowIdx + ((b + 1 : Nat) : Int) * dr := by
      push_cast; ring
    have ec : p2.colIdx + b * dc + dc = p2.colIdx + ((b + 1 : Nat) : Int) * dc := by
      push_cast; ring
    rw [er, ec]
    exact hb'

end Scrabble

namespace Scrabble
open PlaceAction

/-- C15 at a concrete input: `A` at `B2` and `E` at `B5` on the board
`C@B1, R@B3, S@B4`. -/
theorem PlaceAction.maximal_extension_witness :
    Examples.aeOnCars ≠ [] ∧
    (∀ p ∈ Examples.aeOnCars,
      Examples.carsBoard.isValidPosition p.rowIdx p.colIdx = true) ∧
    Checks.collinear Examples.aeOnCars ∧
    ∃ (dr dc : Int) (a k b : Nat) (pmin pmax : TilePlacement) (rect : List TilePlacement),
      pmin ∈ Examples.aeOnCars ∧ pmax ∈ Examples.aeOnCars ∧
      (∀ p ∈ Examples.aeOnCars, pmin.rowIdx ≤ p.rowIdx ∧ pmin.colIdx ≤ p.colIdx ∧
        p.rowIdx ≤ pmax.rowIdx ∧ p.colIdx ≤ pmax.colIdx) ∧
      ((dr = 0 ∧ dc = 1) ∨ (dr = 1 ∧ dc = 0)) ∧
      pmax.rowIdx = pmin.rowIdx + k * dr ∧ pmax.colIdx = pmin.colIdx + k * dc ∧
      getIncludedPositions (Examples.game Examples.carsBoard Examples.a) Examples.aeOnCars
        = .ok rect ∧
      rect = run dr dc (a + k + b) (pmin.rowIdx - a * dr) (pmin.colIdx - a * dc) ∧
      rect.head? = some ⟨'_', pmin.rowIdx - a * dr, pmin.colIdx - a * dc⟩ ∧
      rect.getLast? = some ⟨'_', pmax.rowIdx + b * dr, pmax.colIdx + b * dc⟩ ∧
      (∀ j : Nat, 1 ≤ j → j ≤ a →
        Examples.carsBoard.tileExists (pmin.rowIdx - j * dr) (pmin.colIdx - j * dc) = true) ∧
      Examples.carsBoard.tileExists (pmin.rowIdx - a * dr - dr) (pmin.colIdx - a * dc - dc)
        = false ∧
      (∀ j : Nat, 1 ≤ j → j ≤ b →
        Examples.carsBoard.tileExists (pmax.rowIdx + j * dr) (pmax.colIdx + j * dc) = true) ∧
      Examples.carsBoard.tileExists (pmax.rowIdx + b * dr + dr) (pmax.colIdx + b * dc + dc)
        = false :=
  have h1 : Examples.aeOnCars ≠ [] := by decide
  have h2 : ∀ p ∈ Examples.aeOnCars,
      Examples.carsBoard.isValidPosition p.rowIdx p.colIdx = true := by decide
  have h3 : Checks.collinear Examples.aeOnCars := by unfold Checks.collinear; decide
  ⟨h1, h2, h3, PlaceAction.maximal_extension
    (Examples.game Examples.carsBoard Examples.a) Examples.aeOnCars h1 h2 h3⟩

theorem PlaceAction.wordLoop_letters (board : BoardState) (ps : List TilePlacement) :
    ∀ (rect : List TilePlacement) (w w' : String),
      wordLoop board ps rect w = .ok w' →
      ∃ cs, w'.data = w.data ++ cs ∧ List.Forall₂ (resolves board ps) rect cs := by
  intro rect
  induction rect with
  | nil =>
    intro w w' h
    simp only [wordLoop] at h
    injection h with h
    subst h
    exact ⟨[], by simp, List.Forall₂.nil⟩
  | cons q rest ih =>
    intro w w' h
    by_cases hex : board.tileExists q.rowIdx q.colIdx = true
    · have hv : board.isValidPosition q.rowIdx q.colIdx = true := by
        simp only [BoardState.tileExists, Bool.and_eq_true] at hex
        exact hex.1
      cases hcell : board.cell q.rowIdx q.colIdx with
      | none =>
        simp [BoardState.tileExists, hcell] at hex
      | some t =>
        have hstep : wordLoop board ps (q :: rest) w
            = wordLoop board ps rest (w.push t.letter) := by
          simp [wordLoop, hex, BoardState.getTileAt, hv, hcell]
        rw [hstep] at h
        obtain ⟨cs, hcs, hall⟩ := ih _ _ h
        refine ⟨t.letter :: cs, ?_, List.Forall₂.cons ⟨?_, ?_⟩ hall⟩
        · rw [hcs]; simp [String.push]
        · intro _; exact ⟨t, hcell, rfl⟩
        · intro hf; rw [hf] at hex; cases hex
    · have hex' : board.tileExists q.rowIdx q.colIdx = false := by simpa using hex
      rcases PlaceAction.getPlacementIfExists_spec ps q.rowIdx q.colIdx q with
        ⟨g1, g2, g3, g4⟩ | ⟨g1, g2, g3⟩
      · generalize hg : getPlacementIfExists ps q.rowIdx q.colIdx q = res at g1 g2 g3 g4
        obtain ⟨flag, toPlace⟩ := res
        simp only at g1 g2 g3 g4
        subst g1
        by_cases hup : 'A' ≤ toPlace.letter ∧ toPlace.letter ≤ 'Z'
        · have hstep : wordLoop board ps (q :: rest) w
              = wordLoop board ps rest (w.push toPlace.letter) := by
            simp [wordLoop, hex', hg, hup]
          rw [hstep] at h
          obtain ⟨cs, hcs, hall⟩ := ih _ _ h
          refine ⟨toPlace.letter :: cs, ?_, List.Forall₂.cons ⟨?_, ?_⟩ hall⟩
          · rw [hcs]; simp [String.push]
          · intro hf; rw [hf] at hex'; cases hex'
          · intro _; exact ⟨toPlace, g2, g3, g4, rfl⟩
        · exfalso
          simp only [wordLoop, hex', hg] at h
          simp [hup] at h
      · generalize hg : getPlacementIfExists ps q.rowIdx q.colIdx q = res at g1 g2
        obtain ⟨flag, toPlace⟩ := res
        simp only at g1 g2
        subst g1
        exfalso
        simp [wordLoop, hex', hg] at h

/-- C14: the extracted-word invariant.  For a constructed current player,
whenever `isValidMove` returns true with the word `w`, the position list of
`getIncludedPositions` is a non-empty run along one axis (each position is
the one before it moved by exactly `(0,1)`, or each by exactly `(1,0)`), the
word has one character per position, and the character at each position is the
letter of the board tile there if the cell is occupied and otherwise the letter
of a placement of the candidate at exactly that position. -/
theorem PlaceAction.extracted_word_invariant (d : Dictionary) (ps : List TilePlacement)
    (st : State) (player : PlayerState) (h : st.currentPlayerIs player) (w : String)
    (hacc : (isValidMove d ps st).1 = .accepted w) :
    ∃ (rect : List TilePlacement) (dr dc : Int),
      getIncludedPositions st ps = .ok rect ∧
      ((dr = 0 ∧ dc = 1) ∨ (dr = 1 ∧ dc = 0)) ∧
      rect ≠ [] ∧
      List.Chain' (fun x y : TilePlacement =>
        y.rowIdx = x.rowIdx + dr ∧ y.colIdx = x.colIdx + dc) rect ∧
      w.length = rect.length ∧
      List.Forall₂ (resolves st.board ps) rect w.data := by
  rcases PlaceAction.isValidMove_trace d ps st player h with
    ⟨_, _, _, _, _, _, _, hr⟩ | ⟨_, _, _, _, hr⟩ | ⟨_, _, _, hr⟩ | ⟨_, _, _, _, hr⟩ |
    ⟨_, _, _, _, hr⟩ | ⟨_, _, _, _, _, hr⟩ | ⟨_, hP, _, hne, hcol, rect, hrect, hw⟩
  · rw [hr] at hacc; cases hacc
  · rw [hr] at hacc; cases hacc
  · rw [hr] at hacc; cases hacc
  · rw [hr] at hacc; cases hacc
  · rw [hr] at hacc; cases hacc
  · rw [hr] at hacc; cases hacc
  · have hvalid := Checks.valid_of_not_positionFails st.board ps hP
    have hbox := (PlaceAction.collinear_iff_box st.board ps hne hvalid).1 hcol
    obtain ⟨dr, dc, a, k, b, _, hd, _, _, hrect', _⟩ :=
      PlaceAction.getIncludedPositions_spec st ps hne hvalid hbox
    rw [hrect] at hrect'
    injection hrect' with hrect'
    rcases hw with ⟨_, hr⟩ | ⟨_, _, hr⟩ | ⟨w', hw', hr⟩
    · rw [hr] at hacc; cases hacc
    · rw [hr] at hacc; cases hacc
    · by_cases hd' : d.contains w' = true
      · rw [if_pos hd'] at hr
        rw [hr] at hacc
        injection hacc with hacc
        subst hacc
        obtain ⟨cs, hcs, hall⟩ := PlaceAction.wordLoop_letters st.board ps rect "" w' hw'
        have hdata : w'.data = cs := by simpa using hcs
        rw [← hdata] at hall
        refine ⟨rect, dr, dc, hrect, hd, ?_, ?_, ?_, hall⟩
        · rw [hrect']
          cases (a + k + b) <;> simp [run]
        · rw [hrect']
          exact run_chain dr dc _ _ _
        · exact hall.length_eq.symm
      · rw [if_neg hd'] at hr
        rw [hr] at hacc; cases hacc

/-- C14 at a concrete input: `T` at `B3` next to `A@B2` is accepted with the
word "AT". -/
theorem PlaceAction.extracted_word_invariant_witness :
    (Examples.game Examples.aBoard Examples.t).currentPlayerIs (Examples.ann Examples.t) ∧
    (isValidMove Examples.words Examples.tAtB3
      (Examples.game Examples.aBoard Examples.t)).1 = .accepted "AT" ∧
    ∃ (rect : List TilePlacement) (dr dc : Int),
      getIncludedPositions (Examples.game Examples.aBoard Examples.t) Examples.tAtB3
        = .ok rect ∧
      ((dr = 0 ∧ dc = 1) ∨ (dr = 1 ∧ dc = 0)) ∧
      rect ≠ [] ∧
      List.Chain' (fun x y : TilePlacement =>
        y.rowIdx = x.rowIdx + dr ∧ y.colIdx = x.colIdx + dc) rect ∧
      "AT".length = rect.length ∧
      List.Forall₂ (resolves Examples.aBoard Examples.tAtB3) rect "AT".data :=
  have h1 : (Examples.game Examples.aBoard Examples.t).currentPlayerIs
      (Examples.ann Examples.t) := ⟨rfl, by decide, by decide⟩
  have h2 : (isValidMove Examples.words Examples.tAtB3
      (Examples.game Examples.aBoard Examples.t)).1 = .accepted "AT" := by decide
  ⟨h1, h2, PlaceAction.extracted_word_invariant Examples.words Examples.tAtB3
    (Examples.game Examples.aBoard Examples.t) (Examples.ann Examples.t) h1 "AT" h2⟩

end Scrabble

namespace Scrabble
open PlaceAction

theorem PlayerState.drawTilesLoop_spec :
    ∀ (n : Nat) (hand bag : List Tile) (cnt : Int), bag.length ≤ n → hand.length ≤ 7 →
      PlayerState.drawTilesLoop n ⟨hand⟩ ⟨bag⟩ cnt
        = .ok (cnt + (min (7 - hand.length) bag.length : Nat),
            ⟨hand ++ bag.take (min (7 - hand.length) bag.length)⟩,
            ⟨bag.drop (min (7 - hand.length) bag.length)⟩) := by
  intro n
  induction n with
  | zero =>
    intro hand bag cnt hb hh
    have hbag : bag = [] := List.eq_nil_of_length_eq_zero (by omega)
    subst hbag
    simp [PlayerState.drawTilesLoop, LinkedList.getLength]
  | succ n ih =>
    intro hand bag cnt hb hh
    by_cases hcond : hand.length < 7 ∧ bag.length > 0
    · obtain ⟨hc1, hc2⟩ := hcond
      cases bag with
      | nil => simp at hc2
      | cons t bag' =>
        have hcond' : (LinkedList.getLength ⟨hand⟩ < 7 ∧ LinkedList.getLength ⟨t :: bag'⟩ > 0) := by
          simp only [LinkedList.getLength, List.length_cons]
          omega
        have hrem : LinkedList.remove ⟨t :: bag'⟩ 0 = .ok (t, ⟨bag'⟩) := by
          have := LinkedList.get_natCast (t :: bag') 0
          simp only [Nat.cast_zero, List.getElem?_cons_zero] at this
          simp [LinkedList.remove, this]
        simp only [PlayerState.drawTilesLoop, hcond', and_self, if_true, hrem]
        have hlen : (hand ++ [t]).length ≤ 7 := by simp; omega
        have := ih (hand ++ [t]) bag' (cnt + 1) (by simpa using hb) hlen
        simp only [LinkedList.addBack]
        rw [this]
        have hmin : min (7 - hand.length) (t :: bag').length
            = min (7 - (hand ++ [t]).length) bag'.length + 1 := by
          simp only [List.length_cons, List.length_append, List.length_nil]
          omega
        rw [hmin]
        simp only [List.take_succ_cons, List.drop_succ_cons, List.append_assoc,
          List.singleton_append]
        congr 2
        push_cast
        ring
    · have hcond' : ¬(LinkedList.getLength ⟨hand⟩ < 7 ∧ LinkedList.getLength ⟨bag⟩ > 0) := by
        simp only [LinkedList.getLength]
        omega
      have hmin : min (7 - hand.length) bag.length = 0 := by omega
      simp [PlayerState.drawTilesLoop, hcond', hmin]

/-- What `drawTiles` does for a hand of at most 7 tiles: it moves the first
`min (7 - h) b` tiles of the bag to the end of the hand. -/
theorem PlayerState.drawTiles_spec (p : PlayerState) (tileBag : LinkedList)
    (hcap : p.hand.nodes.length ≤ 7) :
    p.drawTiles tileBag
      = .ok ((min (7 - p.hand.nodes.length) tileBag.nodes.length : Nat),
          { p with hand := ⟨p.hand.nodes ++
            tileBag.nodes.take (min (7 - p.hand.nodes.length) tileBag.nodes.length)⟩ },
          ⟨tileBag.nodes.drop (min (7 - p.hand.nodes.length) tileBag.nodes.length)⟩) := by
  unfold PlayerState.drawTiles
  have := PlayerState.drawTilesLoop_spec tileBag.nodes.length p.hand.nodes tileBag.nodes 0
    (Nat.le_refl _) hcap
  rw [this]
  have hlen : (LinkedList.getLength ⟨p.hand.nodes ++
      tileBag.nodes.take (min (7 - p.hand.nodes.length) tileBag.nodes.length)⟩ : Int) ≤ 7 := by
    simp only [LinkedList.getLength, List.length_append, List.length_take]
    omega
  simp [hlen]

end Scrabble

namespace Scrabble
open PlaceAction

theorem State.setCurrentPlayer_spec (s : State) (player : PlayerState)
    (hidx : s.playerTurnIdx = 0 ∨ s.playerTurnIdx = 1) :
    (s.setCurrentPlayer player).board = s.board ∧
    (s.setCurrentPlayer player).tileBag = s.tileBag ∧
    (s.setCurrentPlayer player).playerTurnIdx = s.playerTurnIdx ∧
    (s.setCurrentPlayer player).didQuit = s.didQuit ∧
    (s.setCurrentPlayer player).getCurrentPlayer = .ok player ∧
    (s.playerTurnIdx = 0 → (s.setCurrentPlayer player).players.2 = s.players.2) ∧
    (s.playerTurnIdx = 1 → (s.setCurrentPlayer player).players.1 = s.players.1) := by
  unfold State.setCurrentPlayer State.getCurrentPlayer
  rcases hidx with h | h
  · simp [h]
  · simp [h]

end Scrabble

namespace Scrabble
open PlaceAction

/-- C11, evaluated at the failing input: on an empty board, with `A` and `B`
in hand, the candidate `A` at `B2`, `B` at `B2` is accepted by `isValidMove`
with the word "A"; `performMove` then places `A`, and the second call of
`placeTile` fails its assertion that the cell is free, before any score is
added. -/
theorem PlaceAction.same_cell_commit_aborts_before_scoring :
    (isValidMove Examples.words Examples.sameCell
      (Examples.game Examples.emptyBoard Examples.ab)).1 = .accepted "A" ∧
    (∃ b', Examples.emptyBoard.placeTile (some ⟨'A', 1⟩) 1 1 = .ok b' ∧
      b'.tileExists 1 1 = true ∧
      b'.placeTile (some ⟨'B', 3⟩) 1 1 = .error .assertion) ∧
    performMove Examples.sameCell (Examples.game Examples.emptyBoard Examples.ab) "A"
      = .error .assertion := by
  refine ⟨by decide, ⟨_, rfl, by decide, rfl⟩, rfl⟩

/-- C13, evaluated at the failing input: with the hand `A, B`, a bag holding
`A, B, C` and an empty board, the candidate `A` at `B2`, `B` at `B2` is
accepted by `isValidMove`; `performMove` fails the assertion of the second
`placeTile` and never reaches `drawTiles`, so no tile moves from the bag to
the hand. -/
theorem PlaceAction.same_cell_commit_aborts_before_drawing :
    (Examples.ab.length ≤ 7) ∧
    (isValidMove Examples.words Examples.sameCell
      (Examples.gameWithBag Examples.emptyBoard Examples.ab Examples.abc)).1
        = .accepted "A" ∧
    placeLoop (Examples.ann Examples.ab) Examples.emptyBoard 0 Examples.sameCell
      = .error .assertion ∧
    performMove Examples.sameCell
      (Examples.gameWithBag Examples.emptyBoard Examples.ab Examples.abc) "A"
        = .error .assertion := by
  refine ⟨by decide, by decide, rfl, rfl⟩

end Scrabble

namespace Scrabble

/-- C26: for a hand of `h ≤ 7` tiles and a bag of `b` tiles, `drawTiles`
returns `d = min (7 - h) b`; the hand afterwards is the old hand followed by
the first `d` tiles of the bag in bag order, the bag afterwards is the old bag
without those `d` tiles, name and score of the player are untouched, and the
hand has 7 tiles or the bag is empty. -/
theorem PlayerState.drawTiles_moves_bag_prefix (p : PlayerState) (tileBag : LinkedList)
    (hcap : p.hand.getLength ≤ 7) :
    ∃ (d : Int) (p' : PlayerState) (bag' : LinkedList),
      p.drawTiles tileBag = .ok (d, p', bag') ∧
      d = min (7 - p.hand.getLength) tileBag.getLength ∧
      p'.hand.nodes = p.hand.nodes ++ tileBag.nodes.take d.toNat ∧
      bag'.nodes = tileBag.nodes.drop d.toNat ∧
      p'.name = p.name ∧ p'.score = p.score ∧
      p'.hand.getLength = p.hand.getLength + d ∧
      bag'.getLength = tileBag.getLength - d ∧
      (p'.hand.getLength = 7 ∨ bag'.getLength = 0) := by
  have hcap' : p.hand.nodes.length ≤ 7 := by
    simp only [LinkedList.getLength] at hcap
    omega
  have hspec := PlayerState.drawTiles_spec p tileBag hcap'
  refine ⟨_, _, _, hspec, ?_, ?_, ?_, rfl, rfl, ?_, ?_, ?_⟩
  · simp only [LinkedList.getLength]
    omega
  · simp only [Int.toNat_ofNat]
  · simp only [Int.toNat_ofNat]
  · simp only [LinkedList.getLength, List.length_append, List.length_take]
    omega
  · simp only [LinkedList.getLength, List.length_drop]
    omega
  · simp only [LinkedList.getLength, List.length_append, List.length_take, List.length_drop]
    omega

/-- C26 at a concrete input: the hand `A-1, B-3` draws five of the seven
tiles `D, E, F, G, H, I, J`. -/
theorem PlayerState.drawTiles_moves_bag_prefix_witness :
    (Examples.ann Examples.ab).hand.getLength ≤ 7 ∧
    ∃ (d : Int) (p' : PlayerState) (bag' : LinkedList),
      (Examples.ann Examples.ab).drawTiles ⟨Examples.bagDJ⟩ = .ok (d, p', bag') ∧
      d = min (7 - (Examples.ann Examples.ab).hand.getLength)
        (LinkedList.getLength ⟨Examples.bagDJ⟩) ∧
      p'.hand.nodes = (Examples.ann Examples.ab).hand.nodes
        ++ (Examples.bagDJ).take d.toNat ∧
      bag'.nodes = (Examples.bagDJ).drop d.toNat ∧
      p'.name = (Examples.ann Examples.ab).name ∧
      p'.score = (Examples.ann Examples.ab).score ∧
      p'.hand.getLength = (Examples.ann Examples.ab).hand.getLength + d ∧
      bag'.getLength = LinkedList.getLength ⟨Examples.bagDJ⟩ - d ∧
      (p'.hand.getLength = 7 ∨ bag'.getLength = 0) :=
  ⟨by decide,
    PlayerState.drawTiles_moves_bag_prefix (Examples.ann Examples.ab) ⟨Examples.bagDJ⟩
      (by decide)⟩

/-- C27: if some tile of the hand has the letter, `removeTile` returns the
first such tile in hand order (letter and value) and the hand afterwards is
the old hand without exactly that element, the order of the others kept; if
no tile has the letter it returns `nullptr` and the player is unchanged. -/
theorem PlayerState.removeTile_first_match (p : PlayerState) (letter : Letter) :
    ((∃ u ∈ p.hand.nodes, u.letter = letter) →
      ∃ (a : List Tile) (t : Tile) (b : List Tile),
        p.hand.nodes = a ++ t :: b ∧ t.letter = letter ∧
        (∀ u ∈ a, u.letter ≠ letter) ∧
        p.hand.nodes.eraseIdx a.length = a ++ b ∧
        p.removeTile letter = .ok (some t, { p with hand := ⟨a ++ b⟩ })) ∧
    ((∀ u ∈ p.hand.nodes, u.letter ≠ letter) →
      p.removeTile letter = .ok (none, p)) := by
  rcases PlayerState.removeTile_spec p letter with ⟨h1, h2⟩ | ⟨a, t, b, h1, h2, h3, h4⟩
  · refine ⟨?_, fun _ => h1⟩
    rintro ⟨u, hu, hl⟩
    exact absurd hl (h2 u hu)
  · refine ⟨fun _ => ⟨a, t, b, h1, h2, h3, ?_, h4⟩, ?_⟩
    · rw [h1, List.eraseIdx_append_of_length_le (Nat.le_refl _)]
      simp
    · intro hall
      exact absurd h2 (hall t (by rw [h1]; simp))

end Scrabble

namespace Scrabble
namespace Heap
open LinkedList

theorem linked_length {heap : List (Option Node)} :
    ∀ {as : List Nat} {xs : List Tile}, linked heap as xs → as.length = xs.length := by
  intro as
  induction as with
  | nil =>
    intro xs h
    cases xs with
    | nil => rfl
    | cons t ts => simp [linked] at h
  | cons a as ih =>
    intro xs h
    cases xs with
    | nil => simp [linked] at h
    | cons t ts =>
      simp only [linked] at h
      simp [ih h.2]

theorem linked_frame {heap heap' : List (Option Node)} :
    ∀ {as : List Nat} {xs : List Tile}, linked heap as xs →
      (∀ a ∈ as, heap'.getD a none = heap.getD a none) → linked heap' as xs := by
  intro as
  induction as with
  | nil =>
    intro xs h _
    cases xs with
    | nil => trivial
    | cons t ts => simp [linked] at h
  | cons a as ih =>
    intro xs h hsame
    cases xs with
    | nil => simp [linked] at h
    | cons t ts =>
      simp only [linked] at h ⊢
      refine ⟨?_, ih h.2 (fun b hb => hsame b (List.mem_cons_of_mem _ hb))⟩
      rw [hsame a (List.mem_cons_self _ _)]
      exact h.1

theorem linked_getD {heap : List (Option Node)} :
    ∀ {as : List Nat} {xs : List Tile}, linked heap as xs →
      ∀ (i a : Nat) (t : Tile), as[i]? = some a → xs[i]? = some t →
        heap.getD a none = some { tile := t, next := as[i + 1]? } := by
  intro as
  induction as with
  | nil =>
    intro xs _ i a t ha _
    simp at ha
  | cons b as ih =>
    intro xs h i a t ha ht
    cases xs with
    | nil => simp at ht
    | cons u ts =>
      simp only [linked] at h
      cases i with
      | zero =>
        simp only [List.getElem?_cons_zero, Option.some.injEq] at ha ht
        subst ha
        subst ht
        rw [h.1]
        simp [List.head?_eq_getElem?]
      | succ j =>
        simp only [List.getElem?_cons_succ] at ha ht ⊢
        exact ih h.2 j a t ha ht

theorem linked_lt {heap : List (Option Node)} {as : List Nat} {xs : List Tile}
    (h : linked heap as xs) : ∀ a ∈ as, a < heap.length := by
  intro a ha
  obtain ⟨i, hi, rfl⟩ := List.mem_iff_getElem.1 ha
  have hlen := linked_length h
  have hx : i < xs.length := by omega
  have := linked_getD h i as[i] xs[i] (List.getElem?_eq_getElem hi) (List.getElem?_eq_getElem hx)
  by_contra hge
  rw [List.getD_eq_default _ _ (by omega)] at this
  cases this

theorem LinkedList.getNodeLoop_linked (l : LinkedList) :
    ∀ (as : List Nat) (xs : List Tile), linked l.heap as xs →
      ∀ i ≤ as.length, getNodeLoop l i as.head? = .ok as[i]? := by
  intro as
  induction as with
  | nil =>
    intro xs _ i hi
    have : i = 0 := by simpa using hi
    subst this
    rfl
  | cons a as ih =>
    intro xs h i hi
    cases xs with
    | nil => simp [linked] at h
    | cons t ts =>
      simp only [linked] at h
      cases i with
      | zero => simp [getNodeLoop]
      | succ j =>
        have hj : j ≤ as.length := by simpa using hi
        simp only [getNodeLoop, List.head?_cons, deref, h.1, List.getElem?_cons_succ]
        exact ih ts h.2 j hj

/-- For a list that holds `xs`, `getNode` finds the node of every valid
index. -/
theorem LinkedList.getNode_linked (l : LinkedList) (as : List Nat) (xs : List Tile)
    (hlen : l.length = xs.length) (hhead : l.head = as.head?) (h : linked l.heap as xs)
    (i : Nat) (hi : i < xs.length) :
    l.getNode (i : Int) = .ok as[i]? := by
  have hl := linked_length h
  have hcond : ¬((i : Int) < 0 ∨ (i : Int) ≥ l.length) := by
    rw [hlen]
    omega
  simp only [getNode, hcond, if_false, Int.toNat_ofNat, hhead]
  exact LinkedList.getNodeLoop_linked l as xs h i (by omega)

theorem LinkedList.getNode_outside (l : LinkedList) (index : Int)
    (h : index < 0 ∨ index ≥ l.length) :
    l.getNode index = .error (.exception .outOfRange) := by
  simp [getNode, h]

/-- Reading `get` through the representation. -/
theorem LinkedList.get_represents (l : LinkedList) (xs : List Tile) (h : l.represents xs)
    (i : Nat) (t : Tile) (ht : xs[i]? = some t) : l.get (i : Int) = .ok t := by
  obtain ⟨hlen, _, as, _, hhead, hlink⟩ := h
  have hi : i < xs.length := by
    by_contra hge
    rw [List.getElem?_eq_none (by omega)] at ht
    cases ht
  have hl := linked_length hlink
  have ha : as[i]? = some as[i] := List.getElem?_eq_getElem (by omega)
  have hnode := linked_getD hlink i as[i] t ha ht
  simp only [get, LinkedList.getNode_linked l as xs hlen hhead hlink i hi, ha, deref, hnode]

theorem LinkedList.get_outside (l : LinkedList) (index : Int)
    (h : index < 0 ∨ index ≥ l.length) :
    l.get index = .error (.exception .outOfRange) := by
  simp only [get, LinkedList.getNode_outside l index h]

end Heap
end Scrabble

namespace Scrabble
namespace Heap
open LinkedList

theorem linked_append_node {heap heap' : List (Option Node)} (n : Nat) (t : Tile)
    (hnew : heap'.getD n none = some { tile := t, next := none }) :
    ∀ {as : List Nat} {xs : List Tile}, linked heap as xs → as.Nodup →
      (∀ a x, as.getLast? = some a → xs.getLast? = some x →
        heap'.getD a none = some { tile := x, next := some n }) →
      (∀ a ∈ as, as.getLast? ≠ some a → heap'.getD a none = heap.getD a none) →
      linked heap' (as ++ [n]) (xs ++ [t]) := by
  intro as
  induction as with
  | nil =>
    intro xs h _ _ _
    cases xs with
    | nil => simpa [linked] using hnew
    | cons u ts => simp [linked] at h
  | cons a as ih =>
    intro xs h hnd hlast hother
    cases xs with
    | nil => simp [linked] at h
    | cons x ts =>
      simp only [linked] at h
      have hlen := linked_length h.2
      simp only [List.cons_append, linked]
      cases as with
      | nil =>
        have hts : ts = [] := by
          cases ts with
          | nil => rfl
          | cons _ _ => simp at hlen
        subst hts
        refine ⟨?_, ?_⟩
        · simpa using hlast a x (by simp) (by simp)
        · simpa [linked] using hnew
      | cons b as =>
        have hne : (a :: b :: as).getLast? ≠ some a := by
          rw [List.getLast?_cons_cons]
          intro hc
          have hmem : a ∈ b :: as := List.mem_of_getLast?_eq_some hc
          exact (List.nodup_cons.1 hnd).1 hmem
        refine ⟨?_, ?_⟩
        · rw [hother a (List.mem_cons_self _ _) hne, h.1]
          simp
        · cases ts with
          | nil => simp at hlen
          | cons y ts =>
            refine ih h.2 (List.nodup_cons.1 hnd).2 ?_ ?_
            · intro c z hc hz
              exact hlast c z (by rw [List.getLast?_cons_cons]; exact hc)
                (by rw [List.getLast?_cons_cons]; exact hz)
            · intro c hc hcl
              exact hother c (List.mem_cons_of_mem _ hc)
                (by rw [List.getLast?_cons_cons]; exact hcl)

/-- What `addBack` does to a list that holds `xs`: the list afterwards holds
`xs ++ [t]`. -/
theorem LinkedList.addBack_represents (l : LinkedList) (xs : List Tile) (t : Tile)
    (h : l.represents xs) (ht : t.valid) :
    ∃ l', l.addBack t = .ok l' ∧ l'.represents (xs ++ [t]) ∧ l'.length = l.length + 1 := by
  obtain ⟨hlen, hvalid, as, hnd, hhead, hlink⟩ := h
  have hl := linked_length hlink
  have hlt := linked_lt hlink
  have hvalid' : ∀ u ∈ xs ++ [t], u.valid := by
    intro u hu
    rcases List.mem_append.1 hu with hu | hu
    · exact hvalid u hu
    · simp only [List.mem_singleton] at hu
      subst hu
      exact ht
  have hfresh : l.heap.length ∉ as := fun hc => Nat.lt_irrefl _ (hlt _ hc)
  rcases List.eq_nil_or_concat as with hnil | ⟨as0, z, has⟩
  · subst hnil
    have hxs : xs = [] := by
      cases xs with
      | nil => rfl
      | cons _ _ => simp at hl
    subst hxs
    have h0 : l.length = 0 := by simpa using hlen
    have hh : l.head = none := by simpa using hhead
    refine ⟨_, by simp only [addBack, hh, h0, not_true_eq_false, if_true, if_false]; rfl, ?_, ?_⟩
    · refine ⟨by simp, hvalid', [l.heap.length], by simp, by simp, ?_⟩
      simp [linked]
    · simp [h0]
  · have hpos : 0 < xs.length := by
      rw [← hl, has]
      simp
    set l1 : LinkedList :=
      { l with heap := l.heap ++ [some { tile := t, next := none }] } with hl1
    have hlink1 : linked l1.heap as xs := by
      refine linked_frame hlink ?_
      intro a ha
      have := hlt a ha
      simp [hl1, List.getD_eq_getElem?_getD, List.getElem?_append_left this]
    have hk : l1.length - 1 = ((xs.length - 1 : Nat) : Int) := by
      simp only [hl1, hlen]
      omega
    have hidx : xs.length - 1 < as.length := by omega
    have hidx' : xs.length - 1 < xs.length := by omega
    have hlastA : as[xs.length - 1]? = some z := by
      rw [has, ← hl, has]
      simp
    have hgn : l1.getNode (l1.length - 1) = .ok (some z) := by
      rw [hk, LinkedList.getNode_linked l1 as xs hlen hhead hlink1 _ hidx', hlastA]
    have hnode := linked_getD hlink1 (xs.length - 1) z xs[xs.length - 1] hlastA
      (List.getElem?_eq_getElem hidx')
    have hnext : as[xs.length - 1 + 1]? = none := by
      apply List.getElem?_eq_none
      omega
    rw [hnext] at hnode
    have hhne : ¬(l1.head = none) := by
      rw [show l1.head = l.head from rfl, hhead, has]
      cases as0 <;> simp
    have hz : z < l.heap.length := hlt z (by rw [has]; simp)
    refine ⟨_, by
      simp only [addBack]
      rw [if_neg hhne]
      simp only [hgn, deref, hnode, setNext, not_true_eq_false, if_false]
      rfl, ?_, ?_⟩
    · refine ⟨by simp [hl1, hlen], hvalid', as ++ [l.heap.length], ?_, ?_, ?_⟩
      · rw [List.nodup_append]
        refine ⟨hnd, by simp, ?_⟩
        intro a ha hb
        simp only [List.mem_singleton] at hb
        subst hb
        exact hfresh ha
      · show l.head = (as ++ [l.heap.length]).head?
        rw [hhead, has]
        cases as0 <;> simp
      · refine @linked_append_node l1.heap _ l.heap.length t ?_ _ _ hlink1 hnd ?_ ?_
        · simp only [hl1, List.getD_eq_getElem?_getD]
          rw [List.getElem?_set_ne (by omega)]
          simp
        · intro a x ha hx
          have haz : a = z := by
            rw [has] at ha
            simpa using ha.symm
          subst haz
          have hxl : x = xs[xs.length - 1] := by
            rw [List.getLast?_eq_getElem?] at hx
            rw [List.getElem?_eq_getElem hidx'] at hx
            exact (Option.some.inj hx).symm
          subst hxl
          simp only [hl1, List.getD_eq_getElem?_getD]
          rw [List.getElem?_set_self (by simp; omega)]
          rfl
        · intro a ha hne
          have haz : a ≠ z := by
            intro hc
            apply hne
            rw [has, hc]
            simp
          simp only [List.getD_eq_getElem?_getD]
          rw [List.getElem?_set_ne (fun hc => haz hc.symm)]
    · simp [hl1]

end Heap
end Scrabble

namespace Scrabble
namespace Heap
open LinkedList

theorem linked_erase_succ {heap heap' : List (Option Node)} :
    ∀ {as : List Nat} {xs : List Tile} (j : Nat), linked heap as xs → as.Nodup →
      j + 1 < as.length →
      (∀ a ∈ as, as[j]? ≠ some a → as[j + 1]? ≠ some a →
        heap'.getD a none = heap.getD a none) →
      (∀ p x, as[j]? = some p → xs[j]? = some x →
        heap'.getD p none = some { tile := x, next := as[j + 2]? }) →
      linked heap' (as.eraseIdx (j + 1)) (xs.eraseIdx (j + 1)) := by
  intro as
  induction as with
  | nil =>
    intro xs j _ _ hj
    simp at hj
  | cons a as ih =>
    intro xs j h hnd hj hother hprev
    cases xs with
    | nil => simp [linked] at h
    | cons x ts =>
      simp only [linked] at h
      obtain ⟨ha, hrest⟩ := h
      obtain ⟨hna, hnd'⟩ := List.nodup_cons.1 hnd
      have hnotA : ∀ k : Nat, as[k]? ≠ some a := by
        intro k hk
        exact hna (List.getElem?_mem hk)
      cases as with
      | nil => simp at hj
      | cons b as =>
        cases ts with
        | nil => simp [linked] at hrest
        | cons y ts =>
          simp only [List.eraseIdx_cons_succ, linked]
          cases j with
          | zero =>
            simp only [List.eraseIdx_cons_zero]
            refine ⟨?_, ?_⟩
            · have := hprev a x (by simp) (by simp)
              rw [this]
              simp [List.head?_eq_getElem?]
            · simp only [linked] at hrest
              refine linked_frame hrest.2 ?_
              intro c hc
              obtain ⟨hnb, _⟩ := List.nodup_cons.1 hnd'
              refine hother c (by simp [hc]) ?_ ?_
              · simp only [List.getElem?_cons_zero, ne_eq, Option.some.injEq]
                intro hac
                exact hna (by rw [hac]; simp [hc])
              · simp only [zero_add, List.getElem?_cons_succ, List.getElem?_cons_zero, ne_eq,
                  Option.some.injEq]
                intro hbc
                exact hnb (by rw [hbc]; exact hc)
          | succ k =>
            refine ⟨?_, ?_⟩
            · rw [hother a (by simp) (by simpa using hnotA k) (by simpa using hnotA (k + 1)), ha]
              simp
            · have hj' : k + 1 < (b :: as).length := by simpa using hj
              refine @ih (y :: ts) k hrest hnd' hj' ?_ ?_
              · intro c hc h1 h2
                exact hother c (List.mem_cons_of_mem _ hc) (by simpa using h1) (by simpa using h2)
              · intro p z hp hz
                have := hprev p z (by simpa using hp) (by simpa using hz)
                simpa using this

/-- What `remove` does to a list that holds `xs`, for a valid index: it
returns the tile at that index, and the list afterwards holds `xs` without
it. -/
theorem LinkedList.remove_represents (l : LinkedList) (xs : List Tile)
    (h : l.represents xs) (i : Nat) (hi : i < xs.length) :
    ∃ l', l.remove (i : Int) = .ok (xs[i], l') ∧ l'.represents (xs.eraseIdx i) ∧
      l'.length = l.length - 1 := by
  obtain ⟨hlen, hvalid, as, hnd, hhead, hlink⟩ := h
  have hl := linked_length hlink
  have hia : i < as.length := by omega
  have hgn := LinkedList.getNode_linked l as xs hlen hhead hlink i hi
  have hai : as[i]? = some as[i] := List.getElem?_eq_getElem hia
  have hxi : xs[i]? = some xs[i] := List.getElem?_eq_getElem hi
  have hnode := linked_getD hlink i as[i] xs[i] hai hxi
  have hv : xs[i].valid := hvalid _ (List.getElem_mem _)
  have hcopy : Tile.copy xs[i] = .ok xs[i] := by
    obtain ⟨h1, h2, h3⟩ := hv
    simp [Tile.copy, Tile.new, h1, h2, h3]
  have hvalid' : ∀ u ∈ xs.eraseIdx i, u.valid :=
    fun u hu => hvalid u ((List.eraseIdx_sublist xs i).subset hu)
  have hnd' : (as.eraseIdx i).Nodup := hnd.sublist (List.eraseIdx_sublist as i)
  have hlen2 : ¬¬(l.length - 1 ≥ 0) := by
    rw [hlen]
    omega
  cases i with
  | zero =>
    have hunlink : l.unlink ((0 : Nat) : Int) (some as[0]) = .ok { l with head := as[1]? } := by
      simp only [unlink, Nat.cast_zero, if_true]
      by_cases h1 : l.length > 1
      · have : 1 < xs.length := by rw [hlen] at h1; omega
        have := LinkedList.getNode_linked l as xs hlen hhead hlink 1 this
        simp only [Nat.cast_one] at this
        simp only [if_pos h1, this]
      · have : as[1]? = none := by
          apply List.getElem?_eq_none
          rw [hlen] at h1
          omega
        simp only [if_neg h1, this]
    refine ⟨{ l with head := as[1]?, length := l.length - 1, heap := l.heap.set as[0] none },
      ?_, ?_, rfl⟩
    · simp only [remove, hgn, hai, hunlink, if_neg hlen2, deref]
      rw [show (l.heap.getD as[0] none) = _ from hnode]
      simp only [hcopy]
    · refine ⟨by simp [hlen, List.length_eraseIdx, hi], hvalid', as.eraseIdx 0, hnd',
        ?_, ?_⟩
      · cases as with
        | nil => simp at hia
        | cons a as => simp [List.head?_eq_getElem?]
      · cases as with
        | nil => simp at hia
        | cons a as =>
          cases xs with
          | nil => simp at hi
          | cons x ts =>
            simp only [linked] at hlink
            simp only [List.eraseIdx_cons_zero]
            refine linked_frame hlink.2 ?_
            intro c hc
            have hca : c ≠ a := by
              intro hca
              subst hca
              exact (List.nodup_cons.1 hnd).1 hc
            simp only [List.getElem_cons_zero, List.getD_eq_getElem?_getD]
            rw [List.getElem?_set_ne (fun hc' => hca hc'.symm)]
  | succ j =>
    have hja : j < as.length := by omega
    have hjx : j < xs.length := by omega
    have haj : as[j]? = some as[j] := List.getElem?_eq_getElem hja
    have hxj : xs[j]? = some xs[j] := List.getElem?_eq_getElem hjx
    have hgp := LinkedList.getNode_linked l as xs hlen hhead hlink j hjx
    have hpnode := linked_getD hlink j as[j] xs[j] haj hxj
    have hne : as[j] ≠ as[j + 1] := by
      intro hc
      have := (List.Nodup.getElem_inj_iff hnd).1 hc
      omega
    have hidx : ¬(((j + 1 : Nat) : Int) = 0) := by omega
    have hrange : ((j + 1 : Nat) : Int) > 0 ∧ ((j + 1 : Nat) : Int) < l.getLength := by
      simp only [getLength, hlen]
      omega
    have hsub : ((j + 1 : Nat) : Int) - 1 = (j : Int) := by omega
    set heap1 := l.heap.set as[j] (some { tile := xs[j], next := as[j + 1 + 1]? }) with hheap1
    have hunlink : l.unlink ((j + 1 : Nat) : Int) (some as[j + 1])
        = .ok { l with heap := heap1 } := by
      simp only [unlink, if_neg hidx, if_pos hrange, hsub, hgp, haj, deref, hnode, setNext,
        hpnode]
    have hnode1 : heap1.getD as[j + 1] none
        = some { tile := xs[j + 1], next := as[j + 1 + 1]? } := by
      simp only [hheap1, List.getD_eq_getElem?_getD]
      rw [List.getElem?_set_ne hne]
      simpa [List.getD_eq_getElem?_getD] using hnode
    refine ⟨{ l with heap := heap1.set as[j + 1] none, length := l.length - 1 }, ?_, ?_, rfl⟩
    · simp only [remove, hgn, hai, hunlink, if_neg hlen2, deref, hnode1, hcopy]
    · refine ⟨by simp [hlen, List.length_eraseIdx, hi]; omega, hvalid', as.eraseIdx (j + 1),
        hnd', ?_, ?_⟩
      · show l.head = (as.eraseIdx (j + 1)).head?
        rw [hhead]
        cases as with
        | nil => simp at hia
        | cons a as => simp
      · refine linked_erase_succ j hlink hnd hia ?_ ?_
        · intro c _ h1 h2
          have hc1 : c ≠ as[j] := fun hc => h1 (by rw [haj, hc])
          have hc2 : c ≠ as[j + 1] := fun hc => h2 (by rw [hai, hc])
          simp only [hheap1, List.getD_eq_getElem?_getD]
          rw [List.getElem?_set_ne (fun hc' => hc2 hc'.symm),
            List.getElem?_set_ne (fun hc' => hc1 hc'.symm)]
        · intro p x hp hx
          rw [haj] at hp
          rw [hxj] at hx
          have hp' := Option.some.inj hp
          have hx' := Option.some.inj hx
          subst hp'
          subst hx'
          simp only [hheap1, List.getD_eq_getElem?_getD]
          rw [List.getElem?_set_ne hne.symm,
            List.getElem?_set_self (by have := linked_lt hlink as[j] (List.getElem_mem _); exact this)]
          rfl

theorem LinkedList.remove_outside (l : LinkedList) (index : Int)
    (h : index < 0 ∨ index ≥ l.length) :
    l.remove index = .error (.exception .outOfRange) := by
  simp only [remove, LinkedList.getNode_outside l index h]

theorem LinkedList.clearLoop_represents :
    ∀ (n : Nat) (l : LinkedList) (xs : List Tile), l.represents xs → xs.length ≤ n →
      ∃ l', clearLoop n l = .ok l' ∧ l'.represents [] := by
  intro n
  induction n with
  | zero =>
    intro l xs h hn
    have hxs : xs = [] := by
      cases xs with
      | nil => rfl
      | cons _ _ => simp at hn
    subst hxs
    have h0 : ¬(l.getLength > 0) := by
      simp [getLength, h.1]
    exact ⟨l, by simp only [clearLoop, if_neg h0], h⟩
  | succ n ih =>
    intro l xs h hn
    cases xs with
    | nil =>
      have h0 : ¬(l.getLength > 0) := by
        simp [getLength, h.1]
      exact ⟨l, by simp only [clearLoop, if_neg h0], h⟩
    | cons x ts =>
      have hpos : l.getLength > 0 := by
        simp only [getLength, h.1, List.length_cons]
        omega
      obtain ⟨l1, hrem, hrep, _⟩ := LinkedList.remove_represents l (x :: ts) h 0 (by simp)
      simp only [Nat.cast_zero] at hrem
      obtain ⟨l', hcl, hrep'⟩ := ih l1 _ hrep (by simpa using hn)
      exact ⟨l', by simp only [clearLoop, if_pos hpos, hrem, hcl], hrep'⟩

/-- The method `clear` empties every list of constructed tiles. -/
theorem LinkedList.clear_represents (l : LinkedList) (xs : List Tile) (h : l.represents xs) :
    ∃ l', l.clear = .ok l' ∧ l'.represents [] := by
  refine LinkedList.clearLoop_represents _ l xs h ?_
  rw [h.1]
  simp

end Heap
end Scrabble

namespace Scrabble
namespace Heap
open LinkedList

theorem LinkedList.empty_represents : LinkedList.empty.represents [] :=
  ⟨rfl, by simp, [], by simp, rfl, trivial⟩

theorem Examples_nodesABC_represents : Examples.nodesABC.represents Examples.abc :=
  ⟨rfl, by decide, [0, 1, 2], by decide, rfl, rfl, rfl, rfl, trivial⟩

/-- C28: the list is a sequence.  A new list has length 0 and holds the empty
sequence.  For a list that holds the tiles `xs`: `addBack t` succeeds, the
list then holds `xs ++ [t]`, its length is one more, `get (length - 1)` is `t`
and `get i` is as before for every earlier index; `get i` is the `i`-th tile
for `0 ≤ i < length` and throws `std::out_of_range` for every other index;
`clear` leaves the empty sequence and length 0. -/
theorem LinkedList.behaves_as_sequence (l : LinkedList) (xs : List Tile)
    (h : l.represents xs) :
    (LinkedList.empty.getLength = 0 ∧ LinkedList.empty.represents []) ∧
    l.getLength = xs.length ∧
    (∀ t : Tile, t.valid →
      ∃ l', l.addBack t = .ok l' ∧ l'.represents (xs ++ [t]) ∧
        l'.getLength = l.getLength + 1 ∧
        l'.get (l'.getLength - 1) = .ok t ∧
        ∀ i : Int, 0 ≤ i → i < l.getLength → l'.get i = l.get i) ∧
    (∀ i : Int, 0 ≤ i → i < l.getLength →
      ∃ t, xs[i.toNat]? = some t ∧ l.get i = .ok t) ∧
    (∀ i : Int, i < 0 ∨ i ≥ l.getLength → l.get i = .error (.exception .outOfRange)) ∧
    (∃ l', l.clear = .ok l' ∧ l'.getLength = 0 ∧ l'.represents []) := by
  have hlen : l.length = xs.length := h.1
  refine ⟨⟨rfl, LinkedList.empty_represents⟩, hlen, ?_, ?_, ?_, ?_⟩
  · intro t ht
    obtain ⟨l', hadd, hrep, hlen'⟩ := LinkedList.addBack_represents l xs t h ht
    refine ⟨l', hadd, hrep, hlen', ?_, ?_⟩
    · have hk : l'.getLength - 1 = ((xs.length : Nat) : Int) := by
        simp only [getLength, hlen', hlen]
        omega
      rw [hk]
      exact LinkedList.get_represents l' _ hrep xs.length t (by simp)
    · intro i h0 hi
      obtain ⟨n, rfl⟩ := Int.eq_ofNat_of_zero_le h0
      have hn : n < xs.length := by
        simp only [getLength, hlen] at hi
        omega
      rw [LinkedList.get_represents l xs h n xs[n] (List.getElem?_eq_getElem hn),
        LinkedList.get_represents l' _ hrep n xs[n]
          (by rw [List.getElem?_append_left hn]; exact List.getElem?_eq_getElem hn)]
  · intro i h0 hi
    obtain ⟨n, rfl⟩ := Int.eq_ofNat_of_zero_le h0
    have hn : n < xs.length := by
      simp only [getLength, hlen] at hi
      omega
    exact ⟨xs[n], by simp [List.getElem?_eq_getElem hn],
      LinkedList.get_represents l xs h n xs[n] (List.getElem?_eq_getElem hn)⟩
  · intro i hi
    exact LinkedList.get_outside l i hi
  · obtain ⟨l', hcl, hrep⟩ := LinkedList.clear_represents l xs h
    exact ⟨l', hcl, by simpa [getLength] using hrep.1, hrep⟩

/-- C28 at a concrete input: the three nodes `A-1, B-3, C-3`. -/
theorem LinkedList.behaves_as_sequence_witness :
    Examples.nodesABC.represents Examples.abc ∧
    Examples.nodesABC.getLength = 3 ∧
    (∃ l', Examples.nodesABC.addBack ⟨'D', 2⟩ = .ok l' ∧ l'.getLength = 4 ∧
      l'.get 3 = .ok ⟨'D', 2⟩ ∧ l'.get 1 = .ok ⟨'B', 3⟩) ∧
    Examples.nodesABC.get 2 = .ok ⟨'C', 3⟩ ∧
    Examples.nodesABC.get 3 = .error (.exception .outOfRange) ∧
    Examples.nodesABC.get (-1) = .error (.exception .outOfRange) ∧
    (∃ l', Examples.nodesABC.clear = .ok l' ∧ l'.getLength = 0) :=
  have h := LinkedList.behaves_as_sequence Examples.nodesABC Examples.abc
    Examples_nodesABC_represents
  ⟨Examples_nodesABC_represents, rfl, ⟨_, rfl, rfl, rfl, rfl⟩, rfl, h.2.2.2.2.1 3 (by decide),
    h.2.2.2.2.1 (-1) (by decide), ⟨_, rfl, rfl⟩⟩

/-- C29: for a list that holds the `n` tiles `xs`.  For an index
`0 ≤ i < n`, `remove i` returns a tile with the letter and value of the
`i`-th element, the length becomes `n - 1`, the list afterwards holds `xs`
without its `i`-th element in unchanged order (`get j` is the old `get j`
for `j < i` and the old `get (j + 1)` for `j ≥ i`).  For every other index
`getNode` throws `std::out_of_range` before anything is written, and so does
`remove`. -/
theorem LinkedList.remove_spec (l : LinkedList) (xs : List Tile) (h : l.represents xs)
    (i : Int) :
    (0 ≤ i → i < l.getLength →
      ∃ (t : Tile) (l' : LinkedList), xs[i.toNat]? = some t ∧ l.get i = .ok t ∧
        l.remove i = .ok (t, l') ∧ l'.getLength = l.getLength - 1 ∧
        l'.represents (xs.eraseIdx i.toNat) ∧
        (∀ j : Int, 0 ≤ j → j < i → l'.get j = l.get j) ∧
        (∀ j : Int, i ≤ j → j < l'.getLength → l'.get j = l.get (j + 1))) ∧
    (i < 0 ∨ i ≥ l.getLength →
      l.getNode i = .error (.exception .outOfRange) ∧
      l.remove i = .error (.exception .outOfRange)) := by
  have hlen : l.length = xs.length := h.1
  refine ⟨?_, fun hi => ⟨LinkedList.getNode_outside l i hi, LinkedList.remove_outside l i hi⟩⟩
  intro h0 hi
  obtain ⟨n, rfl⟩ := Int.eq_ofNat_of_zero_le h0
  have hn : n < xs.length := by
    simp only [getLength, hlen] at hi
    omega
  obtain ⟨l', hrem, hrep, hlen'⟩ := LinkedList.remove_represents l xs h n hn
  refine ⟨xs[n], l', by simp [List.getElem?_eq_getElem hn],
    LinkedList.get_represents l xs h n xs[n] (List.getElem?_eq_getElem hn), hrem, hlen',
    by simpa using hrep, ?_, ?_⟩
  · intro j hj0 hjn
    obtain ⟨m, rfl⟩ := Int.eq_ofNat_of_zero_le hj0
    have hm : m < n := by omega
    have hmx : m < xs.length := by omega
    rw [LinkedList.get_represents l xs h m xs[m] (List.getElem?_eq_getElem hmx),
      LinkedList.get_represents l' _ hrep m xs[m]
        (by rw [List.getElem?_eraseIdx, if_pos hm]; exact List.getElem?_eq_getElem hmx)]
  · intro j hjn hjl
    have hj0 : 0 ≤ j := by omega
    obtain ⟨m, rfl⟩ := Int.eq_ofNat_of_zero_le hj0
    have hm : n ≤ m := by omega
    have hmx : m + 1 < xs.length := by
      simp only [getLength, hlen', hlen] at hjl
      omega
    have hcast : ((m : Int) + 1) = ((m + 1 : Nat) : Int) := by simp
    rw [hcast, LinkedList.get_represents l xs h (m + 1) xs[m + 1]
        (List.getElem?_eq_getElem hmx),
      LinkedList.get_represents l' _ hrep m xs[m + 1]
        (by rw [List.getElem?_eraseIdx, if_neg (by omega)]; exact List.getElem?_eq_getElem hmx)]

/-- C29 at a concrete input: removing the middle one of the three nodes
`A-1, B-3, C-3`, and an index past the end. -/
theorem LinkedList.remove_spec_witness :
    Examples.nodesABC.represents Examples.abc ∧
    (∃ l', Examples.nodesABC.remove 1 = .ok (⟨'B', 3⟩, l') ∧ l'.getLength = 2 ∧
      l'.get 0 = .ok ⟨'A', 1⟩ ∧ l'.get 1 = .ok ⟨'C', 3⟩) ∧
    Examples.nodesABC.remove 3 = .error (.exception .outOfRange) :=
  have h := LinkedList.remove_spec Examples.nodesABC Examples.abc
    Examples_nodesABC_represents 3
  ⟨Examples_nodesABC_represents, ⟨_, rfl, rfl, rfl, rfl⟩, (h.2 (by decide)).2⟩

end Heap
end Scrabble

namespace Scrabble

/-! ## Characters and numerals -/

theorem char_le_iff (a b : Char) : a ≤ b ↔ a.toNat ≤ b.toNat := by
  rw [Char.le_def]
  exact Iff.rfl

theorem char_eq_iff (a b : Char) : a = b ↔ a.toNat = b.toNat := by
  constructor
  · intro h
    rw [h]
  · intro h
    have := congrArg Char.ofNat h
    simpa using this

theorem isDigit_iff (c : Char) : c.isDigit = true ↔ 48 ≤ c.toNat ∧ c.toNat ≤ 57 := by
  simp only [Char.isDigit, Bool.and_eq_true, decide_eq_true_eq, ge_iff_le]
  exact Iff.rfl

theorem digitChar_toNat : ∀ d : Nat, d < 10 → (digitChar d).toNat = 48 + d := by
  decide

theorem digitChar_isDigit (d : Nat) (h : d < 10) : (digitChar d).isDigit = true := by
  rw [isDigit_iff, digitChar_toNat d h]
  omega

theorem digitValue_of_isDigit (c : Char) (h : c.isDigit = true) :
    digitValue c = some (c.toNat - 48) := by
  rw [isDigit_iff] at h
  simp [digitValue, h]

theorem isSpace_of_toNat (c : Char) (h : 33 ≤ c.toNat) : isSpace c = false := by
  have h1 : ∀ d : Char, d.toNat < 33 → c ≠ d := by
    intro d hd hc
    rw [hc] at h
    omega
  simp only [isSpace, Bool.or_eq_false_iff, decide_eq_false_iff_not]
  exact ⟨⟨⟨⟨⟨h1 _ (by decide), h1 _ (by decide)⟩, h1 _ (by decide)⟩, h1 _ (by decide)⟩,
    h1 _ (by decide)⟩, h1 _ (by decide)⟩

theorem readSign_of_toNat (c : Char) (cs : List Char) (h : 46 ≤ c.toNat) :
    readSign (c :: cs) = (false, c :: cs) := by
  have h1 : c ≠ '-' := by
    intro hc
    rw [hc] at h
    revert h
    decide
  have h2 : c ≠ '+' := by
    intro hc
    rw [hc] at h
    revert h
    decide
  unfold readSign
  split
  · rename_i heq
    exact absurd (List.cons.inj heq).1 h1
  · rename_i heq
    exact absurd (List.cons.inj heq).1 h2
  · rfl

theorem numeral_append (ds : List Char) (c : Char) :
    numeral (ds ++ [c]) = numeral ds * 10 + (c.toNat - 48) := by
  simp [numeral, List.foldl_append]

theorem readNumber_digits (ds : List Char) (h : ∀ c ∈ ds, c.isDigit = true) :
    ∀ acc : Nat, readNumber 10 ds acc = ds.foldl (fun a c => a * 10 + (c.toNat - 48)) acc := by
  induction ds with
  | nil =>
    intro acc
    rfl
  | cons c cs ih =>
    intro acc
    have hc := h c (List.mem_cons_self _ _)
    have hlt : c.toNat - 48 < 10 := by
      rw [isDigit_iff] at hc
      omega
    simp only [readNumber, digitValue_of_isDigit c hc, hlt, if_true, List.foldl_cons]
    exact ih (fun d hd => h d (List.mem_cons_of_mem _ hd)) _

/-- On a text of decimal digits `std::stoi` gives the number the digits
denote, or throws `std::out_of_range` when it is no `int`. -/
theorem stoi_digits (ds : List Char) (hne : ds ≠ []) (h : ∀ c ∈ ds, c.isDigit = true) :
    stoi ds = if numeral ds > 2147483647 then .error .outOfRange
      else .ok (numeral ds : Int) := by
  cases ds with
  | nil => exact absurd rfl hne
  | cons c cs =>
    have hc := h c (List.mem_cons_self _ _)
    have hc' := (isDigit_iff c).1 hc
    have hsp : isSpace c = false := isSpace_of_toNat c (by omega)
    have hdrop : (c :: cs).dropWhile isSpace = c :: cs := by
      simp [List.dropWhile, hsp]
    have hsign := readSign_of_toNat c cs (by omega)
    have hstart : startsWithDigit 10 (c :: cs) = true := by
      have : c.toNat - 48 < 10 := by omega
      simp [startsWithDigit, digitValue_of_isDigit c hc, this]
    have hnum : readNumber 10 (c :: cs) 0 = numeral (c :: cs) := readNumber_digits _ h 0
    simp only [stoi, hdrop, hsign, hstart, Bool.not_true, Bool.false_eq_true, if_false, hnum]
    by_cases hbig : numeral (c :: cs) > 2147483647
    · have : ((numeral (c :: cs) : Nat) : Int) < -2147483648 ∨
          ((numeral (c :: cs) : Nat) : Int) > 2147483647 := by omega
      rw [if_pos this, if_pos hbig]
    · have : ¬(((numeral (c :: cs) : Nat) : Int) < -2147483648 ∨
          ((numeral (c :: cs) : Nat) : Int) > 2147483647) := by omega
      rw [if_neg this, if_neg hbig]

theorem stoi_space (cs : List Char) : stoi (' ' :: cs) = stoi cs := by
  have : (' ' :: cs).dropWhile isSpace = cs.dropWhile isSpace := by
    simp [List.dropWhile, isSpace]
  simp only [stoi, this]

theorem decimalLoop_spec :
    ∀ (fuel n : Nat) (acc : List Char), n < fuel →
      ∃ ds : List Char, decimalLoop fuel n acc = ds ++ acc ∧ ds ≠ [] ∧
        (∀ c ∈ ds, c.isDigit = true) ∧ numeral ds = n ∧
        (0 < n → ∀ c, ds.head? = some c → c ≠ '0') ∧
        (∀ k : Nat, 1 ≤ k → n < 10 ^ k → ds.length ≤ k) := by
  intro fuel
  induction fuel with
  | zero =>
    intro n acc h
    omega
  | succ fuel ih =>
    intro n acc h
    by_cases hn : n < 10
    · refine ⟨[digitChar n], by simp [decimalLoop, hn], by simp, ?_, ?_, ?_, ?_⟩
      · intro c hc
        simp only [List.mem_singleton] at hc
        subst hc
        exact digitChar_isDigit n hn
      · simp [numeral, digitChar_toNat n hn]
      · intro hpos c hc
        simp only [List.head?_cons, Option.some.injEq] at hc
        subst hc
        intro h0
        have := digitChar_toNat n hn
        rw [h0] at this
        have h48 : ('0' : Char).toNat = 48 := rfl
        omega
      · intro k hk _
        simpa using hk
    · have hdiv : n / 10 < fuel := by omega
      obtain ⟨ds, h1, h2, h3, h4, h5, h6⟩ := ih (n / 10) (digitChar (n % 10) :: acc) hdiv
      have hmod : n % 10 < 10 := Nat.mod_lt _ (by omega)
      refine ⟨ds ++ [digitChar (n % 10)], ?_, by simp, ?_, ?_, ?_, ?_⟩
      · simp only [decimalLoop, if_neg hn, h1, List.append_assoc, List.singleton_append]
      · intro c hc
        rcases List.mem_append.1 hc with hc | hc
        · exact h3 c hc
        · simp only [List.mem_singleton] at hc
          subst hc
          exact digitChar_isDigit _ hmod
      · rw [numeral_append, h4, digitChar_toNat _ hmod]
        omega
      · intro _ c hc
        have hpos : 0 < n / 10 := by omega
        cases ds with
        | nil => exact absurd rfl h2
        | cons d ds =>
          simp only [List.cons_append, List.head?_cons, Option.some.injEq] at hc
          exact h5 hpos c (by simp [hc])
      · intro k hk hlt
        cases k with
        | zero => omega
        | succ k =>
          have hk1 : 1 ≤ k := by
            by_contra hc
            have : k = 0 := by omega
            subst this
            simp at hlt
            omega
          have : n / 10 < 10 ^ k := by
            rw [pow_succ] at hlt
            omega
          have := h6 k hk1 this
          simp only [List.length_append, List.length_singleton]
          omega

/-- The decimal numeral of `n`: digits only, at least one, denoting `n`,
without a leading zero unless `n = 0`, and with at most `k` digits when
`n < 10 ^ k`. -/
theorem decimal_spec (n : Nat) :
    decimal n ≠ [] ∧ (∀ c ∈ decimal n, c.isDigit = true) ∧ numeral (decimal n) = n ∧
      (0 < n → ∀ c, (decimal n).head? = some c → c ≠ '0') ∧
      (∀ k : Nat, 1 ≤ k → n < 10 ^ k → (decimal n).length ≤ k) := by
  obtain ⟨ds, h1, h2, h3, h4, h5, h6⟩ := decimalLoop_spec (n + 1) n [] (Nat.lt_succ_self n)
  have : decimal n = ds := by
    simp only [decimal, h1, List.append_nil]
  rw [this]
  exact ⟨h2, h3, h4, h5, h6⟩

theorem showInt_natCast (n : Nat) : showInt (n : Int) = decimal n := by
  have : ¬((n : Int) < 0) := by omega
  simp only [showInt, this, if_false, Int.toNat_ofNat]

theorem stoi_decimal (n : Nat) (h : n ≤ 2147483647) : stoi (decimal n) = .ok (n : Int) := by
  obtain ⟨h1, h2, h3, _, _⟩ := decimal_spec n
  rw [stoi_digits _ h1 h2, h3, if_neg (by omega)]

end Scrabble

namespace Scrabble

theorem rowLetter_spec : ∀ row : Nat, row ≤ 25 →
    'A' ≤ Char.ofNat ('A'.toNat + row) ∧ Char.ofNat ('A'.toNat + row) ≤ 'Z' ∧
      (Char.ofNat ('A'.toNat + row)).toNat = 65 + row := by
  decide

theorem BoardState.matchPosition_form (L : Char) (ds : List Char) (h1 : 'A' ≤ L) (h2 : L ≤ 'Z')
    (h3 : ds ≠ []) (h4 : ∀ c ∈ ds, c.isDigit = true) :
    BoardState.matchPosition (L :: ds) = some ([L], ds) := by
  have hall : ds.all Char.isDigit = true := by
    rw [List.all_eq_true]
    exact h4
  simp [BoardState.matchPosition, h1, h2, h3, hall]

theorem BoardState.matchPosition_none (data : List Char) (h : ¬BoardState.positionForm data) :
    BoardState.matchPosition data = none := by
  cases data with
  | nil => rfl
  | cons r ds =>
    simp only [BoardState.matchPosition]
    rw [if_neg]
    rintro ⟨h1, h2, h3, h4⟩
    exact h ⟨r, ds, rfl, h1, h2, h3, List.all_eq_true.1 h4⟩

/-- What `parseTilePosition` returns on a text of the expected form. -/
theorem BoardState.parseTilePosition_form (L : Char) (ds : List Char) (h1 : 'A' ≤ L)
    (h2 : L ≤ 'Z') (h3 : ds ≠ []) (h4 : ∀ c ∈ ds, c.isDigit = true)
    (h5 : numeral ds ≤ 2147483647) :
    BoardState.parseTilePosition (L :: ds)
      = .ok (decide (numeral ds ≥ 1), (L.toNat : Int) - ('A'.toNat : Int),
          (numeral ds : Int) - 1) := by
  have hst : stoi ds = .ok (numeral ds : Int) := by
    rw [stoi_digits ds h3 h4, if_neg (by omega)]
  have hrow : (0 : Int) ≤ (L.toNat : Int) - ('A'.toNat : Int) := by
    have := (char_le_iff 'A' L).1 h1
    omega
  simp only [BoardState.parseTilePosition, BoardState.matchPosition_form L ds h1 h2 h3 h4, hst,
    h1, h2, and_self, if_true]
  congr 2
  simp only [ge_iff_le, decide_eq_decide]
  constructor
  · intro h
    omega
  · intro h
    exact ⟨hrow, by omega⟩

/-- The position text that `toStream` writes for `(row, col)` is read back by
`parseTilePosition`. -/
theorem BoardState.parseTilePosition_render (row col : Nat) (hrow : row ≤ 25)
    (hcol : col + 1 ≤ 2147483647) :
    BoardState.parseTilePosition (Char.ofNat ('A'.toNat + row) :: showInt ((col : Int) + 1))
      = .ok (true, (row : Int), (col : Int)) := by
  obtain ⟨r1, r2, r3⟩ := rowLetter_spec row hrow
  obtain ⟨d1, d2, d3, _, _⟩ := decimal_spec (col + 1)
  have hshow : showInt ((col : Int) + 1) = decimal (col + 1) := by
    rw [← showInt_natCast]
    simp
  rw [hshow, BoardState.parseTilePosition_form _ _ r1 r2 d1 d2 (by rw [d3]; exact hcol), d3, r3]
  have h65 : ('A' : Char).toNat = 65 := rfl
  simp only [h65]
  congr 2
  · simp
  · congr 1
    · push_cast
      omega
    · push_cast
      omega

/-- C23: on one upper-case letter `L` followed by one or more decimal digits
that denote an `int` `n`, `parseTilePosition` returns `true` exactly when
`n ≥ 1`, with `rowIdx = L - 'A'` and `colIdx = n - 1` (`A1` gives `(0, 0)`,
`Z41` gives `(25, 40)`); on every other text it returns `false` with
`rowIdx = colIdx = -1`; and it reads back the position text that `toStream`
writes for `(row, col)` with `0 ≤ row ≤ 25` and `col ≥ 0`. -/
theorem BoardState.parseTilePosition_spec :
    (∀ (L : Char) (ds : List Char), 'A' ≤ L → L ≤ 'Z' → ds ≠ [] →
      (∀ c ∈ ds, c.isDigit = true) → numeral ds ≤ 2147483647 →
      BoardState.parseTilePosition (L :: ds)
        = .ok (decide (numeral ds ≥ 1), (L.toNat : Int) - ('A'.toNat : Int),
            (numeral ds : Int) - 1)) ∧
    (∀ data : List Char, ¬BoardState.positionForm data →
      BoardState.parseTilePosition data = .ok (false, -1, -1)) ∧
    (∀ row col : Nat, row ≤ 25 → col + 1 ≤ 2147483647 →
      BoardState.parseTilePosition (Char.ofNat ('A'.toNat + row) :: showInt ((col : Int) + 1))
        = .ok (true, (row : Int), (col : Int))) ∧
    BoardState.parseTilePosition "A1".data = .ok (true, 0, 0) ∧
    BoardState.parseTilePosition "Z41".data = .ok (true, 25, 40) ∧
    BoardState.parseTilePosition "A0".data = .ok (false, 0, -1) ∧
    BoardState.parseTilePosition "41".data = .ok (false, -1, -1) := by
  refine ⟨BoardState.parseTilePosition_form, ?_, BoardState.parseTilePosition_render,
    rfl, rfl, rfl, rfl⟩
  · intro data h
    simp only [BoardState.parseTilePosition, BoardState.matchPosition_none data h]

end Scrabble

namespace Scrabble

/-! ## Reading tokens from a stream -/

theorem IStream.extract_token (delim : Char) (text : List Char)
    (htext : text = [] ∨ text.head? = some delim) :
    ∀ (tok : List Char) (room : Option Nat), (∀ c ∈ tok, c ≠ delim) →
      (∀ k, room = some k → tok.length ≤ k) →
      IStream.extract delim (tok ++ text) room = (tok, IStream.resume text) := by
  intro tok
  induction tok with
  | nil =>
    intro room _ _
    cases text with
    | nil => rfl
    | cons d rest =>
      rcases htext with h | h
      · cases h
      · simp only [List.head?_cons, Option.some.injEq] at h
        simp [IStream.extract, h, IStream.resume]
  | cons c cs ih =>
    intro room htok hroom
    have hc : c ≠ delim := htok c (List.mem_cons_self _ _)
    have hcs : ∀ d ∈ cs, d ≠ delim := fun d hd => htok d (List.mem_cons_of_mem _ hd)
    cases room with
    | none =>
      simp only [List.cons_append, IStream.extract, if_neg hc, List.append_eq]
      rw [ih none hcs (by intro k hk; cases hk)]
    | some k =>
      cases k with
      | zero =>
        have := hroom 0 rfl
        simp at this
      | succ k =>
        simp only [List.cons_append, IStream.extract, if_neg hc, List.append_eq]
        rw [ih (some k) hcs (by
          intro k' hk'
          cases hk'
          have := hroom (k + 1) rfl
          simpa using this)]

/-- Reading one token: a non-empty text without the delimiter, short enough
for the buffer, that is followed by the end of input or by the delimiter. -/
theorem IStream.getline_token (delim : Char) (tok text : List Char) (room : Option Nat)
    (hne : tok ≠ []) (htext : text = [] ∨ text.head? = some delim)
    (htok : ∀ c ∈ tok, c ≠ delim) (hroom : ∀ k, room = some k → tok.length ≤ k) :
    IStream.getline (IStream.ofText (tok ++ text)) room delim = (tok, IStream.resume text) := by
  have hemp : tok.isEmpty = false := by
    cases tok with
    | nil => exact absurd rfl hne
    | cons _ _ => rfl
  simp only [IStream.getline, IStream.ofText, IStream.good, Bool.not_false, Bool.and_self,
    Bool.not_true, Bool.false_eq_true, if_false, IStream.extract_token delim text htext tok room htok hroom,
    hemp, Bool.and_false]

theorem IStream.resume_cons (c : Char) (text : List Char) :
    IStream.resume (c :: text) = IStream.ofText text := rfl

theorem IStream.resume_good (text : List Char) :
    (IStream.resume text).good = !text.isEmpty := by
  cases text <;> rfl

theorem IStream.resume_rest_length (text : List Char) :
    (IStream.resume text).rest.length + 1 ≥ text.length := by
  cases text with
  | nil => simp
  | cons c cs => simp [IStream.resume]

/-! ## Board records -/

theorem upper_ne (L : Char) (h1 : 'A' ≤ L) (c : Char) (hc : c.toNat < 65) : L ≠ c := by
  intro h
  rw [h] at h1
  have := (char_le_iff 'A' c).1 h1
  have h65 : ('A' : Char).toNat = 65 := rfl
  omega

theorem digit_ne (d : Char) (h : d.isDigit = true) (c : Char) (hc : c.toNat < 48) : d ≠ c := by
  intro he
  rw [he, isDigit_iff] at h
  omega

/-- The record that `toStream` writes for a tile is read back by
`parseTileData`. -/
theorem BoardState.parseTileData_record (L : Char) (row col : Nat) (h1 : 'A' ≤ L) (h2 : L ≤ 'Z')
    (hrow : row ≤ 25) (hcol : col + 1 ≤ 2147483647) :
    BoardState.parseTileData
        (' ' :: L :: '@' :: Char.ofNat ('A'.toNat + row) :: showInt ((col : Int) + 1))
      = .ok (⟨L, 0⟩, (row : Int), (col : Int)) := by
  obtain ⟨r1, r2, r3⟩ := rowLetter_spec row hrow
  obtain ⟨d1, d2, d3, _, _⟩ := decimal_spec (col + 1)
  have hshow : showInt ((col : Int) + 1) = decimal (col + 1) := by
    rw [← showInt_natCast]
    simp
  have hpos := BoardState.parseTilePosition_render row col hrow hcol
  have r1' : 'A' ≤ Char.ofNat (65 + row) := r1
  have r2' : Char.ofNat (65 + row) ≤ 'Z' := r2
  have hLsp : L ≠ ' ' := upper_ne L h1 ' ' (by decide)
  have hdrop : (' ' :: L :: '@' :: Char.ofNat ('A'.toNat + row)
      :: showInt ((col : Int) + 1)).dropWhile (fun c => decide (c = ' '))
      = L :: '@' :: Char.ofNat ('A'.toNat + row) :: showInt ((col : Int) + 1) := by
    simp [List.dropWhile, hLsp]
  have hall : (showInt ((col : Int) + 1)).all Char.isDigit = true := by
    rw [hshow, List.all_eq_true]
    exact d2
  have hne : showInt ((col : Int) + 1) ≠ [] := by
    rw [hshow]
    exact d1
  have hmatch : BoardState.matchTileData
      (' ' :: L :: '@' :: Char.ofNat ('A'.toNat + row) :: showInt ((col : Int) + 1))
      = some ([L], Char.ofNat ('A'.toNat + row) :: showInt ((col : Int) + 1)) := by
    simp only [BoardState.matchTileData, hdrop]
    simp [h1, h2, r1', r2', hall, hne]
  simp only [BoardState.parseTileData, hmatch, hpos, Bool.not_true, Bool.false_eq_true, if_false,
    Tile.new, h1, h2, and_self, not_true_eq_false, ge_iff_le, le_refl]

/-- The unchecked assignment `tiles[r][c] = tile` on a valid position of a
well-formed board changes that cell only. -/
theorem BoardState.store_spec (b : BoardState) (hwf : b.wellFormed) (tile : Tile)
    (r c : Int) (hv : b.isValidPosition r c = true) :
    ∃ b', b.store r c tile = .ok b' ∧ b'.rows = b.rows ∧ b'.cols = b.cols ∧ b'.wellFormed ∧
      ∀ r' c' : Int, 0 ≤ r' → 0 ≤ c' →
        b'.cell r' c' = if r' = r ∧ c' = c then some tile else b.cell r' c' := by
  obtain ⟨hr, hc⟩ := b.wellFormed_row hwf r c hv
  obtain ⟨h1, h2, h3, h4⟩ := (b.isValidPosition_bounds r c).1 hv
  have hrow : b.tiles[r.toNat]? = some (b.tiles.getD r.toNat []) := by
    rw [List.getD_eq_getElem?_getD, List.getElem?_eq_getElem hr]
    rfl
  have hneg : ¬(r < 0 ∨ c < 0) := by omega
  refine ⟨{ b with tiles := b.tiles.set r.toNat ((b.tiles.getD r.toNat []).set c.toNat
      (some tile)) }, by simp only [BoardState.store, if_neg hneg, hrow, if_pos hc], rfl, rfl,
    ?_, ?_⟩
  · obtain ⟨w1, w2⟩ := hwf
    constructor
    · simpa using w1
    · intro row hrow'
      rcases List.mem_or_eq_of_mem_set hrow' with hm | hm
      · exact w2 row hm
      · rw [hm, List.length_set]
        have hmem : b.tiles.getD r.toNat [] ∈ b.tiles := by
          rw [List.getD_eq_getElem?_getD, List.getElem?_eq_getElem hr]
          exact List.getElem_mem _
        exact w2 _ hmem
  · intro r' c' hr' hc'
    unfold BoardState.cell
    rw [BoardState.getD_set_grid _ _ _ _ _ _ hr hc]
    have e1 : r'.toNat = r.toNat ↔ r' = r := by omega
    have e2 : c'.toNat = c.toNat ↔ c' = c := by omega
    simp only [e1, e2]

end Scrabble

namespace Scrabble

theorem BoardState.cellText_none (b : BoardState) (row col : Nat)
    (h : b.cell row col = none) : b.cellText row col = [] := by
  simp [BoardState.cellText, h]

theorem BoardState.cellText_some (b : BoardState) (row col : Nat) (t : Tile)
    (h : b.cell row col = some t) :
    b.cellText row col = ',' :: (' ' :: t.letter :: '@' :: Char.ofNat ('A'.toNat + row)
      :: showInt ((col : Int) + 1)) := by
  simp [BoardState.cellText, h]

theorem BoardState.body_head (b : BoardState) :
    ∀ ps : List (Nat × Nat),
      (ps.flatMap fun p => b.cellText p.1 p.2) = [] ∨
      (ps.flatMap fun p => b.cellText p.1 p.2).head? = some ',' := by
  intro ps
  induction ps with
  | nil => exact Or.inl rfl
  | cons p ps ih =>
    simp only [List.flatMap_cons]
    cases hcell : b.cell p.1 p.2 with
    | none =>
      rw [BoardState.cellText_none b _ _ hcell]
      simpa using ih
    | some t =>
      rw [BoardState.cellText_some b _ _ t hcell]
      exact Or.inr rfl

/-- A record of `toStream` is a token for `getline`: no comma inside, and
short enough for the buffer. -/
theorem BoardState.record_token (L : Char) (row col : Nat) (h1 : 'A' ≤ L) (hrow : row ≤ 25)
    (hcol : col + 1 < 100) :
    (∀ c ∈ (' ' :: L :: '@' :: Char.ofNat ('A'.toNat + row) :: showInt ((col : Int) + 1)),
      c ≠ ',') ∧
    (' ' :: L :: '@' :: Char.ofNat ('A'.toNat + row) :: showInt ((col : Int) + 1)).length
      ≤ 1022 := by
  obtain ⟨r1, _, _⟩ := rowLetter_spec row hrow
  obtain ⟨_, d2, _, _, d5⟩ := decimal_spec (col + 1)
  have hshow : showInt ((col : Int) + 1) = decimal (col + 1) := by
    rw [← showInt_natCast]
    simp
  rw [hshow]
  constructor
  · intro c hc
    simp only [List.mem_cons] at hc
    rcases hc with hc | hc | hc | hc | hc
    · rw [hc]
      decide
    · rw [hc]
      exact upper_ne L h1 ',' (by decide)
    · rw [hc]
      decide
    · rw [hc]
      exact upper_ne _ r1 ',' (by decide)
    · exact digit_ne c (d2 c hc) ',' (by decide)
  · have := d5 2 (by omega) (by omega)
    simp only [List.length_cons]
    omega

theorem BoardState.fromStreamLoop_records (b : BoardState)
    (htiles : ∀ (r c : Int) (t : Tile), b.cell r c = some t → t.valid)
    (hrows : b.rows ≤ 25) (hcols : b.cols ≤ 98) :
    ∀ (ps : List (Nat × Nat)) (board : BoardState) (fuel : Nat),
      (∀ p ∈ ps, (p.1 : Int) < b.rows ∧ (p.2 : Int) < b.cols) →
      board.rows = b.rows → board.cols = b.cols → board.wellFormed →
      (ps.flatMap fun p => b.cellText p.1 p.2).length ≤ fuel →
      ∃ board', BoardState.fromStreamLoop fuel
          (IStream.resume (ps.flatMap fun p => b.cellText p.1 p.2)) board = .ok board' ∧
        board'.rows = b.rows ∧ board'.cols = b.cols ∧ board'.wellFormed ∧
        ∀ r c : Nat, board'.cell r c =
          if (r, c) ∈ ps ∧ (b.cell r c).isSome = true
          then (b.cell r c).map (fun t => (⟨t.letter, 0⟩ : Tile))
          else board.cell r c := by
  intro ps
  induction ps with
  | nil =>
    intro board fuel _ hr hc hwf _
    refine ⟨board, ?_, hr, hc, hwf, by simp⟩
    cases fuel <;> simp [BoardState.fromStreamLoop, IStream.resume, IStream.good]
  | cons p ps ih =>
    intro board fuel hps hr hc hwf hfuel
    have hps' : ∀ q ∈ ps, (q.1 : Int) < b.rows ∧ (q.2 : Int) < b.cols :=
      fun q hq => hps q (List.mem_cons_of_mem _ hq)
    obtain ⟨hp1, hp2⟩ := hps p (List.mem_cons_self _ _)
    simp only [List.flatMap_cons] at hfuel ⊢
    cases hcell : b.cell p.1 p.2 with
    | none =>
      rw [BoardState.cellText_none b _ _ hcell] at hfuel ⊢
      simp only [List.nil_append] at hfuel ⊢
      obtain ⟨board', h1, h2, h3, h4, h5⟩ := ih board fuel hps' hr hc hwf hfuel
      refine ⟨board', h1, h2, h3, h4, ?_⟩
      intro r c
      rw [h5 r c]
      by_cases hrc : r = p.1 ∧ c = p.2
      · obtain ⟨e1, e2⟩ := hrc
        subst e1
        subst e2
        simp [hcell]
      · have hne : ¬((r, c) = p) := by
          intro he
          apply hrc
          rw [← he]
          exact ⟨rfl, rfl⟩
        simp [List.mem_cons, hne]
    | some t =>
      have htv := htiles _ _ t hcell
      have hrow25 : p.1 ≤ 25 := by omega
      have hcol100 : p.2 + 1 < 100 := by omega
      rw [BoardState.cellText_some b _ _ t hcell] at hfuel ⊢
      obtain ⟨htok, hlen⟩ := BoardState.record_token t.letter p.1 p.2 htv.1 hrow25 hcol100
      cases fuel with
      | zero => simp at hfuel
      | succ n =>
        have hrest : (ps.flatMap fun q => b.cellText q.1 q.2).length ≤ n := by
          simp only [List.cons_append, List.length_cons, List.length_append] at hfuel
          omega
        have hget := IStream.getline_token ','
          (' ' :: t.letter :: '@' :: Char.ofNat ('A'.toNat + p.1) :: showInt ((p.2 : Int) + 1))
          (ps.flatMap fun q => b.cellText q.1 q.2) (some 1022) (by simp)
          (BoardState.body_head b ps) htok (by
            intro k hk
            cases hk
            exact hlen)
        have hparse := BoardState.parseTileData_record t.letter p.1 p.2 htv.1 htv.2.1 hrow25
          (by omega)
        have hvalid : board.isValidPosition (p.1 : Int) (p.2 : Int) = true := by
          rw [BoardState.isValidPosition_bounds]
          omega
        obtain ⟨board1, hs1, hs2, hs3, hs4, hs5⟩ :=
          BoardState.store_spec board hwf ⟨t.letter, 0⟩ _ _ hvalid
        obtain ⟨board', h1, h2, h3, h4, h5⟩ :=
          ih board1 n hps' (hs2.trans hr) (hs3.trans hc) hs4 hrest
        have hchk : ¬((p.1 : Int) ≥ board.rows ∨ (p.2 : Int) > board.cols) := by omega
        refine ⟨board', ?_, h2, h3, h4, ?_⟩
        · have hgood : (IStream.ofText
              ((' ' :: t.letter :: '@' :: Char.ofNat ('A'.toNat + p.1)
                :: showInt ((p.2 : Int) + 1)) ++ ps.flatMap fun q => b.cellText q.1 q.2)).good
              = true := rfl
          simp only [List.cons_append, IStream.resume_cons]
          simp only [List.cons_append] at hget hgood
          simp only [BoardState.fromStreamLoop, hgood, if_true, hget, hparse, if_neg hchk, hs1]
          exact h1
        · intro r c
          rw [h5 r c, hs5 r c (by omega) (by omega)]
          by_cases hrc : r = p.1 ∧ c = p.2
          · obtain ⟨e1, e2⟩ := hrc
            subst e1
            subst e2
            simp [hcell]
          · have hne : ¬((r, c) = p) := by
              intro he
              apply hrc
              rw [← he]
              exact ⟨rfl, rfl⟩
            have hrc1 : ¬((r : Int) = (p.1 : Int) ∧ (c : Int) = (p.2 : Int)) := by
              rintro ⟨e1, e2⟩
              exact hrc ⟨by omega, by omega⟩
            rw [if_neg hrc1]
            simp [List.mem_cons, hne]

end Scrabble

namespace Scrabble

theorem flatMap_row (f : Nat → Nat → List Char) (r : Nat) (cs : List Nat) :
    (cs.flatMap fun c => f r c) = (cs.map fun c => (r, c)).flatMap fun p => f p.1 p.2 := by
  induction cs with
  | nil => rfl
  | cons c cs ih => simp only [List.flatMap_cons, List.map_cons, ih]

theorem flatMap_grid (f : Nat → Nat → List Char) (rs cs : List Nat) :
    (rs.flatMap fun r => cs.flatMap fun c => f r c)
      = (rs.flatMap fun r => cs.map fun c => (r, c)).flatMap fun p => f p.1 p.2 := by
  induction rs with
  | nil => rfl
  | cons r rs ih =>
    simp only [List.flatMap_cons, List.flatMap_append, ih, flatMap_row f r cs]

theorem BoardState.body_positions (b : BoardState) :
    ((List.range b.rows.toNat).flatMap fun row =>
      (List.range b.cols.toNat).flatMap fun col => b.cellText row col)
    = b.positions.flatMap fun p => b.cellText p.1 p.2 :=
  flatMap_grid (fun row col => b.cellText row col) _ _

theorem BoardState.mem_positions (b : BoardState) (r c : Nat) :
    (r, c) ∈ b.positions ↔ r < b.rows.toNat ∧ c < b.cols.toNat := by
  simp [BoardState.positions, List.mem_flatMap, List.mem_range, List.mem_map]

/-- Every character that `toStream` writes for the cells is a blank, a comma,
or a character from `'0'` upwards. -/
theorem BoardState.body_chars (b : BoardState)
    (htiles : ∀ (r c : Int) (t : Tile), b.cell r c = some t → t.valid) :
    ∀ ps : List (Nat × Nat), (∀ p ∈ ps, p.1 ≤ 25) →
      ∀ ch ∈ (ps.flatMap fun p => b.cellText p.1 p.2), ch = ' ' ∨ ch = ',' ∨ 48 ≤ ch.toNat := by
  intro ps hps ch hch
  rw [List.mem_flatMap] at hch
  obtain ⟨p, hp, hmem⟩ := hch
  cases hcell : b.cell p.1 p.2 with
  | none =>
    rw [BoardState.cellText_none b _ _ hcell] at hmem
    simp at hmem
  | some t =>
    rw [BoardState.cellText_some b _ _ t hcell] at hmem
    have htv := htiles _ _ t hcell
    obtain ⟨r1, _, _⟩ := rowLetter_spec p.1 (hps p hp)
    obtain ⟨_, d2, _, _, _⟩ := decimal_spec (p.2 + 1)
    have hshow : showInt ((p.2 : Int) + 1) = decimal (p.2 + 1) := by
      rw [← showInt_natCast]
      simp
    rw [hshow] at hmem
    have h65 : ('A' : Char).toNat = 65 := rfl
    simp only [List.mem_cons] at hmem
    rcases hmem with h | h | h | h | h | h
    · exact Or.inr (Or.inl h)
    · exact Or.inl h
    · right
      right
      rw [h]
      have := (char_le_iff 'A' t.letter).1 htv.1
      omega
    · right
      right
      rw [h]
      decide
    · right
      right
      rw [h]
      have := (char_le_iff 'A' _).1 r1
      omega
    · right
      right
      have := (isDigit_iff ch).1 (d2 ch h)
      omega

theorem decimal_chars (n : Nat) : ∀ ch ∈ decimal n, 48 ≤ ch.toNat ∧ ch ≠ ',' ∧ ch ≠ '\n' := by
  intro ch hch
  obtain ⟨_, d2, _, _, _⟩ := decimal_spec n
  have hd := d2 ch hch
  exact ⟨((isDigit_iff ch).1 hd).1, digit_ne ch hd ',' (by decide), digit_ne ch hd '\n' (by decide)⟩

end Scrabble

namespace Scrabble

theorem flatMap_ext {α : Type} (l : List α) (f g : α → List Char) (h : ∀ x ∈ l, f x = g x) :
    l.flatMap f = l.flatMap g := by
  induction l with
  | nil => rfl
  | cons x xs ih =>
    simp only [List.flatMap_cons, h x (List.mem_cons_self _ _),
      ih (fun y hy => h y (List.mem_cons_of_mem _ hy))]

theorem BoardState.new_bounds (rows cols : Int) (b0 : BoardState)
    (h : BoardState.new rows cols = .ok b0) :
    0 < rows ∧ rows ≤ 25 ∧ 0 < cols ∧ cols ≤ 98 := by
  unfold BoardState.new at h
  split_ifs at h with h1 h2 h3
  omega

theorem BoardState.cell_valid (b : BoardState)
    (hgrid : ∀ row ∈ b.tiles, ∀ o ∈ row, ∀ t ∈ o, Tile.valid t) :
    ∀ (r c : Int) (t : Tile), b.cell r c = some t → t.valid := by
  intro r c t h
  unfold BoardState.cell at h
  simp only [List.getD_eq_getElem?_getD] at h
  cases hrow : b.tiles[r.toNat]? with
  | none => simp [hrow] at h
  | some row =>
    rw [hrow] at h
    simp only [Option.getD_some] at h
    cases ho : row[c.toNat]? with
    | none => simp [ho] at h
    | some o =>
      rw [ho] at h
      simp only [Option.getD_some] at h
      exact hgrid row (List.getElem?_mem hrow) o (List.getElem?_mem ho) t (by rw [h]; rfl)

/-- The text that `toStream` writes for a constructed board is one line, and
`fromStream` on a stream whose next line is that text reads a board of the
same size with, cell by cell, the same letters and value 0. -/
theorem BoardState.fromStream_line (b : BoardState) (h : b.constructed) :
    (b.toStream ≠ [] ∧ ∀ ch ∈ b.toStream, ch ≠ '\n') ∧
    ∃ b', (∀ s s' : IStream, s.good = true → s.getline none '\n' = (b.toStream, s') →
        BoardState.fromStream s = .ok (b', s')) ∧
      b'.rows = b.rows ∧ b'.cols = b.cols ∧ b'.wellFormed ∧
      ∀ r c : Nat, (r : Int) < b.rows → (c : Int) < b.cols →
        b'.cell r c = (b.cell r c).map (fun t => (⟨t.letter, 0⟩ : Tile)) := by
  obtain ⟨hwf, ⟨b0, hnew⟩, hgrid⟩ := h
  have htiles := BoardState.cell_valid b hgrid
  obtain ⟨hr0, hr25, hc0, hc98⟩ := BoardState.new_bounds _ _ _ hnew
  obtain ⟨n1, n2, n3, n4⟩ := BoardState.new_spec _ _ _ hnew
  have hRi : b.rows = (b.rows.toNat : Int) := by omega
  have hCi : b.cols = (b.cols.toNat : Int) := by omega
  have hshowR : showInt b.rows = decimal b.rows.toNat := by
    rw [← showInt_natCast, ← hRi]
  have hshowC : showInt b.cols = decimal b.cols.toNat := by
    rw [← showInt_natCast, ← hCi]
  set body := b.positions.flatMap fun p => b.cellText p.1 p.2 with hbody
  have htext : b.toStream
      = decimal b.rows.toNat ++ (',' :: ((' ' :: decimal b.cols.toNat) ++ body)) := by
    unfold BoardState.toStream
    rw [BoardState.body_positions, hshowR, hshowC]
    simp
  have hposrow : ∀ p ∈ b.positions, p.1 ≤ 25 := by
    intro p hp
    have := (BoardState.mem_positions b p.1 p.2).1 hp
    omega
  have hbodych := BoardState.body_chars b htiles b.positions hposrow
  obtain ⟨dR1, dR2, dR3, _, dR5⟩ := decimal_spec b.rows.toNat
  obtain ⟨dC1, dC2, dC3, _, dC5⟩ := decimal_spec b.cols.toNat
  have hnl : ∀ ch ∈ b.toStream, ch ≠ '\n' := by
    intro ch hch
    rw [htext] at hch
    simp only [List.mem_append, List.mem_cons] at hch
    rcases hch with hch | hch | (hch | hch) | hch
    · exact (decimal_chars _ ch hch).2.2
    · rw [hch]
      decide
    · rw [hch]
      decide
    · exact (decimal_chars _ ch hch).2.2
    · rcases hbodych ch hch with h1 | h1 | h1
      · rw [h1]
        decide
      · rw [h1]
        decide
      · intro hc
        rw [hc] at h1
        revert h1
        decide
  have hne : b.toStream ≠ [] := by
    rw [htext]
    cases hd : decimal b.rows.toNat with
    | nil => exact absurd hd dR1
    | cons _ _ => simp
  have hfirst : IStream.getline (IStream.ofText b.toStream) (some 8190) ','
      = (decimal b.rows.toNat,
          IStream.ofText ((' ' :: decimal b.cols.toNat) ++ body)) := by
    rw [htext]
    have := IStream.getline_token ',' (decimal b.rows.toNat)
      (',' :: ((' ' :: decimal b.cols.toNat) ++ body)) (some 8190) dR1 (Or.inr rfl)
      (fun ch hch => (decimal_chars _ ch hch).2.1)
      (by
        intro k hk
        cases hk
        have := dR5 2 (by omega) (by omega)
        omega)
    rw [this]
    rfl
  have hsecond : IStream.getline (IStream.ofText ((' ' :: decimal b.cols.toNat) ++ body))
      (some 8190) ',' = (' ' :: decimal b.cols.toNat, IStream.resume body) := by
    refine IStream.getline_token ',' (' ' :: decimal b.cols.toNat) body (some 8190) (by simp)
      (BoardState.body_head b b.positions) ?_ ?_
    · intro ch hch
      simp only [List.mem_cons] at hch
      rcases hch with hch | hch
      · rw [hch]
        decide
      · exact (decimal_chars _ ch hch).2.1
    · intro k hk
      cases hk
      have := dC5 2 (by omega) (by omega)
      simp only [List.length_cons]
      omega
  have hstoiR : stoi (decimal b.rows.toNat) = .ok b.rows := by
    rw [stoi_decimal _ (by omega), ← hRi]
  have hstoiC : stoi (' ' :: decimal b.cols.toNat) = .ok b.cols := by
    rw [stoi_space, stoi_decimal _ (by omega), ← hCi]
  have hps : ∀ p ∈ b.positions, (p.1 : Int) < b.rows ∧ (p.2 : Int) < b.cols := by
    intro p hp
    have := (BoardState.mem_positions b p.1 p.2).1 hp
    omega
  obtain ⟨b', hloop, hb1, hb2, hb3, hb4⟩ :=
    BoardState.fromStreamLoop_records b htiles hr25 hc98 b.positions b0
      ((IStream.resume body).rest.length + 1) hps n1 n2 n3 (IStream.resume_rest_length body)
  refine ⟨⟨hne, hnl⟩, b', ?_, hb1, hb2, hb3, ?_⟩
  · intro s s' hgood hline
    simp only [BoardState.fromStream, hgood, Bool.not_true, Bool.false_eq_true, if_false, hline,
      hfirst, hstoiR, hsecond, hstoiC, hnew, hloop]
  · intro r c hr hc
    have hmem : (r, c) ∈ b.positions := by
      rw [BoardState.mem_positions]
      omega
    rw [hb4 r c, n4]
    cases hcell : b.cell r c with
    | none => simp
    | some t => simp [hmem]

/-- Reading back what `toStream` wrote for a constructed board: the board
read has the same size and, cell by cell, the same letters with value 0. -/
theorem BoardState.fromStream_toStream_cells (b : BoardState) (h : b.constructed) :
    ∃ b', BoardState.fromStream (IStream.ofText b.toStream) = .ok (b', IStream.resume []) ∧
      b'.rows = b.rows ∧ b'.cols = b.cols ∧ b'.wellFormed ∧
      ∀ r c : Nat, (r : Int) < b.rows → (c : Int) < b.cols →
        b'.cell r c = (b.cell r c).map (fun t => (⟨t.letter, 0⟩ : Tile)) := by
  obtain ⟨⟨hne, hnl⟩, b', hfrom, h1, h2, h3, h4⟩ := BoardState.fromStream_line b h
  refine ⟨b', hfrom _ _ rfl ?_, h1, h2, h3, h4⟩
  have := IStream.getline_token '\n' b.toStream [] none hne (Or.inl rfl) hnl
    (by intro k hk; cases hk)
  simpa using this

end Scrabble

namespace Scrabble

/-- C21: for a constructed board `b`, `fromStream` applied to the text that
`b.toStream` writes yields a board with the same row count and column count
and, at every cell, the same occupancy and the same tile letter, with value
0; writing that board gives the same text again.  The text of the board of
the unit tests is `2, 2, A@A1, B@B2`. -/
theorem BoardState.serialisation_round_trip (b : BoardState) (h : b.constructed) :
    ∃ (b' : BoardState) (rest : IStream),
      BoardState.fromStream (IStream.ofText b.toStream) = .ok (b', rest) ∧
      b'.getNumRows = b.getNumRows ∧ b'.getNumCols = b.getNumCols ∧
      (∀ r c : Int, b.isValidPosition r c = true →
        b'.tileExists r c = b.tileExists r c ∧
        (∀ t, b.cell r c = some t → b'.cell r c = some ⟨t.letter, 0⟩) ∧
        (b.cell r c = none → b'.cell r c = none)) ∧
      b'.toStream = b.toStream := by
  obtain ⟨b', hfrom, hrows, hcols, _, hcells⟩ := BoardState.fromStream_toStream_cells b h
  have hcellText : ∀ row col : Nat, row < b.rows.toNat → col < b.cols.toNat →
      b'.cellText row col = b.cellText row col := by
    intro row col hr hc
    have := hcells row col (by omega) (by omega)
    unfold BoardState.cellText
    rw [this]
    cases b.cell row col <;> rfl
  refine ⟨b', _, hfrom, hrows, hcols, ?_, ?_⟩
  · intro r c hv
    obtain ⟨h1, h2, h3, h4⟩ := (b.isValidPosition_bounds r c).1 hv
    have hv' : b'.isValidPosition r c = true := by
      rw [BoardState.isValidPosition_bounds, hrows, hcols]
      exact ⟨h1, h2, h3, h4⟩
    have hcell := hcells r.toNat c.toNat (by omega) (by omega)
    have er : ((r.toNat : Nat) : Int) = r := by omega
    have ec : ((c.toNat : Nat) : Int) = c := by omega
    rw [er, ec] at hcell
    refine ⟨?_, ?_, ?_⟩
    · simp only [BoardState.tileExists, hv, hv', hcell, Bool.true_and]
      cases b.cell r c <;> rfl
    · intro t ht
      rw [hcell, ht]
      rfl
    · intro hn
      rw [hcell, hn]
      rfl
  · unfold BoardState.toStream
    rw [hrows, hcols]
    congr 1
    apply flatMap_ext
    intro row hrow
    apply flatMap_ext
    intro col hcol
    exact hcellText row col (List.mem_range.1 hrow) (List.mem_range.1 hcol)

/-- C21 at a concrete input: the board `2, 2, A@A1, B@B2` of the unit
tests. -/
theorem BoardState.serialisation_round_trip_witness :
    Examples.testBoard.constructed ∧
    Examples.testBoard.toStream = "2, 2, A@A1, B@B2".data ∧
    ∃ (b' : BoardState) (rest : IStream),
      BoardState.fromStream (IStream.ofText Examples.testBoard.toStream) = .ok (b', rest) ∧
      b'.getNumRows = Examples.testBoard.getNumRows ∧
      b'.getNumCols = Examples.testBoard.getNumCols ∧
      (∀ r c : Int, Examples.testBoard.isValidPosition r c = true →
        b'.tileExists r c = Examples.testBoard.tileExists r c ∧
        (∀ t, Examples.testBoard.cell r c = some t → b'.cell r c = some ⟨t.letter, 0⟩) ∧
        (Examples.testBoard.cell r c = none → b'.cell r c = none)) ∧
      b'.toStream = Examples.testBoard.toStream :=
  have hc : Examples.testBoard.constructed :=
    ⟨by unfold BoardState.wellFormed; decide, ⟨_, rfl⟩, by decide⟩
  ⟨hc, by decide, BoardState.serialisation_round_trip Examples.testBoard hc⟩

/-- C22, evaluated at the failing input: the line `2, 2, A@A3` declares a
2 x 2 board and names column index 2.  The test `colIdx > cols` lets it
pass, and the assignment `tiles[0][2] = tile` goes past the end of the row;
no `std::invalid_argument` is thrown.  A row index that is too large
(`A@C1`) and a column index larger than `cols` (`A@A4`) are rejected. -/
theorem BoardState.fromStream_column_past_the_end :
    BoardState.parseTileData " A@A3".data = .ok (⟨'A', 0⟩, 0, 2) ∧
    (∃ b0, BoardState.new 2 2 = .ok b0 ∧ b0.isValidPosition 0 2 = false ∧
      b0.store 0 2 ⟨'A', 0⟩ = .error .outOfBounds) ∧
    BoardState.fromStream (IStream.ofString "2, 2, A@A3") = .error .outOfBounds ∧
    BoardState.fromStream (IStream.ofString "2, 2, A@C1")
      = .error (.exception .invalidArgument) ∧
    BoardState.fromStream (IStream.ofString "2, 2, A@A4")
      = .error (.exception .invalidArgument) :=
  ⟨rfl, ⟨_, rfl, rfl, rfl⟩, rfl, rfl, rfl⟩

end Scrabble

namespace Scrabble

/-! ## Tiles as text -/

theorem dropWhile_blanks (a : Nat) (rest : List Char)
    (h : ∀ c, rest.head? = some c → c ≠ ' ') :
    (List.replicate a ' ' ++ rest).dropWhile (fun c => decide (c = ' ')) = rest := by
  induction a with
  | zero =>
    cases rest with
    | nil => rfl
    | cons c cs =>
      have := h c rfl
      simp [List.dropWhile, this]
  | succ a ih =>
    simp only [List.replicate_succ, List.cons_append, List.dropWhile, decide_True]
    exact ih

theorem readNumber_stop (base : Nat) (tail : List Char) (acc : Nat)
    (h : ∀ c, tail.head? = some c → digitValue c = none) : readNumber base tail acc = acc := by
  cases tail with
  | nil => rfl
  | cons c cs => simp [readNumber, h c rfl]

theorem readNumber_digits_then (tail : List Char)
    (h : ∀ c, tail.head? = some c → digitValue c = none) :
    ∀ (ds : List Char), (∀ c ∈ ds, c.isDigit = true) → ∀ acc : Nat,
      readNumber 10 (ds ++ tail) acc = ds.foldl (fun a c => a * 10 + (c.toNat - 48)) acc := by
  intro ds
  induction ds with
  | nil =>
    intro _ acc
    exact readNumber_stop 10 tail acc h
  | cons c cs ih =>
    intro hd acc
    have hc := hd c (List.mem_cons_self _ _)
    have hlt : c.toNat - 48 < 10 := by
      rw [isDigit_iff] at hc
      omega
    simp only [List.cons_append, readNumber, digitValue_of_isDigit c hc, hlt, if_true,
      List.foldl_cons]
    exact ih (fun d hd' => hd d (List.mem_cons_of_mem _ hd')) _

theorem decimal_zero : decimal 0 = ['0'] := rfl

theorem digitValue_blank : digitValue ' ' = none := by decide

/-- The directive `%i` on a decimal numeral without leading zeros that is
followed by the end of the text or by a blank. -/
theorem scanInt_decimal (v : Nat) (tail : List Char)
    (htail : ∀ c, tail.head? = some c → c = ' ') :
    scanInt (decimal v ++ tail) = some (v : Int) := by
  obtain ⟨d1, d2, d3, d4, _⟩ := decimal_spec v
  have hdv : ∀ c, tail.head? = some c → digitValue c = none := by
    intro c hc
    rw [htail c hc]
    exact digitValue_blank
  cases hdec : decimal v with
  | nil => exact absurd hdec d1
  | cons c cs =>
    have hc : c.isDigit = true := d2 c (by rw [hdec]; exact List.mem_cons_self _ _)
    have hc' := (isDigit_iff c).1 hc
    have hsp : isSpace c = false := isSpace_of_toNat c (by omega)
    have hdrop : (c :: cs ++ tail).dropWhile isSpace = c :: (cs ++ tail) := by
      simp [List.dropWhile, hsp]
    have hsign := readSign_of_toNat c (cs ++ tail) (by omega)
    by_cases hv : v = 0
    · subst hv
      rw [decimal_zero] at hdec
      obtain ⟨h1, h2⟩ := List.cons.inj hdec
      subst h1
      subst h2
      have hnum : scanNumber ('0' :: ([] ++ tail)) = some 0 := by
        simp only [scanNumber, List.nil_append, if_true]
        cases tail with
        | nil => rfl
        | cons x xs =>
          have hx : x = ' ' := htail x rfl
          subst hx
          cases xs with
          | nil => rfl
          | cons y ys =>
            have : ¬((' ' : Char) = 'x' ∨ (' ' : Char) = 'X') := by decide
            simp only [this, false_and, if_false]
            rfl
      simp only [scanInt, hdrop, hsign, hnum]
      rfl
    · have hne0 : c ≠ '0' := d4 (by omega) c (by rw [hdec]; rfl)
      have hstart : startsWithDigit 10 (c :: (cs ++ tail)) = true := by
        have : c.toNat - 48 < 10 := by omega
        simp [startsWithDigit, digitValue_of_isDigit c hc, this]
      have hread : readNumber 10 (c :: (cs ++ tail)) 0 = v := by
        have := readNumber_digits_then tail hdv (c :: cs) (by rw [← hdec]; exact d2) 0
        rw [List.cons_append] at this
        rw [this, ← hdec]
        exact d3
      have hnum : scanNumber (c :: (cs ++ tail)) = some v := by
        simp only [scanNumber, if_neg hne0, hstart, if_true, hread]
      simp only [scanInt, hdrop, hsign, hnum]
      rfl

/-- What `Tile::fromString` reads from blanks, a letter, one separator, a
decimal numeral, and blanks. -/
theorem Tile.fromString_render (a : Nat) (L sep : Char) (v : Nat) (tail : List Char)
    (hL : L ≠ ' ') (hsep : sep = ' ' ∨ sep = '-') (hv : v ≤ 2147483647)
    (htail : ∀ c, tail.head? = some c → c = ' ') :
    Tile.fromString (List.replicate a ' ' ++ L :: sep :: (decimal v ++ tail))
      = Tile.new L (v : Int) := by
  obtain ⟨d1, d2, _, _, _⟩ := decimal_spec v
  have hdrop := dropWhile_blanks a (L :: sep :: (decimal v ++ tail)) (by
    intro c hc
    simp only [List.head?_cons, Option.some.injEq] at hc
    rw [← hc]
    exact hL)
  have hp : (decide (sep = ' ') || decide (sep = '-')) = true := by
    rcases hsep with h | h <;> simp [h]
  have hq : ∀ c, (decimal v ++ tail).head? = some c →
      (decide (c = ' ') || decide (c = '-')) = false := by
    intro c hc
    cases hdec : decimal v with
    | nil => exact absurd hdec d1
    | cons d ds =>
      rw [hdec] at hc
      simp only [List.cons_append, List.head?_cons, Option.some.injEq] at hc
      have hd : d.isDigit = true := d2 d (by rw [hdec]; exact List.mem_cons_self _ _)
      rw [← hc]
      have h1 := digit_ne d hd ' ' (by decide)
      have h2 := digit_ne d hd '-' (by decide)
      simp [h1, h2]
  have htake : (sep :: (decimal v ++ tail)).takeWhile (fun c => decide (c = ' ') || decide (c = '-'))
      ≠ [] := by
    simp [List.takeWhile, hp]
  have hdrop2 : (sep :: (decimal v ++ tail)).dropWhile
      (fun c => decide (c = ' ') || decide (c = '-')) = decimal v ++ tail := by
    simp only [List.dropWhile, hp]
    cases hx : decimal v ++ tail with
    | nil => rfl
    | cons c cs =>
      have := hq c (by rw [hx]; rfl)
      simp [List.dropWhile, this]
  have hrange : ¬(((v : Int)) < -2147483648 ∨ ((v : Int)) > 2147483647) := by omega
  simp only [Tile.fromString, hdrop, Tile.sscanf, if_neg htake, hdrop2,
    scanInt_decimal v tail htail, if_neg hrange]

end Scrabble

namespace Scrabble

theorem LinkedList.tileText_spec (t : Tile) (hv : t.valid) (hmax : t.value ≤ 2147483647) :
    LinkedList.tileText t = t.letter :: '-' :: decimal t.value.toNat ∧
    (∀ c ∈ LinkedList.tileText t, c ≠ ',') ∧ (LinkedList.tileText t).length ≤ 1021 := by
  obtain ⟨h1, h2, h3⟩ := hv
  have hnn : (0 : Int) ≤ t.value := h3
  have hmax' : (t.value : Int) ≤ 2147483647 := hmax
  have hcast : ((Int.toNat t.value : Nat) : Int) = t.value := Int.toNat_of_nonneg hnn
  have hshow : showInt t.value = decimal t.value.toNat := by
    unfold showInt
    rw [if_neg (not_lt.mpr hnn)]
  obtain ⟨_, d2, _, _, d5⟩ := decimal_spec t.value.toNat
  refine ⟨by simp only [LinkedList.tileText, hshow], ?_, ?_⟩
  · intro c hc
    simp only [LinkedList.tileText, hshow, List.mem_cons] at hc
    rcases hc with hc | hc | hc
    · rw [hc]
      exact upper_ne _ h1 ',' (by decide)
    · rw [hc]
      decide
    · exact digit_ne c (d2 c hc) ',' (by decide)
  · have hlt : Int.toNat t.value < 10 ^ 10 := by
      have : (Int.toNat t.value : Int) ≤ 2147483647 := by rw [hcast]; exact hmax'
      norm_num
      omega
    have := d5 10 (by omega) hlt
    simp only [LinkedList.tileText, hshow, List.length_cons]
    omega

theorem LinkedList.toStringLoop_head (ts : List Tile) :
    LinkedList.toStringLoop ts = [] ∨ (LinkedList.toStringLoop ts).head? = some ',' := by
  cases ts with
  | nil => exact Or.inl rfl
  | cons t ts => exact Or.inr rfl

/-- Reading the text of one tile, after `a` blanks. -/
theorem LinkedList.fromString_tile (a : Nat) (t : Tile) (hv : t.valid)
    (hmax : t.value ≤ 2147483647) :
    Tile.fromString (List.replicate a ' ' ++ LinkedList.tileText t) = .ok t := by
  obtain ⟨e, _, _⟩ := LinkedList.tileText_spec t hv hmax
  obtain ⟨h1, h2, h3⟩ := hv
  have hnn : (0 : Int) ≤ t.value := h3
  have hmax' : (t.value : Int) ≤ 2147483647 := hmax
  have hval : ((Int.toNat t.value : Nat) : Int) = t.value := Int.toNat_of_nonneg hnn
  have hle : Int.toNat t.value ≤ 2147483647 := by
    have : (Int.toNat t.value : Int) ≤ 2147483647 := by rw [hval]; exact hmax'
    omega
  have := Tile.fromString_render a t.letter '-' t.value.toNat [] (upper_ne _ h1 ' ' (by decide))
    (Or.inr rfl) hle (by intro c hc; cases hc)
  rw [List.append_nil] at this
  rw [e, this, hval]
  simp [Tile.new, h1, h2, h3]

theorem LinkedList.fromStringLoop_tiles :
    ∀ (ts : List Tile) (result : LinkedList) (fuel : Nat),
      (∀ t ∈ ts, t.valid ∧ t.value ≤ 2147483647) →
      (LinkedList.toStringLoop ts).length ≤ fuel →
      LinkedList.fromStringLoop fuel (IStream.resume (LinkedList.toStringLoop ts)) result
        = .ok ⟨result.nodes ++ ts⟩ := by
  intro ts
  induction ts with
  | nil =>
    intro result fuel _ _
    cases fuel <;> simp [LinkedList.fromStringLoop, LinkedList.toStringLoop, IStream.resume,
      IStream.good]
  | cons t ts ih =>
    intro result fuel hts hfuel
    obtain ⟨hv, hmax⟩ := hts t (List.mem_cons_self _ _)
    obtain ⟨_, hnc, hlen⟩ := LinkedList.tileText_spec t hv hmax
    cases fuel with
    | zero => simp [LinkedList.toStringLoop] at hfuel
    | succ n =>
      have hrest : (LinkedList.toStringLoop ts).length ≤ n := by
        simp only [LinkedList.toStringLoop, List.length_cons, List.length_append] at hfuel
        omega
      have hget := IStream.getline_token ',' (' ' :: LinkedList.tileText t)
        (LinkedList.toStringLoop ts) (some 1022) (by simp) (LinkedList.toStringLoop_head ts)
        (by
          intro c hc
          simp only [List.mem_cons] at hc
          rcases hc with hc | hc
          · rw [hc]
            decide
          · exact hnc c hc)
        (by
          intro k hk
          cases hk
          simp only [List.length_cons]
          omega)
      have hparse := LinkedList.fromString_tile 1 t hv hmax
      simp only [List.replicate_one, List.singleton_append] at hparse
      have hgood : (IStream.ofText ((' ' :: LinkedList.tileText t)
          ++ LinkedList.toStringLoop ts)).good = true := rfl
      have hres : IStream.resume (LinkedList.toStringLoop (t :: ts))
          = IStream.ofText ((' ' :: LinkedList.tileText t) ++ LinkedList.toStringLoop ts) := by
        simp [LinkedList.toStringLoop, IStream.resume, IStream.ofText]
      rw [hres]
      simp only [LinkedList.fromStringLoop, hgood, if_true, hget, hparse]
      rw [ih (result.addBack t) n (fun u hu => hts u (List.mem_cons_of_mem _ hu)) hrest]
      simp [LinkedList.addBack]

/-- Reading back the text of a list of constructed tiles gives the list. -/
theorem LinkedList.fromString_toString (l : LinkedList)
    (h : ∀ t ∈ l.nodes, t.valid ∧ t.value ≤ 2147483647) :
    LinkedList.fromString l.toString = .ok l := by
  cases l with
  | mk nodes =>
    cases nodes with
    | nil => rfl
    | cons t ts =>
      obtain ⟨hv, hmax⟩ := h t (List.mem_cons_self _ _)
      obtain ⟨e, hnc, hlen⟩ := LinkedList.tileText_spec t hv hmax
      have hne : LinkedList.tileText t ≠ [] := by
        rw [e]
        simp
      have hstr : LinkedList.toString ⟨t :: ts⟩
          = LinkedList.tileText t ++ LinkedList.toStringLoop ts := rfl
      have hne' : LinkedList.tileText t ++ LinkedList.toStringLoop ts ≠ [] := by
        rw [e]
        simp
      have hget := IStream.getline_token ',' (LinkedList.tileText t)
        (LinkedList.toStringLoop ts) (some 1022) hne (LinkedList.toStringLoop_head ts) hnc
        (by
          intro k hk
          cases hk
          omega)
      have hparse := LinkedList.fromString_tile 0 t hv hmax
      simp only [List.replicate_zero, List.nil_append] at hparse
      have hgood : (IStream.ofText (LinkedList.tileText t ++ LinkedList.toStringLoop ts)).good
          = true := rfl
      have hloop := LinkedList.fromStringLoop_tiles ts (LinkedList.empty.addBack t)
        (LinkedList.tileText t ++ LinkedList.toStringLoop ts).length
        (fun u hu => h u (List.mem_cons_of_mem _ hu)) (by simp)
      rw [hstr]
      unfold LinkedList.fromString
      rw [if_pos hne', LinkedList.fromStringLoop]
      simp only [hgood, if_true, hget, hparse]
      rw [hloop]
      simp [LinkedList.addBack, LinkedList.empty]

theorem LinkedList.toStringLoop_eq (ts : List Tile) :
    LinkedList.toStringLoop ts = (ts.map fun t => ',' :: ' ' :: LinkedList.tileText t).flatten := by
  induction ts with
  | nil => rfl
  | cons t ts ih => simp [LinkedList.toStringLoop, ih]

/-- C30: for a list `l` of constructed tiles (letters `A..Z`, values from 0
up to the largest `int`), `fromString (l.toString)` is `l` itself, so it has
the same length and the same letter and value at every index, and
`toString` of it is the same text again; `toString` renders the first tile
as `LETTER-VALUE` and every further one as `, LETTER-VALUE`; the empty list
renders as the empty text, and `fromString` of the empty text is the empty
list. -/
theorem LinkedList.text_round_trip (l : LinkedList)
    (h : ∀ t ∈ l.nodes, t.valid ∧ t.value ≤ 2147483647) :
    LinkedList.fromString l.toString = .ok l ∧
    (∃ l', LinkedList.fromString l.toString = .ok l' ∧ l'.getLength = l.getLength ∧
      (∀ i : Int, l'.get i = l.get i) ∧ l'.toString = l.toString) ∧
    (∀ (t : Tile) (ts : List Tile), l.nodes = t :: ts →
      l.toString = (t.letter :: '-' :: showInt t.value) ++
        (ts.map fun u => ',' :: ' ' :: u.letter :: '-' :: showInt u.value).flatten) ∧
    LinkedList.toString LinkedList.empty = [] ∧
    LinkedList.fromString [] = .ok LinkedList.empty := by
  have hrt := LinkedList.fromString_toString l h
  refine ⟨hrt, ⟨l, hrt, rfl, fun _ => rfl, rfl⟩, ?_, rfl, rfl⟩
  intro t ts hl
  simp only [LinkedList.toString, hl, LinkedList.toStringLoop_eq]
  rfl

/-- C30 at a concrete input: the list `A-1, B-2, C-3`. -/
theorem LinkedList.text_round_trip_witness :
    (∀ t ∈ Examples.tiles123, t.valid ∧ t.value ≤ 2147483647) ∧
    LinkedList.toString ⟨Examples.tiles123⟩ = "A-1, B-2, C-3".data ∧
    LinkedList.fromString "A-1, B-2, C-3".data = .ok ⟨Examples.tiles123⟩ ∧
    LinkedList.fromString (LinkedList.toString ⟨Examples.tiles123⟩) = .ok ⟨Examples.tiles123⟩ :=
  have h : ∀ t ∈ (LinkedList.mk Examples.tiles123).nodes, t.valid ∧ t.value ≤ 2147483647 := by
    decide
  ⟨h, by decide, rfl, (LinkedList.text_round_trip ⟨Examples.tiles123⟩ h).1⟩

/-- C31: for every upper-case letter `L`, every value `v` from 0 up to the
largest `int` written in decimal without leading zeros, a separator that is
one blank or one dash, and any number of blanks in front and behind,
`Tile::fromString` returns the tile with letter `L` and value `v`; so for
the six texts of the unit tests. -/
theorem Tile.fromString_both_formats :
    (∀ (L sep : Char) (v a b : Nat), 'A' ≤ L → L ≤ 'Z' → (sep = ' ' ∨ sep = '-') →
      v ≤ 2147483647 →
      Tile.fromString (List.replicate a ' ' ++ L :: sep :: (decimal v ++ List.replicate b ' '))
        = .ok ⟨L, (v : Int)⟩) ∧
    Tile.fromString "A 1".data = .ok ⟨'A', 1⟩ ∧
    Tile.fromString "     B 2".data = .ok ⟨'B', 2⟩ ∧
    Tile.fromString "D-3".data = .ok ⟨'D', 3⟩ ∧
    Tile.fromString "     E-5".data = .ok ⟨'E', 5⟩ ∧
    Tile.fromString "     B 2 ".data = .ok ⟨'B', 2⟩ ∧
    Tile.fromString "     A-2 ".data = .ok ⟨'A', 2⟩ := by
  refine ⟨?_, rfl, rfl, rfl, rfl, rfl, rfl⟩
  intro L sep v a b h1 h2 hsep hv
  rw [Tile.fromString_render a L sep v (List.replicate b ' ') (upper_ne L h1 ' ' (by decide))
    hsep hv (by
      intro c hc
      cases b with
      | zero => cases hc
      | succ b =>
        simp only [List.replicate_succ, List.head?_cons, Option.some.injEq] at hc
        exact hc.symm)]
  simp [Tile.new, h1, h2]

end Scrabble

namespace Scrabble

/-- C25, evaluated at the failing input: the saved player `ABC`, score 14,
with a hand line of eight tiles.  `PlayerState::fromStream` builds the player
with all eight tiles in hand, since neither it nor `LinkedList::fromString`
nor the constructor looks at the number of tiles; `drawTiles` on that player
draws nothing and then fails its assertion `hand length <= 7`, whatever the
bag holds. -/
theorem PlayerState.loaded_hand_exceeds_capacity :
    (∃ rest, PlayerState.fromStream (IStream.ofString Examples.eightTiles)
      = .ok ({ name := "ABC", score := 14, hand := ⟨Examples.handAH⟩, lastAction := "" },
          rest)) ∧
    LinkedList.getLength ⟨Examples.handAH⟩ = 8 ∧
    ∀ bag : LinkedList,
      PlayerState.drawTiles
        { name := "ABC", score := 14, hand := ⟨Examples.handAH⟩, lastAction := "" } bag
        = .error .assertion := by
  refine ⟨⟨_, rfl⟩, rfl, ?_⟩
  intro bag
  have hcond : ¬(LinkedList.getLength ⟨Examples.handAH⟩ < 7 ∧ bag.getLength > 0) := by
    intro h
    have : LinkedList.getLength ⟨Examples.handAH⟩ = 8 := rfl
    omega
  have hassert : ¬(LinkedList.getLength ⟨Examples.handAH⟩ ≤ 7) := by
    have : LinkedList.getLength ⟨Examples.handAH⟩ = 8 := rfl
    omega
  unfold PlayerState.drawTiles
  cases bag.nodes.length with
  | zero => simp only [PlayerState.drawTilesLoop, if_neg hcond, hassert, not_false_eq_true, if_true]
  | succ n =>
    simp only [PlayerState.drawTilesLoop, if_neg hcond, hassert, not_false_eq_true, if_true]

end Scrabble

namespace Scrabble

/-! ## Lines of a saved game -/

/-- Reading a line that is followed by a line feed. -/
theorem IStream.getline_line (line rest : List Char) (h : ∀ c ∈ line, c ≠ '\n') :
    IStream.getline (IStream.ofText (line ++ '\n' :: rest)) none '\n'
      = (line, IStream.ofText rest) := by
  have := IStream.extract_token '\n' ('\n' :: rest) (Or.inr rfl) line none h
    (by intro k hk; cases hk)
  simp only [IStream.getline, IStream.ofText, IStream.good, Bool.not_false, Bool.and_self,
    Bool.not_true, Bool.false_eq_true, if_false, this, IStream.resume, Bool.false_and]

/-- Reading the last line, which no line feed follows. -/
theorem IStream.getline_last (line : List Char) (hne : line ≠ []) (h : ∀ c ∈ line, c ≠ '\n') :
    IStream.getline (IStream.ofText line) none '\n' = (line, IStream.resume []) := by
  have := IStream.getline_token '\n' line [] none hne (Or.inl rfl) h
    (by intro k hk; cases hk)
  simpa using this

theorem PlayerState.name_chars (name : String) (h : PlayerState.isValidPlayerName name = true) :
    name.data ≠ [] ∧ ∀ c ∈ name.data, c ≠ '\n' := by
  simp only [PlayerState.isValidPlayerName, Bool.and_eq_true, decide_eq_true_eq,
    List.all_eq_true, Bool.or_eq_true] at h
  obtain ⟨h1, h2⟩ := h
  refine ⟨fun hc => by rw [hc] at h1; simp at h1, ?_⟩
  intro c hc hn
  have := h2 c hc
  rw [hn] at this
  revert this
  decide

theorem LinkedList.tileText_chars (t : Tile) (hv : t.valid) (hmax : t.value ≤ 2147483647) :
    ∀ c ∈ LinkedList.tileText t, c ≠ '\n' := by
  obtain ⟨e, _, _⟩ := LinkedList.tileText_spec t hv hmax
  obtain ⟨_, d2, _, _, _⟩ := decimal_spec t.value.toNat
  intro c hc
  rw [e] at hc
  simp only [List.mem_cons] at hc
  rcases hc with hc | hc | hc
  · rw [hc]
    exact upper_ne _ hv.1 '\n' (by decide)
  · rw [hc]
    decide
  · exact digit_ne c (d2 c hc) '\n' (by decide)

theorem LinkedList.toStringLoop_chars (ts : List Tile)
    (h : ∀ t ∈ ts, t.valid ∧ t.value ≤ 2147483647) :
    ∀ c ∈ LinkedList.toStringLoop ts, c ≠ '\n' := by
  induction ts with
  | nil =>
    intro c hc
    simp [LinkedList.toStringLoop] at hc
  | cons t ts ih =>
    intro c hc
    simp only [LinkedList.toStringLoop, List.mem_cons, List.mem_append] at hc
    rcases hc with hc | hc | hc | hc
    · rw [hc]
      decide
    · rw [hc]
      decide
    · exact LinkedList.tileText_chars t (h t (List.mem_cons_self _ _)).1
        (h t (List.mem_cons_self _ _)).2 c hc
    · exact ih (fun u hu => h u (List.mem_cons_of_mem _ hu)) c hc

theorem LinkedList.toString_chars (l : LinkedList) (h : l.constructed) :
    ∀ c ∈ l.toString, c ≠ '\n' := by
  cases l with
  | mk nodes =>
    cases nodes with
    | nil =>
      intro c hc
      simp [LinkedList.toString] at hc
    | cons t ts =>
      intro c hc
      simp only [LinkedList.toString, List.mem_append] at hc
      rcases hc with hc | hc
      · exact LinkedList.tileText_chars t (h t (List.mem_cons_self _ _)).1
          (h t (List.mem_cons_self _ _)).2 c hc
      · exact LinkedList.toStringLoop_chars ts (fun u hu => h u (List.mem_cons_of_mem _ hu)) c hc

/-- Reading back a saved player that is followed by a line feed: name, score
and hand are those written, and no last action is recorded. -/
theorem PlayerState.fromStream_saved_player (p : PlayerState) (h : p.constructed)
    (rest : List Char) :
    PlayerState.fromStream (IStream.ofText (p.toStream ++ '\n' :: rest))
      = .ok ({ p with lastAction := "" }, IStream.ofText rest) := by
  obtain ⟨hname, hs0, hsmax, hhand⟩ := h
  obtain ⟨_, hnl1⟩ := PlayerState.name_chars p.name hname
  have hcast : ((Int.toNat p.score : Nat) : Int) = p.score := Int.toNat_of_nonneg hs0
  have hshow : showInt p.score = decimal p.score.toNat := by
    unfold showInt
    rw [if_neg (not_lt.mpr hs0)]
  have hnl2 : ∀ c ∈ showInt p.score, c ≠ '\n' := by
    intro c hc
    rw [hshow] at hc
    exact (decimal_chars _ c hc).2.2
  have hnl3 := LinkedList.toString_chars p.hand hhand
  have hle : Int.toNat p.score ≤ 2147483647 := by
    have : (Int.toNat p.score : Int) ≤ 2147483647 := by rw [hcast]; exact hsmax
    omega
  have hstoi : stoi (showInt p.score) = .ok p.score := by
    rw [hshow, stoi_decimal _ hle, hcast]
  have htext : p.toStream ++ '\n' :: rest
      = p.name.data ++ '\n' :: (showInt p.score ++ '\n' :: (p.hand.toString ++ '\n' :: rest)) := by
    simp [PlayerState.toStream]
  have hnew : PlayerState.new (String.mk p.name.data) p.score p.hand
      = .ok { p with lastAction := "" } := by
    have hneg : ¬(p.score < 0) := not_lt.mpr hs0
    have hn : PlayerState.isValidPlayerName { data := p.name.data } = true := hname
    simp only [PlayerState.new, hn, Bool.not_true, Bool.false_eq_true, if_false, if_neg hneg]
  have hgood : (IStream.ofText (p.name.data ++ '\n' :: (showInt p.score ++ '\n' ::
      (p.hand.toString ++ '\n' :: rest)))).good = true := rfl
  rw [htext]
  simp only [PlayerState.fromStream, hgood, Bool.not_true, Bool.false_eq_true, if_false,
    IStream.getline_line _ _ hnl1, IStream.getline_line _ _ hnl2, hstoi,
    IStream.getline_line _ _ hnl3, LinkedList.fromString_toString p.hand hhand, hnew]

end Scrabble

namespace Scrabble

/-- The text of a board depends on its size and on the letters in its cells
only. -/
theorem BoardState.toStream_of_cells (b b' : BoardState) (hrows : b'.rows = b.rows)
    (hcols : b'.cols = b.cols)
    (hcells : ∀ r c : Nat, (r : Int) < b.rows → (c : Int) < b.cols →
      b'.cell r c = (b.cell r c).map (fun t => (⟨t.letter, 0⟩ : Tile))) :
    b'.toStream = b.toStream := by
  unfold BoardState.toStream
  rw [hrows, hcols]
  congr 1
  apply flatMap_ext
  intro row hrow
  apply flatMap_ext
  intro col hcol
  have hr := List.mem_range.1 hrow
  have hc := List.mem_range.1 hcol
  have := hcells row col (by omega) (by omega)
  unfold BoardState.cellText
  rw [this]
  cases b.cell row col <;> rfl

/-- Reading back a saved game: what `State::fromStream` builds from the text
that `toStream` writes for a constructed state. -/
theorem State.fromStream_saved_game (st : State) (h : st.constructed) :
    ∃ (text : List Char) (board' : BoardState),
      st.toStream = .ok text ∧
      State.fromStream (IStream.ofText text)
        = .ok { board := board', tileBag := st.tileBag
                players := ({ st.players.1 with lastAction := "" },
                  { st.players.2 with lastAction := "" })
                playerTurnIdx := st.playerTurnIdx, didQuit := false } ∧
      board'.rows = st.board.rows ∧ board'.cols = st.board.cols ∧
      (∀ r c : Nat, (r : Int) < st.board.rows → (c : Int) < st.board.cols →
        board'.cell r c = (st.board.cell r c).map (fun t => (⟨t.letter, 0⟩ : Tile))) := by
  obtain ⟨hp1, hp2, hne, hb, hbag, hidx⟩ := h
  obtain ⟨⟨_, hnlb⟩, board', hfrom, hb1, hb2, _, hb4⟩ := BoardState.fromStream_line st.board hb
  have hnlbag := LinkedList.toString_chars st.tileBag hbag
  obtain ⟨hn1, hnl1⟩ := PlayerState.name_chars _ hp1.1
  obtain ⟨hn2, hnl2⟩ := PlayerState.name_chars _ hp2.1
  have key : ∀ (current : PlayerState) (idx : Int),
      current.name.data ≠ [] → (∀ c ∈ current.name.data, c ≠ '\n') →
      (if st.players.1.name = current.name then (0 : Int)
        else if st.players.2.name = current.name then 1 else -1) = idx →
      (idx = 0 ∨ idx = 1) →
      State.fromStream (IStream.ofText (st.players.1.toStream ++ '\n' ::
        (st.players.2.toStream ++ '\n' :: (st.board.toStream ++ '\n' ::
          (st.tileBag.toString ++ '\n' :: current.name.data)))))
        = .ok { board := board', tileBag := st.tileBag
                players := ({ st.players.1 with lastAction := "" },
                  { st.players.2 with lastAction := "" })
                playerTurnIdx := idx, didQuit := false } := by
    intro current idx hcn hcnl hsel hrange
    have hgood : (IStream.ofText (st.players.1.toStream ++ '\n' ::
        (st.players.2.toStream ++ '\n' :: (st.board.toStream ++ '\n' ::
          (st.tileBag.toString ++ '\n' :: current.name.data))))).good = true := rfl
    have hboard := hfrom (IStream.ofText (st.board.toStream ++ '\n' ::
        (st.tileBag.toString ++ '\n' :: current.name.data)))
      (IStream.ofText (st.tileBag.toString ++ '\n' :: current.name.data)) rfl
      (IStream.getline_line _ _ hnlb)
    have hcur : (String.mk current.name.data) = current.name := rfl
    have hnew : State.new { st.players.1 with lastAction := "" }
        { st.players.2 with lastAction := "" } board' st.tileBag idx
        = .ok { board := board', tileBag := st.tileBag
                players := ({ st.players.1 with lastAction := "" },
                  { st.players.2 with lastAction := "" })
                playerTurnIdx := idx, didQuit := false } := by
      have hr : ¬(idx ≠ 0 ∧ idx ≠ 1) := by omega
      simp only [State.new, hne, if_false, if_neg hr]
    simp only [State.fromStream, hgood, Bool.not_true, Bool.false_eq_true, if_false,
      PlayerState.fromStream_saved_player _ hp1, PlayerState.fromStream_saved_player _ hp2, hboard,
      IStream.getline_line _ _ hnlbag, LinkedList.fromString_toString _ hbag,
      IStream.getline_last _ hcn hcnl, hcur, hsel, hnew]
  rcases hidx with h0 | h1
  · refine ⟨_, board', by simp only [State.toStream, State.playerAt, h0, if_true]; rfl, ?_,
      hb1, hb2, hb4⟩
    rw [h0]
    exact key st.players.1 0 hn1 hnl1 (by simp) (Or.inl rfl)
  · have h10 : ¬(st.playerTurnIdx = 0) := by omega
    refine ⟨_, board', by
      simp only [State.toStream, State.playerAt, if_neg h10, h1, if_true]
      rfl, ?_, hb1, hb2, hb4⟩
    rw [h1]
    exact key st.players.2 1 hn2 hnl2 (by simp [hne]) (Or.inr rfl)

end Scrabble

namespace Scrabble

/-- C33: for a constructed state (two players with valid, different names,
scores from 0 up to the largest `int`, hands and bag of constructed tiles, a
constructed board, turn index 0 or 1), `State::fromStream` on the text that
`toStream` writes gives a state with the same names, scores and hands, the
same board size, occupancy and letters in every cell, the same tile bag and
the same current player; writing that state gives the same text again. -/
theorem State.save_load_round_trip (st : State) (h : st.constructed) :
    ∃ (text : List Char) (st' : State),
      st.toStream = .ok text ∧ State.fromStream (IStream.ofText text) = .ok st' ∧
      st'.players.1.name = st.players.1.name ∧ st'.players.1.score = st.players.1.score ∧
      st'.players.1.hand = st.players.1.hand ∧
      st'.players.2.name = st.players.2.name ∧ st'.players.2.score = st.players.2.score ∧
      st'.players.2.hand = st.players.2.hand ∧
      st'.board.getNumRows = st.board.getNumRows ∧
      st'.board.getNumCols = st.board.getNumCols ∧
      (∀ r c : Int, st.board.isValidPosition r c = true →
        st'.board.tileExists r c = st.board.tileExists r c ∧
        (st'.board.cell r c).map (fun t => t.letter)
          = (st.board.cell r c).map (fun t => t.letter)) ∧
      st'.tileBag = st.tileBag ∧ st'.playerTurnIdx = st.playerTurnIdx ∧
      st'.toStream = .ok text := by
  obtain ⟨text, board', htext, hfrom, hb1, hb2, hb4⟩ := State.fromStream_saved_game st h
  have hidx := h.2.2.2.2.2
  refine ⟨text, _, htext, hfrom, rfl, rfl, rfl, rfl, rfl, rfl, hb1, hb2, ?_, rfl, rfl, ?_⟩
  · intro r c hv
    obtain ⟨h1, h2, h3, h4⟩ := (st.board.isValidPosition_bounds r c).1 hv
    have hv' : board'.isValidPosition r c = true := by
      rw [BoardState.isValidPosition_bounds, hb1, hb2]
      exact ⟨h1, h2, h3, h4⟩
    have hcell := hb4 r.toNat c.toNat (by omega) (by omega)
    have er : ((r.toNat : Nat) : Int) = r := by omega
    have ec : ((c.toNat : Nat) : Int) = c := by omega
    rw [er, ec] at hcell
    refine ⟨?_, ?_⟩
    · simp only [BoardState.tileExists, hv, hv', Bool.true_and]
      show (board'.cell r c).isSome = _
      rw [hcell]
      cases st.board.cell r c <;> rfl
    · show (board'.cell r c).map _ = _
      rw [hcell]
      cases st.board.cell r c <;> rfl
  · have hbt := BoardState.toStream_of_cells st.board board' hb1 hb2 hb4
    rw [← htext]
    rcases hidx with h0 | h1
    · simp only [State.toStream, State.playerAt, h0, if_true, hbt]
      rfl
    · have h10 : ¬(st.playerTurnIdx = 0) := by omega
      simp only [State.toStream, State.playerAt, h1, if_true, hbt]
      rfl

/-- C33 at a concrete input: the state of the unit test `testState`. -/
theorem State.save_load_round_trip_witness :
    Examples.testState.constructed ∧
    Examples.testState.toStream = .ok Examples.savedGame.data ∧
    ∃ (text : List Char) (st' : State),
      Examples.testState.toStream = .ok text ∧
      State.fromStream (IStream.ofText text) = .ok st' ∧
      st'.players.1.name = Examples.testState.players.1.name ∧
      st'.players.1.score = Examples.testState.players.1.score ∧
      st'.players.1.hand = Examples.testState.players.1.hand ∧
      st'.players.2.name = Examples.testState.players.2.name ∧
      st'.players.2.score = Examples.testState.players.2.score ∧
      st'.players.2.hand = Examples.testState.players.2.hand ∧
      st'.board.getNumRows = Examples.testState.board.getNumRows ∧
      st'.board.getNumCols = Examples.testState.board.getNumCols ∧
      (∀ r c : Int, Examples.testState.board.isValidPosition r c = true →
        st'.board.tileExists r c = Examples.testState.board.tileExists r c ∧
        (st'.board.cell r c).map (fun t => t.letter)
          = (Examples.testState.board.cell r c).map (fun t => t.letter)) ∧
      st'.tileBag = Examples.testState.tileBag ∧
      st'.playerTurnIdx = Examples.testState.playerTurnIdx ∧
      st'.toStream = .ok text :=
  have hc : Examples.testState.constructed :=
    ⟨⟨by decide, by decide, by decide, by unfold LinkedList.constructed; decide⟩,
      ⟨by decide, by decide, by decide, by unfold LinkedList.constructed; decide⟩,
      by decide,
      ⟨by unfold BoardState.wellFormed; decide, ⟨_, rfl⟩, by decide⟩,
      by unfold LinkedList.constructed; decide, Or.inr rfl⟩
  ⟨hc, rfl, State.save_load_round_trip Examples.testState hc⟩

theorem State.endCurrentTurn_idx (st : State) (h : st.playerTurnIdx = 0 ∨ st.playerTurnIdx = 1) :
    st.endCurrentTurn.playerTurnIdx = 1 - st.playerTurnIdx := by
  rcases h with h | h <;> simp only [State.endCurrentTurn, h] <;> rfl

/-- C34: the constructor throws `std::invalid_argument` when the two players
have the same name and when the turn index is neither 0 nor 1;
`State::fromStream`, once players, board and bag are read, throws
`std::invalid_argument` when the saved name of the current player is neither
player's name; in a constructed state the turn index is 0 or 1, and
`endCurrentTurn` keeps it so, changes nothing else, makes the other player
the current one, and applied twice gives the state back. -/
theorem State.construction_validates :
    (∀ (p1 p2 : PlayerState) (board : BoardState) (bag : LinkedList) (idx : Int),
      p1.name = p2.name →
      State.new p1 p2 board bag idx = .error (.exception .invalidArgument)) ∧
    (∀ (p1 p2 : PlayerState) (board : BoardState) (bag : LinkedList) (idx : Int),
      idx ≠ 0 → idx ≠ 1 →
      State.new p1 p2 board bag idx = .error (.exception .invalidArgument)) ∧
    (∀ (stream s1 s2 s3 : IStream) (p1 p2 : PlayerState) (board : BoardState)
        (bag : LinkedList),
      stream.good = true → PlayerState.fromStream stream = .ok (p1, s1) →
      PlayerState.fromStream s1 = .ok (p2, s2) → BoardState.fromStream s2 = .ok (board, s3) →
      LinkedList.fromString (s3.getline none '\n').1 = .ok bag →
      p1.name ≠ String.mk ((s3.getline none '\n').2.getline none '\n').1 →
      p2.name ≠ String.mk ((s3.getline none '\n').2.getline none '\n').1 →
      State.fromStream stream = .error (.exception .invalidArgument)) ∧
    State.fromStream (IStream.ofString
        "PlayerA\n0\nE-1, A-1\nPlayerB\n5\nC-1, D-2\n2, 3, C@B2, D@B3\nC-1, A-1\nPlayerC")
      = .error (.exception .invalidArgument) ∧
    (∀ (p1 p2 : PlayerState) (board : BoardState) (bag : LinkedList) (idx : Int) (st : State),
      State.new p1 p2 board bag idx = .ok st →
      p1.name ≠ p2.name ∧
      (st.playerTurnIdx = 0 ∨ st.playerTurnIdx = 1) ∧
      (st.endCurrentTurn.playerTurnIdx = 0 ∨ st.endCurrentTurn.playerTurnIdx = 1) ∧
      st.endCurrentTurn.playerTurnIdx ≠ st.playerTurnIdx ∧
      st.endCurrentTurn = { st with playerTurnIdx := 1 - st.playerTurnIdx } ∧
      (st.playerTurnIdx = 0 → st.getCurrentPlayer = .ok st.players.1 ∧
        st.endCurrentTurn.getCurrentPlayer = .ok st.players.2) ∧
      (st.playerTurnIdx = 1 → st.getCurrentPlayer = .ok st.players.2 ∧
        st.endCurrentTurn.getCurrentPlayer = .ok st.players.1) ∧
      st.endCurrentTurn.endCurrentTurn = st) := by
  refine ⟨?_, ?_, ?_, rfl, ?_⟩
  · intro p1 p2 board bag idx h
    simp only [State.new, h, if_true]
  · intro p1 p2 board bag idx h0 h1
    unfold State.new
    split_ifs with hn hi
    · rfl
    · rfl
    · exact absurd ⟨h0, h1⟩ hi
  · intro stream s1 s2 s3 p1 p2 board bag hgood hp1 hp2 hb hbag hn1 hn2
    have hnew : State.new p1 p2 board bag (-1) = .error (.exception .invalidArgument) := by
      unfold State.new
      split_ifs with hn hi
      · rfl
      · rfl
      · exact absurd ⟨by decide, by decide⟩ hi
    simp only [State.fromStream, hgood, Bool.not_true, Bool.false_eq_true, if_false, hp1, hp2,
      hb, hbag, if_neg hn1, if_neg hn2, hnew]
  · intro p1 p2 board bag idx st hst
    unfold State.new at hst
    split_ifs at hst with hn hi
    injection hst with hst
    subst hst
    have hidx : idx = 0 ∨ idx = 1 := by omega
    refine ⟨hn, hidx, ?_, ?_, ?_, ?_, ?_, ?_⟩
    · rcases hidx with h | h <;> subst h
      · exact Or.inr rfl
      · exact Or.inl rfl
    · rcases hidx with h | h <;> subst h
      · show Int.tmod (0 + 1) 2 ≠ 0
        decide
      · show Int.tmod (1 + 1) 2 ≠ 1
        decide
    · rcases hidx with h | h <;> subst h <;> rfl
    · intro h
      have h' : idx = 0 := h
      subst h'
      exact ⟨rfl, rfl⟩
    · intro h
      have h' : idx = 1 := h
      subst h'
      exact ⟨rfl, rfl⟩
    · rcases hidx with h | h <;> subst h <;> rfl

end Scrabble

namespace Scrabble

theorem letter_test_iff (ch : Char) :
    ((decide ('a' ≤ ch) && decide (ch ≤ 'z')) || (decide ('A' ≤ ch) && decide (ch ≤ 'Z'))) = true
      ↔ (97 ≤ ch.toNat ∧ ch.toNat ≤ 122) ∨ (65 ≤ ch.toNat ∧ ch.toNat ≤ 90) := by
  simp only [Bool.or_eq_true, Bool.and_eq_true, decide_eq_true_eq, char_le_iff]
  have h1 : ('a' : Char).toNat = 97 := rfl
  have h2 : ('z' : Char).toNat = 122 := rfl
  have h3 : ('A' : Char).toNat = 65 := rfl
  have h4 : ('Z' : Char).toNat = 90 := rfl
  rw [h1, h2, h3, h4]

/-- C32: `isValidPlayerName name` is true exactly when the name has at least
one character and every character is one of the ASCII letters `a..z`
(codes 97 to 122) or `A..Z` (codes 65 to 90); `A`, `Jeff` and `zZ` are valid,
the empty name, `Player1` and a name of a control character, a carriage
return and a character beyond ASCII are not. -/
theorem PlayerState.isValidPlayerName_iff :
    (∀ name : String, PlayerState.isValidPlayerName name = true ↔
      name.length ≥ 1 ∧
      ∀ ch ∈ name.data, (97 ≤ ch.toNat ∧ ch.toNat ≤ 122) ∨ (65 ≤ ch.toNat ∧ ch.toNat ≤ 90)) ∧
    PlayerState.isValidPlayerName "A" = true ∧
    PlayerState.isValidPlayerName "Jeff" = true ∧
    PlayerState.isValidPlayerName "zZ" = true ∧
    PlayerState.isValidPlayerName "" = false ∧
    PlayerState.isValidPlayerName "Player1" = false ∧
    PlayerState.isValidPlayerName (String.mk [Char.ofNat 1, Char.ofNat 13, Char.ofNat 255])
      = false := by
  refine ⟨?_, by decide, by decide, by decide, by decide, by decide, by decide⟩
  intro name
  simp only [PlayerState.isValidPlayerName, Bool.and_eq_true, decide_eq_true_eq,
    List.all_eq_true, letter_test_iff, String.length]
  constructor
  · rintro ⟨h1, h2⟩
    exact ⟨h1, h2⟩
  · rintro ⟨h1, h2⟩
    exact ⟨h1, h2⟩

end Scrabble

namespace Scrabble

/-! ## Letter case -/

theorem toUpper_toNat (c : Char) :
    c.toUpper.toNat = if 97 ≤ c.toNat ∧ c.toNat ≤ 122 then c.toNat - 32 else c.toNat := by
  have hval : ∀ n : Nat, 97 ≤ n → n ≤ 122 → (Char.ofNat (n - 32)).toNat = n - 32 := by
    intro n h1 h2
    interval_cases n <;> rfl
  unfold Char.toUpper
  by_cases h : 97 ≤ c.toNat ∧ c.toNat ≤ 122
  · have h' : c.toNat ≥ 97 ∧ c.toNat ≤ 122 := h
    simp only [h', and_self, if_true, h]
    exact hval _ h.1 h.2
  · have h' : ¬(c.toNat ≥ 97 ∧ c.toNat ≤ 122) := h
    simp only [h', if_false, h]

theorem toUpper_idem (c : Char) : c.toUpper.toUpper = c.toUpper := by
  rw [char_eq_iff, toUpper_toNat c.toUpper, toUpper_toNat c]
  split_ifs <;> omega

theorem toUpper_eq_caseVariant (a b : Char) : a.toUpper = b.toUpper ↔ Dictionary.caseVariant a b := by
  unfold Dictionary.caseVariant
  rw [char_eq_iff, char_eq_iff a b, toUpper_toNat a, toUpper_toNat b]
  split_ifs <;> omega

theorem Dictionary.toUpper_toUpper (w : String) :
    Dictionary.toUpper (Dictionary.toUpper w) = Dictionary.toUpper w := by
  simp only [Dictionary.toUpper, List.map_map]
  congr 1
  apply List.map_congr_left
  intro c _
  exact toUpper_idem c

theorem Dictionary.toUpper_eq_sameUpToCase (v w : String) :
    Dictionary.toUpper v = Dictionary.toUpper w ↔ Dictionary.sameUpToCase v w := by
  unfold Dictionary.toUpper Dictionary.sameUpToCase
  rw [String.ext_iff]
  generalize v.data = xs
  generalize w.data = ys
  induction xs generalizing ys with
  | nil =>
    cases ys with
    | nil => simp
    | cons y ys => simp
  | cons x xs ih =>
    cases ys with
    | nil => simp
    | cons y ys =>
      simp only [List.map_cons, List.cons.injEq, List.forall₂_cons, ih ys, toUpper_eq_caseVariant]

end Scrabble

namespace Scrabble

/-! ## Loading the dictionary -/

theorem Dictionary.contains_iff (d : Dictionary) (w : String) :
    d.contains w = true ↔ Dictionary.toUpper w ∈ d.dict := by
  simp [Dictionary.contains]

/-- Storing one word of the list: the key set gains the upper-case form of
the word, and no key comes to stand twice. -/
theorem Dictionary.insert_upper_spec (d : Dictionary) (w : String) :
    (d.dict.Nodup →
      (if !d.contains (Dictionary.toUpper w) then d.insert (Dictionary.toUpper w)
        else d).dict.Nodup) ∧
    ∀ k, k ∈ (if !d.contains (Dictionary.toUpper w) then d.insert (Dictionary.toUpper w)
        else d).dict ↔ k ∈ d.dict ∨ k = Dictionary.toUpper w := by
  by_cases hc : d.contains (Dictionary.toUpper w) = true
  · have hmem : Dictionary.toUpper w ∈ d.dict := by
      have := (Dictionary.contains_iff d _).1 hc
      rwa [Dictionary.toUpper_toUpper] at this
    simp only [hc, Bool.not_true, Bool.false_eq_true, if_false]
    refine ⟨fun h => h, fun k => ⟨fun h => Or.inl h, ?_⟩⟩
    rintro (h | h)
    · exact h
    · rw [h]
      exact hmem
  · have hc' : d.contains (Dictionary.toUpper w) = false := by
      cases h : d.contains (Dictionary.toUpper w)
      · rfl
      · exact absurd h hc
    have hnot : Dictionary.toUpper w ∉ d.dict := by
      intro hm
      apply hc
      rw [Dictionary.contains_iff, Dictionary.toUpper_toUpper]
      exact hm
    simp only [hc', Bool.not_false, if_true, Dictionary.insert, if_neg hnot]
    refine ⟨fun h => ?_, fun k => by simp⟩
    rw [List.nodup_append]
    refine ⟨h, by simp, ?_⟩
    intro a ha hb
    simp only [List.mem_singleton] at hb
    subst hb
    exact hnot ha

theorem Dictionary.loadLoop_not_good (n : Nat) (s : IStream) (w : List Char) (d : Dictionary)
    (h : s.good = false) : Dictionary.loadLoop n s w d = .ok d := by
  cases n <;> simp [Dictionary.loadLoop, h]

theorem IStream.getline_end (tail : List Char) (h : ∀ c ∈ tail, c ≠ '\n') :
    ((IStream.ofText tail).getline none '\n').2.good = false := by
  cases tail with
  | nil => rfl
  | cons c cs =>
    rw [IStream.getline_last (c :: cs) (by simp) h]
    rfl

theorem Dictionary.fileText_cons (w : String) (ws : List String) (tail : List Char) :
    Dictionary.fileText (w :: ws) ++ tail
      = w.data ++ '\n' :: (Dictionary.fileText ws ++ tail) := by
  simp [Dictionary.fileText]

theorem Dictionary.fileText_length (ws : List String) :
    ws.length ≤ (Dictionary.fileText ws).length := by
  induction ws with
  | nil => simp
  | cons w ws ih =>
    simp only [Dictionary.fileText, List.flatMap_cons, List.length_append, List.length_cons,
      List.length_nil] at ih ⊢
    omega

theorem Dictionary.loadLoop_words (tail : List Char) (htail : ∀ c ∈ tail, c ≠ '\n') :
    ∀ (ws : List String) (w : String) (d : Dictionary) (fuel : Nat),
      (∀ v ∈ w :: ws, v.data ≠ [] ∧ ∀ c ∈ v.data, c ≠ '\n') → ws.length + 1 ≤ fuel →
      ∃ d', Dictionary.loadLoop fuel (IStream.ofText (Dictionary.fileText ws ++ tail)) w.data d
          = .ok d' ∧
        (d.dict.Nodup → d'.dict.Nodup) ∧
        ∀ k, k ∈ d'.dict ↔ k ∈ d.dict ∨ k ∈ (w :: ws).map Dictionary.toUpper := by
  intro ws
  induction ws with
  | nil =>
    intro w d fuel hw hfuel
    obtain ⟨hne, _⟩ := hw w (List.mem_cons_self _ _)
    obtain ⟨s1, s2⟩ := Dictionary.insert_upper_spec d w
    cases fuel with
    | zero => omega
    | succ n =>
      have hlen : w.data.length > 0 := List.length_pos.2 hne
      have hgood : (IStream.ofText (Dictionary.fileText [] ++ tail)).good = true := rfl
      have hend : ((IStream.ofText (Dictionary.fileText [] ++ tail)).getline none '\n').2.good
          = false := IStream.getline_end tail htail
      refine ⟨_, by
        simp only [Dictionary.loadLoop, hgood, if_true, hlen, not_true_eq_false, if_false]
        exact Dictionary.loadLoop_not_good n _ _ _ hend, s1, ?_⟩
      intro k
      rw [s2 k]
      simp
  | cons w' ws ih =>
    intro w d fuel hw hfuel
    obtain ⟨hne, _⟩ := hw w (List.mem_cons_self _ _)
    obtain ⟨_, hnl'⟩ := hw w' (List.mem_cons_of_mem _ (List.mem_cons_self _ _))
    obtain ⟨s1, s2⟩ := Dictionary.insert_upper_spec d w
    cases fuel with
    | zero => omega
    | succ n =>
      have hlen : w.data.length > 0 := List.length_pos.2 hne
      have hgood : (IStream.ofText (w'.data ++ '\n' :: (Dictionary.fileText ws ++ tail))).good
          = true := rfl
      obtain ⟨d', h1, h2, h3⟩ := ih w'
        (if !d.contains (Dictionary.toUpper w) then d.insert (Dictionary.toUpper w) else d) n
        (fun v hv => hw v (List.mem_cons_of_mem _ hv)) (by simpa using hfuel)
      refine ⟨d', ?_, fun h => h2 (s1 h), ?_⟩
      · rw [Dictionary.fileText_cons]
        simp only [Dictionary.loadLoop, hgood, if_true, hlen, not_true_eq_false, if_false,
          IStream.getline_line _ _ hnl']
        exact h1
      · intro k
        rw [h3 k, s2 k]
        simp only [List.map_cons, List.mem_cons]
        tauto

/-- What `load` stores for a word list whose lines end in a line feed: the
upper-case forms of the words, each once.  Text after the last line feed is
not stored. -/
theorem Dictionary.load_words (words : List String) (tail : List Char)
    (hwords : ∀ v ∈ words, v.data ≠ [] ∧ ∀ c ∈ v.data, c ≠ '\n')
    (htail : ∀ c ∈ tail, c ≠ '\n') :
    ∃ d : Dictionary,
      Dictionary.load ⟨[]⟩ (IStream.ofText (Dictionary.fileText words ++ tail)) = .ok d ∧
      d.dict.Nodup ∧ ∀ k, k ∈ d.dict ↔ k ∈ words.map Dictionary.toUpper := by
  have hsize : ¬¬(Dictionary.size ⟨[]⟩ = 0) := fun h => h rfl
  cases words with
  | nil =>
    refine ⟨⟨[]⟩, ?_, by simp, by simp⟩
    simp only [Dictionary.load, if_neg hsize]
    exact Dictionary.loadLoop_not_good _ _ _ _ (IStream.getline_end tail htail)
  | cons w ws =>
    obtain ⟨_, hnl⟩ := hwords w (List.mem_cons_self _ _)
    obtain ⟨d, h1, h2, h3⟩ := Dictionary.loadLoop_words tail htail ws w ⟨[]⟩
      ((IStream.ofText (Dictionary.fileText (w :: ws) ++ tail)).rest.length + 1) hwords (by
        have := Dictionary.fileText_length (w :: ws)
        simp only [IStream.ofText, List.length_append, List.length_cons] at this ⊢
        omega)
    refine ⟨d, ?_, h2 (by simp), fun k => by rw [h3 k]; simp⟩
    simp only [Dictionary.load, if_neg hsize]
    rw [Dictionary.fileText_cons] at h1 ⊢
    rw [IStream.getline_line _ _ hnl]
    exact h1

/-- C24: after `load` has read a word list (every word on its own line), a
word `w` made of letters is contained exactly when some word of the list
equals it up to letter case; `contains` gives the same answer for two words
that differ in case only; every word of the list is contained in every
casing; and `size` is the number of different upper-case forms of the words
of the list. -/
theorem Dictionary.lookup_case_insensitive (words : List String) (tail : List Char)
    (hwords : ∀ v ∈ words, v.data ≠ [] ∧ ∀ c ∈ v.data, c ≠ '\n')
    (htail : ∀ c ∈ tail, c ≠ '\n') :
    ∃ d : Dictionary,
      Dictionary.load ⟨[]⟩ (IStream.ofText (Dictionary.fileText words ++ tail)) = .ok d ∧
      (∀ w : String, (∀ c ∈ w.data, c.isAlpha = true) →
        (d.contains w = true ↔ ∃ v ∈ words, Dictionary.sameUpToCase v w)) ∧
      (∀ w w' : String, Dictionary.sameUpToCase w w' → d.contains w = d.contains w') ∧
      (∀ v ∈ words, ∀ w : String, Dictionary.sameUpToCase v w → d.contains w = true) ∧
      d.size = ((words.map Dictionary.toUpper).toFinset.card : Int) := by
  obtain ⟨d, hload, hnd, hmem⟩ := Dictionary.load_words words tail hwords htail
  have hcontains : ∀ w : String,
      d.contains w = true ↔ ∃ v ∈ words, Dictionary.sameUpToCase v w := by
    intro w
    rw [Dictionary.contains_iff, hmem, List.mem_map]
    constructor
    · rintro ⟨v, hv, he⟩
      exact ⟨v, hv, (Dictionary.toUpper_eq_sameUpToCase v w).1 he⟩
    · rintro ⟨v, hv, he⟩
      exact ⟨v, hv, (Dictionary.toUpper_eq_sameUpToCase v w).2 he⟩
  refine ⟨d, hload, fun w _ => hcontains w, ?_, ?_, ?_⟩
  · intro w w' h
    have := (Dictionary.toUpper_eq_sameUpToCase w w').2 h
    simp only [Dictionary.contains, this]
  · intro v hv w h
    exact (hcontains w).2 ⟨v, hv, h⟩
  · have hset : d.dict.toFinset = (words.map Dictionary.toUpper).toFinset := by
      ext k
      simp only [List.mem_toFinset]
      exact hmem k
    rw [← hset, List.toFinset_card_of_nodup hnd]
    rfl

/-- C24 at a concrete input: the list `cat`, `Cat`, `dog`. -/
theorem Dictionary.lookup_case_insensitive_witness :
    (∀ v ∈ Examples.wordList, v.data ≠ [] ∧ ∀ c ∈ v.data, c ≠ '\n') ∧
    Dictionary.load ⟨[]⟩ (IStream.ofString "cat\nCat\ndog\n") = .ok ⟨["CAT", "DOG"]⟩ ∧
    ∃ d : Dictionary,
      Dictionary.load ⟨[]⟩ (IStream.ofText (Dictionary.fileText Examples.wordList ++ []))
        = .ok d ∧
      (∀ w : String, (∀ c ∈ w.data, c.isAlpha = true) →
        (d.contains w = true ↔ ∃ v ∈ Examples.wordList, Dictionary.sameUpToCase v w)) ∧
      (∀ w w' : String, Dictionary.sameUpToCase w w' → d.contains w = d.contains w') ∧
      (∀ v ∈ Examples.wordList, ∀ w : String, Dictionary.sameUpToCase v w →
        d.contains w = true) ∧
      d.size = ((Examples.wordList.map Dictionary.toUpper).toFinset.card : Int) :=
  have h : ∀ v ∈ Examples.wordList, v.data ≠ [] ∧ ∀ c ∈ v.data, c ≠ '\n' := by decide
  ⟨h, rfl, Dictionary.lookup_case_insensitive Examples.wordList [] h (by simp)⟩

end Scrabble

namespace Scrabble

/-! ## The replace command -/

theorem State.setCurrentPlayer_same (s : State) (player : PlayerState)
    (h : s.getCurrentPlayer = .ok player) : s.setCurrentPlayer player = s := by
  unfold State.getCurrentPlayer at h
  unfold State.setCurrentPlayer
  by_cases h0 : s.playerTurnIdx = 0
  · rw [if_pos h0] at h
    injection h with h
    rw [if_pos h0, ← h]
  · rw [if_neg h0] at h
    by_cases h1 : s.playerTurnIdx = 1
    · rw [if_pos h1] at h
      injection h with h
      rw [if_neg h0, ← h]
    · rw [if_neg h1] at h
      cases h

/-- C36: for a line that the replace command accepts, with letter `letter`,
and a current player whose hand has at most 7 tiles and either exactly 7
tiles or an empty bag to draw from: if the letter occurs in the hand,
`perform` removes the first tile `t` of that letter from the hand, appends
it to the back of the bag and draws exactly one tile `x` from the front of
the bag (`drawTiles` returns 1, so the assertion holds), the turn ends, and
hand size and bag size are what they were; if the letter does not occur in
the hand, `perform` returns `false` and the state is unchanged. -/
theorem ReplaceAction.perform_replaces_one_tile (line : List Char) (letter : Char)
    (state : State) (player : PlayerState)
    (hline : ReplaceAction.matchLine line = some letter)
    (hcur : state.getCurrentPlayer = .ok player)
    (hcap : player.hand.getLength ≤ 7)
    (hfull : player.hand.getLength = 7 ∨ state.tileBag.getLength = 0) :
    ((∃ u ∈ player.hand.nodes, u.letter = letter) →
      ∃ (a : List Tile) (t : Tile) (b : List Tile) (x : Tile) (bag' : List Tile)
          (state' : State),
        player.hand.nodes = a ++ t :: b ∧ t.letter = letter ∧
        (∀ u ∈ a, u.letter ≠ letter) ∧
        state.tileBag.nodes ++ [t] = x :: bag' ∧
        PlayerState.drawTiles { player with hand := ⟨a ++ b⟩ } (state.tileBag.addBack t)
          = .ok (1, { player with hand := ⟨a ++ b ++ [x]⟩ }, ⟨bag'⟩) ∧
        ReplaceAction.perform line state = .ok (true, state') ∧
        state'.getCurrentPlayer = .ok { player with hand := ⟨a ++ b ++ [x]⟩ } ∧
        state'.tileBag = ⟨bag'⟩ ∧
        state'.board = state.board ∧ state'.playerTurnIdx = state.playerTurnIdx ∧
        state'.didQuit = state.didQuit ∧
        LinkedList.getLength ⟨a ++ b ++ [x]⟩ = player.hand.getLength ∧
        state'.tileBag.getLength = state.tileBag.getLength) ∧
    ((∀ u ∈ player.hand.nodes, u.letter ≠ letter) →
      ReplaceAction.perform line state = .ok (false, state)) := by
  have hidx : state.playerTurnIdx = 0 ∨ state.playerTurnIdx = 1 := by
    unfold State.getCurrentPlayer at hcur
    by_cases h0 : state.playerTurnIdx = 0
    · exact Or.inl h0
    · by_cases h1 : state.playerTurnIdx = 1
      · exact Or.inr h1
      · rw [if_neg h0, if_neg h1] at hcur
        cases hcur
  rcases PlayerState.removeTile_spec player letter with ⟨h1, h2⟩ | ⟨a, t, b, h1, h2, h3, h4⟩
  · constructor
    · rintro ⟨u, hu, hl⟩
      exact absurd hl (h2 u hu)
    · intro _
      simp only [ReplaceAction.perform, hline, hcur, h1]
      rw [State.setCurrentPlayer_same state player hcur]
  · constructor
    · intro _
      obtain ⟨x, bag', hx⟩ : ∃ x bag', state.tileBag.nodes ++ [t] = x :: bag' := by
        cases state.tileBag.nodes with
        | nil => exact ⟨t, [], rfl⟩
        | cons y ys => exact ⟨y, ys ++ [t], rfl⟩
      have hlen : (a ++ t :: b).length ≤ 7 := by
        have := hcap
        simp only [LinkedList.getLength, h1] at this
        exact_mod_cast this
      have hlen' : (a ++ b).length ≤ 7 := by
        simp only [List.length_append, List.length_cons] at hlen ⊢
        omega
      have hmin : min (7 - (a ++ b).length) (state.tileBag.nodes ++ [t]).length = 1 := by
        rcases hfull with hf | hf
        · have hf' : (a ++ t :: b).length = 7 := by
            simp only [LinkedList.getLength, h1] at hf
            exact_mod_cast hf
          simp only [List.length_append, List.length_cons, List.length_nil] at hf' ⊢
          omega
        · have hf' : state.tileBag.nodes.length = 0 := by
            simp only [LinkedList.getLength] at hf
            exact_mod_cast hf
          simp only [List.length_append, List.length_cons, List.length_nil] at hlen ⊢
          omega
      have hdraw := PlayerState.drawTiles_spec { player with hand := ⟨a ++ b⟩ }
        (state.tileBag.addBack t) hlen'
      have htake : (state.tileBag.nodes ++ [t]).take 1 = [x] := by rw [hx]; rfl
      have hdrop : (state.tileBag.nodes ++ [t]).drop 1 = bag' := by rw [hx]; rfl
      simp only [LinkedList.addBack, hmin, htake, hdrop, Nat.cast_one] at hdraw
      have hperform : ReplaceAction.perform line state
          = .ok (true, State.setCurrentPlayer { state with tileBag := ⟨bag'⟩ }
              { player with hand := ⟨a ++ b ++ [x]⟩ }) := by
        simp only [ReplaceAction.perform, hline, hcur, h4, State.getTileBag]
        simp only [LinkedList.addBack] at hdraw ⊢
        rw [hdraw]
        simp
      obtain ⟨s1, s2, s3, s4, s5, _, _⟩ := State.setCurrentPlayer_spec
        { state with tileBag := ⟨bag'⟩ } { player with hand := ⟨a ++ b ++ [x]⟩ } hidx
      refine ⟨a, t, b, x, bag', _, h1, h2, h3, hx, ?_, hperform, s5, s2, s1, s3, s4, ?_, ?_⟩
      · simpa only [LinkedList.addBack] using hdraw
      · simp only [LinkedList.getLength, h1, List.length_append, List.length_cons,
          List.length_nil]
        push_cast
        ring
      · rw [s2]
        have := congrArg List.length hx
        simp only [List.length_append, List.length_cons, List.length_nil] at this
        simp only [LinkedList.getLength]
        omega
    · intro hall
      exact absurd h2 (hall t (by rw [h1]; simp))

/-- C36 at a concrete input: `replace D` with the hand `D` to `J` and the bag
`A-1, B-3, C-3`. -/
theorem ReplaceAction.perform_replaces_one_tile_witness :
    ReplaceAction.matchLine "replace D".data = some 'D' ∧
    ReplaceAction.perform "replace D".data Examples.fullHand
      = .ok (true, Examples.gameWithBag Examples.emptyBoard
          [⟨'E', 1⟩, ⟨'F', 4⟩, ⟨'G', 2⟩, ⟨'H', 4⟩, ⟨'I', 1⟩, ⟨'J', 8⟩, ⟨'A', 1⟩]
          [⟨'B', 3⟩, ⟨'C', 3⟩, ⟨'D', 2⟩]) ∧
    ReplaceAction.perform "replace Z".data Examples.fullHand
      = .ok (false, Examples.fullHand) :=
  have h := ReplaceAction.perform_replaces_one_tile "replace D".data 'D' Examples.fullHand
    (Examples.ann Examples.bagDJ) (by decide) rfl (by decide) (Or.inl (by decide))
  ⟨by decide, rfl,
    (ReplaceAction.perform_replaces_one_tile "replace Z".data 'Z' Examples.fullHand
      (Examples.ann Examples.bagDJ) (by decide) rfl (by decide) (Or.inl (by decide))).2
      (by decide)⟩

end Scrabble

namespace Scrabble

/-! ## The place command -/

theorem takeWhile_isDigit (r : List Char) : ∀ c ∈ r.takeWhile Char.isDigit, c.isDigit = true := by
  intro c hc
  exact (List.mem_takeWhile_imp hc)

/-- The groups of an accepted place command: an upper-case letter, and a
position made of an upper-case letter and one or more digits. -/
theorem PlaceAction.matchLine_groups (line : List Char) (letter : Char) (pos : List Char)
    (h : PlaceAction.matchLine line = some (letter, pos)) :
    'A' ≤ letter ∧ letter ≤ 'Z' ∧
    ∃ (L : Char) (ds : List Char), pos = L :: ds ∧ 'A' ≤ L ∧ L ≤ 'Z' ∧ ds ≠ [] ∧
      ∀ c ∈ ds, c.isDigit = true := by
  simp only [PlaceAction.matchLine, Option.bind_eq_some] at h
  obtain ⟨r1, _, r2, _, h⟩ := h
  cases r2 with
  | nil => cases h
  | cons c r3 =>
    simp only at h
    by_cases hc : 'A' ≤ c ∧ c ≤ 'Z'
    · rw [if_pos hc] at h
      simp only [Option.bind_eq_some] at h
      obtain ⟨r4, _, r5, _, r6, _, h⟩ := h
      cases r6 with
      | nil => cases h
      | cons L r7 =>
        simp only at h
        split at h
        · rename_i hL
          simp only [Option.some.injEq, Prod.mk.injEq] at h
          obtain ⟨h1, h2⟩ := h
          subst h1
          exact ⟨hc.1, hc.2, L, _, h2.symm, hL.1, hL.2.1, hL.2.2.1, takeWhile_isDigit r7⟩
        · cases h
    · rw [if_neg hc] at h
      cases h

/-- C37: what `handlePlace` does on a line that the place command accepts.
The position of the line is an upper-case letter `L` and digits `ds`; a
placement `(letter, L - 'A', n - 1)` is appended when the digits denote a
number `n` with `1 ≤ n ≤ 2147483647`, the assertion on `parseTilePosition`
fails when they denote 0 (so for `place A at A0`), and `std::stoi` throws
`std::out_of_range` when the number does not fit an `int`. -/
theorem PlaceAction.handlePlace_column_zero :
    (∀ (line : List Char) (letter : Char) (pos : List Char) (ps : List TilePlacement),
      PlaceAction.matchLine line = some (letter, pos) →
      ∃ (L : Char) (ds : List Char), pos = L :: ds ∧ 'A' ≤ L ∧ L ≤ 'Z' ∧ ds ≠ [] ∧
        (∀ c ∈ ds, c.isDigit = true) ∧
        (1 ≤ numeral ds → numeral ds ≤ 2147483647 →
          PlaceAction.handlePlace line ps
            = .ok (true, ps ++ [⟨letter, (L.toNat : Int) - ('A'.toNat : Int),
                (numeral ds : Int) - 1⟩])) ∧
        (numeral ds = 0 → PlaceAction.handlePlace line ps = .error .assertion) ∧
        (2147483647 < numeral ds →
          PlaceAction.handlePlace line ps = .error (.exception .outOfRange))) ∧
    PlaceAction.isValid "place A at A0".data = true ∧
    PlaceAction.matchLine "place A at A0".data = some ('A', "A0".data) ∧
    BoardState.parseTilePosition "A0".data = .ok (false, 0, -1) ∧
    PlaceAction.handlePlace "place A at A0".data [] = .error .assertion ∧
    PlaceAction.handlePlace "place A at A1".data [] = .ok (true, [⟨'A', 0, 0⟩]) ∧
    PlaceAction.handlePlace "place A at A99999999999".data []
      = .error (.exception .outOfRange) := by
  refine ⟨?_, by decide, by decide, rfl, rfl, rfl, rfl⟩
  intro line letter pos ps h
  obtain ⟨_, _, L, ds, hpos, h1, h2, h3, h4⟩ := PlaceAction.matchLine_groups line letter pos h
  subst hpos
  have hvalid : PlaceAction.isValid line = true := by
    simp [PlaceAction.isValid, h]
  refine ⟨L, ds, rfl, h1, h2, h3, h4, ?_, ?_, ?_⟩
  · intro hge hle
    have hp := BoardState.parseTilePosition_form L ds h1 h2 h3 h4 hle
    have hd : decide (numeral ds ≥ 1) = true := by simpa using hge
    simp [PlaceAction.handlePlace, hvalid, h, hp, hd]
  · intro hz
    have hp := BoardState.parseTilePosition_form L ds h1 h2 h3 h4 (by omega)
    have hd : decide (numeral ds ≥ 1) = false := by simp [hz]
    simp [PlaceAction.handlePlace, hvalid, h, hp, hd]
  · intro hbig
    have hst : stoi ds = .error .outOfRange := by
      rw [stoi_digits ds h3 h4, if_pos hbig]
    simp [PlaceAction.handlePlace, hvalid, h, BoardState.parseTilePosition,
      BoardState.matchPosition_form L ds h1 h2 h3 h4, hst]

end Scrabble

namespace Scrabble

/-! ## The turn loop and the pass command -/

theorem Game.runTurnLoop_done (n : Nat) (g : Game) (state : State) (a : Action) :
    Game.runTurnLoop n g state (some a) = .ok (g, state) := by
  cases n <;> simp [Game.runTurnLoop]

theorem Game.promptInput_line (g : Game) (line rest : List Char)
    (hcin : g.cin = IStream.ofText (line ++ '\n' :: rest)) (h : ∀ c ∈ line, c ≠ '\n') :
    g.promptInput
      = (line, { running := true, cin := IStream.ofText rest, dictionary := g.dictionary }) := by
  have heof : (IStream.ofText (line ++ '\n' :: rest)).eofbit = false := rfl
  unfold Game.promptInput Game.promptInputOnly
  rw [hcin]
  simp only [heof, Bool.not_false, if_true, IStream.getline_line line rest h]
  rfl

/-- What `PassAction::perform` does: the turn ends, and the game is quit
exactly when the bag is empty and the last action of the current player is
`pass`. -/
theorem PassAction.perform_spec (line : List Char) (state : State) (player : PlayerState)
    (hcur : state.getCurrentPlayer = .ok player) :
    PassAction.perform line state
      = .ok (true, if state.tileBag.getLength = 0 ∧ player.lastAction = "pass"
          then state.quit else state) := by
  unfold PassAction.perform
  by_cases h1 : state.tileBag.getLength = 0
  · by_cases h2 : player.lastAction = "pass"
    · simp [State.getTileBag, h1, hcur, PlayerState.getLastAction, PassAction.getName, h2]
    · simp [State.getTileBag, h1, hcur, PlayerState.getLastAction, PassAction.getName, h2]
  · simp [State.getTileBag, h1]

theorem State.idx_of_getCurrentPlayer (state : State) (player : PlayerState)
    (hcur : state.getCurrentPlayer = .ok player) :
    state.playerTurnIdx = 0 ∨ state.playerTurnIdx = 1 := by
  unfold State.getCurrentPlayer at hcur
  by_cases h0 : state.playerTurnIdx = 0
  · exact Or.inl h0
  · by_cases h1 : state.playerTurnIdx = 1
    · exact Or.inr h1
    · rw [if_neg h0, if_neg h1] at hcur
      cases hcur

/-- A turn in which the first line entered is a pass command: `runTurn` reads
that line only, the turn ends, the last action of the player is `pass`, and
the game is quit exactly when the bag is empty and the last action of the
player before was `pass`. -/
theorem Game.runTurn_pass (g : Game) (state : State) (player : PlayerState)
    (line rest : List Char)
    (hcin : g.cin = IStream.ofText (line ++ '\n' :: rest)) (hline : ∀ c ∈ line, c ≠ '\n')
    (hvalid : PassAction.isValid line = true) (hover : g.isGameOver state = false)
    (hcur : state.getCurrentPlayer = .ok player) :
    ∃ state' : State,
      Game.runTurn g state
        = .ok ({ running := true, cin := IStream.ofText rest, dictionary := g.dictionary },
            state') ∧
      state'.getCurrentPlayer = .ok (player.setLastAction "pass") ∧
      state'.tileBag = state.tileBag ∧ state'.board = state.board ∧
      state'.playerTurnIdx = state.playerTurnIdx ∧
      (state'.didQuit = true ↔ state.tileBag.getLength = 0 ∧ player.lastAction = "pass") := by
  have hidx := State.idx_of_getCurrentPlayer state player hcur
  have hquit : state.didQuit = false := by
    simp only [Game.isGameOver, State.getDidQuit, Bool.or_eq_false_iff] at hover
    exact hover.1.2
  have hfind : Game.findAction line Game.possibleActions none = some Action.pass := by
    simp [Game.findAction, Game.possibleActions, Action.isValid, hvalid]
  have hcur' : (if state.tileBag.getLength = 0 ∧ player.lastAction = "pass"
      then state.quit else state).getCurrentPlayer = .ok player := by
    split
    · exact hcur
    · exact hcur
  have hidx' : (if state.tileBag.getLength = 0 ∧ player.lastAction = "pass"
        then state.quit else state).playerTurnIdx = 0 ∨
      (if state.tileBag.getLength = 0 ∧ player.lastAction = "pass"
        then state.quit else state).playerTurnIdx = 1 := by
    split
    · exact hidx
    · exact hidx
  obtain ⟨s1, s2, s3, s4, s5, _, _⟩ := State.setCurrentPlayer_spec
    (if state.tileBag.getLength = 0 ∧ player.lastAction = "pass" then state.quit else state)
    (player.setLastAction "pass") hidx'
  refine ⟨State.setCurrentPlayer
    (if state.tileBag.getLength = 0 ∧ player.lastAction = "pass" then state.quit else state)
    (player.setLastAction "pass"), ?_, s5, ?_, ?_, ?_, ?_⟩
  · unfold Game.runTurn
    rw [Game.runTurnLoop]
    simp only [hover, Bool.not_false, Option.isNone_none, Bool.and_self, if_true,
      Game.promptInput_line g line rest hcin hline, hfind, Action.perform,
      PassAction.perform_spec line state player hcur, hcur', Action.getName,
      PassAction.getName, Bool.not_true, Bool.false_eq_true, if_false,
      Game.runTurnLoop_done]
  · rw [s2]
    split <;> rfl
  · rw [s1]
    split <;> rfl
  · rw [s3]
    split <;> rfl
  · rw [s4]
    by_cases hc : state.tileBag.getLength = 0 ∧ player.lastAction = "pass"
    · rw [if_pos hc]
      exact ⟨fun _ => hc, fun _ => rfl⟩
    · rw [if_neg hc, hquit]
      exact ⟨fun h => Bool.noConfusion h, fun h => absurd h hc⟩

/-- C35: a turn whose first line is a pass command ends with that line, and
the game is quit by it exactly when the bag is empty and the last action of
the player was `pass`; so a pass with a bag that is not empty and a first
pass do not end the game, and a second pass directly after the first does.
But `runTurn` records every action performed as the last action, so when the
player who passed on the turn before enters `help`, `save`, a rejected
`replace` or a rejected `place` and then `pass`, the game is not quit. -/
theorem Game.runTurn_pass_after_other_command :
    (∀ (g : Game) (state : State) (player : PlayerState) (line rest : List Char),
      g.cin = IStream.ofText (line ++ '\n' :: rest) →
      (∀ c ∈ line, c ≠ '\n') → PassAction.isValid line = true →
      g.isGameOver state = false → state.getCurrentPlayer = .ok player →
      ∃ state' : State,
        Game.runTurn g state
          = .ok ({ running := true, cin := IStream.ofText rest, dictionary := g.dictionary },
              state') ∧
        state'.getCurrentPlayer = .ok (player.setLastAction "pass") ∧
        state'.tileBag = state.tileBag ∧ state'.board = state.board ∧
        state'.playerTurnIdx = state.playerTurnIdx ∧
        (state'.didQuit = true ↔
          state.tileBag.getLength = 0 ∧ player.lastAction = "pass")) ∧
    Examples.bothPassed.tileBag.getLength = 0 ∧
    Examples.bothPassed.getCurrentPlayer
      = .ok { Examples.ann Examples.a with lastAction := "pass" } ∧
    Game.runTurn (Examples.session "pass\n") Examples.bothPassed
      = .ok (Examples.session "", Examples.bothPassed.quit) ∧
    Game.runTurn (Examples.session "help\npass\n") Examples.bothPassed
      = .ok (Examples.session "", Examples.bothPassed) ∧
    Game.runTurn (Examples.session "save game.1\npass\n") Examples.bothPassed
      = .ok (Examples.session "", Examples.bothPassed) ∧
    Game.runTurn (Examples.session "replace Z\npass\n") Examples.bothPassed
      = .ok (Examples.session "", Examples.bothPassed) ∧
    Game.runTurn (Examples.session "place Z at A1\nplace done\npass\n") Examples.bothPassed
      = .ok (Examples.session "", Examples.bothPassed) ∧
    (Game.runGame (Examples.session "pass\npass\npass\n") Examples.lateGame).map
        (fun r => r.2.didQuit) = .ok true ∧
    (Game.runGame (Examples.session "pass\npass\nhelp\npass\n") Examples.lateGame).map
        (fun r => (r.1.running, r.2.didQuit)) = .ok (false, false) := by
  refine ⟨?_, rfl, rfl, rfl, rfl, rfl, rfl, rfl, rfl, rfl⟩
  intro g state player line rest hcin hline hvalid hover hcur
  exact Game.runTurn_pass g state player line rest hcin hline hvalid hover hcur

end Scrabble

namespace Scrabble
namespace Mem
open LinkedList

/-! ## Lists in the free store -/

theorem chain_length {nodes : List (Option Node)} :
    ∀ {as ps : List Nat}, chain nodes as ps → as.length = ps.length := by
  intro as
  induction as with
  | nil =>
    intro ps h
    cases ps with
    | nil => rfl
    | cons t ts => simp [chain] at h
  | cons a as ih =>
    intro ps h
    cases ps with
    | nil => simp [chain] at h
    | cons t ts =>
      simp only [chain] at h
      simp [ih h.2]

theorem chain_frame {nodes nodes' : List (Option Node)} :
    ∀ {as ps : List Nat}, chain nodes as ps →
      (∀ a ∈ as, nodes'.getD a none = nodes.getD a none) → chain nodes' as ps := by
  intro as
  induction as with
  | nil =>
    intro ps h _
    cases ps with
    | nil => trivial
    | cons t ts => simp [chain] at h
  | cons a as ih =>
    intro ps h hsame
    cases ps with
    | nil => simp [chain] at h
    | cons t ts =>
      simp only [chain] at h ⊢
      refine ⟨?_, ih h.2 (fun b hb => hsame b (List.mem_cons_of_mem _ hb))⟩
      rw [hsame a (List.mem_cons_self _ _)]
      exact h.1

theorem chain_getD {nodes : List (Option Node)} :
    ∀ {as ps : List Nat}, chain nodes as ps →
      ∀ (i a p : Nat), as[i]? = some a → ps[i]? = some p →
        nodes.getD a none = some { tile := p, next := as[i + 1]? } := by
  intro as
  induction as with
  | nil =>
    intro ps _ i a t ha _
    simp at ha
  | cons b as ih =>
    intro ps h i a t ha ht
    cases ps with
    | nil => simp at ht
    | cons u ts =>
      simp only [chain] at h
      cases i with
      | zero =>
        simp only [List.getElem?_cons_zero, Option.some.injEq] at ha ht
        subst ha
        subst ht
        rw [h.1]
        simp [List.head?_eq_getElem?]
      | succ j =>
        simp only [List.getElem?_cons_succ] at ha ht ⊢
        exact ih h.2 j a t ha ht

theorem chain_lt {nodes : List (Option Node)} {as ps : List Nat}
    (h : chain nodes as ps) : ∀ a ∈ as, a < nodes.length := by
  intro a ha
  obtain ⟨i, hi, rfl⟩ := List.mem_iff_getElem.1 ha
  have hlen := chain_length h
  have hx : i < ps.length := by omega
  have := chain_getD h i as[i] ps[i] (List.getElem?_eq_getElem hi) (List.getElem?_eq_getElem hx)
  by_contra hge
  rw [List.getD_eq_default _ _ (by omega)] at this
  cases this

theorem LinkedList.getNodeLoop_chain (m : Store) :
    ∀ (as ps : List Nat), chain m.nodes as ps →
      ∀ i ≤ as.length, getNodeLoop m i as.head? = .ok as[i]? := by
  intro as
  induction as with
  | nil =>
    intro ps _ i hi
    have : i = 0 := by simpa using hi
    subst this
    rfl
  | cons a as ih =>
    intro ps h i hi
    cases ps with
    | nil => simp [chain] at h
    | cons t ts =>
      simp only [chain] at h
      cases i with
      | zero => simp [getNodeLoop]
      | succ j =>
        have hj : j ≤ as.length := by simpa using hi
        simp only [getNodeLoop, List.head?_cons, Store.node, h.1, List.getElem?_cons_succ]
        exact ih ts h.2 j hj

theorem LinkedList.getNode_chain (m : Store) (l : LinkedList) (as ps : List Nat)
    (hlen : l.length = as.length) (hhead : l.head = as.head?) (h : chain m.nodes as ps)
    (i : Nat) (hi : i < as.length) :
    getNode m l (i : Int) = .ok as[i]? := by
  have hcond : ¬((i : Int) < 0 ∨ (i : Int) ≥ l.length) := by
    rw [hlen]
    omega
  simp only [getNode, hcond, if_false, Int.toNat_ofNat, hhead]
  exact LinkedList.getNodeLoop_chain m as ps h i (by omega)

/-- Reading `get` through the chain: the pointer stored in the node. -/
theorem LinkedList.get_chain (m : Store) (l : LinkedList) (as ps : List Nat)
    (hlen : l.length = as.length) (hhead : l.head = as.head?) (h : chain m.nodes as ps)
    (i : Nat) (p : Nat) (hp : ps[i]? = some p) : get m l (i : Int) = .ok p := by
  have hl := chain_length h
  have hi : i < ps.length := by
    by_contra hge
    rw [List.getElem?_eq_none (by omega)] at hp
    cases hp
  have ha : as[i]? = some as[i] := List.getElem?_eq_getElem (by omega)
  have hnode := chain_getD h i as[i] p ha hp
  simp only [get, LinkedList.getNode_chain m l as ps hlen hhead h i (by omega), ha, Store.node,
    hnode]

end Mem
end Scrabble

namespace Scrabble
namespace Mem
open LinkedList

theorem chain_append_node {nodes nodes' : List (Option Node)} (n : Nat) (t : Nat)
    (hnew : nodes'.getD n none = some { tile := t, next := none }) :
    ∀ {as ps : List Nat}, chain nodes as ps → as.Nodup →
      (∀ a x, as.getLast? = some a → ps.getLast? = some x →
        nodes'.getD a none = some { tile := x, next := some n }) →
      (∀ a ∈ as, as.getLast? ≠ some a → nodes'.getD a none = nodes.getD a none) →
      chain nodes' (as ++ [n]) (ps ++ [t]) := by
  intro as
  induction as with
  | nil =>
    intro ps h _ _ _
    cases ps with
    | nil => simpa [chain] using hnew
    | cons u ts => simp [chain] at h
  | cons a as ih =>
    intro ps h hnd hlast hother
    cases ps with
    | nil => simp [chain] at h
    | cons x ts =>
      simp only [chain] at h
      have hlen := chain_length h.2
      simp only [List.cons_append, chain]
      cases as with
      | nil =>
        have hts : ts = [] := by
          cases ts with
          | nil => rfl
          | cons _ _ => simp at hlen
        subst hts
        refine ⟨?_, ?_⟩
        · simpa using hlast a x (by simp) (by simp)
        · simpa [chain] using hnew
      | cons b as =>
        have hne : (a :: b :: as).getLast? ≠ some a := by
          rw [List.getLast?_cons_cons]
          intro hc
          have hmem : a ∈ b :: as := List.mem_of_getLast?_eq_some hc
          exact (List.nodup_cons.1 hnd).1 hmem
        refine ⟨?_, ?_⟩
        · rw [hother a (List.mem_cons_self _ _) hne, h.1]
          simp
        · cases ts with
          | nil => simp at hlen
          | cons y ts =>
            refine ih h.2 (List.nodup_cons.1 hnd).2 ?_ ?_
            · intro c z hc hz
              exact hlast c z (by rw [List.getLast?_cons_cons]; exact hc)
                (by rw [List.getLast?_cons_cons]; exact hz)
            · intro c hc hcl
              exact hother c (List.mem_cons_of_mem _ hc)
                (by rw [List.getLast?_cons_cons]; exact hcl)

/-- What `addBack` does to a list held in the nodes `as`: a new node at the
first unused address is linked behind them; tiles and all other nodes stay as
they are. -/
theorem LinkedList.addBack_chain (m : Store) (l : LinkedList) (as ps : List Nat) (p : Nat)
    (hlen : l.length = as.length) (hnd : as.Nodup) (hhead : l.head = as.head?)
    (hlink : chain m.nodes as ps) :
    ∃ (l' : LinkedList) (m' : Store), addBack m l p = .ok (l', m') ∧
      l'.length = (as ++ [m.nodes.length]).length ∧
      l'.head = (as ++ [m.nodes.length]).head? ∧
      (as ++ [m.nodes.length]).Nodup ∧
      chain m'.nodes (as ++ [m.nodes.length]) (ps ++ [p]) ∧
      m'.tiles = m.tiles ∧ m'.nodes.length = m.nodes.length + 1 ∧
      ∀ a, a ∉ as → a < m.nodes.length → m'.nodes.getD a none = m.nodes.getD a none := by
  have hl := chain_length hlink
  have hlt := chain_lt hlink
  have hfresh : m.nodes.length ∉ as := fun hc => Nat.lt_irrefl _ (hlt _ hc)
  have hnd' : (as ++ [m.nodes.length]).Nodup := by
    rw [List.nodup_append]
    refine ⟨hnd, by simp, ?_⟩
    intro a ha hb
    simp only [List.mem_singleton] at hb
    subst hb
    exact hfresh ha
  rcases List.eq_nil_or_concat as with hnil | ⟨as0, z, has⟩
  · subst hnil
    have hps : ps = [] := by
      cases ps with
      | nil => rfl
      | cons _ _ => simp at hl
    subst hps
    have h0 : l.length = 0 := by simpa using hlen
    have hh : l.head = none := by simpa using hhead
    refine ⟨{ l with head := some m.nodes.length, length := l.length + 1 },
      { m with nodes := m.nodes ++ [some { tile := p, next := none }] },
      by simp only [addBack, hh, h0, not_true_eq_false, if_true, if_false],
      by simp [h0], by simp, hnd', ?_, rfl, by simp, ?_⟩
    · simp [chain]
    · intro a _ ha
      simp [List.getD_eq_getElem?_getD, List.getElem?_append_left ha]
  · have hpos : 0 < as.length := by
      rw [has]
      simp
    set m1 : Store :=
      { m with nodes := m.nodes ++ [some { tile := p, next := none }] } with hm1
    have hlink1 : chain m1.nodes as ps := by
      refine chain_frame hlink ?_
      intro a ha
      have := hlt a ha
      simp [hm1, List.getD_eq_getElem?_getD, List.getElem?_append_left this]
    have hk : l.length - 1 = ((as.length - 1 : Nat) : Int) := by
      rw [hlen]
      omega
    have hidx : as.length - 1 < as.length := by omega
    have hidx' : as.length - 1 < ps.length := by omega
    have hlastA : as[as.length - 1]? = some z := by
      rw [has]
      simp
    have hgn : getNode m1 l (l.length - 1) = .ok (some z) := by
      rw [hk, LinkedList.getNode_chain m1 l as ps hlen hhead hlink1 _ hidx, hlastA]
    have hnode := chain_getD hlink1 (as.length - 1) z ps[as.length - 1] hlastA
      (List.getElem?_eq_getElem hidx')
    have hnext : as[as.length - 1 + 1]? = none := by
      apply List.getElem?_eq_none
      omega
    rw [hnext] at hnode
    have hhne : ¬(l.head = none) := by
      rw [hhead, has]
      cases as0 <;> simp
    have hz : z < m.nodes.length := hlt z (by rw [has]; simp)
    refine ⟨{ l with length := l.length + 1 },
      { m1 with
        nodes := m1.nodes.set z (some { tile := ps[as.length - 1], next := some m.nodes.length }) },
      by
      simp only [addBack]
      rw [if_neg hhne]
      simp only [← hm1, hgn, Store.node, hnode, Store.setNext, not_true_eq_false, if_false],
      by simp [hlen], ?_, hnd', ?_, rfl, by simp [hm1], ?_⟩
    · show l.head = (as ++ [m.nodes.length]).head?
      rw [hhead, has]
      cases as0 <;> simp
    · refine @chain_append_node m1.nodes _ m.nodes.length p ?_ _ _ hlink1 hnd ?_ ?_
      · simp only [hm1, List.getD_eq_getElem?_getD]
        rw [List.getElem?_set_ne (by omega)]
        simp
      · intro a x ha hx
        have haz : a = z := by
          rw [has] at ha
          simpa using ha.symm
        subst haz
        have hxl : x = ps[as.length - 1] := by
          rw [List.getLast?_eq_getElem?] at hx
          have : ps.length - 1 = as.length - 1 := by omega
          rw [this, List.getElem?_eq_getElem hidx'] at hx
          exact (Option.some.inj hx).symm
        subst hxl
        simp only [hm1, List.getD_eq_getElem?_getD]
        rw [List.getElem?_set_self (by simp; omega)]
        rfl
      · intro a ha hne
        have haz : a ≠ z := by
          intro hc
          apply hne
          rw [has, hc]
          simp
        simp only [List.getD_eq_getElem?_getD]
        rw [List.getElem?_set_ne (fun hc => haz hc.symm)]
    · intro a ha halt
      have haz : a ≠ z := by
        intro hc
        apply ha
        rw [hc, has]
        simp
      simp only [hm1, List.getD_eq_getElem?_getD]
      rw [List.getElem?_set_ne (fun hc => haz hc.symm), List.getElem?_append_left halt]

end Mem
end Scrabble

namespace Scrabble
namespace Mem
open LinkedList

theorem chain_erase_succ {nodes nodes' : List (Option Node)} :
    ∀ {as ps : List Nat} (j : Nat), chain nodes as ps → as.Nodup →
      j + 1 < as.length →
      (∀ a ∈ as, as[j]? ≠ some a → as[j + 1]? ≠ some a →
        nodes'.getD a none = nodes.getD a none) →
      (∀ p x, as[j]? = some p → ps[j]? = some x →
        nodes'.getD p none = some { tile := x, next := as[j + 2]? }) →
      chain nodes' (as.eraseIdx (j + 1)) (ps.eraseIdx (j + 1)) := by
  intro as
  induction as with
  | nil =>
    intro ps j _ _ hj
    simp at hj
  | cons a as ih =>
    intro ps j h hnd hj hother hprev
    cases ps with
    | nil => simp [chain] at h
    | cons x ts =>
      simp only [chain] at h
      obtain ⟨ha, hrest⟩ := h
      obtain ⟨hna, hnd'⟩ := List.nodup_cons.1 hnd
      have hnotA : ∀ k : Nat, as[k]? ≠ some a := by
        intro k hk
        exact hna (List.getElem?_mem hk)
      cases as with
      | nil => simp at hj
      | cons b as =>
        cases ts with
        | nil => simp [chain] at hrest
        | cons y ts =>
          simp only [List.eraseIdx_cons_succ, chain]
          cases j with
          | zero =>
            simp only [List.eraseIdx_cons_zero]
            refine ⟨?_, ?_⟩
            · have := hprev a x (by simp) (by simp)
              rw [this]
              simp [List.head?_eq_getElem?]
            · simp only [chain] at hrest
              refine chain_frame hrest.2 ?_
              intro c hc
              obtain ⟨hnb, _⟩ := List.nodup_cons.1 hnd'
              refine hother c (by simp [hc]) ?_ ?_
              · simp only [List.getElem?_cons_zero, ne_eq, Option.some.injEq]
                intro hac
                exact hna (by rw [hac]; simp [hc])
              · simp only [zero_add, List.getElem?_cons_succ, List.getElem?_cons_zero, ne_eq,
                  Option.some.injEq]
                intro hbc
                exact hnb (by rw [hbc]; exact hc)
          | succ k =>
            refine ⟨?_, ?_⟩
            · rw [hother a (by simp) (by simpa using hnotA k) (by simpa using hnotA (k + 1)), ha]
              simp
            · have hj' : k + 1 < (b :: as).length := by simpa using hj
              refine @ih (y :: ts) k hrest hnd' hj' ?_ ?_
              · intro c hc h1 h2
                exact hother c (List.mem_cons_of_mem _ hc) (by simpa using h1) (by simpa using h2)
              · intro p z hp hz
                have := hprev p z (by simpa using hp) (by simpa using hz)
                simpa using this

/-- What `remove` does to a list held in the nodes `as`, for a valid index
whose node points to a constructed tile `t`: it returns the address of a new
copy of `t`, the node is unlinked and deleted, the tile it pointed to and all
nodes outside `as` stay as they are. -/
theorem LinkedList.remove_chain (m : Store) (l : LinkedList) (as ps : List Nat)
    (hlen : l.length = as.length) (hnd : as.Nodup) (hhead : l.head = as.head?)
    (hlink : chain m.nodes as ps) (i : Nat) (hi : i < as.length) (p : Nat) (t : Tile)
    (hp : ps[i]? = some p) (ht : m.tiles.getD p none = some t) (hv : t.valid) :
    ∃ (l' : LinkedList) (m' : Store), remove m l (i : Int) = .ok (m.tiles.length, l', m') ∧
      l'.length = (as.eraseIdx i).length ∧ l'.head = (as.eraseIdx i).head? ∧
      chain m'.nodes (as.eraseIdx i) (ps.eraseIdx i) ∧
      m'.tiles = m.tiles ++ [some t] ∧ m'.nodes.length = m.nodes.length ∧
      ∀ a, a ∉ as → m'.nodes.getD a none = m.nodes.getD a none := by
  have hl := chain_length hlink
  have hip : i < ps.length := by omega
  have hgn := LinkedList.getNode_chain m l as ps hlen hhead hlink i hi
  have hai : as[i]? = some as[i] := List.getElem?_eq_getElem hi
  have hpi : p = ps[i] := by
    rw [List.getElem?_eq_getElem hip] at hp
    exact (Option.some.inj hp).symm
  subst hpi
  have hnode := chain_getD hlink i as[i] ps[i] hai hp
  have hcopy : Tile.copy t = .ok t := by
    obtain ⟨h1, h2, h3⟩ := hv
    simp [Tile.copy, Tile.new, h1, h2, h3]
  have hlen2 : ¬¬(l.length - 1 ≥ 0) := by
    rw [hlen]
    omega
  have hlenE : ((as.eraseIdx i).length : Int) = l.length - 1 := by
    rw [List.length_eraseIdx, if_pos hi, hlen]
    omega
  cases i with
  | zero =>
    have hunlink : unlink m l ((0 : Nat) : Int) (some as[0])
        = .ok ({ l with head := as[1]? }, m) := by
      simp only [unlink, Nat.cast_zero, if_true]
      by_cases h1 : l.length > 1
      · have : 1 < as.length := by rw [hlen] at h1; omega
        have := LinkedList.getNode_chain m l as ps hlen hhead hlink 1 this
        simp only [Nat.cast_one] at this
        simp only [if_pos h1, this]
      · have : as[1]? = none := by
          apply List.getElem?_eq_none
          rw [hlen] at h1
          omega
        simp only [if_neg h1, this]
    refine ⟨{ head := as[1]?, length := l.length - 1 },
      { tiles := m.tiles ++ [some t], nodes := m.nodes.set as[0] none }, ?_, hlenE.symm, ?_, ?_,
      rfl, by simp, ?_⟩
    · simp only [remove, hgn, hai, hunlink, if_neg hlen2, Store.node]
      rw [show (m.nodes.getD as[0] none) = _ from hnode]
      simp only [Store.tile, ht, hcopy]
    · cases as with
      | nil => simp at hi
      | cons a as => simp [List.head?_eq_getElem?]
    · cases as with
      | nil => simp at hi
      | cons a as =>
        cases ps with
        | nil => simp at hip
        | cons x ts =>
          simp only [chain] at hlink
          simp only [List.eraseIdx_cons_zero]
          refine chain_frame hlink.2 ?_
          intro c hc
          have hca : c ≠ a := by
            intro hca
            subst hca
            exact (List.nodup_cons.1 hnd).1 hc
          simp only [List.getElem_cons_zero, List.getD_eq_getElem?_getD]
          rw [List.getElem?_set_ne (fun hc' => hca hc'.symm)]
    · intro a ha
      have hne : a ≠ as[0] := fun hc => ha (by rw [hc]; exact List.getElem_mem _)
      simp only [List.getD_eq_getElem?_getD]
      rw [List.getElem?_set_ne (fun hc' => hne hc'.symm)]
  | succ j =>
    have hja : j < as.length := by omega
    have hjx : j < ps.length := by omega
    have haj : as[j]? = some as[j] := List.getElem?_eq_getElem hja
    have hxj : ps[j]? = some ps[j] := List.getElem?_eq_getElem hjx
    have hgp := LinkedList.getNode_chain m l as ps hlen hhead hlink j hja
    have hpnode := chain_getD hlink j as[j] ps[j] haj hxj
    have hne : as[j] ≠ as[j + 1] := by
      intro hc
      have := (List.Nodup.getElem_inj_iff hnd).1 hc
      omega
    have hidx : ¬(((j + 1 : Nat) : Int) = 0) := by omega
    have hrange : ((j + 1 : Nat) : Int) > 0 ∧ ((j + 1 : Nat) : Int) < l.getLength := by
      simp only [getLength, hlen]
      omega
    have hsub : ((j + 1 : Nat) : Int) - 1 = (j : Int) := by omega
    set nodes1 := m.nodes.set as[j] (some { tile := ps[j], next := as[j + 1 + 1]? })
      with hnodes1
    have hunlink : unlink m l ((j + 1 : Nat) : Int) (some as[j + 1])
        = .ok (l, { m with nodes := nodes1 }) := by
      simp only [unlink, if_neg hidx, if_pos hrange, hsub, hgp, haj, Store.node, hnode,
        Store.setNext, hpnode]
    have hnode1 : nodes1.getD as[j + 1] none
        = some { tile := ps[j + 1], next := as[j + 1 + 1]? } := by
      simp only [hnodes1, List.getD_eq_getElem?_getD]
      rw [List.getElem?_set_ne hne]
      simpa [List.getD_eq_getElem?_getD] using hnode
    refine ⟨{ l with length := l.length - 1 },
      { tiles := m.tiles ++ [some t], nodes := nodes1.set as[j + 1] none }, ?_, hlenE.symm, ?_,
      ?_, rfl, by simp [hnodes1], ?_⟩
    · simp only [remove, hgn, hai, hunlink, if_neg hlen2, Store.node, hnode1, Store.tile, ht,
        hcopy]
    · show l.head = (as.eraseIdx (j + 1)).head?
      rw [hhead]
      cases as with
      | nil => simp at hi
      | cons a as => simp
    · refine chain_erase_succ j hlink hnd hi ?_ ?_
      · intro c _ h1 h2
        have hc1 : c ≠ as[j] := fun hc => h1 (by rw [haj, hc])
        have hc2 : c ≠ as[j + 1] := fun hc => h2 (by rw [hai, hc])
        simp only [hnodes1, List.getD_eq_getElem?_getD]
        rw [List.getElem?_set_ne (fun hc' => hc2 hc'.symm),
          List.getElem?_set_ne (fun hc' => hc1 hc'.symm)]
      · intro q x hq hx
        rw [haj] at hq
        rw [hxj] at hx
        have hq' := Option.some.inj hq
        have hx' := Option.some.inj hx
        subst hq'
        subst hx'
        simp only [hnodes1, List.getD_eq_getElem?_getD]
        rw [List.getElem?_set_ne hne.symm,
          List.getElem?_set_self (by have := chain_lt hlink as[j] (List.getElem_mem _); exact this)]
        rfl
    · intro a ha
      have hc1 : a ≠ as[j] := fun hc => ha (by rw [hc]; exact List.getElem_mem _)
      have hc2 : a ≠ as[j + 1] := fun hc => ha (by rw [hc]; exact List.getElem_mem _)
      simp only [hnodes1, List.getD_eq_getElem?_getD]
      rw [List.getElem?_set_ne (fun hc' => hc2 hc'.symm),
        List.getElem?_set_ne (fun hc' => hc1 hc'.symm)]

end Mem
end Scrabble

namespace Scrabble
namespace Mem
open LinkedList

theorem getD_append_of_some {α : Type} (xs ys : List (Option α)) (a : Nat) (v : α)
    (h : xs.getD a none = some v) : (xs ++ ys).getD a none = some v := by
  have hlt : a < xs.length := by
    by_contra hge
    rw [List.getD_eq_default _ _ (by omega)] at h
    cases h
  simp only [List.getD_eq_getElem?_getD] at h ⊢
  rw [List.getElem?_append_left hlt]
  exact h

theorem getD_lt_of_some {α : Type} (xs : List (Option α)) (a : Nat) (v : α)
    (h : xs.getD a none = some v) : a < xs.length := by
  by_contra hge
  rw [List.getD_eq_default _ _ (by omega)] at h
  cases h

/-- What `clear` does to a list held in the nodes `as` whose tiles are
constructed: it returns, and the nodes outside `as` and the tiles that
existed before stay as they are. -/
theorem LinkedList.clearLoop_frame :
    ∀ (n : Nat) (m : Store) (l : LinkedList) (as ps : List Nat),
      l.length = as.length → as.Nodup → l.head = as.head? → chain m.nodes as ps →
      (∀ p ∈ ps, ∃ t : Tile, m.tiles.getD p none = some t ∧ t.valid) → as.length ≤ n →
      ∃ (l' : LinkedList) (m' : Store), clearLoop n m l = .ok (l', m') ∧
        m'.nodes.length = m.nodes.length ∧ m.tiles.length ≤ m'.tiles.length ∧
        (∀ a, a ∉ as → m'.nodes.getD a none = m.nodes.getD a none) ∧
        (∀ a < m.tiles.length, m'.tiles.getD a none = m.tiles.getD a none) := by
  intro n
  induction n with
  | zero =>
    intro m l as ps hlen _ _ _ _ hn
    have h0 : ¬(l.getLength > 0) := by
      simp only [getLength, hlen]
      omega
    exact ⟨l, m, by simp only [clearLoop, if_neg h0], rfl, Nat.le_refl _, fun _ _ => rfl,
      fun _ _ => rfl⟩
  | succ n ih =>
    intro m l as ps hlen hnd hhead hlink htiles hn
    cases as with
    | nil =>
      have h0 : ¬(l.getLength > 0) := by
        simp [getLength, hlen]
      exact ⟨l, m, by simp only [clearLoop, if_neg h0], rfl, Nat.le_refl _, fun _ _ => rfl,
        fun _ _ => rfl⟩
    | cons a as =>
      have hpos : l.getLength > 0 := by
        simp only [getLength, hlen, List.length_cons]
        omega
      have hl := chain_length hlink
      cases ps with
      | nil => simp at hl
      | cons p ps =>
        obtain ⟨t, ht, hv⟩ := htiles p (List.mem_cons_self _ _)
        obtain ⟨l1, m1, hrem, hlen1, hhead1, hlink1, htiles1, hnodes1, hframe1⟩ :=
          LinkedList.remove_chain m l (a :: as) (p :: ps) hlen hnd hhead hlink 0 (by simp) p t
            (by simp) ht hv
        simp only [Nat.cast_zero, List.eraseIdx_cons_zero] at hrem hlen1 hhead1 hlink1
        have hq : m1.tiles.getD m.tiles.length none = some t := by
          rw [htiles1]
          simp [List.getD_eq_getElem?_getD]
        have hdel : m1.deleteTile m.tiles.length
            = .ok { m1 with tiles := m1.tiles.set m.tiles.length none } := by
          simp only [Store.deleteTile, hq]
        have hold : ∀ c < m.tiles.length,
            (m1.tiles.set m.tiles.length none).getD c none = m.tiles.getD c none := by
          intro c hc
          simp only [List.getD_eq_getElem?_getD]
          rw [List.getElem?_set_ne (by omega), htiles1, List.getElem?_append_left hc]
        have htiles2 : ∀ q ∈ ps, ∃ u : Tile,
            (m1.tiles.set m.tiles.length none).getD q none = some u ∧ u.valid := by
          intro q hq'
          obtain ⟨u, hu, huv⟩ := htiles q (List.mem_cons_of_mem _ hq')
          refine ⟨u, ?_, huv⟩
          rw [hold q (getD_lt_of_some _ _ _ hu)]
          exact hu
        obtain ⟨l', m', hcl, hn', ht', hfn, hft⟩ := ih
          { m1 with tiles := m1.tiles.set m.tiles.length none } l1 as ps hlen1
          (List.nodup_cons.1 hnd).2 hhead1 hlink1 htiles2 (by simpa using hn)
        refine ⟨l', m', by simp only [clearLoop, if_pos hpos, hrem, hdel, hcl], ?_, ?_, ?_, ?_⟩
        · rw [hn']
          exact hnodes1
        · have : m.tiles.length ≤ (m1.tiles.set m.tiles.length none).length := by
            rw [List.length_set, htiles1]
            simp
          exact Nat.le_trans this ht'
        · intro c hc
          have hc' : c ∉ as := fun h => hc (List.mem_cons_of_mem _ h)
          rw [hfn c hc']
          exact hframe1 c hc
        · intro c hc
          have hc' : c < (m1.tiles.set m.tiles.length none).length := by
            rw [List.length_set, htiles1]
            simp
            omega
          rw [hft c hc']
          exact hold c hc

/-- What the loop of the copy constructor does: the new list gets nodes of
its own, which point to the tiles of the list copied; the tiles and the nodes
that existed before stay as they are. -/
theorem LinkedList.copyLoop_chain (m0 : Store) (other : LinkedList) (as0 ps : List Nat)
    (hlen0 : other.length = as0.length) (hhead0 : other.head = as0.head?)
    (hlink0 : chain m0.nodes as0 ps) :
    ∀ (n i : Nat) (m : Store) (this : LinkedList) (as : List Nat),
      i + n = ps.length →
      this.length = as.length → as.Nodup → this.head = as.head? →
      chain m.nodes as (ps.take i) →
      (∀ a ∈ as, m0.nodes.length ≤ a) → m.tiles = m0.tiles →
      m0.nodes.length ≤ m.nodes.length →
      (∀ a < m0.nodes.length, m.nodes.getD a none = m0.nodes.getD a none) →
      ∃ (this' : LinkedList) (m' : Store) (as' : List Nat),
        copyLoop other n i m this = .ok (this', m') ∧
        this'.length = as'.length ∧ as'.Nodup ∧ this'.head = as'.head? ∧
        chain m'.nodes as' ps ∧
        (∀ a ∈ as', m0.nodes.length ≤ a) ∧ m'.tiles = m0.tiles ∧
        m0.nodes.length ≤ m'.nodes.length ∧
        (∀ a < m0.nodes.length, m'.nodes.getD a none = m0.nodes.getD a none) := by
  intro n
  induction n with
  | zero =>
    intro i m this as hi hlen hnd hhead hlink hfresh htiles hle hframe
    have : i = ps.length := by omega
    subst this
    rw [List.take_length] at hlink
    exact ⟨this, m, as, rfl, hlen, hnd, hhead, hlink, hfresh, htiles, hle, hframe⟩
  | succ n ih =>
    intro i m this as hi hlen hnd hhead hlink hfresh htiles hle hframe
    have hlt : i < ps.length := by omega
    have hlink0' : chain m.nodes as0 ps := by
      refine chain_frame hlink0 ?_
      intro a ha
      exact hframe a (chain_lt hlink0 a ha)
    have hget := LinkedList.get_chain m other as0 ps hlen0 hhead0 hlink0' i ps[i]
      (List.getElem?_eq_getElem hlt)
    obtain ⟨this1, m1, hadd, hlen1, hhead1, hnd1, hlink1, htiles1, hnodes1, hframe1⟩ :=
      LinkedList.addBack_chain m this as (ps.take i) ps[i] hlen hnd hhead hlink
    have htake : ps.take i ++ [ps[i]] = ps.take (i + 1) := by
      rw [List.take_succ, List.getElem?_eq_getElem hlt]
      rfl
    rw [htake] at hlink1
    obtain ⟨this', m', as', hloop, h1, h2, h3, h4, h5, h6, h7, h8⟩ :=
      ih (i + 1) m1 this1 (as ++ [m.nodes.length]) (by omega) hlen1 hnd1 hhead1 hlink1
        (by
          intro a ha
          rcases List.mem_append.1 ha with h | h
          · exact hfresh a h
          · simp only [List.mem_singleton] at h
            omega)
        (by rw [htiles1, htiles]) (by omega)
        (by
          intro a ha
          have hna : a ∉ as := fun hc => by
            have := hfresh a hc
            omega
          rw [hframe1 a hna (by omega)]
          exact hframe a ha)
    exact ⟨this', m', as', by simp only [copyLoop, hget, hadd, hloop], h1, h2, h3, h4, h5, h6,
      h7, h8⟩

/-- What the copy constructor does to a list held in the store. -/
theorem LinkedList.copy_chain (m : Store) (other : LinkedList) (as0 ps : List Nat)
    (hlen0 : other.length = as0.length) (hhead0 : other.head = as0.head?)
    (hlink0 : chain m.nodes as0 ps) :
    ∃ (this' : LinkedList) (m' : Store) (as' : List Nat),
      copy m other = .ok (this', m') ∧
      this'.length = as'.length ∧ as'.Nodup ∧ this'.head = as'.head? ∧
      chain m'.nodes as' ps ∧
      (∀ a ∈ as', m.nodes.length ≤ a) ∧ m'.tiles = m.tiles ∧
      m.nodes.length ≤ m'.nodes.length ∧
      (∀ a < m.nodes.length, m'.nodes.getD a none = m.nodes.getD a none) := by
  have hl := chain_length hlink0
  obtain ⟨this', m', as', hloop, h1, h2, h3, h4, h5, h6, h7, h8⟩ :=
    LinkedList.copyLoop_chain m other as0 ps hlen0 hhead0 hlink0 ps.length 0 m empty []
      (by simp) (by simp [empty]) (by simp) (by simp [empty]) (by simp [chain]) (by simp) rfl
      (Nat.le_refl _) (fun _ _ => rfl)
  have hfuel : other.getLength.toNat = ps.length := by
    simp only [getLength, hlen0]
    omega
  have hsame : this'.getLength = other.getLength := by
    have := chain_length h4
    simp only [getLength, h1, hlen0]
    omega
  refine ⟨this', m', as', ?_, h1, h2, h3, h4, h5, h6, h7, h8⟩
  simp only [copy, hfuel, hloop, hsame, not_true_eq_false, if_false]

end Mem
end Scrabble

namespace Scrabble
namespace Mem
open LinkedList

theorem map_eraseIdx {α β : Type} (f : α → β) :
    ∀ (xs : List α) (k : Nat), (xs.eraseIdx k).map f = (xs.map f).eraseIdx k := by
  intro xs
  induction xs with
  | nil => intro k; simp
  | cons x xs ih =>
    intro k
    cases k with
    | zero => simp
    | succ k => simp [ih k]

theorem Store.holdsAt_length {m : Store} {l : LinkedList} {as ps : List Nat} {xs : List Tile}
    (h : m.holdsAt l as ps xs) : as.length = xs.length ∧ ps.length = xs.length := by
  obtain ⟨_, _, _, hlink, hmap, _⟩ := h
  have h1 := chain_length hlink
  have h2 := congrArg List.length hmap
  simp only [List.length_map] at h2
  omega

theorem Store.holdsAt_tile {m : Store} {l : LinkedList} {as ps : List Nat} {xs : List Tile}
    (h : m.holdsAt l as ps xs) (i : Nat) (hi : i < xs.length) :
    ∃ p, ps[i]? = some p ∧ m.tiles.getD p none = some (xs[i]) ∧ (xs[i]).valid := by
  have hlen := Store.holdsAt_length h
  obtain ⟨_, _, _, _, hmap, hvalid⟩ := h
  have hip : i < ps.length := by omega
  refine ⟨ps[i], List.getElem?_eq_getElem hip, ?_, hvalid _ (List.getElem_mem _)⟩
  have := congrArg (fun zs => zs[i]?) hmap
  simp only [List.getElem?_map, List.getElem?_eq_getElem hip, List.getElem?_eq_getElem hi,
    Option.map_some'] at this
  exact Option.some.inj this

theorem Store.holdsAt_tiles {m : Store} {l : LinkedList} {as ps : List Nat} {xs : List Tile}
    (h : m.holdsAt l as ps xs) :
    ∀ p ∈ ps, ∃ t : Tile, m.tiles.getD p none = some t ∧ t.valid := by
  intro p hp
  have hlen := Store.holdsAt_length h
  obtain ⟨i, hi, rfl⟩ := List.mem_iff_getElem.1 hp
  obtain ⟨q, hq, ht, hv⟩ := Store.holdsAt_tile h i (by omega)
  rw [List.getElem?_eq_getElem hi] at hq
  have := Option.some.inj hq
  subst this
  exact ⟨_, ht, hv⟩

/-- The split of a hand at the first tile of a letter is unique. -/
theorem first_split_unique (letter : Letter) :
    ∀ (a a' : List Tile) (t t' : Tile) (b b' : List Tile),
      a ++ t :: b = a' ++ t' :: b' → t.letter = letter → t'.letter = letter →
      (∀ u ∈ a, u.letter ≠ letter) → (∀ u ∈ a', u.letter ≠ letter) →
      a = a' ∧ t = t' ∧ b = b' := by
  intro a
  induction a with
  | nil =>
    intro a' t t' b b' h ht ht' _ ha'
    cases a' with
    | nil =>
      simp only [List.nil_append, List.cons.injEq] at h
      exact ⟨rfl, h.1, h.2⟩
    | cons x xs =>
      simp only [List.nil_append, List.cons_append, List.cons.injEq] at h
      exact absurd (h.1 ▸ ht) (ha' x (List.mem_cons_self _ _))
  | cons y ys ih =>
    intro a' t t' b b' h ht ht' ha ha'
    cases a' with
    | nil =>
      simp only [List.nil_append, List.cons_append, List.cons.injEq] at h
      exact absurd (h.1 ▸ ht') (ha y (List.mem_cons_self _ _))
    | cons x xs =>
      simp only [List.cons_append, List.cons.injEq] at h
      obtain ⟨h1, h2, h3⟩ := ih xs t t' b b' h.2 ht ht'
        (fun u hu => ha u (List.mem_cons_of_mem _ hu))
        (fun u hu => ha' u (List.mem_cons_of_mem _ hu))
      exact ⟨by rw [h.1, h1], h2, h3⟩

/-- The list after `remove` at the index of `t` holds the hand without `t`. -/
theorem Store.holdsAt_erase {m m' : Store} {l l' : LinkedList} {as ps : List Nat}
    (a : List Tile) (t : Tile) (b : List Tile)
    (h : m.holdsAt l as ps (a ++ t :: b))
    (hlen : l'.length = (as.eraseIdx a.length).length)
    (hhead : l'.head = (as.eraseIdx a.length).head?)
    (hlink : chain m'.nodes (as.eraseIdx a.length) (ps.eraseIdx a.length))
    (htiles : m'.tiles = m.tiles ++ [some t]) :
    m'.holdsAt l' (as.eraseIdx a.length) (ps.eraseIdx a.length) (a ++ b) := by
  have hall := Store.holdsAt_tiles h
  obtain ⟨_, hnd, _, _, hmap, hvalid⟩ := h
  refine ⟨hlen, hnd.sublist (List.eraseIdx_sublist as _), hhead, hlink, ?_, ?_⟩
  · have hsame : ps.map (fun p => m'.tiles.getD p none)
        = ps.map (fun p => m.tiles.getD p none) := by
      apply List.map_congr_left
      intro p hp
      obtain ⟨u, hu, _⟩ := hall p hp
      rw [htiles, getD_append_of_some _ _ _ _ hu, hu]
    rw [map_eraseIdx, hsame, hmap, ← map_eraseIdx]
    congr 1
    rw [List.eraseIdx_append_of_length_le (Nat.le_refl _)]
    simp
  · intro u hu
    apply hvalid
    rcases List.mem_append.1 hu with hu | hu
    · exact List.mem_append_left _ hu
    · exact List.mem_append_right _ (List.mem_cons_of_mem _ hu)

/-- The loop of `removeTile` on a hand held in the store. -/
theorem PlayerState.removeTileLoop_chain (m : Store) (l : LinkedList) (as ps : List Nat)
    (letter : Letter) :
    ∀ (post pre : List Tile), m.holdsAt l as ps (pre ++ post) →
      (∀ u ∈ pre, u.letter ≠ letter) →
      (PlayerState.removeTileLoop m l letter post.length pre.length = .ok (none, l, m) ∧
        ∀ u ∈ pre ++ post, u.letter ≠ letter) ∨
      (∃ (a : List Tile) (t : Tile) (b : List Tile) (l' : LinkedList) (m' : Store),
        pre ++ post = a ++ t :: b ∧ t.letter = letter ∧ (∀ u ∈ a, u.letter ≠ letter) ∧
        PlayerState.removeTileLoop m l letter post.length pre.length
          = .ok (some m.tiles.length, l', m') ∧
        m'.holdsAt l' (as.eraseIdx a.length) (ps.eraseIdx a.length) (a ++ b) ∧
        m'.tiles = m.tiles ++ [some t] ∧ m'.nodes.length = m.nodes.length ∧
        ∀ c, c ∉ as → m'.nodes.getD c none = m.nodes.getD c none) := by
  intro post
  induction post with
  | nil =>
    intro pre _ hpre
    left
    refine ⟨by simp [PlayerState.removeTileLoop], ?_⟩
    simpa using hpre
  | cons t post ih =>
    intro pre h hpre
    have hlens := Store.holdsAt_length h
    have hi : pre.length < (pre ++ t :: post).length := by simp
    obtain ⟨p, hp, htile, hv⟩ := Store.holdsAt_tile h pre.length hi
    have hxi : (pre ++ t :: post)[pre.length] = t := by
      have h1 : (pre ++ t :: post)[pre.length]? = some t := by
        rw [List.getElem?_append_right (Nat.le_refl _)]
        simp
      rw [List.getElem?_eq_getElem hi] at h1
      exact Option.some.inj h1
    rw [hxi] at htile hv
    obtain ⟨hlen, hnd, hhead, hlink, hmap, hvalid⟩ := h
    have hget := LinkedList.get_chain m l as ps hlen hhead hlink pre.length p hp
    by_cases ht : t.letter = letter
    · right
      obtain ⟨l', m', hrem, hlen', hhead', hlink', htiles', hnodes', hframe'⟩ :=
        LinkedList.remove_chain m l as ps hlen hnd hhead hlink pre.length (by omega) p t hp
          htile hv
      refine ⟨pre, t, post, l', m', rfl, ht, hpre, ?_, ?_, htiles', hnodes', hframe'⟩
      · simp only [List.length_cons, PlayerState.removeTileLoop, hget, Store.tile, htile,
          if_pos ht, hrem]
      · exact Store.holdsAt_erase pre t post ⟨hlen, hnd, hhead, hlink, hmap, hvalid⟩ hlen'
          hhead' hlink' htiles'
    · have hpre' : ∀ u ∈ pre ++ [t], u.letter ≠ letter := by
        intro u hu
        rcases List.mem_append.1 hu with h | h
        · exact hpre u h
        · simp at h; subst h; exact ht
      have hstep : PlayerState.removeTileLoop m l letter (t :: post).length pre.length
          = PlayerState.removeTileLoop m l letter post.length (pre ++ [t]).length := by
        simp only [List.length_cons, PlayerState.removeTileLoop, hget, Store.tile, htile,
          if_neg ht]
        simp
      have happ : pre ++ t :: post = (pre ++ [t]) ++ post := by simp
      rw [hstep, happ]
      exact ih (pre ++ [t]) (by rw [← happ]; exact ⟨hlen, hnd, hhead, hlink, hmap, hvalid⟩) hpre'

end Mem
end Scrabble

namespace Scrabble
namespace Mem
open LinkedList

/-- The hand check on the store runs like the hand check on the sequence of
tiles the scratch copy holds; it writes to the nodes of the copy and to tiles
it has allocated itself, and to nothing that was there before. -/
theorem handLoop_refines (N T : Nat) :
    ∀ (placements : List TilePlacement) (m : Store) (pc : PlayerState)
      (pv : Scrabble.PlayerState) (as ps : List Nat),
      m.holdsAt pc.hand as ps pv.hand.nodes → (∀ a ∈ as, N ≤ a) → T ≤ m.tiles.length →
      ∃ (r : Option Letter) (m' : Store), handLoop m pc placements = .ok (r, m') ∧
        PlaceAction.handLoop pv placements = .ok r ∧
        (∀ a < N, m'.nodes.getD a none = m.nodes.getD a none) ∧
        (∀ a < T, m'.tiles.getD a none = m.tiles.getD a none) := by
  intro placements
  induction placements with
  | nil =>
    intro m pc pv as ps _ _ _
    exact ⟨none, m, rfl, rfl, fun _ _ => rfl, fun _ _ => rfl⟩
  | cons q rest ih =>
    intro m pc pv as ps h hfresh hT
    have hlens := Store.holdsAt_length h
    have hfuel : pc.hand.getLength.toNat = pv.hand.nodes.length := by
      simp only [getLength, h.1]
      omega
    have hM := PlayerState.removeTileLoop_chain m pc.hand as ps q.letter pv.hand.nodes []
      (by simpa using h) (by simp)
    simp only [List.nil_append, List.length_nil] at hM
    have hV := Scrabble.PlayerState.removeTile_spec pv q.letter
    rcases hM with ⟨hloop, hall⟩ | ⟨a, t, b, l', m', hsplit, htl, ha, hloop, hholds, htiles,
      hnodes, hframe⟩
    · rcases hV with ⟨hv1, _⟩ | ⟨a', t', b', h1, h2, _, _⟩
      · have hrem : pc.removeTile m q.letter = .ok (none, pc, m) := by
          simp only [PlayerState.removeTile, hfuel, hloop]
        obtain ⟨l2, m2, hclear, _, _, hfn, hft⟩ := LinkedList.clearLoop_frame as.length m pc.hand
          as ps h.1 h.2.1 h.2.2.1 h.2.2.2.1 (Store.holdsAt_tiles h) (Nat.le_refl _)
        have hdel : pc.delete m = .ok m2 := by
          have hk : pc.hand.length.toNat = as.length := by
            rw [h.1]
            omega
          simp only [PlayerState.delete, clear, hk, hclear]
        refine ⟨some q.letter, m2, ?_, ?_, ?_, ?_⟩
        · simp only [handLoop, hrem, hdel]
        · simp only [PlaceAction.handLoop, hv1]
        · intro c hc
          exact hfn c (fun hmem => by have := hfresh c hmem; omega)
        · intro c hc
          exact hft c (by omega)
      · exact absurd h2 (hall t' (by rw [h1]; simp))
    · rcases hV with ⟨_, hv2⟩ | ⟨a', t', b', h1, h2, h3, h4⟩
      · exact absurd htl (hv2 t (by rw [hsplit]; simp))
      · obtain ⟨e1, e2, e3⟩ := first_split_unique q.letter a a' t t' b b'
          (hsplit.symm.trans h1) htl h2 ha h3
        subst e1
        subst e2
        subst e3
        have hrem : pc.removeTile m q.letter
            = .ok (some m.tiles.length, { pc with hand := l' }, m') := by
          simp only [PlayerState.removeTile, hfuel, hloop]
        obtain ⟨r, m'', hloop', hval', hfn, hft⟩ := ih m' { pc with hand := l' }
          { pv with hand := ⟨a ++ b⟩ } (as.eraseIdx a.length) (ps.eraseIdx a.length) hholds
          (fun c hc => hfresh c ((List.eraseIdx_sublist as _).subset hc))
          (by rw [htiles]; simp; omega)
        refine ⟨r, m'', ?_, ?_, ?_, ?_⟩
        · simp only [handLoop, hrem, hloop']
        · simp only [PlaceAction.handLoop, h4, hval']
        · intro c hc
          rw [hfn c hc]
          exact hframe c (fun hmem => by have := hfresh c hmem; omega)
        · intro c hc
          rw [hft c hc, htiles]
          simp only [List.getD_eq_getElem?_getD]
          rw [List.getElem?_append_left (by omega)]

/-! ## What the store shows -/

theorem LinkedList.readLoop_chain (m : Store) :
    ∀ (as ps : List Nat) (xs : List Tile), chain m.nodes as ps →
      ps.map (fun p => m.tiles.getD p none) = xs.map some →
      readLoop m as.length as.head? = .ok xs := by
  intro as
  induction as with
  | nil =>
    intro ps xs h hmap
    cases ps with
    | nil =>
      cases xs with
      | nil => rfl
      | cons _ _ => simp at hmap
    | cons _ _ => simp [chain] at h
  | cons a as ih =>
    intro ps xs h hmap
    cases ps with
    | nil => simp [chain] at h
    | cons p ps =>
      cases xs with
      | nil => simp at hmap
      | cons x xs =>
        simp only [chain] at h
        simp only [List.map_cons, List.cons.injEq] at hmap
        simp only [List.length_cons, readLoop, List.head?_cons, Store.node, h.1, Store.tile,
          hmap.1, ih ps xs h.2 hmap.2]

theorem Store.holds_read {m : Store} {l : LinkedList} {xs : List Tile} (h : m.holds l xs) :
    l.read m = .ok ⟨xs⟩ := by
  obtain ⟨as, ps, hlen, _, hhead, hlink, hmap, _⟩ := h
  have hk : l.length.toNat = as.length := by
    rw [hlen]
    omega
  simp only [LinkedList.read, hk, hhead, LinkedList.readLoop_chain m as ps xs hlink hmap]

theorem Store.holds_frame {m m' : Store} {l : LinkedList} {xs : List Tile} (h : m.holds l xs)
    (hn : ∀ a < m.nodes.length, m'.nodes.getD a none = m.nodes.getD a none)
    (ht : ∀ a < m.tiles.length, m'.tiles.getD a none = m.tiles.getD a none) :
    m'.holds l xs := by
  obtain ⟨as, ps, h⟩ := h
  have hall := Store.holdsAt_tiles h
  obtain ⟨hlen, hnd, hhead, hlink, hmap, hvalid⟩ := h
  refine ⟨as, ps, hlen, hnd, hhead, ?_, ?_, hvalid⟩
  · exact chain_frame hlink (fun a ha => hn a (chain_lt hlink a ha))
  · rw [← hmap]
    apply List.map_congr_left
    intro p hp
    obtain ⟨u, hu, _⟩ := hall p hp
    exact ht p (getD_lt_of_some _ _ _ hu)

theorem BoardState.readRow_frame {m m' : Store}
    (ht : ∀ a < m.tiles.length, m'.tiles.getD a none = m.tiles.getD a none) :
    ∀ (row : List (Option Nat)) (r : List (Option Tile)),
      BoardState.readRow m row = .ok r → BoardState.readRow m' row = .ok r := by
  intro row
  induction row with
  | nil => intro r h; exact h
  | cons c rest ih =>
    intro r h
    cases c with
    | none =>
      cases hrest : BoardState.readRow m rest with
      | error e => simp [BoardState.readRow, hrest] at h
      | ok ts =>
        simp only [BoardState.readRow, hrest] at h
        simp only [BoardState.readRow, ih ts hrest]
        exact h
    | some p =>
      cases htile : m.tiles.getD p none with
      | none =>
        simp only [BoardState.readRow, Store.tile, htile] at h
        cases h
      | some t =>
        have htile' : m'.tiles.getD p none = some t := by
          rw [ht p (getD_lt_of_some _ _ _ htile)]
          exact htile
        cases hrest : BoardState.readRow m rest with
        | error e =>
          simp only [BoardState.readRow, Store.tile, htile, hrest] at h
          cases h
        | ok ts =>
          simp only [BoardState.readRow, Store.tile, htile, hrest] at h
          simp only [BoardState.readRow, Store.tile, htile', ih ts hrest]
          exact h

theorem BoardState.readGrid_frame {m m' : Store}
    (ht : ∀ a < m.tiles.length, m'.tiles.getD a none = m.tiles.getD a none) :
    ∀ (grid : List (List (Option Nat))) (g : List (List (Option Tile))),
      BoardState.readGrid m grid = .ok g → BoardState.readGrid m' grid = .ok g := by
  intro grid
  induction grid with
  | nil => intro g h; exact h
  | cons row rest ih =>
    intro g h
    cases hrow : BoardState.readRow m row with
    | error e => simp [BoardState.readGrid, hrow] at h
    | ok r =>
      cases hrest : BoardState.readGrid m rest with
      | error e => simp [BoardState.readGrid, hrow, hrest] at h
      | ok rs =>
        simp only [BoardState.readGrid, hrow, hrest] at h
        simp only [BoardState.readGrid, BoardState.readRow_frame ht row r hrow, ih rs hrest]
        exact h

theorem BoardState.read_frame {m m' : Store} (b : BoardState) (v : Scrabble.BoardState)
    (ht : ∀ a < m.tiles.length, m'.tiles.getD a none = m.tiles.getD a none)
    (h : b.read m = .ok v) : b.read m' = .ok v := by
  cases hg : BoardState.readGrid m b.tiles with
  | error e => simp [BoardState.read, hg] at h
  | ok g =>
    simp only [BoardState.read, hg] at h
    simp only [BoardState.read, BoardState.readGrid_frame ht b.tiles g hg]
    exact h

theorem PlayerState.player_read_of_shows {p : PlayerState} {m : Store} {v : Scrabble.PlayerState}
    (h : p.shows m v) : p.read m = .ok v := by
  obtain ⟨h1, h2, h3, h4⟩ := h
  cases v with
  | mk name score hand lastAction =>
    cases hand with
    | mk nodes =>
      simp only at h1 h2 h3 h4
      simp only [PlayerState.read, Store.holds_read h4, h1, h2, h3]

theorem State.read_of_shows {st : State} {m : Store} {v : Scrabble.State}
    (h : st.shows m v) : st.read m = .ok v := by
  obtain ⟨h1, h2, h3, h4, h5, h6⟩ := h
  cases v with
  | mk board tileBag players playerTurnIdx didQuit =>
    cases tileBag with
    | mk nodes =>
      cases players with
      | mk p1 p2 =>
        simp only at h1 h2 h3 h4 h5 h6
        simp only [State.read, h1, Store.holds_read h2, PlayerState.player_read_of_shows h3,
          PlayerState.player_read_of_shows h4, h5, h6]

theorem State.shows_frame {st : State} {m m' : Store} {v : Scrabble.State}
    (h : st.shows m v)
    (hn : ∀ a < m.nodes.length, m'.nodes.getD a none = m.nodes.getD a none)
    (ht : ∀ a < m.tiles.length, m'.tiles.getD a none = m.tiles.getD a none) :
    st.shows m' v := by
  obtain ⟨h1, h2, ⟨a1, a2, a3, a4⟩, ⟨b1, b2, b3, b4⟩, h5, h6⟩ := h
  exact ⟨BoardState.read_frame _ _ ht h1, Store.holds_frame h2 hn ht,
    ⟨a1, a2, a3, Store.holds_frame a4 hn ht⟩, ⟨b1, b2, b3, Store.holds_frame b4 hn ht⟩, h5, h6⟩

end Mem
end Scrabble

namespace Scrabble
namespace Mem
open LinkedList

/-! ## `isValidMove` on the store -/

theorem PlayerState.new_eq (name : String) (score : Int) (hand : LinkedList)
    (vhand : Scrabble.LinkedList) :
    PlayerState.new name score hand =
      match Scrabble.PlayerState.new name score vhand with
      | .error e => .error (.exception e)
      | .ok _ => .ok { name := name, score := score, hand := hand, lastAction := "" } := by
  unfold PlayerState.new Scrabble.PlayerState.new
  by_cases h1 : Scrabble.PlayerState.isValidPlayerName name = true
  · by_cases h2 : score < 0
    · simp [h1, h2]
    · simp [h1, h2]
  · simp [h1]

theorem PlayerState.new_hand (name : String) (score : Int) (hand : Scrabble.LinkedList)
    (p : Scrabble.PlayerState) (h : Scrabble.PlayerState.new name score hand = .ok p) :
    p.hand = hand := by
  unfold Scrabble.PlayerState.new at h
  split at h
  · cases h
  · split at h
    · cases h
    · injection h with h
      rw [← h]

/-- The call of `isValidMove` for the current player `pc`, who shows `pv`. -/
theorem isValidMove_current (d : Dictionary) (placements : List TilePlacement) (st : State)
    (m : Store) (v : Scrabble.State) (h : st.shows m v) (pc : PlayerState)
    (pv : Scrabble.PlayerState) (hc : st.getCurrentPlayer = .ok pc)
    (hv : v.getCurrentPlayer = .ok pv) (hshow : pc.shows m pv) :
    ∃ m' : Store,
      isValidMove d placements st m = ((PlaceAction.isValidMove d placements v).1, m') ∧
      (∀ a < m.tiles.length, m'.tiles.getD a none = m.tiles.getD a none) ∧
      (∀ a < m.nodes.length, m'.nodes.getD a none = m.nodes.getD a none) ∧
      st.shows m' v := by
  obtain ⟨hname, hscore, _, as0, ps0, hlen0, hnd0, hhead0, hlink0, hmap0, hvalid0⟩ := hshow
  obtain ⟨this', m1, as', hcopy, c1, c2, c3, c4, c5, c6, c7, c8⟩ :=
    LinkedList.copy_chain m pc.hand as0 ps0 hlen0 hhead0 hlink0
  have hnewM := PlayerState.new_eq pv.name pv.score this' pv.hand
  cases hnew : Scrabble.PlayerState.new pv.name pv.score pv.hand with
  | error e =>
    rw [hnew] at hnewM
    refine ⟨m, ?_, fun _ _ => rfl, fun _ _ => rfl, h⟩
    have hV : (PlaceAction.isValidMove d placements v).1 = .aborted (.exception e) := by
      simp only [PlaceAction.isValidMove, hv, Scrabble.PlayerState.copy, LinkedList.copy_eq,
        hnew]
    rw [hV]
    simp only [isValidMove, hc, PlayerState.copy, hcopy, hname, hscore, hnewM]
  | ok pvc =>
    rw [hnew] at hnewM
    simp only at hnewM
    have hpvc := PlayerState.new_hand pv.name pv.score pv.hand pvc hnew
    have hholds : m1.holdsAt this' as' ps0 pvc.hand.nodes := by
      refine ⟨c1, c2, c3, c4, ?_, ?_⟩
      · rw [c6, hpvc]
        exact hmap0
      · rw [hpvc]
        exact hvalid0
    obtain ⟨r, m2, hloopM, hloopV, hfn, hft⟩ := handLoop_refines m.nodes.length m.tiles.length
      placements m1 { name := pv.name, score := pv.score, hand := this', lastAction := "" } pvc
      as' ps0 hholds c5 (by rw [c6])
    have hframeT : ∀ a < m.tiles.length, m2.tiles.getD a none = m.tiles.getD a none := by
      intro a ha
      rw [hft a ha, c6]
    have hframeN : ∀ a < m.nodes.length, m2.nodes.getD a none = m.nodes.getD a none := by
      intro a ha
      rw [hfn a ha]
      exact c8 a ha
    have hshows2 : st.shows m2 v := State.shows_frame h hframeN hframeT
    refine ⟨m2, ?_, hframeT, hframeN, hshows2⟩
    cases r with
    | some letter =>
      have hV : (PlaceAction.isValidMove d placements v).1 = .rejected (.missingTile letter) := by
        simp only [PlaceAction.isValidMove, hv, Scrabble.PlayerState.copy, LinkedList.copy_eq,
          hnew, hloopV]
      rw [hV]
      simp only [isValidMove, hc, PlayerState.copy, hcopy, hname, hscore, hnewM, hloopM]
    | none =>
      have hV : (PlaceAction.isValidMove d placements v).1
          = (PlaceAction.boardChecks d placements v).1 := by
        simp only [PlaceAction.isValidMove, hv, Scrabble.PlayerState.copy, LinkedList.copy_eq,
          hnew, hloopV]
        rfl
      rw [hV]
      simp only [isValidMove, hc, PlayerState.copy, hcopy, hname, hscore, hnewM, hloopM,
        State.read_of_shows hshows2]

/-- C1: `isValidMove` never mutates state.  The state object `st` shows the
game state `v` in the store of nodes and tiles, which the scratch copy of the
player shares with the hand.  For every dictionary and placement list the
call returns what the validation of `v` returns (accepted, or rejected with
its message), and in the store afterwards every tile and every node that
existed before the call is as it was, so that `st` shows the same `v`: the
same board in every cell, the same hand, name and score of both players, the
same tile bag. -/
theorem isValidMove_frame (d : Dictionary) (placements : List TilePlacement) (st : State)
    (m : Store) (v : Scrabble.State) (h : st.shows m v) :
    ∃ m' : Store,
      isValidMove d placements st m = ((PlaceAction.isValidMove d placements v).1, m') ∧
      (∀ a < m.tiles.length, m'.tiles.getD a none = m.tiles.getD a none) ∧
      (∀ a < m.nodes.length, m'.nodes.getD a none = m.nodes.getD a none) ∧
      st.shows m' v := by
  have hidx := h.2.2.2.2.1
  by_cases h0 : st.playerTurnIdx = 0
  · exact isValidMove_current d placements st m v h st.players.1 v.players.1
      (by simp only [State.getCurrentPlayer, if_pos h0])
      (by simp only [Scrabble.State.getCurrentPlayer, ← hidx, if_pos h0]) h.2.2.1
  · by_cases h1 : st.playerTurnIdx = 1
    · exact isValidMove_current d placements st m v h st.players.2 v.players.2
        (by simp only [State.getCurrentPlayer, if_neg h0, if_pos h1])
        (by simp only [Scrabble.State.getCurrentPlayer, ← hidx, if_neg h0, if_pos h1])
        h.2.2.2.1
    · refine ⟨m, ?_, fun _ _ => rfl, fun _ _ => rfl, h⟩
      have hV : (PlaceAction.isValidMove d placements v).1 = .aborted .assertion := by
        simp only [PlaceAction.isValidMove, Scrabble.State.getCurrentPlayer, ← hidx, if_neg h0,
          if_neg h1]
      rw [hV]
      simp only [isValidMove, State.getCurrentPlayer, if_neg h0, if_neg h1]

/-- C1 at a concrete input: Ann holds `A-1, T-1` in the nodes 0 and 1.  The
accepted move `A` at `B1`, `T` at `B2` allocates two nodes and two tiles for
the copy and deletes the nodes; the rejected move `Z` at `B1` deletes the copy
with its nodes and the tiles it copied.  The tiles 0 and 1 and the nodes 0
and 1 are as before. -/
theorem isValidMove_frame_witness :
    Examples.gameAT.shows Examples.storeAT
      (Examples.game Examples.emptyBoard Examples.handAT) ∧
    isValidMove Examples.words Examples.atRow Examples.gameAT Examples.storeAT
      = (.accepted "AT",
          { tiles := [some ⟨'A', 1⟩, some ⟨'T', 1⟩, some ⟨'A', 1⟩, some ⟨'T', 1⟩]
            nodes := [some { tile := 0, next := some 1 }, some { tile := 1, next := none },
              none, none] }) ∧
    isValidMove Examples.words Examples.zAtB1 Examples.gameAT Examples.storeAT
      = (.rejected (.missingTile 'Z'),
          { tiles := [some ⟨'A', 1⟩, some ⟨'T', 1⟩, none, none]
            nodes := [some { tile := 0, next := some 1 }, some { tile := 1, next := none },
              none, none] }) ∧
    ∃ m' : Store,
      isValidMove Examples.words Examples.atRow Examples.gameAT Examples.storeAT
        = ((PlaceAction.isValidMove Examples.words Examples.atRow
            (Examples.game Examples.emptyBoard Examples.handAT)).1, m') ∧
      (∀ a < Examples.storeAT.tiles.length,
        m'.tiles.getD a none = Examples.storeAT.tiles.getD a none) ∧
      (∀ a < Examples.storeAT.nodes.length,
        m'.nodes.getD a none = Examples.storeAT.nodes.getD a none) ∧
      Examples.gameAT.shows m' (Examples.game Examples.emptyBoard Examples.handAT) :=
  have h : Examples.gameAT.shows Examples.storeAT
      (Examples.game Examples.emptyBoard Examples.handAT) :=
    ⟨rfl, ⟨[], [], rfl, List.nodup_nil, rfl, trivial, rfl, by decide⟩,
      ⟨rfl, rfl, rfl, [0, 1], [0, 1], rfl, by decide, rfl, ⟨rfl, rfl, trivial⟩, rfl,
        by decide⟩,
      ⟨rfl, rfl, rfl, [], [], rfl, List.nodup_nil, rfl, trivial, rfl, by decide⟩, rfl, rfl⟩
  ⟨h, rfl, rfl,
    isValidMove_frame Examples.words Examples.atRow Examples.gameAT Examples.storeAT
      (Examples.game Examples.emptyBoard Examples.handAT) h⟩

end Mem
end Scrabble
